import Mathlib

/-!
# Molpher path-finder core: shallow embedding

Sources embedded here: `backend/core/PathFinder.cpp` (path mode),
`backend/core/PathFinderActivity.cpp` (activity mode),
`backend/core/PathFinderContext.h`.

Conventions of the embedding.

* `tbb::concurrent_hash_map<std::string, V>` is an association list
  (`ConcMap V`); `find`, `insert` + assignment through the accessor, and
  `erase` are the three operations the stages use.
* `std::set<std::string>` is a list kept by ordered insertion (`StrSet`).
* `double` values are rationals; comparisons of finite doubles are exact, the
  rounding of `+`, `-`, `*` is not modelled.
* `assert` failures are `none`; loops that the source does not bound take a
  fuel argument and also answer `none` when it runs out.
* TBB parallel loops are run in index (or list) order.
-/

namespace Molpher

/-! ## Containers -/

/-- Sequential view of `tbb::concurrent_hash_map<std::string, V>`. -/
abbrev ConcMap (V : Type) := List (String × V)

namespace ConcMap

variable {V : Type}

/-- The `find(accessor, key)` call: the value bound to `key`, if any. -/
def find : ConcMap V → String → Option V
  | [], _ => none
  | (k, v) :: m, key => if k = key then some v else find m key

/-- The call `insert(accessor, key)` followed by `accessor->second = v`. -/
def assign : ConcMap V → String → V → ConcMap V
  | [], key, v => [(key, v)]
  | (k, w) :: m, key, v => if k = key then (k, v) :: m else (k, w) :: assign m key v

/-- The `erase(key)` call. -/
def erase : ConcMap V → String → ConcMap V
  | [], _ => []
  | (k, w) :: m, key => if k = key then erase m key else (k, w) :: erase m key

/-- Whether `find` succeeds. -/
def contains (m : ConcMap V) (key : String) : Bool := (find m key).isSome

/-- The keys, in storage order. -/
def keys (m : ConcMap V) : List String := m.map Prod.fst

end ConcMap

/-- Byte-wise `std::string::operator<`. -/
def strLt (a b : String) : Bool := decide (a.data < b.data)

/-- Sequential view of `std::set<std::string>`. -/
abbrev StrSet := List String

namespace StrSet

/-- The `std::set::insert` call. -/
def insert (s : StrSet) (x : String) : StrSet :=
  if x ∈ s then s else List.orderedInsert (fun a b => strLt a b = true) x s

/-- The `std::set::erase(key)` call. -/
def erase (s : StrSet) (x : String) : StrSet := s.filter (fun y => decide (y ≠ x))

end StrSet

/-- Sequential view of the `SmileSet` hash set used for duplicate checking,
modified parents and deferred fingerprints. -/
abbrev SmileSet := List String

namespace SmileSet

/-- The `insert(accessor, key)` call on a `SmileSet`: the new set and whether the
key was new. -/
def insert (s : SmileSet) (x : String) : SmileSet × Bool :=
  if x ∈ s then (s, false) else (s ++ [x], true)

end SmileSet

/-! ## Data model -/

/-- Modelled from the spec: `MolpherMolecule.h` is not among the sources; the
fields are the ones the path-finder code reads or writes (spec section 3,
Candidate). -/
structure MolpherMolecule where
  smile : String
  parentSmile : String
  id : String
  scaffoldSmile : String
  descendants : StrSet
  historicDescendants : StrSet
  distToTarget : ℚ
  distToClosestDecoy : ℚ
  distToEtalon : ℚ
  etalonDistances : List ℚ
  molecularWeight : ℚ
  sascore : ℚ
  itersWithoutDistImprovement : Nat
  itersFresh : Nat
  decayed : Bool

/-- Modelled from the spec: `MolpherParam.h` is not among the sources; the
fields are the parameters the stages read (spec section 3, Parameters). -/
structure MolpherParam where
  cntMorphs : Nat
  cntMorphsInDepth : Nat
  distToTargetDepthSwitch : ℚ
  cntCandidatesToKeep : Nat
  cntCandidatesToKeepMax : Nat
  cntMaxMorphs : Nat
  itThreshold : Nat
  decayThreshold : Nat
  minAcceptableMolecularWeight : ℚ
  maxAcceptableMolecularWeight : ℚ
  useSyntetizedFeasibility : Bool
  maxMOOPruns : Nat
  cntIterations : Nat
  timeMaxSeconds : Nat
  startMolMaxCount : Nat

/-- Modelled from the spec: `scaffold_selectors.hpp` is not among the sources
(spec section 6: Off, "most general", "original molecule"). -/
inductive ScaffoldSelector where
  | SF_NONE
  | SF_MOST_GENERAL
  | SF_ORIGINAL_MOLECULE
  deriving DecidableEq

/-- The fields of `struct PathFinderContext` the stages use (`padelBatchSize`
and `sourceMols` are read by `PathFinderActivity::operator()` as
`mCtx.padelBatchSize` and `mCtx.sourceMols`). -/
structure PathFinderContext where
  iterIdx : Nat
  elapsedSeconds : Nat
  params : MolpherParam
  source : MolpherMolecule
  target : MolpherMolecule
  tempSource : MolpherMolecule
  scaffoldSelector : ScaffoldSelector
  candidates : ConcMap MolpherMolecule
  morphDerivations : ConcMap Nat
  prunedDuringThisIter : List String
  pathScaffoldMolecules : ConcMap String
  candidateScaffoldMolecules : ConcMap String
  padelBatchSize : Nat
  sourceMols : ConcMap MolpherMolecule

/-- The `ScaffoldMode()` predicate, as `IterationSnapshot::ScaffoldMode`. -/
def PathFinderContext.ScaffoldMode (ctx : PathFinderContext) : Bool :=
  decide (ctx.scaffoldSelector ≠ ScaffoldSelector.SF_NONE)

/-! ## Morph collector (`CollectMorphs`) -/

/-- Width of `unsigned int`. -/
def UINT_MOD : Nat := 2 ^ 32

/-- State of a `CollectMorphs` functor. -/
structure CollectMorphs where
  mMorphs : List MolpherMolecule
  mDuplicateChecker : SmileSet
  mCollectAttemptCount : Nat

namespace CollectMorphs

/-- The constructor `CollectMorphs(morphs)`. -/
def ctor (morphs : List MolpherMolecule) : CollectMorphs :=
  { mMorphs := morphs, mDuplicateChecker := [], mCollectAttemptCount := 0 }

/-- One call of `operator()(morph)`. -/
def call (c : CollectMorphs) (morph : MolpherMolecule) : CollectMorphs :=
  let cnt := (c.mCollectAttemptCount + 1) % UINT_MOD
  let r := SmileSet.insert c.mDuplicateChecker morph.smile
  if r.2 then
    { mMorphs := c.mMorphs ++ [morph], mDuplicateChecker := r.1, mCollectAttemptCount := cnt }
  else
    { mMorphs := c.mMorphs, mDuplicateChecker := r.1, mCollectAttemptCount := cnt }

/-- The sink called once per delivered morph, in delivery order. -/
def deliver (c : CollectMorphs) (ms : List MolpherMolecule) : CollectMorphs :=
  ms.foldl call c

/-- The `WithdrawCollectAttemptCount()` call: the returned value and the new state. -/
def WithdrawCollectAttemptCount (c : CollectMorphs) : Nat × CollectMorphs :=
  let ret := c.mCollectAttemptCount % UINT_MOD
  (ret, { c with mCollectAttemptCount := 0 })

end CollectMorphs

/-! ## Comparator (`CompareMorphs`) -/

/-- The constant `DBL_EPSILON` of `<cfloat>`. -/
def DBL_EPSILON : ℚ := 1 / 2 ^ 52

/-- The local `approximatelyEqual` of `CompareMorphs::operator()`. -/
def approximatelyEqual (a b : MolpherMolecule) : Bool :=
  let aSum := a.distToTarget + a.distToClosestDecoy
  let bSum := b.distToTarget + b.distToClosestDecoy
  decide (|aSum - bSum| ≤ 32 * DBL_EPSILON * max |aSum| |bSum|)

/-- The comparator `CompareMorphs::operator()(a, b)`. -/
def CompareMorphs (a b : MolpherMolecule) : Bool :=
  let aSum := a.distToTarget + a.distToClosestDecoy
  let bSum := b.distToTarget + b.distToClosestDecoy
  if approximatelyEqual a b then decide (a.distToTarget < b.distToTarget)
  else decide (aSum < bSum)


/-! ## Loops -/

/-- The loop `for (idx = b; idx != e; ++idx)` over a fallible body. -/
def forRange {σ : Type} (b e : Nat) (body : σ → Nat → Option σ) (s : σ) : Option σ :=
  (List.range' b (e - b)).foldlM body s

/-! ## Double arithmetic

A `double` is the rational number it denotes. The arithmetic of the source is
IEEE 754 binary64: every operation delivers the double nearest to the exact
result. Where only comparisons and sums of stored values are taken the exact
rational stands for the double; the acceptance roll of the Filter, whose cast
to `int` is sensitive to the last bit, is modelled with the rounding written
out. -/

/-- The loop of `floorLog2`, with `fuel` halvings allowed. -/
def floorLog2.go : Nat → Nat → Nat
  | 0, _ => 0
  | fuel + 1, n => if n < 2 then 0 else floorLog2.go fuel (n / 2) + 1

/-- The position of the highest set bit of `n`: the `k` with
`2 ^ k ≤ n < 2 ^ (k + 1)`, for `n ≥ 1`. -/
def floorLog2 (n : Nat) : Nat := floorLog2.go n n

/-- The binary exponent of `x ≠ 0`: the `e` with `2 ^ e ≤ |x| < 2 ^ (e + 1)`. -/
def binaryExponent (x : ℚ) : Int :=
  let k : Int := (floorLog2 x.num.natAbs : Int) - (floorLog2 x.den : Int)
  if (2 : ℚ) ^ k ≤ |x| then k else k - 1

/-- Rounding to the nearest integer, a tie going to the even one. -/
def roundHalfEven (m : ℚ) : Int :=
  if m - ⌊m⌋ < 1 / 2 then ⌊m⌋
  else if 1 / 2 < m - ⌊m⌋ then ⌊m⌋ + 1
  else if ⌊m⌋ % 2 = 0 then ⌊m⌋ else ⌊m⌋ + 1

/-- The double nearest to the real number `x` (IEEE 754 binary64, rounding to
nearest, ties to even): a significand of 53 bits over the exponent of `x`, the
spacing of the subnormal numbers below `2 ^ (-1022)`. Overflow to infinity
(above about `1.8e308`) is not represented. -/
def binary64 (x : ℚ) : ℚ :=
  if x = 0 then 0
  else
    let ulp : ℚ := 2 ^ (max (binaryExponent x) (-1022) - 52)
    (roundHalfEven (x / ulp) : ℚ) * ulp

/-- The cast `(int) x` of a double: truncation toward zero. -/
def truncToInt (x : ℚ) : Int := Int.tdiv x.num x.den

/-! ## Filter (`FilterMorphs`) -/

namespace FilterMorphs

/-- The `alreadyExists` test of `FilterMorphs::operator()`. -/
def alreadyExists (ctx : PathFinderContext) (morph : MolpherMolecule) : Bool :=
  if !ctx.ScaffoldMode then
    ctx.candidates.contains morph.smile
  else
    let isInCandidates := ctx.candidateScaffoldMolecules.contains morph.scaffoldSmile
    let isOnPath := ctx.pathScaffoldMolecules.contains morph.scaffoldSmile
    isInCandidates || (isOnPath && decide (morph.scaffoldSmile ≠ ctx.target.scaffoldSmile))

/-- The predicate chain of `FilterMorphs::operator()` (the same text in both
source files): the value `!isDead` stored in `mSurvivors[idx]`, or `none` when
the missing-parent assertion fires. -/
def survives (ctx : PathFinderContext) (morph : MolpherMolecule) : Option Bool :=
  let badWeight :=
    decide (morph.molecularWeight < ctx.params.minAcceptableMolecularWeight) ||
    decide (morph.molecularWeight > ctx.params.maxAcceptableMolecularWeight)
  let isDead₁ := badWeight
  let badSascore :=
    !isDead₁ && (ctx.params.useSyntetizedFeasibility && decide (morph.sascore > 6))
  let isDead₂ := badWeight || badSascore
  let alreadyExists := !isDead₂ && alreadyExists ctx morph
  let isDead₃ := badWeight || badSascore || alreadyExists
  if isDead₃ then some false
  else
    match ctx.candidates.find morph.parentSmile with
    | none => none
    | some parent =>
      let alreadyTriedByParent := decide (morph.smile ∈ parent.historicDescendants)
      let isDead₄ := isDead₃ || alreadyTriedByParent
      let tooManyProducedMorphs :=
        !isDead₄ &&
          (match ctx.morphDerivations.find morph.smile with
           | some n => decide (n > ctx.params.cntMaxMorphs)
           | none => false)
      some (!(isDead₄ || tooManyProducedMorphs))

end FilterMorphs

namespace PathFinder

/-- The local `isTarget` of `PathFinder::FilterMorphs::operator()`. -/
def FilterMorphs.isTarget (ctx : PathFinderContext) (morph : MolpherMolecule) : Bool :=
  if !ctx.ScaffoldMode then decide (morph.smile = ctx.target.smile)
  else decide (morph.scaffoldSmile = ctx.target.scaffoldSmile)

/-- The local `acceptProbability` of `PathFinder::FilterMorphs::operator()`, as
the real number its expression denotes (no rounding). -/
def FilterMorphs.acceptProbability (ctx : PathFinderContext) (mGlobalMorphCount : Nat)
    (morph : MolpherMolecule) (idx : Nat) : ℚ :=
  if idx ≥ ctx.params.cntCandidatesToKeep ∧ FilterMorphs.isTarget ctx morph = false then
    1 / 4 - ((idx - ctx.params.cntCandidatesToKeep : Nat) : ℚ) /
      (((mGlobalMorphCount - ctx.params.cntCandidatesToKeep : Nat) : ℚ) * 4)
  else 1

/-- The double held by the local `acceptProbability`: the expression of
`FilterMorphs.acceptProbability` as the machine evaluates it, the two `size_t`
differences converted to `double` and the product, the quotient and the
difference each rounded to `double`. -/
def FilterMorphs.acceptProbabilityDouble (ctx : PathFinderContext) (mGlobalMorphCount : Nat)
    (morph : MolpherMolecule) (idx : Nat) : ℚ :=
  if idx ≥ ctx.params.cntCandidatesToKeep ∧ FilterMorphs.isTarget ctx morph = false then
    binary64 (1 / 4 -
      binary64 (binary64 ((idx - ctx.params.cntCandidatesToKeep : Nat) : ℚ) /
        binary64 (binary64 ((mGlobalMorphCount - ctx.params.cntCandidatesToKeep : Nat) : ℚ) * 4)))
  else 1

/-- The local `mightSurvive`, for the number `draw` returned by
`SynchRand::GetRandomNumber(0, 99)`: the draw against
`(int) (acceptProbability * 100)`, the product rounded to `double` and the cast
truncating it. -/
def FilterMorphs.mightSurvive (ctx : PathFinderContext) (mGlobalMorphCount : Nat)
    (morph : MolpherMolecule) (idx draw : Nat) : Bool :=
  decide ((draw : Int) <
    truncToInt (binary64 (FilterMorphs.acceptProbabilityDouble ctx mGlobalMorphCount morph idx * 100)))

/-- One pass of the body of `PathFinder::FilterMorphs::operator()` at `idx`;
`rand idx` is the random number drawn there. -/
def FilterMorphs.body (ctx : PathFinderContext) (mGlobalMorphCount : Nat)
    (mMorphs : List MolpherMolecule) (rand : Nat → Nat)
    (mSurvivors : List Bool) (idx : Nat) : Option (List Bool) :=
  match mMorphs[idx]? with
  | none => none
  | some morph =>
    if FilterMorphs.mightSurvive ctx mGlobalMorphCount morph idx (rand idx) then
      (Molpher.FilterMorphs.survives ctx morph).map (fun b => mSurvivors.set idx b)
    else some mSurvivors

/-- The range call `PathFinder::FilterMorphs::operator()(r)`, `r = [b, e)`. -/
def FilterMorphs (ctx : PathFinderContext) (mGlobalMorphCount : Nat)
    (mMorphs : List MolpherMolecule) (rand : Nat → Nat)
    (mSurvivors : List Bool) (b e : Nat) : Option (List Bool) :=
  forRange b e (FilterMorphs.body ctx mGlobalMorphCount mMorphs rand) mSurvivors

/-- The Filter stage of `PathFinder::operator()`: `survivors` starts all
`false` and the whole index range is filtered. -/
def filterStage (ctx : PathFinderContext) (morphs : List MolpherMolecule)
    (rand : Nat → Nat) : Option (List Bool) :=
  FilterMorphs ctx morphs.length morphs rand (List.replicate morphs.length false)
    0 morphs.length

end PathFinder

namespace PathFinderActivity

/-- One pass of the body of `PathFinderActivity::FilterMorphs::operator()` at
`idx` (the roll is commented out: `if (true)`). -/
def FilterMorphs.body (ctx : PathFinderContext) (mMorphs : List MolpherMolecule)
    (mSurvivors : List Bool) (idx : Nat) : Option (List Bool) :=
  match mMorphs[idx]? with
  | none => none
  | some morph =>
    (Molpher.FilterMorphs.survives ctx morph).map (fun b => mSurvivors.set idx b)

/-- The range call `PathFinderActivity::FilterMorphs::operator()(r)`. -/
def FilterMorphs (ctx : PathFinderContext) (mMorphs : List MolpherMolecule)
    (mSurvivors : List Bool) (b e : Nat) : Option (List Bool) :=
  forRange b e (FilterMorphs.body ctx mMorphs) mSurvivors

/-- The Filter stage of `PathFinderActivity::operator()`: `survivors` starts
all `true`. -/
def filterStage (ctx : PathFinderContext) (morphs : List MolpherMolecule) :
    Option (List Bool) :=
  FilterMorphs ctx morphs (List.replicate morphs.length true) 0 morphs.length

/-! ## Pareto filter (`MOOPFilter`) -/

/-- The inner test of `MOOPFilter::operator()`: over the descriptors of `first`,
every one is `>=` that of `second` and not every one is equal. -/
def MOOPFilter.worse (first second : MolpherMolecule) : Bool :=
  let all_features_count := first.etalonDistances.length
  let counts :=
    (List.range first.etalonDistances.length).foldl
      (fun (c : Nat × Nat) desc_idx =>
        let f := first.etalonDistances.getD desc_idx 0
        let s := second.etalonDistances.getD desc_idx 0
        let bad := if f ≥ s then c.1 + 1 else c.1
        let eq := if f = s then c.2 + 1 else c.2
        (bad, eq))
      (0, 0)
  decide (counts.1 = all_features_count) && decide (counts.2 ≠ all_features_count)

/-- The local `isNotOptimal` computed for `idx` against the current `mNext`. -/
def MOOPFilter.isNotOptimal (mMorphs : List MolpherMolecule) (mNext : List Bool)
    (first : MolpherMolecule) : Bool :=
  (List.range mMorphs.length).any fun second_idx =>
    match mMorphs[second_idx]? with
    | none => false
    | some second =>
      (decide (first.id ≠ second.id) && mNext.getD second_idx false) &&
        MOOPFilter.worse first second

/-- One pass of the body of `MOOPFilter::operator()` at `idx`; the state is
`(mSurvivors, mNext)`, both written in place. -/
def MOOPFilter.body (mMorphs : List MolpherMolecule)
    (st : List Bool × List Bool) (idx : Nat) : List Bool × List Bool :=
  if st.2.getD idx false then
    match mMorphs[idx]? with
    | none => st
    | some first =>
      let isNotOptimal := MOOPFilter.isNotOptimal mMorphs st.2 first
      (st.1.set idx (!isNotOptimal), st.2.set idx isNotOptimal)
  else st

/-- The range call `MOOPFilter::operator()(r)`, `r = [b, e)`, in index order. -/
def MOOPFilter (mMorphs : List MolpherMolecule) (mSurvivors mNext : List Bool)
    (b e : Nat) : List Bool × List Bool :=
  (List.range' b (e - b)).foldl (MOOPFilter.body mMorphs) (mSurvivors, mNext)

end PathFinderActivity

/-! ## Leaf and bag selection -/

/-- The body of `PathFinder::FindLeaves::operator()` on one stored candidate. -/
def PathFinder.FindLeaves.bump (c : MolpherMolecule) : MolpherMolecule :=
  if c.parentSmile ≠ "" then
    { c with itersWithoutDistImprovement := c.itersWithoutDistImprovement + 1 }
  else c

/-- The stage `PathFinder::FindLeaves` over the whole candidate range: the
updated map and the leaves appended to `mLeaves`. -/
def PathFinder.FindLeaves (candidates : ConcMap MolpherMolecule)
    (mLeaves : List MolpherMolecule) : ConcMap MolpherMolecule × List MolpherMolecule :=
  let updated := candidates.map (fun kv => (kv.1, PathFinder.FindLeaves.bump kv.2))
  (updated, mLeaves ++ (updated.map Prod.snd).filter (fun c => c.descendants.isEmpty))

/-- The body of `PathFinderActivity::FindNextBag::operator()` on one stored
candidate. -/
def PathFinderActivity.FindNextBag.bump (c : MolpherMolecule) : MolpherMolecule :=
  if !c.decayed then
    { c with itersWithoutDistImprovement := c.itersWithoutDistImprovement + 1,
             itersFresh := c.itersFresh + 1 }
  else c

/-- The stage `PathFinderActivity::FindNextBag` over the whole candidate range. -/
def PathFinderActivity.FindNextBag (candidates : ConcMap MolpherMolecule)
    (mNext : List MolpherMolecule) : ConcMap MolpherMolecule × List MolpherMolecule :=
  let updated := candidates.map (fun kv => (kv.1, PathFinderActivity.FindNextBag.bump kv.2))
  (updated, mNext ++ (updated.map Prod.snd).filter (fun c => !c.decayed))

/-! ## Acceptance scan (`AcceptMorphs`) -/

/-- State of an `AcceptMorphs` functor: the context and modified-parents set it
refers to, and its own `mSurvivorCount`. -/
structure AcceptMorphs where
  mCtx : PathFinderContext
  mModifiedParents : SmileSet
  mSurvivorCount : Nat

namespace AcceptMorphs

/-- The insertion of `mMorphs[idx]` into `candidates` (and, in scaffold mode,
into `candidateScaffoldMolecules` first); `none` is the `continue` taken when
the scaffold is already present. -/
def insertMorph (ctx : PathFinderContext) (morph : MolpherMolecule) :
    Option PathFinderContext :=
  if !ctx.ScaffoldMode then
    some { ctx with candidates := ctx.candidates.assign morph.smile morph }
  else if ctx.candidateScaffoldMolecules.contains morph.scaffoldSmile then
    none
  else
    some { ctx with
      candidateScaffoldMolecules :=
        ctx.candidateScaffoldMolecules.assign morph.scaffoldSmile morph.smile
      candidates := ctx.candidates.assign morph.smile morph }

/-- The two `insert` calls on the parent found through the accessor. -/
def withChild (parent : MolpherMolecule) (child : String) : MolpherMolecule :=
  { parent with
    descendants := StrSet.insert parent.descendants child
    historicDescendants := StrSet.insert parent.historicDescendants child }

/-- The update of the parent after the insertion; `none` is `assert(false)`. -/
def linkParent (ctx : PathFinderContext) (modifiedParents : SmileSet)
    (morph : MolpherMolecule) : Option (PathFinderContext × SmileSet) :=
  match ctx.candidates.find morph.parentSmile with
  | some parent =>
    some ({ ctx with
            candidates :=
              ctx.candidates.assign morph.parentSmile (withChild parent morph.smile) },
          (SmileSet.insert modifiedParents parent.smile).1)
  | none => none

/-- The body of `AcceptMorphs::operator()(r, final_scan_tag)` at `idx`;
`gated` tells whether the test `mSurvivorCount < cntCandidatesToKeepMax` is in
force (path mode) or replaced by `if (true)` (activity mode). -/
def finalBody (gated : Bool) (mMorphs : List MolpherMolecule) (mSurvivors : List Bool)
    (st : AcceptMorphs) (idx : Nat) : Option AcceptMorphs :=
  if mSurvivors.getD idx false then
    if !gated || decide (st.mSurvivorCount < st.mCtx.params.cntCandidatesToKeepMax) then
      match mMorphs[idx]? with
      | none => none
      | some morph =>
        match insertMorph st.mCtx morph with
        | none => some st
        | some ctx₁ =>
          match linkParent ctx₁ st.mModifiedParents morph with
          | none => none
          | some (ctx₂, parents) =>
            some { mCtx := ctx₂, mModifiedParents := parents,
                   mSurvivorCount := st.mSurvivorCount + 1 }
    else some { st with mSurvivorCount := st.mSurvivorCount + 1 }
  else some st

/-- The body of `AcceptMorphs::operator()(r, pre_scan_tag)` at `idx`. -/
def preBody (mSurvivors : List Bool) (st : AcceptMorphs) (idx : Nat) : AcceptMorphs :=
  if mSurvivors.getD idx false then { st with mSurvivorCount := st.mSurvivorCount + 1 }
  else st

end AcceptMorphs

/-- The splitting constructor `AcceptMorphs(toSplit, tbb::split)` (the same
text in both source files): same references, counter at zero. -/
def AcceptMorphs.split (toSplit : AcceptMorphs) : AcceptMorphs :=
  { toSplit with mSurvivorCount := 0 }

/-- The pre-scan pass `AcceptMorphs::operator()(r, pre_scan_tag)`, `r = [b, e)`
(the same text in both source files). -/
def AcceptMorphs.preScan (mSurvivors : List Bool) (st : AcceptMorphs) (b e : Nat) :
    AcceptMorphs :=
  (List.range' b (e - b)).foldl (AcceptMorphs.preBody mSurvivors) st

/-- The method `AcceptMorphs::reverse_join(toJoin)`. -/
def AcceptMorphs.reverse_join (self toJoin : AcceptMorphs) : AcceptMorphs :=
  { self with mSurvivorCount := self.mSurvivorCount + toJoin.mSurvivorCount }

/-- The method `AcceptMorphs::assign(toAssign)`. -/
def AcceptMorphs.assign (self toAssign : AcceptMorphs) : AcceptMorphs :=
  { self with mSurvivorCount := toAssign.mSurvivorCount }

/-- The final-scan pass `PathFinder::AcceptMorphs::operator()(r, final_scan_tag)`. -/
def PathFinder.AcceptMorphs (mMorphs : List MolpherMolecule) (mSurvivors : List Bool)
    (st : AcceptMorphs) (b e : Nat) : Option AcceptMorphs :=
  forRange b e (AcceptMorphs.finalBody true mMorphs mSurvivors) st

/-- The function `acceptMorphs` of `PathFinder.cpp`: a fresh functor scanned over
`[0, morphs.size())`; the result is the context and `modifiedParents`. -/
def PathFinder.acceptMorphs (morphs : List MolpherMolecule) (survivors : List Bool)
    (ctx : PathFinderContext) : Option (PathFinderContext × SmileSet) :=
  (PathFinder.AcceptMorphs morphs survivors
      { mCtx := ctx, mModifiedParents := [], mSurvivorCount := 0 } 0 morphs.length).map
    (fun st => (st.mCtx, st.mModifiedParents))

/-- The final-scan pass
`PathFinderActivity::AcceptMorphs::operator()(r, final_scan_tag)`. -/
def PathFinderActivity.AcceptMorphs (mMorphs : List MolpherMolecule)
    (mSurvivors : List Bool) (st : AcceptMorphs) (b e : Nat) : Option AcceptMorphs :=
  forRange b e (AcceptMorphs.finalBody false mMorphs mSurvivors) st

/-- The function `acceptMorphs2` of `PathFinderActivity.cpp`. -/
def PathFinderActivity.acceptMorphs2 (morphs : List MolpherMolecule)
    (survivors : List Bool) (ctx : PathFinderContext) :
    Option (PathFinderContext × SmileSet) :=
  (PathFinderActivity.AcceptMorphs morphs survivors
      { mCtx := ctx, mModifiedParents := [], mSurvivorCount := 0 } 0 morphs.length).map
    (fun st => (st.mCtx, st.mModifiedParents))

/-! ## Tree update (`UpdateTree`) -/

/-- The constant `DBL_MAX` of `<cfloat>`. -/
def DBL_MAX : ℚ := (2 ^ 53 - 1) * 2 ^ 971

/-- The first loop of `UpdateTree::operator()`: the least distance among the
children of the modified parent; `dist` selects `distToTarget` (path mode) or
`distToEtalon` (activity mode); `none` is `assert(false)` on a missing child. -/
def UpdateTree.minDistance (dist : MolpherMolecule → ℚ) (ctx : PathFinderContext)
    (parent : MolpherMolecule) : Option ℚ :=
  parent.descendants.foldlM
    (fun minDistance child =>
      match ctx.candidates.find child with
      | some c => some (if dist c < minDistance then dist c else minDistance)
      | none => none)
    DBL_MAX

/-- The assignment `acParent->second.itersWithoutDistImprovement = 0`. -/
def UpdateTree.resetCounter (node : MolpherMolecule) : MolpherMolecule :=
  { node with itersWithoutDistImprovement := 0 }

/-- The `while` loop of `PathFinder::UpdateTree::operator()`, entered with
`acParent` on `key`; one unit of fuel per evaluation of the loop condition,
`none` on a failed `assert(!acParent.empty())`. -/
def PathFinder.UpdateTree.walk (minDistance : ℚ) :
    Nat → PathFinderContext → String → Option PathFinderContext
  | 0, _, _ => none
  | fuel + 1, ctx, key =>
    match ctx.candidates.find key with
    | none => none
    | some node =>
      if (!ctx.ScaffoldMode && decide (node.parentSmile ≠ "")) ||
          (ctx.ScaffoldMode && decide (key ≠ ctx.tempSource.smile)) then
        let node' :=
          if minDistance < node.distToTarget then UpdateTree.resetCounter node else node
        PathFinder.UpdateTree.walk minDistance fuel
          { ctx with candidates := ctx.candidates.assign key node' } node.parentSmile
      else some ctx

/-- The body of `PathFinder::UpdateTree::operator()` for one modified parent. -/
def PathFinder.UpdateTree.body (fuel : Nat) (ctx : PathFinderContext)
    (itParent : String) : Option PathFinderContext :=
  match ctx.candidates.find itParent with
  | none => none
  | some parent =>
    (UpdateTree.minDistance (fun c => c.distToTarget) ctx parent).bind
      (fun minDistance => PathFinder.UpdateTree.walk minDistance fuel ctx itParent)

/-- The stage `PathFinder::UpdateTree` over `modifiedParents`. -/
def PathFinder.UpdateTree (fuel : Nat) (modifiedParents : SmileSet)
    (ctx : PathFinderContext) : Option PathFinderContext :=
  modifiedParents.foldlM (PathFinder.UpdateTree.body fuel) ctx

/-- The `while (true)` loop of `PathFinderActivity::UpdateTree::operator()`. -/
def PathFinderActivity.UpdateTree.walk (minDistance : ℚ) :
    Nat → PathFinderContext → String → Option PathFinderContext
  | 0, _, _ => none
  | fuel + 1, ctx, key =>
    match ctx.candidates.find key with
    | none => none
    | some node =>
      let node₁ :=
        if minDistance < node.distToEtalon then UpdateTree.resetCounter node else node
      let smile := node.parentSmile
      let node₂ := if smile = "" then UpdateTree.resetCounter node₁ else node₁
      let ctx' := { ctx with candidates := ctx.candidates.assign key node₂ }
      if smile ≠ "" then PathFinderActivity.UpdateTree.walk minDistance fuel ctx' smile
      else some ctx'

/-- The body of `PathFinderActivity::UpdateTree::operator()` for one modified
parent. -/
def PathFinderActivity.UpdateTree.body (fuel : Nat) (ctx : PathFinderContext)
    (itParent : String) : Option PathFinderContext :=
  match ctx.candidates.find itParent with
  | none => none
  | some parent =>
    (UpdateTree.minDistance (fun c => c.distToEtalon) ctx parent).bind
      (fun minDistance => PathFinderActivity.UpdateTree.walk minDistance fuel ctx itParent)

/-- The stage `PathFinderActivity::UpdateTree` over `modifiedParents`. -/
def PathFinderActivity.UpdateTree (fuel : Nat) (modifiedParents : SmileSet)
    (ctx : PathFinderContext) : Option PathFinderContext :=
  modifiedParents.foldlM (PathFinderActivity.UpdateTree.body fuel) ctx

/-! ## Prune (`PruneTree`, `EraseSubTree`) -/

/-- The tail of one turn of the loop of `EraseSubTree`, for the node `node`
found at `current`: the report in `prunedDuringThisIter`, the erase from the
scaffold index in scaffold mode, and the erase from `candidates`. -/
def EraseSubTree.eraseNode (ctx : PathFinderContext) (current : String)
    (node : MolpherMolecule) : PathFinderContext :=
  { ctx with
    prunedDuringThisIter := ctx.prunedDuringThisIter ++ [current]
    candidateScaffoldMolecules :=
      if ctx.ScaffoldMode then ctx.candidateScaffoldMolecules.erase node.scaffoldSmile
      else ctx.candidateScaffoldMolecules
    candidates := ctx.candidates.erase current }

/-- The `while (!toErase.empty())` loop of `PruneTree::EraseSubTree` (the same
text in both source files) on the deque `toErase`. Every turn erases one key of
`candidates`, so `candidates.length` turns always suffice; `none` is a failed
assertion. -/
def EraseSubTree.loop : Nat → List String → PathFinderContext → Option PathFinderContext
  | _, [], ctx => some ctx
  | 0, _ :: _, _ => none
  | fuel + 1, current :: rest, ctx =>
    match ctx.candidates.find current with
    | none => none
    | some node =>
      if ctx.ScaffoldMode && !ctx.candidateScaffoldMolecules.contains node.scaffoldSmile then
        none
      else
        EraseSubTree.loop fuel (rest ++ node.descendants)
          (EraseSubTree.eraseNode ctx current node)

/-- The call `PruneTree::EraseSubTree(root)`. -/
def EraseSubTree (root : String) (ctx : PathFinderContext) : Option PathFinderContext :=
  EraseSubTree.loop ctx.candidates.length [root] ctx

namespace PruneTree

/-- The local `tooManyDerivations` of `PruneTree::operator()`. -/
def tooManyDerivations (ctx : PathFinderContext) (smile : String) : Bool :=
  match ctx.morphDerivations.find smile with
  | some n => decide (n > ctx.params.cntMaxMorphs)
  | none => false

/-- The call `acParent->second.descendants.erase(smile)`. -/
def withoutChild (parent : MolpherMolecule) (smile : String) : MolpherMolecule :=
  { parent with descendants := StrSet.erase parent.descendants smile }

/-- The calls `ac->second.descendants.clear()` and
`ac->second.itersWithoutDistImprovement = 0`. -/
def purged (node : MolpherMolecule) : MolpherMolecule :=
  { node with descendants := [], itersWithoutDistImprovement := 0 }

/-- The block under `if (prune)` of `PruneTree::operator()` (the same text in
both source files), for the node `node` found at `smile`. The accessor on
`smile` is held throughout, so a parent lookup or an erase that reaches `smile`
itself cannot complete: `none`, as for a failed assertion. -/
def pruneNode (deferred : Bool) (smile : String) (node : MolpherMolecule)
    (ctx : PathFinderContext) : Option PathFinderContext :=
  let pruneThis := deferred || tooManyDerivations ctx smile
  if pruneThis then
    if node.parentSmile = smile then none
    else
      match ctx.candidates.find node.parentSmile with
      | none => none
      | some parent =>
        EraseSubTree smile
          { ctx with
            candidates := ctx.candidates.assign node.parentSmile (withoutChild parent smile) }
  else
    (node.descendants.foldlM (fun c child => EraseSubTree child c) ctx).bind
      (fun ctx' =>
        if ctx'.candidates.contains smile then
          some { ctx' with candidates := ctx'.candidates.assign smile (purged node) }
        else none)

end PruneTree

/-- One call `PathFinder::PruneTree::operator()(smile, feeder)`: the new context
and the fingerprints handed to the feeder. -/
def PathFinder.PruneTree.call (mDeferred : SmileSet) (smile : String)
    (ctx : PathFinderContext) : Option (PathFinderContext × List String) :=
  match ctx.candidates.find smile with
  | none => none
  | some node =>
    let deferred := decide (smile ∈ mDeferred)
    let prune :=
      deferred || decide (node.itersWithoutDistImprovement > ctx.params.itThreshold)
    if prune then
      (PruneTree.pruneNode deferred smile node ctx).map (fun c => (c, []))
    else some (ctx, node.descendants)

/-- The `tbb::parallel_do` over the pruning queue with `PathFinder::PruneTree`,
run as a first-in first-out worklist. -/
def PathFinder.PruneTree (mDeferred : SmileSet) :
    Nat → List String → PathFinderContext → Option PathFinderContext
  | _, [], ctx => some ctx
  | 0, _ :: _, _ => none
  | fuel + 1, smile :: queue, ctx =>
    match PathFinder.PruneTree.call mDeferred smile ctx with
    | none => none
    | some (ctx', fed) => PathFinder.PruneTree mDeferred fuel (queue ++ fed) ctx'

/-- One call `PathFinderActivity::PruneTree::operator()(smile, feeder)`. -/
def PathFinderActivity.PruneTree.call (mDeferred : SmileSet) (smile : String)
    (ctx : PathFinderContext) : Option (PathFinderContext × List String) :=
  match ctx.candidates.find smile with
  | none => none
  | some node =>
    if node.decayed then some (ctx, node.descendants)
    else if node.itersFresh > ctx.params.decayThreshold then
      some ({ ctx with
              candidates := ctx.candidates.assign smile { node with decayed := true } },
            node.descendants)
    else
      let deferred := decide (smile ∈ mDeferred)
      let prune :=
        deferred || decide (node.itersWithoutDistImprovement > ctx.params.itThreshold)
      if prune && decide (node.parentSmile ≠ "") then
        (PruneTree.pruneNode deferred smile node ctx).map (fun c => (c, []))
      else some (ctx, node.descendants)

/-- The `tbb::parallel_do` over the pruning queue with
`PathFinderActivity::PruneTree`, run as a first-in first-out worklist. -/
def PathFinderActivity.PruneTree (mDeferred : SmileSet) :
    Nat → List String → PathFinderContext → Option PathFinderContext
  | _, [], ctx => some ctx
  | 0, _ :: _, _ => none
  | fuel + 1, smile :: queue, ctx =>
    match PathFinderActivity.PruneTree.call mDeferred smile ctx with
    | none => none
    | some (ctx', fed) => PathFinderActivity.PruneTree mDeferred fuel (queue ++ fed) ctx'

/-! ## The stages as the drivers run them -/

/-- The `deferredSmiles` set built in `PathFinder::operator()` from the
molecules returned by `JobManager::GetPruned`. -/
def PathFinder.deferredSmiles (ctx : PathFinderContext)
    (deferredMols : List MolpherMolecule) : SmileSet :=
  deferredMols.foldl
    (fun s it =>
      if decide (it.smile = ctx.source.smile) ||
          (ctx.ScaffoldMode && decide (it.smile = ctx.tempSource.smile)) then s
      else (SmileSet.insert s it.smile).1)
    []

/-- The root pushed on `pruningQueue` in `PathFinder::operator()`. -/
def PathFinder.pruningRoot (ctx : PathFinderContext) : String :=
  if !ctx.ScaffoldMode then ctx.source.smile else ctx.tempSource.smile

/-- The Prune stage of `PathFinder::operator()`, with the size assertion that
follows the `parallel_do`. -/
def PathFinder.pruneStage (fuel : Nat) (deferredMols : List MolpherMolecule)
    (ctx : PathFinderContext) : Option PathFinderContext :=
  (PathFinder.PruneTree (PathFinder.deferredSmiles ctx deferredMols) fuel
      [PathFinder.pruningRoot ctx] ctx).bind
    (fun ctx' =>
      if ctx'.ScaffoldMode &&
          decide (ctx'.candidates.length ≠ ctx'.candidateScaffoldMolecules.length) then none
      else some ctx')

/-- The termination check of `PathFinder::operator()`. -/
def PathFinder.pathFound (ctx : PathFinderContext) : Bool :=
  if !ctx.ScaffoldMode then ctx.candidates.contains ctx.target.smile
  else ctx.candidateScaffoldMolecules.contains ctx.target.scaffoldSmile

/-- The part of a non-cancelled iteration of `PathFinder::operator()` from
`acceptMorphs` to the Prune stage: AcceptScan, UpdateTree, the termination check
and, unless the path was found, Prune. -/
def PathFinder.acceptUpdatePrune (fuel : Nat) (morphs : List MolpherMolecule)
    (survivors : List Bool) (deferredMols : List MolpherMolecule)
    (ctx : PathFinderContext) : Option PathFinderContext :=
  (PathFinder.acceptMorphs morphs survivors ctx).bind fun r =>
    (PathFinder.UpdateTree fuel r.2 r.1).bind fun ctx₂ =>
      if PathFinder.pathFound ctx₂ then some ctx₂
      else PathFinder.pruneStage fuel deferredMols ctx₂

/-- The Prune stage of `PathFinderActivity::operator()`: the deferred set is
never filled and the queue holds the start molecules. -/
def PathFinderActivity.pruneStage (fuel : Nat) (startMols : List String)
    (ctx : PathFinderContext) : Option PathFinderContext :=
  (PathFinderActivity.PruneTree [] fuel startMols ctx).bind
    (fun ctx' =>
      if ctx'.ScaffoldMode &&
          decide (ctx'.candidates.length ≠ ctx'.candidateScaffoldMolecules.length) then none
      else some ctx')

/-- The part of a non-cancelled iteration of `PathFinderActivity::operator()`
from `acceptMorphs2` to the Prune stage. -/
def PathFinderActivity.acceptUpdatePrune (fuel : Nat) (morphs : List MolpherMolecule)
    (survivors : List Bool) (startMols : List String)
    (ctx : PathFinderContext) : Option PathFinderContext :=
  (PathFinderActivity.acceptMorphs2 morphs survivors ctx).bind fun r =>
    (PathFinderActivity.UpdateTree fuel r.2 r.1).bind fun ctx₂ =>
      PathFinderActivity.pruneStage fuel startMols ctx₂

/-! ## The iteration body of the drivers

`Cancelled k` is the value the cancellation token has at the `k`-th guard of
the part of the iteration body modelled, counted in program order (a guard the
run does not evaluate still takes its number). -/

/-- The statements under `if (!Cancelled())` in one turn of the
morph-generation loop of `PathFinder::operator()`: the attempt count, the call
of `GenerateMorphs` (whose deliveries to the collector are the list
`GenerateMorphs candidate morphAttempts`), and the charge of
`morphDerivations[candidate.smile]`, an `unsigned int`. -/
def PathFinder.generateFor (GenerateMorphs : MolpherMolecule → Nat → List MolpherMolecule)
    (st : PathFinderContext × CollectMorphs) (candidate : MolpherMolecule) :
    PathFinderContext × CollectMorphs :=
  let morphAttempts :=
    if candidate.distToTarget < st.1.params.distToTargetDepthSwitch then
      st.1.params.cntMorphsInDepth
    else st.1.params.cntMorphs
  let collected := CollectMorphs.deliver st.2 (GenerateMorphs candidate morphAttempts)
  let withdrawn := CollectMorphs.WithdrawCollectAttemptCount collected
  let charged :=
    match st.1.morphDerivations.find candidate.smile with
    | some n => (n + withdrawn.1) % UINT_MOD
    | none => withdrawn.1
  ({ st.1 with morphDerivations := st.1.morphDerivations.assign candidate.smile charged },
   withdrawn.2)

/-- The morph-generation loop of `PathFinder::operator()` over `leaves`, from
guard number `k`: each turn evaluates `Cancelled()` twice (before the generation,
and for the `break`); the result carries the number of the next guard. -/
def PathFinder.generateMorphs (Cancelled : Nat → Bool)
    (GenerateMorphs : MolpherMolecule → Nat → List MolpherMolecule) :
    Nat → List MolpherMolecule → PathFinderContext × CollectMorphs →
      (PathFinderContext × CollectMorphs) × Nat
  | k, [], st => (st, k)
  | k, candidate :: rest, st =>
    let st' := if !Cancelled k then PathFinder.generateFor GenerateMorphs st candidate else st
    if Cancelled (k + 1) then (st', k + 2)
    else PathFinder.generateMorphs Cancelled GenerateMorphs (k + 2) rest st'

/-- The termination evaluation under the last `if (!Cancelled())` of the
iteration body (the same text in both source files): `iterIdx` and
`elapsedSeconds` are `unsigned int`; the result is the new context and the new
value of `canContinueCurrentJob`. -/
def evaluateTermination (elapsed : Nat) (canContinueCurrentJob : Bool)
    (ctx : PathFinderContext) : PathFinderContext × Bool :=
  let ctx' :=
    { ctx with
      iterIdx := (ctx.iterIdx + 1) % UINT_MOD
      elapsedSeconds := (ctx.elapsedSeconds + elapsed) % UINT_MOD }
  if canContinueCurrentJob then
    let itersDepleted := decide (ctx'.params.cntIterations ≤ ctx'.iterIdx)
    let timeDepleted := decide (ctx'.params.timeMaxSeconds ≤ ctx'.elapsedSeconds)
    (ctx', !itersDepleted && !timeDepleted)
  else (ctx', canContinueCurrentJob)

/-- The iteration body of `PathFinder::operator()` from the end of the
morph-generation loop to the call of `CommitIteration`, on the morphs collected:
the context, `canContinueCurrentJob` and `pathFound` handed to
`CommitIteration`. Guards: 0 report, 1 sort, 2 Filter, 3 UpdateTree,
4 termination check, 5 Prune, 6 dimension reduction, 7 distance report,
8 termination evaluation; `acceptMorphs` is called without a guard.
`parallel_sort` is the result of `tbb::parallel_sort` with `CompareMorphs`,
`elapsed` the value of `molpherStopwatch.GetElapsedSeconds()`. -/
def PathFinder.iterationTail (fuel : Nat) (Cancelled : Nat → Bool)
    (parallel_sort : List MolpherMolecule → List MolpherMolecule) (rand : Nat → Nat)
    (deferredMols : List MolpherMolecule) (elapsed : Nat)
    (canContinueCurrentJob pathFound : Bool) (ctx : PathFinderContext)
    (collected : List MolpherMolecule) : Option (PathFinderContext × Bool × Bool) :=
  let morphs := if !Cancelled 1 then parallel_sort collected else collected
  (if !Cancelled 2 then PathFinder.filterStage ctx morphs rand
   else some (List.replicate morphs.length false)).bind fun survivors =>
  (PathFinder.acceptMorphs morphs survivors ctx).bind fun r =>
  (if !Cancelled 3 then PathFinder.UpdateTree fuel r.2 r.1 else some r.1).bind fun ctx₂ =>
  let pathFound₁ := if !Cancelled 4 then PathFinder.pathFound ctx₂ else pathFound
  (if !pathFound₁ && !Cancelled 5 then PathFinder.pruneStage fuel deferredMols ctx₂
   else some ctx₂).bind fun ctx₃ =>
  if !Cancelled 8 then
    let t := evaluateTermination elapsed canContinueCurrentJob ctx₃
    some (t.1, t.2, pathFound₁)
  else some (ctx₃, canContinueCurrentJob, pathFound₁)

/-- The iteration body of `PathFinder::operator()` (the `try` block and the
arguments of `CommitIteration`). Guard 0 protects the refresh from the job
manager (`jobParams` is what `GetParams` returns) and the clearing of
`prunedDuringThisIter`, guard 1 FindLeaves; the generation loop starts at
guard 2, and the tail takes the guards after it. -/
def PathFinder.iteration (fuel : Nat) (Cancelled : Nat → Bool) (jobParams : MolpherParam)
    (GenerateMorphs : MolpherMolecule → Nat → List MolpherMolecule)
    (parallel_sort : List MolpherMolecule → List MolpherMolecule) (rand : Nat → Nat)
    (deferredMols : List MolpherMolecule) (elapsed : Nat)
    (canContinueCurrentJob pathFound : Bool) (ctx : PathFinderContext) :
    Option (PathFinderContext × Bool × Bool) :=
  let ctx₀ :=
    if !Cancelled 0 then { ctx with params := jobParams, prunedDuringThisIter := [] } else ctx
  let found :=
    if !Cancelled 1 then PathFinder.FindLeaves ctx₀.candidates [] else (ctx₀.candidates, [])
  let ctx₁ := { ctx₀ with candidates := found.1 }
  let gen :=
    PathFinder.generateMorphs Cancelled GenerateMorphs 2 found.2 (ctx₁, CollectMorphs.ctor [])
  PathFinder.iterationTail fuel (fun k => Cancelled (gen.2 + k)) parallel_sort rand
    deferredMols elapsed canContinueCurrentJob pathFound gen.1.1 gen.1.2.mMorphs

/-- The descriptor block of `PathFinderActivity::operator()`: every morph gets
its `id`, and every surviving morph its descriptors and etalon distances, the
result of the external calculator being `describe`; `none` is the division by
a zero `padelBatchSize`. -/
def PathFinderActivity.computeDescriptors (describe : MolpherMolecule → MolpherMolecule)
    (ctx : PathFinderContext) (morphs : List MolpherMolecule) (survivors : List Bool) :
    Option (List MolpherMolecule) :=
  if ctx.padelBatchSize = 0 then none
  else
    some (morphs.enum.map fun im =>
      let morph :=
        { im.2 with id := "MORPH_" ++ toString ctx.iterIdx ++ "_" ++ toString (im.1 + 1) }
      if survivors.getD im.1 false then describe morph else morph)

/-- The loop `while (mCtx.params.maxMOOPruns > counter)` of
`PathFinderActivity::operator()` on `(survivors, next)`, with `runs` passes
left; it stops when no entry of `next` is set. -/
def PathFinderActivity.moopRuns (morphs : List MolpherMolecule) :
    Nat → List Bool × List Bool → List Bool × List Bool
  | 0, st => st
  | runs + 1, st =>
    if st.2.count true = 0 then st
    else
      PathFinderActivity.moopRuns morphs runs
        (PathFinderActivity.MOOPFilter morphs st.1 st.2 0 morphs.length)

/-- The iteration body of `PathFinderActivity::operator()` from the end of the
morph-generation loop to the call of `CommitIteration`. Guards: 0 report,
1 Filter, 2 descriptors, 3 report, 4 Pareto runs, 5 UpdateTree, 6 Prune,
7 termination evaluation; `acceptMorphs2` is called without a guard, and
`pathFound` is never assigned. -/
def PathFinderActivity.iterationTail (fuel : Nat) (Cancelled : Nat → Bool)
    (describe : MolpherMolecule → MolpherMolecule) (startMols : List String) (elapsed : Nat)
    (canContinueCurrentJob pathFound : Bool) (ctx : PathFinderContext)
    (morphs : List MolpherMolecule) : Option (PathFinderContext × Bool × Bool) :=
  (if !Cancelled 1 then PathFinderActivity.filterStage ctx morphs
   else some (List.replicate morphs.length true)).bind fun survivors =>
  (if !Cancelled 2 then PathFinderActivity.computeDescriptors describe ctx morphs survivors
   else some morphs).bind fun morphs₁ =>
  let moop :=
    if !Cancelled 4 then
      PathFinderActivity.moopRuns morphs₁ ctx.params.maxMOOPruns (survivors, survivors)
    else (survivors, survivors)
  (PathFinderActivity.acceptMorphs2 morphs₁ moop.1 ctx).bind fun r =>
  (if !Cancelled 5 then PathFinderActivity.UpdateTree fuel r.2 r.1 else some r.1).bind
    fun ctx₂ =>
  (if !Cancelled 6 then PathFinderActivity.pruneStage fuel startMols ctx₂
   else some ctx₂).bind fun ctx₃ =>
  if !Cancelled 7 then
    let t := evaluateTermination elapsed canContinueCurrentJob ctx₃
    some (t.1, t.2, pathFound)
  else some (ctx₃, canContinueCurrentJob, pathFound)

/-- The loop over `mCtx.sourceMols` that seeds `candidates` and `startMols` in
`PathFinderActivity::operator()`, entered with the local `counter`: the source
is stored, the counter incremented, and the loop left when the counter exceeds
`startMolMaxCount`. -/
def PathFinderActivity.seedLoop (startMolMaxCount : Nat) :
    Nat → List (String × MolpherMolecule) → ConcMap MolpherMolecule × List String →
      ConcMap MolpherMolecule × List String
  | _, [], st => st
  | counter, (k, v) :: rest, st =>
    let st' := (st.1.assign k v, st.2 ++ [k])
    if counter + 1 > startMolMaxCount then st'
    else PathFinderActivity.seedLoop startMolMaxCount (counter + 1) rest st'

/-- The initialisation of the first iteration of a job in
`PathFinderActivity::operator()` (after `GetJob`), on the context and the
thread's `startMols`; `GetScaffold` is the scaffold of a fingerprint as the
scaffold database computes it, `none` a failed assertion. The scaffolds of the
decoys, which the stages modelled here do not read, are left out. -/
def PathFinderActivity.seed (GetScaffold : String → String) (ctx : PathFinderContext)
    (startMols : List String) : Option (PathFinderContext × List String) :=
  if ctx.candidates.isEmpty then
    if ctx.iterIdx ≠ 0 ∨ ctx.candidateScaffoldMolecules.isEmpty = false then none
    else
      let params :=
        if ctx.params.startMolMaxCount = 0 then
          { ctx.params with startMolMaxCount := ctx.sourceMols.length }
        else ctx.params
      if !ctx.ScaffoldMode then
        let seeded :=
          PathFinderActivity.seedLoop params.startMolMaxCount 1 ctx.sourceMols
            (ctx.candidates, startMols)
        some ({ ctx with params := params, candidates := seeded.1 }, seeded.2)
      else if ctx.scaffoldSelector ≠ ScaffoldSelector.SF_MOST_GENERAL then none
      else
        let scaffSource := GetScaffold ctx.source.smile
        let scaffTarget := GetScaffold ctx.target.smile
        let tempSource := { ctx.tempSource with scaffoldSmile := scaffSource }
        some ({ ctx with
                params := params
                tempSource := tempSource
                target := { ctx.target with scaffoldSmile := scaffTarget }
                candidates := ctx.candidates.assign tempSource.smile tempSource
                candidateScaffoldMolecules :=
                  ctx.candidateScaffoldMolecules.assign scaffSource ctx.source.smile
                pathScaffoldMolecules :=
                  (ctx.pathScaffoldMolecules.assign scaffSource ctx.source.smile).assign
                    scaffTarget ctx.target.smile },
              startMols)
  else some (ctx, startMols)

/-! ## Concrete inputs -/

/-- Three morphs whose sums are `1 + 2^-46`, `1 + 2^-47` and `1`, with
`distToTarget` increasing from the first to the third. -/
def cmpA : MolpherMolecule :=
  { smile := "A", parentSmile := "S", id := "", scaffoldSmile := "", descendants := [],
    historicDescendants := [], distToTarget := 1 / 4,
    distToClosestDecoy := 3 / 4 + 1 / 2 ^ 46, distToEtalon := 0, etalonDistances := [],
    molecularWeight := 0, sascore := 0, itersWithoutDistImprovement := 0, itersFresh := 0,
    decayed := false }

/-- Second morph of the non-transitive triple. -/
def cmpB : MolpherMolecule :=
  { cmpA with smile := "B", distToTarget := 1 / 2, distToClosestDecoy := 1 / 2 + 1 / 2 ^ 47 }

/-- Third morph of the non-transitive triple. -/
def cmpC : MolpherMolecule :=
  { cmpA with smile := "C", distToTarget := 3 / 4, distToClosestDecoy := 1 / 4 }

/-- A morph of the tie-break triple: sum `1`, `distToTarget = 1/4`. -/
def tieA : MolpherMolecule := { cmpA with distToClosestDecoy := 3 / 4 }

/-- A morph of the tie-break triple: sum `1`, `distToTarget = 1/2`. -/
def tieB : MolpherMolecule := { cmpB with distToClosestDecoy := 1 / 2 }

/-- The morph `"X"` of the duplicate-suppression scenario. -/
def morphX : MolpherMolecule := { cmpA with smile := "X" }

/-- The verdict in the words of the claim: weight within bounds, sascore
acceptable, fingerprint new, not yet tried by the parent, derivation count not
above the cap. -/
def FilterMorphs.specAccepts (ctx : PathFinderContext) (parent morph : MolpherMolecule) :
    Prop :=
  ctx.params.minAcceptableMolecularWeight ≤ morph.molecularWeight ∧
  morph.molecularWeight ≤ ctx.params.maxAcceptableMolecularWeight ∧
  (ctx.params.useSyntetizedFeasibility = false ∨ morph.sascore ≤ 6) ∧
  ctx.candidates.find morph.smile = none ∧
  morph.smile ∉ parent.historicDescendants ∧
  ¬ (∃ n, ctx.morphDerivations.find morph.smile = some n ∧ n > ctx.params.cntMaxMorphs)

/-- The outcome of the path-mode Filter body at `i`: assertion failure, no
write, or the value written. -/
def PathFinder.FilterMorphs.outcome (ctx : PathFinderContext) (mGlobalMorphCount : Nat)
    (mMorphs : List MolpherMolecule) (rand : Nat → Nat) (i : Nat) : Option (Option Bool) :=
  match mMorphs[i]? with
  | none => none
  | some morph =>
    if PathFinder.FilterMorphs.mightSurvive ctx mGlobalMorphCount morph i (rand i) then
      (Molpher.FilterMorphs.survives ctx morph).map some
    else some none

/-- The outcome of the activity-mode Filter body at `i`. -/
def PathFinderActivity.FilterMorphs.outcome (ctx : PathFinderContext)
    (mMorphs : List MolpherMolecule) (i : Nat) : Option (Option Bool) :=
  match mMorphs[i]? with
  | none => none
  | some morph => (Molpher.FilterMorphs.survives ctx morph).map some

/-- A molecule with every field at its neutral value. -/
def blankMol : MolpherMolecule :=
  { smile := "", parentSmile := "", id := "", scaffoldSmile := "", descendants := [],
    historicDescendants := [], distToTarget := 1, distToClosestDecoy := 0,
    distToEtalon := 1, etalonDistances := [], molecularWeight := 200, sascore := 3,
    itersWithoutDistImprovement := 0, itersFresh := 0, decayed := false }

/-- Parameters used by the concrete inputs. -/
def exParams : MolpherParam :=
  { cntMorphs := 2, cntMorphsInDepth := 3, distToTargetDepthSwitch := 1 / 5,
    cntCandidatesToKeep := 1, cntCandidatesToKeepMax := 2, cntMaxMorphs := 10,
    itThreshold := 1, decayThreshold := 5, minAcceptableMolecularWeight := 100,
    maxAcceptableMolecularWeight := 500, useSyntetizedFeasibility := true,
    maxMOOPruns := 3, cntIterations := 10, timeMaxSeconds := 1000, startMolMaxCount := 0 }

/-- A non-scaffold context: source `"S"` with one child `"A"`; `"S"` has already
tried `"B"`, and `"E"` is charged 11 derivations. -/
def filterCtx : PathFinderContext :=
  { iterIdx := 0
    elapsedSeconds := 0
    padelBatchSize := 10
    sourceMols := []
    params := exParams
    source := { blankMol with smile := "S" }
    target := { blankMol with smile := "T" }
    tempSource := blankMol
    scaffoldSelector := ScaffoldSelector.SF_NONE
    candidates :=
      [("S", { blankMol with smile := "S", descendants := ["A"],
                             historicDescendants := ["A", "B"] }),
       ("A", { blankMol with smile := "A", parentSmile := "S" })]
    morphDerivations := [("S", 3), ("E", 11)]
    prunedDuringThisIter := []
    pathScaffoldMolecules := []
    candidateScaffoldMolecules := [] }

/-- Seven morphs, one per outcome of the Filter: accepted, already tried by the
parent, already a candidate, bad weight, too many derivations, bad sascore, and
acceptable but beyond the guaranteed window. -/
def filterMorphs : List MolpherMolecule :=
  [{ blankMol with smile := "C", parentSmile := "S" },
   { blankMol with smile := "B", parentSmile := "S" },
   { blankMol with smile := "A", parentSmile := "S" },
   { blankMol with smile := "D", parentSmile := "A", molecularWeight := 600 },
   { blankMol with smile := "E", parentSmile := "A" },
   { blankMol with smile := "F", parentSmile := "A", sascore := 7 },
   { blankMol with smile := "G", parentSmile := "A" }]

/-- The three morphs of the Pareto scenario, with `[0,0]` first. -/
def moopFirst : List MolpherMolecule :=
  [{ blankMol with smile := "P0", id := "MORPH_0_1", etalonDistances := [0, 0] },
   { blankMol with smile := "P1", id := "MORPH_0_2", etalonDistances := [1, 2] },
   { blankMol with smile := "P2", id := "MORPH_0_3", etalonDistances := [2, 3] }]

/-- The three morphs of the Pareto scenario in the order of the spec: `[1,2]`,
`[2,3]`, `[0,0]`. -/
def moopLast : List MolpherMolecule :=
  [{ blankMol with smile := "P1", id := "MORPH_0_1", etalonDistances := [1, 2] },
   { blankMol with smile := "P2", id := "MORPH_0_2", etalonDistances := [2, 3] },
   { blankMol with smile := "P0", id := "MORPH_0_3", etalonDistances := [0, 0] }]

/-- The cap invariant of the path-mode final scan. -/
def AcceptMorphs.capInv (ctx : PathFinderContext) (st : AcceptMorphs) : Prop :=
  st.mCtx.params = ctx.params ∧
  ((ConcMap.keys st.mCtx.candidates).filter
      (fun k => !ConcMap.contains ctx.candidates k)).length
    ≤ min st.mSurvivorCount ctx.params.cntCandidatesToKeepMax ∧
  st.mCtx.candidates.length
    ≤ ctx.candidates.length + min st.mSurvivorCount ctx.params.cntCandidatesToKeepMax

/-- The candidate `v'` is `v` up to what Prune may change: fewer descendants,
the counter reset to `0`, the decay flag raised. -/
def SameButLinks (v v' : MolpherMolecule) : Prop :=
  v' = { v with descendants := v'.descendants,
                itersWithoutDistImprovement := v'.itersWithoutDistImprovement,
                decayed := v'.decayed } ∧
  (∀ d, d ∈ v'.descendants → d ∈ v.descendants) ∧
  (v'.itersWithoutDistImprovement = v.itersWithoutDistImprovement ∨
    v'.itersWithoutDistImprovement = 0) ∧
  (v.decayed = true → v'.decayed = true)

/-- The context `c'` is `c` after erasures and link removals only: parameters
and `morphDerivations` untouched, every remaining candidate as before up to
`SameButLinks`, and `prunedDuringThisIter` extended by exactly the keys that
disappeared, each once. -/
def Shrinks (c c' : PathFinderContext) : Prop :=
  c'.params = c.params ∧ c'.morphDerivations = c.morphDerivations ∧
  c'.source = c.source ∧ c'.target = c.target ∧ c'.tempSource = c.tempSource ∧
  c'.scaffoldSelector = c.scaffoldSelector ∧
  c'.pathScaffoldMolecules = c.pathScaffoldMolecules ∧
  (∀ k v', c'.candidates.find k = some v' →
    ∃ v, c.candidates.find k = some v ∧ SameButLinks v v') ∧
  (∃ L, c'.prunedDuringThisIter = c.prunedDuringThisIter ++ L ∧ L.Nodup ∧
    ∀ k, k ∈ L ↔ (c.candidates.contains k = true ∧ c'.candidates.contains k = false))

/-- Invariant P1/I1 on a candidate map: every candidate that is not a source
(non-empty `parentSmile`) has its parent among the keys, and that parent lists
the candidate's fingerprint (its key) in `descendants`. -/
def LinkedToParent (cands : ConcMap MolpherMolecule) : Prop :=
  ∀ k c, cands.find k = some c → c.parentSmile ≠ "" →
    ∃ p, cands.find c.parentSmile = some p ∧ k ∈ p.descendants

/-- P1 inside `EraseSubTree`: a candidate may be cut off from its parent only
while it waits on the deque `Q`. -/
def LinkedOrQueued (Q : List String) (cands : ConcMap MolpherMolecule) : Prop :=
  ∀ k c, cands.find k = some c → c.parentSmile ≠ "" →
    (∃ p, cands.find c.parentSmile = some p ∧ k ∈ p.descendants) ∨ k ∈ Q

/-- Every candidate's key is its own fingerprint. -/
def KeyedBySmile (cands : ConcMap MolpherMolecule) : Prop :=
  ∀ k c, cands.find k = some c → c.smile = k

/-- The candidate `v'` is `v` up to its two counters. -/
def SameButCounters (v v' : MolpherMolecule) : Prop :=
  v' = { v with itersWithoutDistImprovement := v'.itersWithoutDistImprovement,
                itersFresh := v'.itersFresh }

/-- The context `c'` is `c` up to the counters of its candidates: same keys in
the same order, every other field of the context untouched. -/
def CountersOnly (c c' : PathFinderContext) : Prop :=
  c' = { c with candidates := c'.candidates } ∧
  ConcMap.keys c'.candidates = ConcMap.keys c.candidates ∧
  ∀ k v', c'.candidates.find k = some v' →
    ∃ v, c.candidates.find k = some v ∧ SameButCounters v v'

/-- The survivors are new to `old` and their parents are keys of `old`: what
the non-scaffold Filter guarantees of every morph it lets through. -/
def FreshSurvivors (old : ConcMap MolpherMolecule) (morphs : List MolpherMolecule)
    (survivors : List Bool) : Prop :=
  ∀ (i : Nat) m, morphs[i]? = some m → survivors.getD i false = true →
    old.contains m.smile = false ∧ old.contains m.parentSmile = true

/-- The fields of the context that neither AcceptScan, UpdateTree nor Prune
writes. -/
def SameEnv (c c' : PathFinderContext) : Prop :=
  c'.params = c.params ∧ c'.morphDerivations = c.morphDerivations ∧
  c'.source = c.source ∧ c'.target = c.target ∧ c'.tempSource = c.tempSource ∧
  c'.scaffoldSelector = c.scaffoldSelector ∧
  c'.pathScaffoldMolecules = c.pathScaffoldMolecules

/-- The candidate `v'` keeps the history of `v`: nothing leaves
`historicDescendants`, and `historicDescendants ⊇ descendants` is kept. -/
def KeepsHistory (v v' : MolpherMolecule) : Prop :=
  (∀ d, d ∈ v.historicDescendants → d ∈ v'.historicDescendants) ∧
  ((∀ d, d ∈ v.descendants → d ∈ v.historicDescendants) →
    ∀ d, d ∈ v'.descendants → d ∈ v'.historicDescendants)

/-- Every candidate present in both maps keeps its history. -/
def HistoryKept (old new : ConcMap MolpherMolecule) : Prop :=
  ∀ k c c', old.find k = some c → new.find k = some c' → KeepsHistory c c'

/-- The invariant that carries P1 through the scan. -/
def AcceptMorphs.linkInv (old : ConcMap MolpherMolecule) (st : AcceptMorphs) : Prop :=
  LinkedToParent st.mCtx.candidates ∧
  (∀ k c, st.mCtx.candidates.find k = some c → c.parentSmile ≠ "" →
    old.contains c.parentSmile = true) ∧
  (∀ k, old.contains k = true → st.mCtx.candidates.contains k = true) ∧
  HistoryKept old st.mCtx.candidates ∧
  (KeyedBySmile old → KeyedBySmile st.mCtx.candidates)

/-- A checkable form of P1 on a concrete candidate map. -/
def linkedCheck (cands : ConcMap MolpherMolecule) : Bool :=
  cands.all fun kv =>
    decide (kv.2.parentSmile = "") ||
      match cands.find kv.2.parentSmile with
      | some p => decide (kv.1 ∈ p.descendants)
      | none => false

/-- A scaffold-mode context: root `"R"` with children `"A"` and `"C"`, and `"B"`
below `"A"`; every candidate has its scaffold in the index (four entries each);
the target scaffold is `"sT"`. -/
def scaffCtx : PathFinderContext :=
  { iterIdx := 0
    elapsedSeconds := 0
    padelBatchSize := 10
    sourceMols := []
    params := exParams
    source := { blankMol with smile := "S0", scaffoldSmile := "sR" }
    target := { blankMol with smile := "T", scaffoldSmile := "sT" }
    tempSource := { blankMol with smile := "R", scaffoldSmile := "sR" }
    scaffoldSelector := ScaffoldSelector.SF_MOST_GENERAL
    candidates :=
      [("R", { blankMol with smile := "R", scaffoldSmile := "sR", descendants := ["A", "C"],
                             historicDescendants := ["A", "C"] }),
       ("A", { blankMol with smile := "A", parentSmile := "R", scaffoldSmile := "sA",
                             descendants := ["B"], historicDescendants := ["B"] }),
       ("B", { blankMol with smile := "B", parentSmile := "A", scaffoldSmile := "sB" }),
       ("C", { blankMol with smile := "C", parentSmile := "R", scaffoldSmile := "sC" })]
    morphDerivations := []
    prunedDuringThisIter := []
    pathScaffoldMolecules := [("sR", "S0"), ("sT", "T")]
    candidateScaffoldMolecules := [("sR", "S0"), ("sA", "A"), ("sB", "B"), ("sC", "C")] }

/-- A morph of `"C"` whose fingerprint `"A"` is already a candidate and whose
scaffold is the target scaffold, which the index does not hold yet. -/
def scaffMorph : MolpherMolecule :=
  { blankMol with smile := "A", parentSmile := "C", scaffoldSmile := "sT" }

/-- A deferred molecule for the concrete runs: the candidate `"A"`. -/
def deferredA : List MolpherMolecule := [{ blankMol with smile := "A", parentSmile := "S" }]

/-- No candidate lists `s` among its `descendants`: `s` is a root of the tree. -/
def Unreferenced (s : String) (cands : ConcMap MolpherMolecule) : Prop :=
  ∀ k v, cands.find k = some v → s ∉ v.descendants

/-- The context without the three fields AcceptScan, UpdateTree and Prune
write: `candidates`, `prunedDuringThisIter` and `candidateScaffoldMolecules`. -/
def PathFinderContext.frame (c : PathFinderContext) : PathFinderContext :=
  { c with candidates := [], prunedDuringThisIter := [], candidateScaffoldMolecules := [] }

/-- The context of the direct-hit scenario: `filterCtx` with the candidate `"A"`
as target. -/
def directHitCtx : PathFinderContext :=
  { filterCtx with target := { blankMol with smile := "A" } }

/-- An activity-mode context: start molecule `"S"` with a child `"A"` that has
been fresh for six iterations, is stale, is charged twenty derivations and has
a child `"B"`. -/
def decayCtx : PathFinderContext :=
  { filterCtx with
    candidates :=
      [("S", { blankMol with smile := "S", descendants := ["A"], historicDescendants := ["A"] }),
       ("A", { blankMol with smile := "A", parentSmile := "S", descendants := ["B"],
                             historicDescendants := ["B"], itersFresh := 6,
                             itersWithoutDistImprovement := 9 }),
       ("B", { blankMol with smile := "B", parentSmile := "A" })]
    morphDerivations := [("A", 20)] }

/-- The number of set entries of `survivors` at the indices of `[b, e)`. -/
def countIn (survivors : List Bool) (b e : Nat) : Nat :=
  ((List.range' b (e - b)).filter (fun j => survivors.getD j false)).length

/-- Whether the body of the final scan at `idx`, entered in state `st`, reaches
the insertion of `mMorphs[idx]` into `candidates`: the morph survives, the gate
is open and, in scaffold mode, the scaffold is new to the index. -/
def AcceptMorphs.inserts (gated : Bool) (mMorphs : List MolpherMolecule)
    (mSurvivors : List Bool) (st : AcceptMorphs) (idx : Nat) : Bool :=
  mSurvivors.getD idx false &&
    (!gated || decide (st.mSurvivorCount < st.mCtx.params.cntCandidatesToKeepMax)) &&
    (match mMorphs[idx]? with
     | none => false
     | some morph => (AcceptMorphs.insertMorph st.mCtx morph).isSome)

/-- Whether the final scan started at index `b` in state `st₀` inserts the morph
at `idx` when its turn comes. -/
def AcceptMorphs.insertedAt (gated : Bool) (mMorphs : List MolpherMolecule)
    (mSurvivors : List Bool) (st₀ : AcceptMorphs) (b idx : Nat) : Bool :=
  match forRange b idx (AcceptMorphs.finalBody gated mMorphs mSurvivors) st₀ with
  | some st => AcceptMorphs.inserts gated mMorphs mSurvivors st idx
  | none => false

/-- Three scaffold-mode morphs of `"R"`: the first two share the new scaffold
`"sN"`, the third has the new scaffold `"sM"`. -/
def sharedScaffoldMorphs : List MolpherMolecule :=
  [{ blankMol with smile := "X", parentSmile := "R", scaffoldSmile := "sN" },
   { blankMol with smile := "Y", parentSmile := "R", scaffoldSmile := "sN" },
   { blankMol with smile := "Z", parentSmile := "R", scaffoldSmile := "sM" }]

/-- The three morphs of the Pareto scenario in the order `[2,3]`, `[1,2]`,
`[0,0]`. -/
def moopLayers : List MolpherMolecule :=
  [{ blankMol with smile := "P2", id := "MORPH_0_1", etalonDistances := [2, 3] },
   { blankMol with smile := "P1", id := "MORPH_0_2", etalonDistances := [1, 2] },
   { blankMol with smile := "P0", id := "MORPH_0_3", etalonDistances := [0, 0] }]

/-- A fresh scaffold-mode activity context with two source items and
`startMolMaxCount = 5`. -/
def seedScaffoldCtx : PathFinderContext :=
  { scaffCtx with
    params := { exParams with startMolMaxCount := 5 }
    candidates := []
    candidateScaffoldMolecules := []
    pathScaffoldMolecules := []
    sourceMols := [("S1", { blankMol with smile := "S1" }), ("S2", { blankMol with smile := "S2" })] }

/-- A fresh non-scaffold activity context with three source items and
`startMolMaxCount = 2`. -/
def seedCtx : PathFinderContext :=
  { filterCtx with
    params := { exParams with startMolMaxCount := 2 }
    candidates := []
    morphDerivations := []
    sourceMols := [("S1", { blankMol with smile := "S1" }), ("S2", { blankMol with smile := "S2" }),
                   ("S3", { blankMol with smile := "S3" })] }

/-- The candidates with a non-empty `parentSmile` met from `key` upwards along
`parentSmile`, in at most `fuel` steps: the part of the branch towards the root
that lies below the root. -/
def UpdateTree.chain (cands : ConcMap MolpherMolecule) : Nat → String → List String
  | 0, _ => []
  | fuel + 1, key =>
    match cands.find key with
    | none => []
    | some node =>
      if node.parentSmile ≠ "" then key :: UpdateTree.chain cands fuel node.parentSmile
      else []

/-- The root (empty `parentSmile`) reached from `key` along `parentSmile` in
fewer than `fuel` steps, if there is one. -/
def UpdateTree.root (cands : ConcMap MolpherMolecule) : Nat → String → Option String
  | 0, _ => none
  | fuel + 1, key =>
    match cands.find key with
    | none => none
    | some node =>
      if node.parentSmile ≠ "" then UpdateTree.root cands fuel node.parentSmile
      else some key

/-- What the walk does to an ancestor: the counter is reset when the least
distance among the children is below the ancestor's own distance. -/
def UpdateTree.improve (dist : MolpherMolecule → ℚ) (minDistance : ℚ)
    (node : MolpherMolecule) : MolpherMolecule :=
  if minDistance < dist node then UpdateTree.resetCounter node else node

/-- A branch `"S"`, `"A"`, `"B"`: the candidate `"A"` at distance `1/2` has not
improved for three iterations and has the child `"B"` at distance `1/4`. -/
def branchCtx : PathFinderContext :=
  { filterCtx with
    candidates :=
      [("S", { blankMol with smile := "S", descendants := ["A"], historicDescendants := ["A"],
                             itersWithoutDistImprovement := 4 }),
       ("A", { blankMol with smile := "A", parentSmile := "S", descendants := ["B"],
                             historicDescendants := ["B"], distToTarget := 1 / 2,
                             itersWithoutDistImprovement := 3 }),
       ("B", { blankMol with smile := "B", parentSmile := "A", distToTarget := 1 / 4 })]
    morphDerivations := [] }

/-- The modified parents are candidates whose children are candidates and whose
branches reach a root within the fuel: what UpdateTree needs to complete. -/
def UpdateTree.ready (fuel : Nat) (modifiedParents : SmileSet) (ctx : PathFinderContext) :
    Prop :=
  ∀ p, p ∈ modifiedParents → ∃ parent, ctx.candidates.find p = some parent ∧
    (∀ child, child ∈ parent.descendants → ctx.candidates.contains child = true) ∧
    (UpdateTree.root ctx.candidates fuel p).isSome = true

/-- `Below cands f d`: the fingerprint `d` is a transitive descendant of `f`
along the `descendants` sets of the candidates. -/
inductive Below (cands : ConcMap MolpherMolecule) : String → String → Prop
  | child (f d : String) (v : MolpherMolecule) :
      cands.find f = some v → d ∈ v.descendants → Below cands f d
  | step (f x d : String) (v : MolpherMolecule) :
      cands.find f = some v → x ∈ v.descendants → Below cands x d → Below cands f d

/-- The visits of the path-mode worklist, in order: the fingerprint taken from
the queue, the rest of the queue and the context at that moment. -/
def PathFinder.PruneTree.visits (mDeferred : SmileSet) :
    Nat → List String → PathFinderContext → List (String × List String × PathFinderContext)
  | _, [], _ => []
  | 0, _ :: _, _ => []
  | fuel + 1, smile :: queue, ctx =>
    (smile, queue, ctx) ::
      match PathFinder.PruneTree.call mDeferred smile ctx with
      | none => []
      | some (ctx', fed) => PathFinder.PruneTree.visits mDeferred fuel (queue ++ fed) ctx'

/-- The visits of the activity-mode worklist, in order. -/
def PathFinderActivity.PruneTree.visits (mDeferred : SmileSet) :
    Nat → List String → PathFinderContext → List (String × List String × PathFinderContext)
  | _, [], _ => []
  | 0, _ :: _, _ => []
  | fuel + 1, smile :: queue, ctx =>
    (smile, queue, ctx) ::
      match PathFinderActivity.PruneTree.call mDeferred smile ctx with
      | none => []
      | some (ctx', fed) =>
        PathFinderActivity.PruneTree.visits mDeferred fuel (queue ++ fed) ctx'

/-- Every link of `old` is still a link of `new`, or its lower end waits on `Q`
or is no longer a key of `new`: erasures have gone all the way down. -/
def LinksClosed (old : ConcMap MolpherMolecule) (Q : List String)
    (new : ConcMap MolpherMolecule) : Prop :=
  ∀ k v₀ x, old.find k = some v₀ → x ∈ v₀.descendants →
    (∃ v, new.find k = some v ∧ x ∈ v.descendants) ∨ x ∈ Q ∨ new.find x = none

/-- What one completed visit of a Prune worklist does to the candidate map `c`
(giving `c'`) and which fingerprints it feeds: the node is fed through with the
links of every candidate as they were; or the node and everything below it are
erased and the node is struck from its parent's `descendants`; or everything
below the node is erased and the node is purged. -/
def PruneEffect (s : String) (fed : List String) (c c' : ConcMap MolpherMolecule) : Prop :=
  ∃ node, c.find s = some node ∧
    ((fed = node.descendants ∧
        (∀ k v, c.find k = some v → ∃ v', c'.find k = some v' ∧
          v'.parentSmile = v.parentSmile ∧ v'.descendants = v.descendants) ∧
        (∀ k, c.find k = none → c'.find k = none)) ∨
      (fed = [] ∧ ∃ parent, c.find node.parentSmile = some parent ∧ node.parentSmile ≠ s ∧
        (∀ k, (k = s ∨ Below c s k) → c'.find k = none) ∧
        (∀ k, ¬ (k = s ∨ Below c s k) →
          c'.find k = if node.parentSmile = k then some (PruneTree.withoutChild parent s)
            else c.find k)) ∨
      (fed = [] ∧ ¬ Below c s s ∧
        (∀ k, Below c s k → c'.find k = none) ∧
        (∀ k, ¬ Below c s k →
          c'.find k = if s = k then some (PruneTree.purged node) else c.find k)))

/-- The `descendants` sets are duplicate-free and list candidates only, each of
which names the lister as its parent. -/
def TreeShaped (cands : ConcMap MolpherMolecule) : Prop :=
  (∀ k v, cands.find k = some v → v.descendants.Nodup) ∧
  (∀ k v d, cands.find k = some v → d ∈ v.descendants →
    ∃ w, cands.find d = some w ∧ w.parentSmile = k)

/-- The state of a Prune worklist on a tree: the queued fingerprints are
distinct candidates none of which is below itself or another. -/
def TreeInv (Q : List String) (cands : ConcMap MolpherMolecule) : Prop :=
  TreeShaped cands ∧ Q.Nodup ∧ (∀ q, q ∈ Q → cands.contains q = true) ∧
  (∀ q, q ∈ Q → ∀ q', q' ∈ Q → ¬ Below cands q q')

/-- The candidate `f` is out of reach of the worklist: it is a key, it is not
queued and it is below no queued fingerprint. -/
def Safe (f : String) (Q : List String) (cands : ConcMap MolpherMolecule) : Prop :=
  cands.contains f = true ∧ f ∉ Q ∧ ∀ q, q ∈ Q → ¬ Below cands q f

/-- A tree hanging from `roots`: duplicate-free `descendants` that list
candidates naming the lister as parent, distinct roots that are candidates, and
no root with a candidate as parent. -/
def WellFormed (roots : List String) (cands : ConcMap MolpherMolecule) : Prop :=
  TreeShaped cands ∧ roots.Nodup ∧ (∀ r, r ∈ roots → cands.contains r = true) ∧
  (∀ r, r ∈ roots → ∀ v, cands.find r = some v → cands.find v.parentSmile = none)

/-- The list `T` holds every fingerprint the worklist can still visit: the
queued ones and what is below them. -/
def Covered (T Q : List String) (cands : ConcMap MolpherMolecule) : Prop :=
  (∀ q, q ∈ Q → q ∈ T) ∧ (∀ q, q ∈ Q → ∀ d, Below cands q d → d ∈ T)

/-- A path-mode visit of `k` in `c` would take neither erase action: `k` is not
deferred and, if it is a candidate, its counter is within `itThreshold`. -/
def PathFinder.PruneTree.Quiet (mDeferred : SmileSet) (k : String) (c : PathFinderContext) :
    Prop :=
  ∀ v, c.candidates.find k = some v →
    k ∉ mDeferred ∧ ¬ v.itersWithoutDistImprovement > c.params.itThreshold

/-- An activity-mode visit of `k` in `c` would take neither erase action nor set
`decayed`: if `k` is a candidate it is decayed already, or it is fresh enough
and either a start molecule (empty `parentSmile`) or neither deferred nor
stale. -/
def PathFinderActivity.PruneTree.QuietAct (mDeferred : SmileSet) (k : String)
    (c : PathFinderContext) : Prop :=
  ∀ v, c.candidates.find k = some v →
    v.decayed = true ∨
      (¬ v.itersFresh > c.params.decayThreshold ∧
        ((k ∉ mDeferred ∧ ¬ v.itersWithoutDistImprovement > c.params.itThreshold) ∨
          v.parentSmile = ""))

/-- The worklist state on a tree hanging from `roots`: every root is still
queued or already out of reach, and has no candidate as parent. -/
def RootsInv (roots Q : List String) (cands : ConcMap MolpherMolecule) : Prop :=
  TreeInv Q cands ∧
  ∀ r, r ∈ roots → (r ∈ Q ∨ Safe r Q cands) ∧
    ∀ v, cands.find r = some v → cands.find v.parentSmile = none

/-- A checkable form of `WellFormed` on a concrete candidate map. -/
def wellFormedCheck (roots : List String) (cands : ConcMap MolpherMolecule) : Bool :=
  cands.all (fun kv =>
    decide kv.2.descendants.Nodup &&
      kv.2.descendants.all (fun d =>
        match cands.find d with
        | some w => decide (w.parentSmile = kv.1)
        | none => false)) &&
  decide roots.Nodup &&
  roots.all (fun r =>
    match cands.find r with
    | some v => !cands.contains v.parentSmile
    | none => false)

/-- A path-mode tree for Prune: source `"S"` with children `"A"` (child `"B"`)
and `"C"` (child `"D"`); `"A"` and `"C"` are stale (counter 2 above
`itThreshold` 1), `"A"` is charged 11 derivations (above `cntMaxMorphs` 10) and
`"C"` is charged 3. -/
def pruneCtx : PathFinderContext :=
  { filterCtx with
    candidates :=
      [("S", { blankMol with smile := "S", descendants := ["A", "C"],
                             historicDescendants := ["A", "C"] }),
       ("A", { blankMol with smile := "A", parentSmile := "S", descendants := ["B"],
                             historicDescendants := ["B"], itersWithoutDistImprovement := 2 }),
       ("B", { blankMol with smile := "B", parentSmile := "A" }),
       ("C", { blankMol with smile := "C", parentSmile := "S", descendants := ["D"],
                             historicDescendants := ["D"], itersWithoutDistImprovement := 2 }),
       ("D", { blankMol with smile := "D", parentSmile := "C" })]
    morphDerivations := [("A", 11), ("C", 3)] }

/-- An activity-mode context: start molecule `"S"` with a child `"A"` that is
decayed and stale (counter 2 above `itThreshold` 1), is charged nothing and has
a child `"B"`. -/
def decayedStaleCtx : PathFinderContext :=
  { filterCtx with
    candidates :=
      [("S", { blankMol with smile := "S", descendants := ["A"], historicDescendants := ["A"] }),
       ("A", { blankMol with smile := "A", parentSmile := "S", descendants := ["B"],
                             historicDescendants := ["B"], decayed := true,
                             itersWithoutDistImprovement := 2 }),
       ("B", { blankMol with smile := "B", parentSmile := "A" })]
    morphDerivations := [] }

/-- A path-mode tree for the purge: source `"S"` with the child `"A"`, which is
stale (counter 2 above `itThreshold` 1), is charged 3 derivations (within
`cntMaxMorphs` 10) and has the child `"B"`. -/
def purgeCtx : PathFinderContext :=
  { filterCtx with
    candidates :=
      [("S", { blankMol with smile := "S", descendants := ["A"], historicDescendants := ["A"] }),
       ("A", { blankMol with smile := "A", parentSmile := "S", descendants := ["B"],
                             historicDescendants := ["B"], itersWithoutDistImprovement := 2 }),
       ("B", { blankMol with smile := "B", parentSmile := "A" })]
    morphDerivations := [("A", 3)] }

/-- The initialisation of the first iteration of a job in
`PathFinder::operator()` (after `GetJob`); `GetScaffold` is the scaffold of a
fingerprint as the scaffold database computes it, `none` a failed assertion.
The scaffolds of the decoys, which the stages modelled here do not read, are
left out. -/
def PathFinder.seed (GetScaffold : String → String) (ctx : PathFinderContext) :
    Option PathFinderContext :=
  if ctx.candidates.isEmpty then
    if ctx.iterIdx ≠ 0 ∨ ctx.candidateScaffoldMolecules.isEmpty = false then none
    else if !ctx.ScaffoldMode then
      some { ctx with candidates := ctx.candidates.assign ctx.source.smile ctx.source }
    else if ctx.scaffoldSelector ≠ ScaffoldSelector.SF_MOST_GENERAL then none
    else
      let scaffSource := GetScaffold ctx.source.smile
      let scaffTarget := GetScaffold ctx.target.smile
      let tempSource := { ctx.tempSource with scaffoldSmile := scaffSource }
      some { ctx with
              tempSource := tempSource
              target := { ctx.target with scaffoldSmile := scaffTarget }
              candidates := ctx.candidates.assign tempSource.smile tempSource
              candidateScaffoldMolecules :=
                ctx.candidateScaffoldMolecules.assign scaffSource ctx.source.smile
              pathScaffoldMolecules :=
                (ctx.pathScaffoldMolecules.assign scaffSource ctx.source.smile).assign
                  scaffTarget ctx.target.smile }
  else some ctx

/-- The head of the iteration body of `PathFinder::operator()`: the refresh,
FindLeaves and the morph-generation loop; the result is the context, the
collector and the number of the next guard. -/
def PathFinder.generation (Cancelled : Nat → Bool) (jobParams : MolpherParam)
    (GenerateMorphs : MolpherMolecule → Nat → List MolpherMolecule) (ctx : PathFinderContext) :
    (PathFinderContext × CollectMorphs) × Nat :=
  let ctx₀ :=
    if !Cancelled 0 then { ctx with params := jobParams, prunedDuringThisIter := [] } else ctx
  let found :=
    if !Cancelled 1 then PathFinder.FindLeaves ctx₀.candidates [] else (ctx₀.candidates, [])
  let ctx₁ := { ctx₀ with candidates := found.1 }
  PathFinder.generateMorphs Cancelled GenerateMorphs 2 found.2 (ctx₁, CollectMorphs.ctor [])

/-- A fresh job whose source is the target, in `filterCtx`'s setting: no
candidates yet. -/
def freshHitCtx : PathFinderContext :=
  { filterCtx with
    candidates := []
    morphDerivations := []
    source := { blankMol with smile := "T" }
    target := { blankMol with smile := "T" } }

/-- The state of the final scan on a tree that UpdateTree can walk: the scan
stays outside scaffold mode, keeps every key of `old` with its `smile` and
`parentSmile` and with descendants that were there or are keys, and the modified
parents are keys of `old`. -/
def AcceptMorphs.readyInv (old : ConcMap MolpherMolecule) (st : AcceptMorphs) : Prop :=
  st.mCtx.ScaffoldMode = false ∧
  (∀ k v, old.find k = some v → ∃ v', st.mCtx.candidates.find k = some v' ∧
    v'.smile = v.smile ∧ v'.parentSmile = v.parentSmile ∧
    ∀ d, d ∈ v'.descendants → d ∈ v.descendants ∨ st.mCtx.candidates.contains d = true) ∧
  (∀ k, old.contains k = true → st.mCtx.candidates.contains k = true) ∧
  (∀ p, p ∈ st.mModifiedParents → old.contains p = true)

/-- The state of the erase loop on a tree, with deque `Q`: duplicate-free
`descendants`; every listed child is a candidate unless its lister is `e`, and
names its lister as parent; the queued fingerprints are distinct candidates that
only `e` may list, and `e` is neither queued nor below a queued fingerprint. -/
def EraseInv (e : String) (Q : List String) (cands : ConcMap MolpherMolecule) : Prop :=
  (∀ k v, cands.find k = some v → v.descendants.Nodup) ∧
  (∀ k v d, cands.find k = some v → d ∈ v.descendants → k = e ∨ cands.contains d = true) ∧
  (∀ k v d w, cands.find k = some v → d ∈ v.descendants → cands.find d = some w →
    w.parentSmile = k) ∧
  Q.Nodup ∧ (∀ q, q ∈ Q → cands.contains q = true) ∧
  (∀ q, q ∈ Q → ∀ k v, cands.find k = some v → q ∈ v.descendants → k = e) ∧
  (∀ q, q ∈ Q → q ≠ e ∧ ¬ Below cands q e)

/-- What has a lister in `cands`. -/
def Listed (q : String) (cands : ConcMap MolpherMolecule) : Prop :=
  ∃ k v, cands.find k = some v ∧ q ∈ v.descendants

/-- The state of the path-mode worklist from which every visit completes:
outside scaffold mode, on a tree, every queued fingerprint has a lister or is
one that is neither deferred nor both stale and over budget (the root). -/
def PathFinder.PruneTree.Ready (mDeferred : SmileSet) (Q : List String)
    (c : PathFinderContext) : Prop :=
  c.ScaffoldMode = false ∧ TreeInv Q c.candidates ∧
  ∀ q, q ∈ Q → Listed q c.candidates ∨
    (q ∉ mDeferred ∧ ∀ v, c.candidates.find q = some v →
      ¬ (v.itersWithoutDistImprovement > c.params.itThreshold ∧
        PruneTree.tooManyDerivations c q = true))

/-- The state of the activity-mode worklist from which every visit completes:
outside scaffold mode, on a tree, every queued fingerprint has a lister or an
empty `parentSmile` (a start molecule). -/
def PathFinderActivity.PruneTree.ReadyAct (Q : List String) (c : PathFinderContext) : Prop :=
  c.ScaffoldMode = false ∧ TreeInv Q c.candidates ∧
  ∀ q, q ∈ Q → Listed q c.candidates ∨ ∀ v, c.candidates.find q = some v → v.parentSmile = ""

/-- A morph of the absent parent `"Z"` whose weight is above the bound. -/
def orphanHeavy : MolpherMolecule :=
  { blankMol with smile := "O", parentSmile := "Z", molecularWeight := 600 }

/-- A morph of the absent parent `"Z"` that no test before the parent lookup
rejects. -/
def orphanLight : MolpherMolecule := { blankMol with smile := "O", parentSmile := "Z" }

/-- A source in the sense of the data model: a candidate with an empty
`parentSmile`. -/
def UpdateTree.emptyParent (_key : String) (node : MolpherMolecule) : Bool :=
  decide (node.parentSmile = "")

/-- The root of the tree in scaffold mode of the path finder: the candidate
stored under the fingerprint `stop` of `tempSource`. -/
def UpdateTree.isRoot (stop key : String) (_node : MolpherMolecule) : Bool :=
  decide (key = stop)

deriving instance DecidableEq for MolpherMolecule

deriving instance DecidableEq for MolpherParam

deriving instance DecidableEq for PathFinderContext

/-- Parameters of the re-derivation scenario: `itThreshold` 3 and five
guaranteed places. -/
def rederiveParams : MolpherParam :=
  { exParams with itThreshold := 3, cntCandidatesToKeep := 5, cntCandidatesToKeepMax := 5 }

/-- The tree of the re-derivation scenario: source `"S"` with the children `"A"`
and `"Q"`; `"A"` has the child `"B"` and has not improved for three
iterations. -/
def rederiveCtx : PathFinderContext :=
  { filterCtx with
    params := rederiveParams
    candidates :=
      [("S", { blankMol with smile := "S", descendants := ["A", "Q"],
                             historicDescendants := ["A", "Q"] }),
       ("A", { blankMol with smile := "A", parentSmile := "S", descendants := ["B"],
                             historicDescendants := ["B"], itersWithoutDistImprovement := 3 }),
       ("B", { blankMol with smile := "B", parentSmile := "A" }),
       ("Q", { blankMol with smile := "Q", parentSmile := "S" })]
    morphDerivations := [] }

/-- The morph generator of the re-derivation scenario: a leaf `"A"` yields the
morph `"B"`, a leaf `"Q"` yields the morph `"A"`, any other leaf nothing. -/
def rederiveGen (candidate : MolpherMolecule) (_attempts : Nat) : List MolpherMolecule :=
  if candidate.smile = "A" then
    [{ blankMol with smile := "B", parentSmile := "A", distToTarget := 1 / 4 }]
  else if candidate.smile = "Q" then
    [{ blankMol with smile := "A", parentSmile := "Q", distToTarget := 1 / 2 }]
  else []

/-- The re-derivation scenario after the first iteration: `"A"` is purged, its
child `"B"` erased and reported. -/
def rederiveCtx₁ : PathFinderContext :=
  { rederiveCtx with
    iterIdx := 1
    elapsedSeconds := 1
    candidates :=
      [("S", { blankMol with smile := "S", descendants := ["A", "Q"],
                             historicDescendants := ["A", "Q"] }),
       ("A", { blankMol with smile := "A", parentSmile := "S", historicDescendants := ["B"] }),
       ("Q", { blankMol with smile := "Q", parentSmile := "S",
                             itersWithoutDistImprovement := 1 })]
    morphDerivations := [("B", 0), ("Q", 1)]
    prunedDuringThisIter := ["B"] }

/-- The re-derivation scenario after the second iteration: the deferred `"A"`
is erased and reported. -/
def rederiveCtx₂ : PathFinderContext :=
  { rederiveCtx with
    iterIdx := 2
    elapsedSeconds := 2
    candidates :=
      [("S", { blankMol with smile := "S", descendants := ["Q"],
                             historicDescendants := ["A", "Q"] }),
       ("Q", { blankMol with smile := "Q", parentSmile := "S",
                             itersWithoutDistImprovement := 2 })]
    morphDerivations := [("B", 0), ("Q", 2), ("A", 1)]
    prunedDuringThisIter := ["A"] }

/-- The re-derivation scenario after the third iteration: `"A"` is a candidate
again, below `"Q"`, with an empty history. -/
def rederiveCtx₃ : PathFinderContext :=
  { rederiveCtx with
    iterIdx := 3
    elapsedSeconds := 3
    candidates :=
      [("S", { blankMol with smile := "S", descendants := ["Q"],
                             historicDescendants := ["A", "Q"] }),
       ("Q", { blankMol with smile := "Q", parentSmile := "S", descendants := ["A"],
                             historicDescendants := ["A"] }),
       ("A", { blankMol with smile := "A", parentSmile := "Q", distToTarget := 1 / 2 })]
    morphDerivations := [("B", 0), ("Q", 3), ("A", 1)]
    prunedDuringThisIter := [] }

/-- The re-derivation scenario after the fourth iteration: `"B"` is a child of
`"A"` again. -/
def rederiveCtx₄ : PathFinderContext :=
  { rederiveCtx with
    iterIdx := 4
    elapsedSeconds := 4
    candidates :=
      [("S", { blankMol with smile := "S", descendants := ["Q"],
                             historicDescendants := ["A", "Q"] }),
       ("Q", { blankMol with smile := "Q", parentSmile := "S", descendants := ["A"],
                             historicDescendants := ["A"] }),
       ("A", { blankMol with smile := "A", parentSmile := "Q", distToTarget := 1 / 2,
                             descendants := ["B"], historicDescendants := ["B"] }),
       ("B", { blankMol with smile := "B", parentSmile := "A", distToTarget := 1 / 4 })]
    morphDerivations := [("B", 0), ("Q", 3), ("A", 2)]
    prunedDuringThisIter := [] }

/-- The context `purgeCtx` after the visit of Prune to the stale node `"A"`:
`"B"` is erased and reported, `"A"` is left without children and with its
counter at zero. -/
def purgedCtx : PathFinderContext :=
  { purgeCtx with
    candidates :=
      [("S", { blankMol with smile := "S", descendants := ["A"], historicDescendants := ["A"] }),
       ("A", { blankMol with smile := "A", parentSmile := "S", descendants := [],
                             historicDescendants := ["B"], itersWithoutDistImprovement := 0 })]
    prunedDuringThisIter := ["B"] }

/-- The state of the final scan before index `n` on a tree hanging from `root`:
outside scaffold mode, still such a tree, every candidate of `old` kept with its
`parentSmile`, and every key one of `old` or the fingerprint of a survivor at an
index below `n`. -/
def AcceptMorphs.treeScan (root : String) (old : ConcMap MolpherMolecule)
    (mMorphs : List MolpherMolecule) (mSurvivors : List Bool) (n : Nat)
    (st : AcceptMorphs) : Prop :=
  st.mCtx.ScaffoldMode = false ∧ WellFormed [root] st.mCtx.candidates ∧
  (∀ k v, old.find k = some v →
    ∃ v', st.mCtx.candidates.find k = some v' ∧ v'.parentSmile = v.parentSmile) ∧
  (∀ k, st.mCtx.candidates.contains k = true → old.contains k = true ∨
    ∃ (j : Nat) (m : MolpherMolecule), j < n ∧ mMorphs[j]? = some m ∧ mSurvivors.getD j false = true ∧
      m.smile = k)

/-- A checkable form of `ChildrenPresent` on a concrete candidate map. -/
def childrenPresentCheck (cands : ConcMap MolpherMolecule) : Bool :=
  cands.all fun kv => kv.2.descendants.all fun d => cands.contains d

/-- The scaffold index of a scaffold-mode run, for the scaffold function `G`
(`Scaffold::GetScaffold` of the run, which the seeding and morph generation
apply to every fingerprint): a candidate carries the scaffold of its key, the
keys of `index` are exactly the scaffolds of the keys of `cands`, no two
candidates share a scaffold, and neither map holds a key twice. -/
def ScaffoldIndexed (G : String → String) (cands : ConcMap MolpherMolecule)
    (index : ConcMap String) : Prop :=
  (∀ k v, cands.find k = some v → v.scaffoldSmile = G k) ∧
  (∀ k, cands.contains k = true → index.contains (G k) = true) ∧
  (∀ s, index.contains s = true → ∃ k, cands.contains k = true ∧ G k = s) ∧
  (∀ k k', cands.contains k = true → cands.contains k' = true → G k = G k' → k = k') ∧
  (ConcMap.keys cands).Nodup ∧ (ConcMap.keys index).Nodup

/-- What a scaffold-mode run hands to the stages of an iteration, for the
scaffold function `G` of the run (`Scaffold::GetScaffold`, which the seeding
applies to the source and morph generation to every morph): the index tracks
`candidates`, and every collected morph carries the scaffold of its
fingerprint. Outside scaffold mode nothing is asked. -/
def ScaffoldsFrom (G : String → String) (ctx : PathFinderContext)
    (morphs : List MolpherMolecule) : Prop :=
  ctx.ScaffoldMode = true →
    ScaffoldIndexed G ctx.candidates ctx.candidateScaffoldMolecules ∧
    ∀ m, m ∈ morphs → m.scaffoldSmile = G m.smile

/-- A checkable form of `ScaffoldIndexed` on concrete maps. -/
def scaffoldIndexedCheck (G : String → String) (cands : ConcMap MolpherMolecule)
    (index : ConcMap String) : Bool :=
  cands.all (fun kv => decide (kv.2.scaffoldSmile = G kv.1) && index.contains (G kv.1)) &&
  index.all (fun sv => cands.any (fun kv => decide (G kv.1 = sv.1))) &&
  decide ((ConcMap.keys cands).map G).Nodup && decide (ConcMap.keys cands).Nodup &&
  decide (ConcMap.keys index).Nodup

/-- A context of a scaffold-mode run whose index tracks its candidates. -/
def PathFinderContext.Indexed (G : String → String) (c : PathFinderContext) : Prop :=
  c.ScaffoldMode = true ∧ ScaffoldIndexed G c.candidates c.candidateScaffoldMolecules

/-- The state of the path-mode Prune worklist on a tree in scaffold mode: the
index is in step with `candidates`, the queue is as `TreeInv` asks, and every
queued fingerprint has a lister or is not deferred and not both stale and over
budget. -/
def PathFinder.PruneTree.ReadyIx (G : String → String) (mDeferred : SmileSet)
    (Q : List String) (c : PathFinderContext) : Prop :=
  c.Indexed G ∧ TreeInv Q c.candidates ∧
  ∀ q, q ∈ Q → Listed q c.candidates ∨
    (q ∉ mDeferred ∧ ∀ v, c.candidates.find q = some v →
      ¬ (v.itersWithoutDistImprovement > c.params.itThreshold ∧
        PruneTree.tooManyDerivations c q = true))

/-- The state of the final scan on a tree hanging from `root` in scaffold mode:
the index is in step, the candidates still form such a tree, and every
candidate of `old` is kept with its `parentSmile`. -/
def AcceptMorphs.treeScanIx (G : String → String) (root : String)
    (old : ConcMap MolpherMolecule) (st : AcceptMorphs) : Prop :=
  st.mCtx.Indexed G ∧ WellFormed [root] st.mCtx.candidates ∧
  (∀ k v, old.find k = some v →
    ∃ v', st.mCtx.candidates.find k = some v' ∧ v'.parentSmile = v.parentSmile)

/-- What morph generation and the collector deliver to an iteration on the tree
`old` hanging from `root`: every morph is a fresh record without children, no
two morphs share a fingerprint (the duplicate check of `CollectMorphs`), and no
morph has the `parentSmile` of the root as its fingerprint. -/
def FreshMorphs (root : String) (old : ConcMap MolpherMolecule)
    (morphs : List MolpherMolecule) : Prop :=
  (∀ m, m ∈ morphs → m.descendants = []) ∧
  (morphs.map (fun m => m.smile)).Nodup ∧
  (∀ m, m ∈ morphs → ∀ v, old.find root = some v → m.smile ≠ v.parentSmile)

/-- The context `scaffCtx` after a candidate `"A2"` with the target scaffold
`"sT"` has been accepted: the scaffold is in `candidateScaffoldMolecules`. -/
def scaffTargetCtx : PathFinderContext :=
  { scaffCtx with
    candidates := scaffCtx.candidates ++
      [("A2", { blankMol with smile := "A2", parentSmile := "C", scaffoldSmile := "sT" })]
    candidateScaffoldMolecules := scaffCtx.candidateScaffoldMolecules ++ [("sT", "A2")] }

/-- In the words of the claim: following `parentSmile` from `key`, a source is
reached after exactly `d` steps, every link on the way resolving to a key of
`cands`; `isSource key node` tells whether the candidate `node` stored under
`key` is a source. -/
def UpdateTree.reaches (isSource : String → MolpherMolecule → Bool)
    (cands : ConcMap MolpherMolecule) : Nat → String → Bool
  | 0, key =>
    match cands.find key with
    | some node => isSource key node
    | none => false
  | d + 1, key =>
    match cands.find key with
    | some node => !isSource key node && UpdateTree.reaches isSource cands d node.parentSmile
    | none => false

/-- What the non-scaffold Filter and the collector guarantee of the survivors,
and morph generation of every morph: a survivor is new to `old`, its parent is
a key of `old`, it has no children yet, its fingerprint is not the
`parentSmile` of `root`, and no two survivors share a fingerprint. -/
def AcceptMorphs.FreshLeaves (root : String) (old : ConcMap MolpherMolecule)
    (mMorphs : List MolpherMolecule) (mSurvivors : List Bool) : Prop :=
  (∀ (i : Nat) m, mMorphs[i]? = some m → mSurvivors.getD i false = true →
    old.contains m.parentSmile = true ∧ old.find m.smile = none ∧ m.descendants = [] ∧
    ∀ v, old.find root = some v → m.smile ≠ v.parentSmile) ∧
  (∀ (i j : Nat) m m', i < j → mMorphs[i]? = some m → mMorphs[j]? = some m' →
    mSurvivors.getD i false = true → mSurvivors.getD j false = true → m.smile ≠ m'.smile)

/-- In the words of the claim: every fingerprint listed in the `descendants` of
a candidate is a key of `candidates`. -/
def ChildrenPresent (cands : ConcMap MolpherMolecule) : Prop :=
  ∀ k v, cands.find k = some v → ∀ d, d ∈ v.descendants → cands.contains d = true

/-! # Theorems -/

/-! ## Comparator -/

theorem approximatelyEqual_comm (a b : MolpherMolecule) :
    approximatelyEqual a b = approximatelyEqual b a := by
  unfold approximatelyEqual
  simp only []
  rw [abs_sub_comm, max_comm]

theorem approximatelyEqual_self (a : MolpherMolecule) : approximatelyEqual a a = true := by
  unfold approximatelyEqual
  simp only [sub_self, abs_zero, max_self, decide_eq_true_eq]
  have h : (0 : ℚ) ≤ 32 * DBL_EPSILON := by unfold DBL_EPSILON; norm_num
  exact mul_nonneg h (abs_nonneg _)

/-- Two gaps that both exceed the tolerance add up to a gap exceeding it. -/
theorem far_add {t x y z : ℚ} (ht : 0 ≤ t) (hxy : x < y) (hyz : y < z)
    (h₁ : ¬ |x - y| ≤ t * max |x| |y|) (h₂ : ¬ |y - z| ≤ t * max |y| |z|) :
    ¬ |x - z| ≤ t * max |x| |z| := by
  have e₁ : |x - y| = y - x := by rw [abs_sub_comm]; exact abs_of_pos (by linarith)
  have e₂ : |y - z| = z - y := by rw [abs_sub_comm]; exact abs_of_pos (by linarith)
  have e₃ : |x - z| = z - x := by rw [abs_sub_comm]; exact abs_of_pos (by linarith)
  have m₁ : t * |x| ≤ t * max |x| |y| := mul_le_mul_of_nonneg_left (le_max_left _ _) ht
  have m₂ : t * |z| ≤ t * max |y| |z| := mul_le_mul_of_nonneg_left (le_max_right _ _) ht
  have m₃ : t * max |x| |z| ≤ t * |x| + t * |z| := by
    rw [← mul_add]
    exact mul_le_mul_of_nonneg_left
      (max_le (le_add_of_nonneg_right (abs_nonneg _)) (le_add_of_nonneg_left (abs_nonneg _))) ht
  rw [e₁] at h₁; rw [e₂] at h₂; rw [e₃]
  intro h
  linarith

theorem tolerance_nonneg : (0 : ℚ) ≤ 32 * DBL_EPSILON := by
  unfold DBL_EPSILON; norm_num

theorem approximatelyEqual_true_iff (a b : MolpherMolecule) :
    approximatelyEqual a b = true ↔
      |(a.distToTarget + a.distToClosestDecoy) - (b.distToTarget + b.distToClosestDecoy)| ≤
        32 * DBL_EPSILON * max |a.distToTarget + a.distToClosestDecoy|
          |b.distToTarget + b.distToClosestDecoy| := by
  unfold approximatelyEqual
  simp only [decide_eq_true_eq]

theorem approximatelyEqual_false_iff (a b : MolpherMolecule) :
    approximatelyEqual a b = false ↔
      ¬ |(a.distToTarget + a.distToClosestDecoy) - (b.distToTarget + b.distToClosestDecoy)| ≤
        32 * DBL_EPSILON * max |a.distToTarget + a.distToClosestDecoy|
          |b.distToTarget + b.distToClosestDecoy| := by
  unfold approximatelyEqual
  simp only [decide_eq_false_iff_not]

/-- C6: the comparator is irreflexive, and asymmetric: `compare(a,a)` is false
and `compare(a,b)` excludes `compare(b,a)`, for all morphs with finite
(rational) distances. -/
theorem C6_compare_irreflexive_asymmetric (a b : MolpherMolecule) :
    CompareMorphs a a = false ∧ (CompareMorphs a b = true → CompareMorphs b a = false) := by
  constructor
  · unfold CompareMorphs
    simp [approximatelyEqual_self]
  · unfold CompareMorphs
    rw [approximatelyEqual_comm b a]
    cases h : approximatelyEqual a b
    · simp only [Bool.false_eq_true, if_false, decide_eq_true_eq, decide_eq_false_iff_not,
        not_lt]
      intro hlt; exact le_of_lt hlt
    · simp only [if_true, decide_eq_true_eq, decide_eq_false_iff_not, not_lt]
      intro hlt; exact le_of_lt hlt

/-- C7, as stated, fails: `cmpA` precedes `cmpB` and `cmpB` precedes `cmpC`
(both pairs are within the tolerance and are ordered on `distToTarget`), yet
`cmpA` does not precede `cmpC` (their sums differ by more than the tolerance and
the sum of `cmpA` is the larger). -/
theorem C7_compare_not_transitive :
    CompareMorphs cmpA cmpB = true ∧ CompareMorphs cmpB cmpC = true ∧
      CompareMorphs cmpA cmpC = false := by
  refine ⟨?_, ?_, ?_⟩ <;>
    simp only [CompareMorphs, approximatelyEqual, cmpA, cmpB, cmpC, DBL_EPSILON] <;>
    decide!

/-- C7, amended: on three morphs among which approximate equality of the sums
is transitive, `compare(a,b)` and `compare(b,c)` imply `compare(a,c)`. -/
theorem C7_compare_transitive_amended (a b c : MolpherMolecule)
    (htrans : ∀ x y z, x ∈ [a, b, c] → y ∈ [a, b, c] → z ∈ [a, b, c] →
      approximatelyEqual x y = true → approximatelyEqual y z = true →
      approximatelyEqual x z = true)
    (hab : CompareMorphs a b = true) (hbc : CompareMorphs b c = true) :
    CompareMorphs a c = true := by
  have ma : a ∈ [a, b, c] := by simp
  have mb : b ∈ [a, b, c] := by simp
  have mc : c ∈ [a, b, c] := by simp
  have ht := tolerance_nonneg
  unfold CompareMorphs at hab hbc ⊢
  cases eab : approximatelyEqual a b <;> cases ebc : approximatelyEqual b c <;>
    cases eac : approximatelyEqual a c <;>
    simp only [eab, ebc, eac, Bool.false_eq_true, if_false, if_true, decide_eq_true_eq]
      at hab hbc ⊢
  · -- far, far, far
    exact lt_trans hab hbc
  · -- far, far, near: impossible
    exfalso
    exact far_add ht hab hbc ((approximatelyEqual_false_iff _ _).mp eab)
      ((approximatelyEqual_false_iff _ _).mp ebc) ((approximatelyEqual_true_iff _ _).mp eac)
  · -- far, near, far
    by_contra hge
    have hne := (approximatelyEqual_false_iff _ _).mp eac
    have hca : c.distToTarget + c.distToClosestDecoy < a.distToTarget + a.distToClosestDecoy := by
      rcases lt_or_eq_of_le (not_lt.mp hge) with h | h
      · exact h
      · exfalso; apply hne; rw [h]; simp only [sub_self, abs_zero, max_self]
        exact mul_nonneg ht (abs_nonneg _)
    have eca := eac; rw [approximatelyEqual_comm] at eca
    have ecb := ebc; rw [approximatelyEqual_comm] at ecb
    exact far_add ht hca hab ((approximatelyEqual_false_iff _ _).mp eca)
      ((approximatelyEqual_false_iff _ _).mp eab) ((approximatelyEqual_true_iff _ _).mp ecb)
  · -- far, near, near: contradicts transitivity
    exfalso
    have hcb : approximatelyEqual c b = true := by rw [approximatelyEqual_comm]; exact ebc
    have := htrans a c b ma mc mb eac hcb
    rw [eab] at this; exact Bool.false_ne_true this
  · -- near, far, far
    by_contra hge
    have hne := (approximatelyEqual_false_iff _ _).mp eac
    have hca : c.distToTarget + c.distToClosestDecoy < a.distToTarget + a.distToClosestDecoy := by
      rcases lt_or_eq_of_le (not_lt.mp hge) with h | h
      · exact h
      · exfalso; apply hne; rw [h]; simp only [sub_self, abs_zero, max_self]
        exact mul_nonneg ht (abs_nonneg _)
    have eca := eac; rw [approximatelyEqual_comm] at eca
    have eba := eab; rw [approximatelyEqual_comm] at eba
    exact far_add ht hbc hca ((approximatelyEqual_false_iff _ _).mp ebc)
      ((approximatelyEqual_false_iff _ _).mp eca) ((approximatelyEqual_true_iff _ _).mp eba)
  · -- near, far, near: contradicts transitivity
    exfalso
    have hba : approximatelyEqual b a = true := by rw [approximatelyEqual_comm]; exact eab
    have := htrans b a c mb ma mc hba eac
    rw [ebc] at this; exact Bool.false_ne_true this
  · -- near, near, far: contradicts transitivity
    exfalso
    have := htrans a b c ma mb mc eab ebc
    rw [eac] at this; exact Bool.false_ne_true this
  · -- near, near, near
    exact lt_trans hab hbc

theorem tie_triple_approx (x y : MolpherMolecule) (hx : x ∈ [tieA, tieB, cmpC])
    (hy : y ∈ [tieA, tieB, cmpC]) : approximatelyEqual x y = true := by
  simp only [List.mem_cons, List.mem_singleton, List.not_mem_nil, or_false] at hx hy
  rcases hx with rfl | rfl | rfl <;> rcases hy with rfl | rfl | rfl <;>
    simp only [approximatelyEqual, tieA, tieB, cmpA, cmpB, cmpC, DBL_EPSILON] <;> decide!

/-- C7 witness: the amended transitivity applied to three morphs of equal sum,
ordered by the tie-break on `distToTarget`. -/
theorem C7_compare_transitive_amended_witness :
    CompareMorphs tieA tieB = true ∧ CompareMorphs tieB cmpC = true ∧
      CompareMorphs tieA cmpC = true :=
  have h₁ : CompareMorphs tieA tieB = true := by
    simp only [CompareMorphs, approximatelyEqual, tieA, tieB, cmpA, cmpB, DBL_EPSILON]; decide!
  have h₂ : CompareMorphs tieB cmpC = true := by
    simp only [CompareMorphs, approximatelyEqual, tieB, cmpA, cmpB, cmpC, DBL_EPSILON]; decide!
  ⟨h₁, h₂, C7_compare_transitive_amended tieA tieB cmpC
    (fun x _ z hx _ hz _ _ => tie_triple_approx x z hx hz) h₁ h₂⟩

/-! ## Morph collector -/

theorem CollectMorphs.deliver_append (c : CollectMorphs) (ms : List MolpherMolecule)
    (m : MolpherMolecule) :
    CollectMorphs.deliver c (ms ++ [m]) = CollectMorphs.call (CollectMorphs.deliver c ms) m := by
  simp [CollectMorphs.deliver, List.foldl_append]

/-- What a fresh collector holds after any sequence of deliveries: the checker
holds the fingerprints of the output, the output has distinct fingerprints drawn
in order from the deliveries, and each output morph is the first delivery of its
fingerprint. -/
theorem CollectMorphs.deliver_fresh_spec (ms : List MolpherMolecule) :
    let c := CollectMorphs.deliver (CollectMorphs.ctor []) ms
    (∀ s, s ∈ c.mDuplicateChecker ↔ s ∈ c.mMorphs.map (·.smile)) ∧
    (c.mMorphs.map (·.smile)).Nodup ∧
    (∀ s, s ∈ c.mMorphs.map (·.smile) ↔ s ∈ ms.map (·.smile)) ∧
    c.mMorphs.Sublist ms ∧
    (∀ m ∈ c.mMorphs, ms.find? (fun x => decide (x.smile = m.smile)) = some m) := by
  induction ms using List.reverseRecOn with
  | nil => simp [CollectMorphs.deliver, CollectMorphs.ctor]
  | append_singleton ms m ih =>
    rw [CollectMorphs.deliver_append]
    obtain ⟨h₁, h₂, h₃, h₄, h₅⟩ := ih
    generalize CollectMorphs.deliver (CollectMorphs.ctor []) ms = c at h₁ h₂ h₃ h₄ h₅
    by_cases hm : m.smile ∈ c.mDuplicateChecker
    · have hc : (CollectMorphs.call c m).mMorphs = c.mMorphs ∧
          (CollectMorphs.call c m).mDuplicateChecker = c.mDuplicateChecker := by
        simp [CollectMorphs.call, SmileSet.insert, hm]
      simp only [hc.1, hc.2]
      refine ⟨h₁, h₂, ?_, ?_, ?_⟩
      · intro s
        rw [h₃ s]
        simp only [List.map_append, List.mem_append, List.map_cons, List.map_nil,
          List.mem_singleton]
        constructor
        · intro h; exact Or.inl h
        · rintro (h | rfl)
          · exact h
          · exact (h₃ _).mp ((h₁ _).mp hm)
      · exact h₄.trans (List.sublist_append_left ms [m])
      · intro x hx
        rw [List.find?_append, h₅ x hx]; rfl
    · have hc : (CollectMorphs.call c m).mMorphs = c.mMorphs ++ [m] ∧
          (CollectMorphs.call c m).mDuplicateChecker = c.mDuplicateChecker ++ [m.smile] := by
        simp [CollectMorphs.call, SmileSet.insert, hm]
      simp only [hc.1, hc.2]
      have hnot : m.smile ∉ c.mMorphs.map (·.smile) := fun h => hm ((h₁ _).mpr h)
      refine ⟨?_, ?_, ?_, ?_, ?_⟩
      · intro s
        simp only [List.mem_append, List.mem_singleton, List.map_append, List.map_cons,
          List.map_nil, h₁ s]
      · rw [List.map_append, List.nodup_append]
        refine ⟨h₂, by simp, ?_⟩
        intro s hs hs'
        simp only [List.map_cons, List.map_nil, List.mem_singleton] at hs'
        subst hs'; exact hnot hs
      · intro s
        simp only [List.map_append, List.mem_append, List.map_cons, List.map_nil,
          List.mem_singleton, h₃ s]
      · exact List.Sublist.append h₄ (List.Sublist.refl _)
      · intro x hx
        rw [List.mem_append, List.mem_singleton] at hx
        rcases hx with hx | rfl
        · rw [List.find?_append, h₅ x hx]; rfl
        · have hnone : ms.find? (fun y => decide (y.smile = x.smile)) = none := by
            rw [List.find?_eq_none]
            intro y hy hxy
            simp only [decide_eq_true_eq] at hxy
            apply hnot
            rw [h₃]
            exact List.mem_map.mpr ⟨y, hy, hxy⟩
          rw [List.find?_append, hnone]
          simp

/-- C8: for every sequence of deliveries to a fresh `CollectMorphs`, the output
has pairwise distinct fingerprints, its fingerprints are exactly the delivered
ones, it keeps the delivery order, and each kept morph is the first delivery of
its fingerprint; delivering `"X"` twice leaves exactly one `"X"`. -/
theorem C8_collect_dedup (ms : List MolpherMolecule) :
    ((CollectMorphs.deliver (CollectMorphs.ctor []) ms).mMorphs.map (·.smile)).Nodup ∧
    (∀ s, s ∈ (CollectMorphs.deliver (CollectMorphs.ctor []) ms).mMorphs.map (·.smile) ↔
      s ∈ ms.map (·.smile)) ∧
    (CollectMorphs.deliver (CollectMorphs.ctor []) ms).mMorphs.Sublist ms ∧
    (∀ m ∈ (CollectMorphs.deliver (CollectMorphs.ctor []) ms).mMorphs,
      ms.find? (fun x => decide (x.smile = m.smile)) = some m) ∧
    (CollectMorphs.deliver (CollectMorphs.ctor []) [morphX, morphX]).mMorphs.map (·.smile)
      = ["X"] := by
  obtain ⟨_, h₂, h₃, h₄, h₅⟩ := CollectMorphs.deliver_fresh_spec ms
  exact ⟨h₂, h₃, h₄, h₅, by decide⟩

theorem CollectMorphs.withdraw_fst (c : CollectMorphs) :
    (CollectMorphs.WithdrawCollectAttemptCount c).1 = c.mCollectAttemptCount % UINT_MOD := rfl

theorem CollectMorphs.count_deliver (c : CollectMorphs) (ms : List MolpherMolecule) :
    (CollectMorphs.deliver c ms).mCollectAttemptCount % UINT_MOD =
      (c.mCollectAttemptCount + ms.length) % UINT_MOD := by
  induction ms using List.reverseRecOn with
  | nil => simp [CollectMorphs.deliver]
  | append_singleton ms m ih =>
    rw [CollectMorphs.deliver_append]
    have hc : (CollectMorphs.call (CollectMorphs.deliver c ms) m).mCollectAttemptCount =
        ((CollectMorphs.deliver c ms).mCollectAttemptCount + 1) % UINT_MOD := by
      unfold CollectMorphs.call
      simp only []
      split <;> rfl
    rw [hc, Nat.mod_mod, Nat.add_mod, ih, List.length_append, List.length_singleton,
      ← Nat.add_assoc]
    simp [Nat.add_mod]

/-- C9, as stated, fails: after `2^32` deliveries to a fresh collector the
withdraw returns `0`, not the number of deliveries. -/
theorem C9_withdraw_wraps :
    (CollectMorphs.WithdrawCollectAttemptCount
      (CollectMorphs.deliver (CollectMorphs.ctor [])
        (List.replicate 4294967296 morphX))).1 = 0 ∧
    (List.replicate 4294967296 morphX).length = 4294967296 := by
  refine ⟨?_, List.length_replicate _ _⟩
  rw [CollectMorphs.withdraw_fst, CollectMorphs.count_deliver, List.length_replicate]
  simp [CollectMorphs.ctor, UINT_MOD]

/-- C9, amended: after construction or a withdraw, delivering any sequence of
morphs (duplicates included) and withdrawing returns the number of deliveries
modulo `2^32` (the number itself when it is below `2^32`), and an immediately
following withdraw returns `0`. -/
theorem C9_withdraw_amended (c : CollectMorphs) (morphs ms : List MolpherMolecule) :
    (∀ c₀, c₀ = CollectMorphs.ctor morphs ∨
        c₀ = (CollectMorphs.WithdrawCollectAttemptCount c).2 →
      (CollectMorphs.WithdrawCollectAttemptCount (CollectMorphs.deliver c₀ ms)).1
          = ms.length % 2 ^ 32 ∧
      (ms.length < 2 ^ 32 →
        (CollectMorphs.WithdrawCollectAttemptCount (CollectMorphs.deliver c₀ ms)).1
          = ms.length) ∧
      (CollectMorphs.WithdrawCollectAttemptCount
        (CollectMorphs.WithdrawCollectAttemptCount (CollectMorphs.deliver c₀ ms)).2).1 = 0) ∧
    (CollectMorphs.WithdrawCollectAttemptCount
      (CollectMorphs.deliver (CollectMorphs.ctor []) [morphX, morphX])).1 = 2 := by
  refine ⟨?_, by decide⟩
  intro c₀ hc₀
  have h0 : c₀.mCollectAttemptCount = 0 := by
    rcases hc₀ with rfl | rfl <;> rfl
  have hret : (CollectMorphs.WithdrawCollectAttemptCount (CollectMorphs.deliver c₀ ms)).1
      = ms.length % 2 ^ 32 := by
    rw [CollectMorphs.withdraw_fst, CollectMorphs.count_deliver, h0, Nat.zero_add]; rfl
  refine ⟨hret, ?_, rfl⟩
  intro hlt
  rw [hret, Nat.mod_eq_of_lt hlt]

/-! ## Filter -/

theorem FilterMorphs.survives_spec (ctx : PathFinderContext) (parent morph : MolpherMolecule)
    (hs : ctx.ScaffoldMode = false)
    (hp : ctx.candidates.find morph.parentSmile = some parent) :
    ∃ b, FilterMorphs.survives ctx morph = some b ∧
      (b = true ↔ FilterMorphs.specAccepts ctx parent morph) := by
  unfold FilterMorphs.survives FilterMorphs.specAccepts FilterMorphs.alreadyExists
    ConcMap.contains
  simp only [hs, hp, Bool.not_false, if_true]
  by_cases h1 : morph.molecularWeight < ctx.params.minAcceptableMolecularWeight
  · simp [h1, not_le.mpr h1]
  by_cases h2 : morph.molecularWeight > ctx.params.maxAcceptableMolecularWeight
  · simp [h1, h2, not_le.mpr h2]
  have h1' := not_lt.mp h1
  have h2' := not_lt.mp h2
  cases hu : ctx.params.useSyntetizedFeasibility <;>
  cases hf : ConcMap.find ctx.candidates morph.smile <;>
  cases hd : ConcMap.find ctx.morphDerivations morph.smile <;>
  rcases lt_or_le 6 morph.sascore with h3 | h3 <;>
  by_cases h4 : morph.smile ∈ parent.historicDescendants <;>
  simp [h1, h2, h1', h2', h3, h4, not_le.mpr, not_lt.mpr] <;>
  exact lt_or_le _ _

/-- A loop whose body at `i` either fails, leaves the vector alone, or writes
position `i`: what the result holds at every position. -/
theorem foldlM_set_spec (g : Nat → Option (Option Bool))
    (body : List Bool → Nat → Option (List Bool))
    (hbody : ∀ s i, body s i =
      (g i).map (fun o => match o with | none => s | some v => s.set i v)) :
    ∀ (l : List Nat) (s s' : List Bool), l.Nodup → l.foldlM body s = some s' →
      s'.length = s.length ∧
      (∀ i ∈ l, ∃ o, g i = some o ∧
        s'[i]? = match o with | none => s[i]? | some v => (s.set i v)[i]?) ∧
      (∀ i, i ∉ l → s'[i]? = s[i]?) := by
  intro l
  induction l with
  | nil =>
    intro s s' _ h
    simp only [List.foldlM_nil, pure, Option.some.injEq] at h
    subst h
    simp
  | cons j l ih =>
    intro s s' hnd h
    rw [List.nodup_cons] at hnd
    rw [List.foldlM_cons] at h
    cases hb : body s j with
    | none => rw [hb] at h; simp at h
    | some s₁ =>
      rw [hb] at h
      simp only [bind, Option.bind] at h
      obtain ⟨hlen, hin, hout⟩ := ih s₁ s' hnd.2 h
      rw [hbody] at hb
      cases hg : g j with
      | none => rw [hg] at hb; simp at hb
      | some o =>
        rw [hg] at hb
        simp only [Option.map_some', Option.some.injEq] at hb
        have hlen₁ : s₁.length = s.length := by
          subst hb; cases o <;> simp
        have hother : ∀ i, i ≠ j → s₁[i]? = s[i]? := by
          intro i hij
          subst hb
          cases o with
          | none => rfl
          | some v => simp only []; exact List.getElem?_set_ne (Ne.symm hij)
        refine ⟨hlen.trans hlen₁, ?_, ?_⟩
        · intro i hi
          rw [List.mem_cons] at hi
          rcases hi with rfl | hi
          · refine ⟨o, hg, ?_⟩
            rw [hout i hnd.1]
            subst hb
            cases o <;> rfl
          · obtain ⟨o', ho', hv⟩ := hin i hi
            have hij : i ≠ j := fun e => hnd.1 (e ▸ hi)
            refine ⟨o', ho', ?_⟩
            rw [hv]
            cases o' with
            | none => exact hother i hij
            | some v =>
              show (s₁.set i v)[i]? = (s.set i v)[i]?
              rw [List.getElem?_set, List.getElem?_set, hother i hij, hlen₁]
        · intro i hi
          rw [List.mem_cons, not_or] at hi
          rw [hout i hi.2, hother i hi.1]

/-- Such a loop completes when no body fails. -/
theorem foldlM_set_total (g : Nat → Option (Option Bool))
    (body : List Bool → Nat → Option (List Bool))
    (hbody : ∀ s i, body s i =
      (g i).map (fun o => match o with | none => s | some v => s.set i v)) :
    ∀ (l : List Nat) (s : List Bool), (∀ i ∈ l, (g i).isSome = true) →
      (l.foldlM body s).isSome = true := by
  intro l
  induction l with
  | nil => intro s _; rfl
  | cons j l ih =>
    intro s h
    rw [List.foldlM_cons, hbody]
    have hj := h j (List.mem_cons_self _ _)
    cases hg : g j with
    | none => rw [hg] at hj; simp at hj
    | some o =>
      simp only [Option.map_some', bind, Option.bind]
      exact ih _ (fun i hi => h i (List.mem_cons_of_mem _ hi))

theorem PathFinder.FilterMorphs.body_eq (ctx : PathFinderContext) (N : Nat)
    (mMorphs : List MolpherMolecule) (rand : Nat → Nat) (s : List Bool) (i : Nat) :
    PathFinder.FilterMorphs.body ctx N mMorphs rand s i =
      (PathFinder.FilterMorphs.outcome ctx N mMorphs rand i).map
        (fun o => match o with | none => s | some v => s.set i v) := by
  unfold PathFinder.FilterMorphs.body PathFinder.FilterMorphs.outcome
  cases mMorphs[i]? with
  | none => rfl
  | some morph =>
    simp only []
    split
    · cases Molpher.FilterMorphs.survives ctx morph <;> rfl
    · rfl

theorem PathFinderActivity.FilterMorphs.body_eq_act (ctx : PathFinderContext)
    (mMorphs : List MolpherMolecule) (s : List Bool) (i : Nat) :
    PathFinderActivity.FilterMorphs.body ctx mMorphs s i =
      (PathFinderActivity.FilterMorphs.outcome ctx mMorphs i).map
        (fun o => match o with | none => s | some v => s.set i v) := by
  unfold PathFinderActivity.FilterMorphs.body PathFinderActivity.FilterMorphs.outcome
  cases mMorphs[i]? with
  | none => rfl
  | some morph =>
    simp only []
    cases Molpher.FilterMorphs.survives ctx morph <;> rfl

/-- C4: Filter verdict in non-scaffold mode. When every morph's parent is a key
of `candidates` both Filter stages complete; and whenever a Filter stage
completes, for the morph at index `i` with parent `p` in `candidates`,
`survivors[i]` is true iff the morph passed the roll (path mode only) and its
weight is within bounds, its sascore is acceptable, its fingerprint is not a key
of `candidates` nor in `p.historicDescendants`, and `morphDerivations` holds no
count above `cntMaxMorphs` for it; otherwise `survivors[i]` is false. -/
theorem C4_filter_verdict (ctx : PathFinderContext) (morphs : List MolpherMolecule)
    (rand : Nat → Nat) (hs : ctx.ScaffoldMode = false) :
    ((∀ m ∈ morphs, (ctx.candidates.find m.parentSmile).isSome = true) →
      (PathFinder.filterStage ctx morphs rand).isSome = true ∧
      (PathFinderActivity.filterStage ctx morphs).isSome = true) ∧
    (∀ surv, PathFinder.filterStage ctx morphs rand = some surv →
      surv.length = morphs.length ∧
      ∀ (i : Nat) m p, morphs[i]? = some m → ctx.candidates.find m.parentSmile = some p →
        (surv[i]? = some true ↔
          PathFinder.FilterMorphs.mightSurvive ctx morphs.length m i (rand i) = true ∧
            FilterMorphs.specAccepts ctx p m) ∧
        (surv[i]? = some false ↔
          ¬ (PathFinder.FilterMorphs.mightSurvive ctx morphs.length m i (rand i) = true ∧
            FilterMorphs.specAccepts ctx p m))) ∧
    (∀ surv, PathFinderActivity.filterStage ctx morphs = some surv →
      surv.length = morphs.length ∧
      ∀ (i : Nat) m p, morphs[i]? = some m → ctx.candidates.find m.parentSmile = some p →
        (surv[i]? = some true ↔ FilterMorphs.specAccepts ctx p m) ∧
        (surv[i]? = some false ↔ ¬ FilterMorphs.specAccepts ctx p m)) := by
  refine ⟨?_, ?_, ?_⟩
  · intro hpar
    have hsurv : ∀ m ∈ morphs, (FilterMorphs.survives ctx m).isSome = true := by
      intro m hm
      obtain ⟨p, hp⟩ := Option.isSome_iff_exists.mp (hpar m hm)
      obtain ⟨b, hb, _⟩ := FilterMorphs.survives_spec ctx p m hs hp
      rw [hb]; rfl
    constructor
    · unfold PathFinder.filterStage PathFinder.FilterMorphs forRange
      apply foldlM_set_total _ _ (PathFinder.FilterMorphs.body_eq ctx _ morphs rand)
      intro i hi
      rw [List.mem_range'_1] at hi
      have hlt : i < morphs.length := by omega
      unfold PathFinder.FilterMorphs.outcome
      rw [List.getElem?_eq_getElem hlt]
      simp only []
      split
      · have := hsurv _ (List.getElem_mem hlt)
        obtain ⟨b, hb⟩ := Option.isSome_iff_exists.mp this
        rw [hb]; rfl
      · rfl
    · unfold PathFinderActivity.filterStage PathFinderActivity.FilterMorphs forRange
      apply foldlM_set_total _ _ (PathFinderActivity.FilterMorphs.body_eq_act ctx morphs)
      intro i hi
      rw [List.mem_range'_1] at hi
      have hlt : i < morphs.length := by omega
      unfold PathFinderActivity.FilterMorphs.outcome
      rw [List.getElem?_eq_getElem hlt]
      simp only []
      have := hsurv _ (List.getElem_mem hlt)
      obtain ⟨b, hb⟩ := Option.isSome_iff_exists.mp this
      rw [hb]; rfl
  · intro surv hsurv
    unfold PathFinder.filterStage PathFinder.FilterMorphs forRange at hsurv
    obtain ⟨hlen, hin, _⟩ := foldlM_set_spec _ _
      (PathFinder.FilterMorphs.body_eq ctx _ morphs rand) _ _ _ (List.nodup_range' _ _) hsurv
    rw [List.length_replicate] at hlen
    refine ⟨hlen, ?_⟩
    intro i m p hm hp
    have hlt : i < morphs.length := by
      rcases Nat.lt_or_ge i morphs.length with h | h
      · exact h
      · rw [List.getElem?_eq_none h] at hm; cases hm
    obtain ⟨o, ho, hv⟩ := hin i (by rw [List.mem_range'_1]; omega)
    obtain ⟨b, hb, hspec⟩ := FilterMorphs.survives_spec ctx p m hs hp
    unfold PathFinder.FilterMorphs.outcome at ho
    rw [hm] at ho
    simp only [hb, Option.map_some'] at ho
    cases hroll : PathFinder.FilterMorphs.mightSurvive ctx morphs.length m i (rand i)
    · rw [hroll] at ho
      simp only [Bool.false_eq_true, if_false, Option.some.injEq] at ho
      subst ho
      have : surv[i]? = some false := by
        rw [hv]; simp [List.getElem?_replicate, hlt]
      rw [this]; simp
    · rw [hroll] at ho
      simp only [if_true, Option.some.injEq] at ho
      subst ho
      have : surv[i]? = some b := by
        rw [hv]; simp [List.getElem?_set, hlt]
      rw [this]
      cases b <;> simp_all
  · intro surv hsurv
    unfold PathFinderActivity.filterStage PathFinderActivity.FilterMorphs forRange at hsurv
    obtain ⟨hlen, hin, _⟩ := foldlM_set_spec _ _
      (PathFinderActivity.FilterMorphs.body_eq_act ctx morphs) _ _ _ (List.nodup_range' _ _) hsurv
    rw [List.length_replicate] at hlen
    refine ⟨hlen, ?_⟩
    intro i m p hm hp
    have hlt : i < morphs.length := by
      rcases Nat.lt_or_ge i morphs.length with h | h
      · exact h
      · rw [List.getElem?_eq_none h] at hm; cases hm
    obtain ⟨o, ho, hv⟩ := hin i (by rw [List.mem_range'_1]; omega)
    obtain ⟨b, hb, hspec⟩ := FilterMorphs.survives_spec ctx p m hs hp
    unfold PathFinderActivity.FilterMorphs.outcome at ho
    rw [hm] at ho
    simp only [hb, Option.map_some', Option.some.injEq] at ho
    subst ho
    have : surv[i]? = some b := by
      rw [hv]; simp [List.getElem?_set, hlt]
    rw [this]
    cases b <;> simp_all

/-- C4 witness: the theorem at `filterCtx`, `filterMorphs` and the constant
draw `50`; there the path-mode Filter keeps only `"C"` (the roll rejects `"G"`)
and the activity-mode Filter keeps `"C"` and `"G"`. -/
theorem C4_filter_verdict_witness :
    filterCtx.ScaffoldMode = false ∧
    PathFinder.filterStage filterCtx filterMorphs (fun _ => 50)
      = some [true, false, false, false, false, false, false] ∧
    PathFinderActivity.filterStage filterCtx filterMorphs
      = some [true, false, false, false, false, false, true] ∧
    ((∀ m ∈ filterMorphs, (filterCtx.candidates.find m.parentSmile).isSome = true) →
      (PathFinder.filterStage filterCtx filterMorphs (fun _ => 50)).isSome = true ∧
      (PathFinderActivity.filterStage filterCtx filterMorphs).isSome = true) :=
  ⟨by decide, by decide!, by decide!,
    (C4_filter_verdict filterCtx filterMorphs (fun _ => 50) (by decide)).1⟩

/-! ## Containers: basic facts -/

namespace ConcMap

variable {V : Type}

theorem find_assign (m : ConcMap V) (k k' : String) (v : V) :
    find (assign m k v) k' = if k = k' then some v else find m k' := by
  induction m with
  | nil =>
    simp only [assign, find]
  | cons kv m ih =>
    obtain ⟨a, w⟩ := kv
    simp only [assign]
    by_cases ha : a = k
    · subst ha
      simp only [if_true, find]
      by_cases h : a = k' <;> simp [h]
    · simp only [ha, if_false, find, ih]
      by_cases h : a = k'
      · subst h
        simp [ha, Ne.symm ha]
      · simp [h]

theorem find_assign_self (m : ConcMap V) (k : String) (v : V) :
    find (assign m k v) k = some v := by
  rw [find_assign]; simp

theorem find_assign_ne (m : ConcMap V) {k k' : String} (v : V) (h : k ≠ k') :
    find (assign m k v) k' = find m k' := by
  rw [find_assign]; simp [h]

theorem find_erase (m : ConcMap V) (k k' : String) :
    find (erase m k) k' = if k = k' then none else find m k' := by
  induction m with
  | nil => simp [erase, find]
  | cons kv m ih =>
    obtain ⟨a, w⟩ := kv
    simp only [erase]
    by_cases ha : a = k
    · subst ha
      simp only [if_true, ih, find]
      by_cases h : a = k' <;> simp [h]
    · simp only [ha, if_false, find, ih]
      by_cases h : a = k'
      · subst h
        simp [ha, Ne.symm ha]
      · simp [h]

theorem find_erase_self (m : ConcMap V) (k : String) : find (erase m k) k = none := by
  rw [find_erase]; simp

theorem find_erase_ne (m : ConcMap V) {k k' : String} (h : k ≠ k') :
    find (erase m k) k' = find m k' := by
  rw [find_erase]; simp [h]

theorem contains_iff (m : ConcMap V) (k : String) :
    contains m k = true ↔ ∃ v, find m k = some v := by
  unfold contains
  exact Option.isSome_iff_exists

theorem contains_eq_false_iff (m : ConcMap V) (k : String) :
    contains m k = false ↔ find m k = none := by
  unfold contains
  cases find m k <;> simp

theorem mem_keys_iff (m : ConcMap V) (k : String) :
    k ∈ keys m ↔ ∃ v, find m k = some v := by
  induction m with
  | nil => simp [keys, find]
  | cons kv m ih =>
    obtain ⟨a, w⟩ := kv
    simp only [keys, List.map_cons, List.mem_cons, find] at ih ⊢
    by_cases h : a = k
    · subst h; simp
    · simp only [h, if_false]
      rw [← ih]
      constructor
      · rintro (e | e)
        · exact absurd e.symm h
        · exact e
      · intro e; exact Or.inr e

theorem keys_assign (m : ConcMap V) (k : String) (v : V) :
    keys (assign m k v) = if contains m k then keys m else keys m ++ [k] := by
  induction m with
  | nil => simp [assign, keys, contains, find]
  | cons kv m ih =>
    obtain ⟨a, w⟩ := kv
    simp only [assign]
    by_cases ha : a = k
    · subst ha
      simp [keys, contains, find]
    · simp only [ha, if_false]
      have hc : contains ((a, w) :: m) k = contains m k := by
        simp [contains, find, ha]
      rw [hc]
      simp only [keys, List.map_cons] at ih ⊢
      rw [ih]
      split <;> simp

theorem length_assign (m : ConcMap V) (k : String) (v : V) :
    (assign m k v).length = if contains m k then m.length else m.length + 1 := by
  have h := congrArg List.length (keys_assign m k v)
  simp only [keys, List.length_map] at h
  rw [h]
  split <;> simp

theorem length_erase_le (m : ConcMap V) (k : String) : (erase m k).length ≤ m.length := by
  induction m with
  | nil => simp [erase]
  | cons kv m ih =>
    obtain ⟨a, w⟩ := kv
    simp only [erase]
    split
    · exact Nat.le_succ_of_le ih
    · simp only [List.length_cons]; omega

theorem length_erase_lt (m : ConcMap V) (k : String) (h : contains m k = true) :
    (erase m k).length < m.length := by
  induction m with
  | nil => simp [contains, find] at h
  | cons kv m ih =>
    obtain ⟨a, w⟩ := kv
    simp only [erase]
    by_cases ha : a = k
    · simp only [ha, if_true, List.length_cons]
      exact Nat.lt_succ_of_le (length_erase_le m k)
    · simp only [ha, if_false, List.length_cons]
      have : contains m k = true := by
        simpa [contains, find, ha] using h
      have := ih this
      omega

end ConcMap

namespace StrSet

theorem mem_insert (s : StrSet) (x y : String) :
    y ∈ insert s x ↔ y = x ∨ y ∈ s := by
  unfold insert
  split
  · constructor
    · intro h; exact Or.inr h
    · rintro (rfl | h)
      · assumption
      · exact h
  · exact List.mem_orderedInsert _

theorem mem_erase (s : StrSet) (x y : String) :
    y ∈ erase s x ↔ y ∈ s ∧ y ≠ x := by
  unfold erase
  simp [List.mem_filter]

end StrSet

/-! ## Pareto filter -/

/-- C5, evaluated: one `MOOPFilter` pass over the full mask. With `[0,0]` at
the last index it is the only survivor; with `[0,0]` at the first index its
`mNext` entry is cleared before the other two are examined, and all three
survive although `[0,0]` dominates both. -/
theorem C5_moop_pass_depends_on_order :
    PathFinderActivity.MOOPFilter moopLast [true, true, true] [true, true, true] 0 3
      = ([false, false, true], [true, true, false]) ∧
    PathFinderActivity.MOOPFilter moopFirst [true, true, true] [true, true, true] 0 3
      = ([true, true, true], [false, false, false]) ∧
    PathFinderActivity.MOOPFilter.worse
      { blankMol with etalonDistances := [1, 2] } { blankMol with etalonDistances := [0, 0] }
      = true := by
  refine ⟨?_, ?_, ?_⟩ <;> decide!

/-! ## Loops: invariants -/

theorem foldlM_invariant {σ α : Type} (P : σ → Prop) (body : σ → α → Option σ)
    (l : List α) (hstep : ∀ s a s', a ∈ l → P s → body s a = some s' → P s') :
    ∀ s s', P s → l.foldlM body s = some s' → P s' := by
  induction l with
  | nil =>
    intro s s' hs h
    simp only [List.foldlM_nil, pure, Option.some.injEq] at h
    exact h ▸ hs
  | cons a l ih =>
    intro s s' hs h
    rw [List.foldlM_cons] at h
    cases hb : body s a with
    | none => rw [hb] at h; simp at h
    | some s₁ =>
      rw [hb] at h
      simp only [bind, Option.bind] at h
      exact ih (fun s a' s' ha' => hstep s a' s' (List.mem_cons_of_mem _ ha')) s₁ s'
        (hstep s a s₁ (List.mem_cons_self _ _) hs hb) h

theorem foldlM_total {σ α : Type} (P : σ → Prop) (body : σ → α → Option σ)
    (l : List α) (hstep : ∀ s a, a ∈ l → P s → ∃ s', body s a = some s' ∧ P s') :
    ∀ s, P s → ∃ s', l.foldlM body s = some s' ∧ P s' := by
  induction l with
  | nil => intro s hs; exact ⟨s, rfl, hs⟩
  | cons a l ih =>
    intro s hs
    obtain ⟨s₁, hb, hs₁⟩ := hstep s a (List.mem_cons_self _ _) hs
    rw [List.foldlM_cons, hb]
    simp only [bind, Option.bind]
    exact ih (fun s a' ha' => hstep s a' (List.mem_cons_of_mem _ ha')) s₁ hs₁

theorem forRange_invariant {σ : Type} (P : σ → Prop) (body : σ → Nat → Option σ)
    (b e : Nat) (hstep : ∀ s i s', b ≤ i → i < e → P s → body s i = some s' → P s')
    (s s' : σ) (hs : P s) (h : forRange b e body s = some s') : P s' := by
  unfold forRange at h
  refine foldlM_invariant P body _ ?_ s s' hs h
  intro s i s' hi
  rw [List.mem_range'_1] at hi
  exact hstep s i s' hi.1 (by omega)

theorem forRange_total {σ : Type} (P : σ → Prop) (body : σ → Nat → Option σ)
    (b e : Nat) (hstep : ∀ s i, b ≤ i → i < e → P s → ∃ s', body s i = some s' ∧ P s')
    (s : σ) (hs : P s) : ∃ s', forRange b e body s = some s' ∧ P s' := by
  unfold forRange
  refine foldlM_total P body _ ?_ s hs
  intro s i hi
  rw [List.mem_range'_1] at hi
  exact hstep s i hi.1 (by omega)

/-! ## Acceptance scan -/

theorem AcceptMorphs.insertMorph_spec (ctx ctx₁ : PathFinderContext) (morph : MolpherMolecule)
    (h : AcceptMorphs.insertMorph ctx morph = some ctx₁) :
    ctx₁.candidates = ctx.candidates.assign morph.smile morph ∧
    ctx₁.params = ctx.params ∧ ctx₁.morphDerivations = ctx.morphDerivations ∧
    ctx₁.prunedDuringThisIter = ctx.prunedDuringThisIter ∧
    ctx₁.scaffoldSelector = ctx.scaffoldSelector ∧ ctx₁.source = ctx.source ∧
    ctx₁.target = ctx.target ∧ ctx₁.tempSource = ctx.tempSource ∧
    ctx₁.pathScaffoldMolecules = ctx.pathScaffoldMolecules ∧
    ((ctx.ScaffoldMode = false ∧
        ctx₁.candidateScaffoldMolecules = ctx.candidateScaffoldMolecules) ∨
      (ctx.ScaffoldMode = true ∧
        ctx.candidateScaffoldMolecules.contains morph.scaffoldSmile = false ∧
        ctx₁.candidateScaffoldMolecules =
          ctx.candidateScaffoldMolecules.assign morph.scaffoldSmile morph.smile)) := by
  unfold AcceptMorphs.insertMorph at h
  cases hs : ctx.ScaffoldMode
  · simp only [hs, Bool.not_false, if_true, Option.some.injEq] at h
    subst h
    simp
  · simp only [hs, Bool.not_true, Bool.false_eq_true, if_false] at h
    cases hc : ctx.candidateScaffoldMolecules.contains morph.scaffoldSmile
    · simp only [hc, Bool.false_eq_true, if_false, Option.some.injEq] at h
      subst h
      simp
    · simp [hc] at h

/-- The two ways a final-scan step can complete: without touching the context,
or by inserting the morph at `idx` and linking it to its parent. -/
theorem AcceptMorphs.finalBody_cases (gated : Bool) (mMorphs : List MolpherMolecule)
    (mSurvivors : List Bool) (st st' : AcceptMorphs) (idx : Nat)
    (h : AcceptMorphs.finalBody gated mMorphs mSurvivors st idx = some st') :
    (st'.mCtx = st.mCtx ∧ st'.mModifiedParents = st.mModifiedParents ∧
      (st'.mSurvivorCount = st.mSurvivorCount ∨
        st'.mSurvivorCount = st.mSurvivorCount + 1)) ∨
    (∃ morph ctx₁ parent,
      mSurvivors.getD idx false = true ∧ mMorphs[idx]? = some morph ∧
      (gated = true → st.mSurvivorCount < st.mCtx.params.cntCandidatesToKeepMax) ∧
      AcceptMorphs.insertMorph st.mCtx morph = some ctx₁ ∧
      ctx₁.candidates.find morph.parentSmile = some parent ∧
      st'.mCtx = { ctx₁ with
        candidates :=
          ctx₁.candidates.assign morph.parentSmile
            (AcceptMorphs.withChild parent morph.smile) } ∧
      st'.mModifiedParents = (SmileSet.insert st.mModifiedParents parent.smile).1 ∧
      st'.mSurvivorCount = st.mSurvivorCount + 1) := by
  unfold AcceptMorphs.finalBody at h
  cases hsv : mSurvivors.getD idx false
  · simp only [hsv, Bool.false_eq_true, if_false, Option.some.injEq] at h
    subst h; exact Or.inl ⟨rfl, rfl, Or.inl rfl⟩
  · simp only [hsv, if_true] at h
    by_cases hg : (!gated || decide (st.mSurvivorCount < st.mCtx.params.cntCandidatesToKeepMax))
        = true
    · simp only [hg, if_true] at h
      cases hm : mMorphs[idx]? with
      | none => rw [hm] at h; simp at h
      | some morph =>
        rw [hm] at h
        simp only [] at h
        cases hi : AcceptMorphs.insertMorph st.mCtx morph with
        | none =>
          rw [hi] at h
          simp only [Option.some.injEq] at h
          subst h; exact Or.inl ⟨rfl, rfl, Or.inl rfl⟩
        | some ctx₁ =>
          rw [hi] at h
          simp only [] at h
          unfold AcceptMorphs.linkParent at h
          cases hp : ctx₁.candidates.find morph.parentSmile with
          | none => rw [hp] at h; simp at h
          | some parent =>
            rw [hp] at h
            simp only [Option.some.injEq] at h
            subst h
            refine Or.inr ⟨morph, ctx₁, parent, rfl, rfl, ?_, hi, hp, rfl, rfl, rfl⟩
            intro hgt
            subst hgt
            simpa using hg
    · simp only [hg, Bool.false_eq_true, if_false, Option.some.injEq] at h
      subst h; exact Or.inl ⟨rfl, rfl, Or.inr rfl⟩

theorem AcceptMorphs.keys_after_insert (ctx₁ ctx : PathFinderContext)
    (morph parent : MolpherMolecule)
    (hc : ctx₁.candidates = ctx.candidates.assign morph.smile morph)
    (hp : ctx₁.candidates.find morph.parentSmile = some parent) (p' : MolpherMolecule) :
    ConcMap.keys (ctx₁.candidates.assign morph.parentSmile p') =
      if ctx.candidates.contains morph.smile then ConcMap.keys ctx.candidates
      else ConcMap.keys ctx.candidates ++ [morph.smile] := by
  rw [ConcMap.keys_assign]
  have : ctx₁.candidates.contains morph.parentSmile = true :=
    (ConcMap.contains_iff _ _).mpr ⟨parent, hp⟩
  rw [this, if_pos rfl, hc, ConcMap.keys_assign]

theorem AcceptMorphs.capInv_step (ctx : PathFinderContext)
    (mMorphs : List MolpherMolecule) (mSurvivors : List Bool) (st st' : AcceptMorphs)
    (idx : Nat) (hinv : AcceptMorphs.capInv ctx st)
    (h : AcceptMorphs.finalBody true mMorphs mSurvivors st idx = some st') :
    AcceptMorphs.capInv ctx st' := by
  obtain ⟨hpar, hnew, hlen⟩ := hinv
  rcases AcceptMorphs.finalBody_cases _ _ _ _ _ _ h with
    ⟨hctx, _, hcnt⟩ | ⟨morph, ctx₁, parent, _, _, hgate, hins, hp, hctx, _, hcnt⟩
  · unfold AcceptMorphs.capInv
    rw [hctx]
    refine ⟨hpar, ?_, ?_⟩
    · rcases hcnt with e | e <;> rw [e] <;> omega
    · rcases hcnt with e | e <;> rw [e] <;> omega
  · have hlt := hgate rfl
    rw [hpar] at hlt
    obtain ⟨hc, hp₁, _⟩ := AcceptMorphs.insertMorph_spec _ _ _ hins
    have hkeys := AcceptMorphs.keys_after_insert ctx₁ st.mCtx morph parent hc hp
      (AcceptMorphs.withChild parent morph.smile)
    unfold AcceptMorphs.capInv
    rw [hctx, hcnt]
    simp only []
    refine ⟨hp₁.trans hpar, ?_, ?_⟩
    · rw [hkeys]
      split
      · omega
      · rw [List.filter_append, List.length_append]
        have : ([morph.smile].filter (fun k => !ConcMap.contains ctx.candidates k)).length
            ≤ 1 := by
          have := List.length_filter_le (fun k => !ConcMap.contains ctx.candidates k)
            [morph.smile]
          simpa using this
        omega
    · have hcon : ctx₁.candidates.contains morph.parentSmile = true :=
        (ConcMap.contains_iff _ _).mpr ⟨parent, hp⟩
      rw [ConcMap.length_assign, hcon, if_pos rfl, hc, ConcMap.length_assign]
      split <;> omega

/-- Keys of `candidates` are never lost by a final-scan step. -/
theorem AcceptMorphs.finalBody_keys (gated : Bool) (mMorphs : List MolpherMolecule)
    (mSurvivors : List Bool) (st st' : AcceptMorphs) (idx : Nat)
    (h : AcceptMorphs.finalBody gated mMorphs mSurvivors st idx = some st') (k : String)
    (hk : st.mCtx.candidates.contains k = true) : st'.mCtx.candidates.contains k = true := by
  rcases AcceptMorphs.finalBody_cases _ _ _ _ _ _ h with
    ⟨hctx, _, _⟩ | ⟨morph, ctx₁, parent, _, _, _, hins, hp, hctx, _, _⟩
  · rw [hctx]; exact hk
  · obtain ⟨hc, _⟩ := AcceptMorphs.insertMorph_spec _ _ _ hins
    rw [hctx]
    simp only []
    rw [ConcMap.contains_iff] at hk ⊢
    obtain ⟨v, hv⟩ := hk
    rw [ConcMap.find_assign, hc, ConcMap.find_assign]
    by_cases h₁ : morph.parentSmile = k
    · simp [h₁]
    · by_cases h₂ : morph.smile = k
      · simp [h₁, h₂]
      · simp [h₁, h₂, hv]

/-- A final-scan step completes when the parent of the morph at `idx` is a key. -/
theorem AcceptMorphs.finalBody_total (gated : Bool) (mMorphs : List MolpherMolecule)
    (mSurvivors : List Bool) (st : AcceptMorphs) (idx : Nat) (hidx : idx < mMorphs.length)
    (hpar : ∀ m, mMorphs[idx]? = some m → mSurvivors.getD idx false = true →
      st.mCtx.candidates.contains m.parentSmile = true) :
    ∃ st', AcceptMorphs.finalBody gated mMorphs mSurvivors st idx = some st' := by
  unfold AcceptMorphs.finalBody
  cases hsv : mSurvivors.getD idx false
  · exact ⟨st, by simp⟩
  · simp only [if_true]
    split
    · rw [List.getElem?_eq_getElem hidx]
      simp only []
      cases hi : AcceptMorphs.insertMorph st.mCtx mMorphs[idx] with
      | none => exact ⟨_, rfl⟩
      | some ctx₁ =>
        simp only []
        obtain ⟨hc, _⟩ := AcceptMorphs.insertMorph_spec _ _ _ hi
        have hcon := hpar mMorphs[idx] (List.getElem?_eq_getElem hidx) hsv
        rw [ConcMap.contains_iff] at hcon
        obtain ⟨v, hv⟩ := hcon
        have : ∃ p, ctx₁.candidates.find mMorphs[idx].parentSmile = some p := by
          rw [hc, ConcMap.find_assign]
          by_cases h₂ : mMorphs[idx].smile = mMorphs[idx].parentSmile
          · exact ⟨mMorphs[idx], by simp [h₂]⟩
          · exact ⟨v, by simp [h₂, hv]⟩
        obtain ⟨p, hp⟩ := this
        unfold AcceptMorphs.linkParent
        rw [hp]
        exact ⟨_, rfl⟩
    · exact ⟨_, rfl⟩

/-- C3: in path mode, for every morph list, survivors vector and context, one
AcceptScan adds at most `cntCandidatesToKeepMax` keys to `candidates` (and the
map grows by at most that many entries); the scan completes whenever the parent
of every surviving morph is a key of `candidates`. -/
theorem C3_accept_cap (morphs : List MolpherMolecule) (survivors : List Bool)
    (ctx : PathFinderContext) :
    (∀ r, PathFinder.acceptMorphs morphs survivors ctx = some r →
      ((ConcMap.keys r.1.candidates).filter
          (fun k => !ConcMap.contains ctx.candidates k)).length
        ≤ ctx.params.cntCandidatesToKeepMax ∧
      r.1.candidates.length ≤ ctx.candidates.length + ctx.params.cntCandidatesToKeepMax) ∧
    ((∀ (i : Nat) m, morphs[i]? = some m → survivors.getD i false = true →
        ctx.candidates.contains m.parentSmile = true) →
      (PathFinder.acceptMorphs morphs survivors ctx).isSome = true) := by
  constructor
  · intro r hr
    unfold PathFinder.acceptMorphs PathFinder.AcceptMorphs at hr
    cases hf : forRange 0 morphs.length (AcceptMorphs.finalBody true morphs survivors)
        { mCtx := ctx, mModifiedParents := [], mSurvivorCount := 0 } with
    | none => rw [hf] at hr; simp at hr
    | some st =>
      rw [hf] at hr
      simp only [Option.map_some', Option.some.injEq] at hr
      subst hr
      have hinv : AcceptMorphs.capInv ctx st := by
        refine forRange_invariant (AcceptMorphs.capInv ctx) _ _ _ ?_ _ _ ?_ hf
        · intro s i s' _ _ hs hb
          exact AcceptMorphs.capInv_step ctx _ _ _ _ _ hs hb
        · refine ⟨rfl, ?_, ?_⟩
          · have : (List.filter (fun k => !ConcMap.contains ctx.candidates k)
                (ConcMap.keys ctx.candidates)) = [] := by
              rw [List.filter_eq_nil_iff]
              intro k hk
              rw [ConcMap.mem_keys_iff] at hk
              simp [(ConcMap.contains_iff _ _).mpr hk]
            simp [this]
          · simp
      obtain ⟨_, h₁, h₂⟩ := hinv
      exact ⟨le_trans h₁ (min_le_right _ _),
        le_trans h₂ (Nat.add_le_add_left (min_le_right _ _) _)⟩
  · intro hpar
    unfold PathFinder.acceptMorphs PathFinder.AcceptMorphs
    obtain ⟨st', hst', _⟩ := forRange_total
      (fun st : AcceptMorphs => ∀ k, ctx.candidates.contains k = true →
        st.mCtx.candidates.contains k = true)
      (AcceptMorphs.finalBody true morphs survivors) 0 morphs.length
      (by
        intro s i _ hi hs
        obtain ⟨s', hs'⟩ := AcceptMorphs.finalBody_total true morphs survivors s i hi
          (fun m hm hsv => hs _ (hpar i m hm hsv))
        exact ⟨s', hs', fun k hk => AcceptMorphs.finalBody_keys _ _ _ _ _ _ hs' k (hs k hk)⟩)
      { mCtx := ctx, mModifiedParents := [], mSurvivorCount := 0 } (fun k hk => hk)
    rw [hst']; rfl

/-! ## Prune: what a run can change -/

theorem SameButLinks.links_refl (v : MolpherMolecule) : SameButLinks v v :=
  ⟨rfl, fun _ h => h, Or.inl rfl, fun h => h⟩

theorem SameButLinks.links_trans {a b c : MolpherMolecule} (h₁ : SameButLinks a b)
    (h₂ : SameButLinks b c) : SameButLinks a c := by
  obtain ⟨e₁, s₁, i₁, d₁⟩ := h₁
  obtain ⟨e₂, s₂, i₂, d₂⟩ := h₂
  refine ⟨?_, fun d hd => s₁ d (s₂ d hd), ?_, fun h => d₂ (d₁ h)⟩
  · rw [e₂]; rw [e₁]
  · rcases i₂ with e | e
    · rw [e]; exact i₁
    · exact Or.inr e

theorem Shrinks.shrinks_refl (c : PathFinderContext) : Shrinks c c := by
  refine ⟨rfl, rfl, rfl, rfl, rfl, rfl, rfl, ?_, [], by simp, List.nodup_nil, ?_⟩
  · intro k v' h; exact ⟨v', h, SameButLinks.links_refl _⟩
  · intro k; simp

theorem Shrinks.contains_of {c c' : PathFinderContext} (h : Shrinks c c') {k : String}
    (hk : c'.candidates.contains k = true) : c.candidates.contains k = true := by
  rw [ConcMap.contains_iff] at hk ⊢
  obtain ⟨v', hv'⟩ := hk
  obtain ⟨v, hv, _⟩ := h.2.2.2.2.2.2.2.1 k v' hv'
  exact ⟨v, hv⟩

theorem Shrinks.shrinks_trans {a b c : PathFinderContext} (h₁ : Shrinks a b) (h₂ : Shrinks b c) :
    Shrinks a c := by
  have hsub₂ := @Shrinks.contains_of _ _ h₂
  obtain ⟨p₁, m₁, s₁, t₁, ts₁, sel₁, ps₁, f₁, L₁, e₁, n₁, c₁⟩ := h₁
  obtain ⟨p₂, m₂, s₂, t₂, ts₂, sel₂, ps₂, f₂, L₂, e₂, n₂, c₂⟩ := h₂
  refine ⟨p₂.trans p₁, m₂.trans m₁, s₂.trans s₁, t₂.trans t₁, ts₂.trans ts₁,
    sel₂.trans sel₁, ps₂.trans ps₁, ?_, L₁ ++ L₂, ?_, ?_, ?_⟩
  · intro k v'' h
    obtain ⟨v', hv', r₂⟩ := f₂ k v'' h
    obtain ⟨v, hv, r₁⟩ := f₁ k v' hv'
    exact ⟨v, hv, r₁.links_trans r₂⟩
  · rw [e₂, e₁, List.append_assoc]
  · rw [List.nodup_append]
    refine ⟨n₁, n₂, ?_⟩
    intro k hk₁ hk₂
    have h1 := ((c₁ k).mp hk₁).2
    have h2 := ((c₂ k).mp hk₂).1
    rw [h1] at h2; exact Bool.false_ne_true h2
  · intro k
    rw [List.mem_append, c₁, c₂]
    constructor
    · rintro (⟨ha, hb⟩ | ⟨hb, hc⟩)
      · refine ⟨ha, ?_⟩
        cases hcc : c.candidates.contains k
        · rfl
        · rw [hsub₂ hcc] at hb; exact absurd hb (by simp)
      · refine ⟨?_, hc⟩
        rw [ConcMap.contains_iff] at hb ⊢
        obtain ⟨v', hv'⟩ := hb
        obtain ⟨v, hv, _⟩ := f₁ k v' hv'
        exact ⟨v, hv⟩
    · rintro ⟨ha, hc⟩
      cases hb : b.candidates.contains k
      · exact Or.inl ⟨ha, rfl⟩
      · exact Or.inr ⟨rfl, hc⟩

/-- Replacing the value at an existing key by a shrunk one. -/
theorem Shrinks.shrinks_assign (c : PathFinderContext) (k : String) (v v' : MolpherMolecule)
    (hv : c.candidates.find k = some v) (hr : SameButLinks v v') :
    Shrinks c { c with candidates := c.candidates.assign k v' } := by
  refine ⟨rfl, rfl, rfl, rfl, rfl, rfl, rfl, ?_, [], by simp, List.nodup_nil, ?_⟩
  · intro k' w h
    simp only [ConcMap.find_assign] at h
    by_cases e : k = k'
    · subst e
      simp only [if_true, Option.some.injEq] at h
      subst h
      exact ⟨v, hv, hr⟩
    · simp only [e, if_false] at h
      exact ⟨w, h, SameButLinks.links_refl _⟩
  · intro k'
    simp only [List.not_mem_nil, false_iff, not_and, Bool.not_eq_false]
    intro hk'
    rw [ConcMap.contains_iff] at hk' ⊢
    obtain ⟨w, hw⟩ := hk'
    simp only [ConcMap.find_assign]
    by_cases e : k = k'
    · exact ⟨v', by simp [e]⟩
    · exact ⟨w, by simp [e, hw]⟩

/-- One turn of the erase loop. -/
theorem Shrinks.eraseNode (c : PathFinderContext) (current : String) (node : MolpherMolecule)
    (hv : c.candidates.find current = some node) :
    Shrinks c (EraseSubTree.eraseNode c current node) := by
  unfold EraseSubTree.eraseNode
  refine ⟨rfl, rfl, rfl, rfl, rfl, rfl, rfl, ?_, [current], rfl, by simp, ?_⟩
  · intro k w h
    simp only [ConcMap.find_erase] at h
    by_cases e : current = k
    · simp [e] at h
    · simp only [e, if_false] at h
      exact ⟨w, h, SameButLinks.links_refl _⟩
  · intro k
    simp only [List.mem_singleton]
    constructor
    · rintro rfl
      refine ⟨(ConcMap.contains_iff _ _).mpr ⟨node, hv⟩, ?_⟩
      rw [ConcMap.contains_eq_false_iff]
      simp [ConcMap.find_erase]
    · rintro ⟨h₁, h₂⟩
      rw [ConcMap.contains_eq_false_iff] at h₂
      simp only [ConcMap.find_erase] at h₂
      by_cases e : current = k
      · exact e.symm
      · simp only [e, if_false] at h₂
        rw [← ConcMap.contains_eq_false_iff] at h₂
        rw [h₂] at h₁; exact absurd h₁ (by simp)

/-- Induction over the erase loop: a property of (queue, context) kept by every
turn holds, with the empty queue, of the result. -/
theorem EraseSubTree.loop_induct (R : List String → PathFinderContext → Prop)
    (hstep : ∀ current rest ctx node, R (current :: rest) ctx →
      ctx.candidates.find current = some node →
      R (rest ++ node.descendants) (EraseSubTree.eraseNode ctx current node)) :
    ∀ fuel Q ctx ctx', R Q ctx → EraseSubTree.loop fuel Q ctx = some ctx' → R [] ctx' := by
  intro fuel
  induction fuel with
  | zero =>
    intro Q ctx ctx' hR h
    cases Q with
    | nil => simp only [EraseSubTree.loop, Option.some.injEq] at h; exact h ▸ hR
    | cons a Q => simp [EraseSubTree.loop] at h
  | succ n ih =>
    intro Q ctx ctx' hR h
    cases Q with
    | nil => simp only [EraseSubTree.loop, Option.some.injEq] at h; exact h ▸ hR
    | cons current rest =>
      simp only [EraseSubTree.loop] at h
      cases hf : ctx.candidates.find current with
      | none => rw [hf] at h; simp at h
      | some node =>
        rw [hf] at h
        simp only [] at h
        split at h
        · simp at h
        · exact ih _ _ _ (hstep current rest ctx node hR hf) h

theorem EraseSubTree.loop_shrinks (fuel : Nat) (Q : List String)
    (ctx ctx' : PathFinderContext) (h : EraseSubTree.loop fuel Q ctx = some ctx') :
    Shrinks ctx ctx' :=
  EraseSubTree.loop_induct (fun _ c => Shrinks ctx c)
    (fun current _ c node hR hf => hR.shrinks_trans (Shrinks.eraseNode c current node hf))
    fuel Q ctx ctx' (Shrinks.shrinks_refl ctx) h

/-- Every fingerprint put on the deque is absent from the result. -/
theorem EraseSubTree.loop_erased (fuel : Nat) (Q : List String)
    (ctx ctx' : PathFinderContext) (h : EraseSubTree.loop fuel Q ctx = some ctx') :
    ∀ q ∈ Q, ctx'.candidates.find q = none := by
  have := EraseSubTree.loop_induct
    (fun Q' c => ∀ q ∈ Q, q ∈ Q' ∨ c.candidates.find q = none)
    (by
      intro current rest c node hR hf q hq
      rcases hR q hq with hmem | hnone
      · rw [List.mem_cons] at hmem
        rcases hmem with rfl | hmem
        · right; simp [EraseSubTree.eraseNode, ConcMap.find_erase]
        · left; exact List.mem_append_left _ hmem
      · right
        simp only [EraseSubTree.eraseNode, ConcMap.find_erase]
        split
        · rfl
        · exact hnone)
    fuel Q ctx ctx' (fun q hq => Or.inl hq) h
  intro q hq
  rcases this q hq with h' | h'
  · cases h'
  · exact h'

/-- Erasing the subtrees of a list of fingerprints, as the purge branch does. -/
theorem PruneTree.eraseAll_shrinks (D : List String) (ctx ctx' : PathFinderContext)
    (h : D.foldlM (fun c child => EraseSubTree child c) ctx = some ctx') :
    Shrinks ctx ctx' :=
  foldlM_invariant (fun c => Shrinks ctx c) _ D
    (fun _ _ _ _ hs hb => hs.shrinks_trans (EraseSubTree.loop_shrinks _ _ _ _ hb))
    ctx ctx' (Shrinks.shrinks_refl ctx) h

theorem PruneTree.eraseAll_erased (D : List String) :
    ∀ (ctx ctx' : PathFinderContext),
      D.foldlM (fun c child => EraseSubTree child c) ctx = some ctx' →
      ∀ d ∈ D, ctx'.candidates.find d = none := by
  induction D with
  | nil => intro _ _ _ _ hd; cases hd
  | cons a D ih =>
    intro ctx ctx' h d hd
    rw [List.foldlM_cons] at h
    cases he : EraseSubTree a ctx with
    | none => rw [he] at h; simp at h
    | some c₁ =>
      rw [he] at h
      simp only [bind, Option.bind] at h
      rw [List.mem_cons] at hd
      rcases hd with rfl | hd
      · have h₁ := EraseSubTree.loop_erased _ _ _ _ he d (List.mem_singleton_self _)
        have hs := PruneTree.eraseAll_shrinks D c₁ ctx' h
        cases hf : ctx'.candidates.find d with
        | none => rfl
        | some v' =>
          obtain ⟨v, hv, _⟩ := hs.2.2.2.2.2.2.2.1 d v' hf
          rw [h₁] at hv; cases hv
      · exact ih c₁ ctx' h d hd

theorem EraseSubTree.loop_find (fuel : Nat) (Q : List String)
    (ctx ctx' : PathFinderContext) (h : EraseSubTree.loop fuel Q ctx = some ctx') :
    ∀ k v, ctx'.candidates.find k = some v → ctx.candidates.find k = some v :=
  EraseSubTree.loop_induct
    (fun _ c => ∀ k v, c.candidates.find k = some v → ctx.candidates.find k = some v)
    (by
      intro current _ c node hR _ k v hk
      simp only [EraseSubTree.eraseNode, ConcMap.find_erase] at hk
      split at hk
      · cases hk
      · exact hR k v hk)
    fuel Q ctx ctx' (fun _ _ hk => hk) h

theorem PruneTree.eraseAll_find (D : List String) (ctx ctx' : PathFinderContext)
    (h : D.foldlM (fun c child => EraseSubTree child c) ctx = some ctx') :
    ∀ k v, ctx'.candidates.find k = some v → ctx.candidates.find k = some v :=
  foldlM_invariant
    (fun c => ∀ k v, c.candidates.find k = some v → ctx.candidates.find k = some v) _ D
    (fun _ _ _ _ hs hb k v hk => hs k v (EraseSubTree.loop_find _ _ _ _ hb k v hk))
    ctx ctx' (fun _ _ hk => hk) h

theorem SameButLinks.withoutChild (v : MolpherMolecule) (x : String) :
    SameButLinks v (PruneTree.withoutChild v x) :=
  ⟨rfl, fun _ hd => ((StrSet.mem_erase _ _ _).mp hd).1, Or.inl rfl, fun h => h⟩

theorem SameButLinks.purged (v : MolpherMolecule) : SameButLinks v (PruneTree.purged v) :=
  ⟨rfl, fun _ hd => (List.not_mem_nil _ hd).elim, Or.inr rfl, fun h => h⟩

theorem SameButLinks.decay (v : MolpherMolecule) :
    SameButLinks v { v with decayed := true } :=
  ⟨rfl, fun _ hd => hd, Or.inl rfl, fun _ => rfl⟩

/-- The two branches of the block under `if (prune)`, when it completes. -/
theorem PruneTree.pruneNode_cases (deferred : Bool) (smile : String) (node : MolpherMolecule)
    (ctx ctx' : PathFinderContext)
    (h : PruneTree.pruneNode deferred smile node ctx = some ctx') :
    ((deferred || PruneTree.tooManyDerivations ctx smile) = true ∧
      node.parentSmile ≠ smile ∧
      ∃ parent, ctx.candidates.find node.parentSmile = some parent ∧
        EraseSubTree smile
          { ctx with
            candidates :=
              ctx.candidates.assign node.parentSmile (PruneTree.withoutChild parent smile) }
          = some ctx') ∨
    ((deferred || PruneTree.tooManyDerivations ctx smile) = false ∧
      ∃ ctx₁, node.descendants.foldlM (fun c child => EraseSubTree child c) ctx = some ctx₁ ∧
        ctx₁.candidates.contains smile = true ∧
        ctx' = { ctx₁ with
          candidates := ctx₁.candidates.assign smile (PruneTree.purged node) }) := by
  unfold PruneTree.pruneNode at h
  cases hp : (deferred || PruneTree.tooManyDerivations ctx smile)
  · right
    simp only [hp, Bool.false_eq_true, if_false] at h
    cases hf : node.descendants.foldlM (fun c child => EraseSubTree child c) ctx with
    | none => rw [hf] at h; simp at h
    | some ctx₁ =>
      rw [hf] at h
      simp only [Option.bind] at h
      split at h
      · rename_i hc
        simp only [Option.some.injEq] at h
        exact ⟨rfl, ctx₁, rfl, hc, h.symm⟩
      · simp at h
  · left
    simp only [hp, if_true] at h
    split at h
    · simp at h
    · rename_i hne
      cases hf : ctx.candidates.find node.parentSmile with
      | none => rw [hf] at h; simp at h
      | some parent =>
        rw [hf] at h
        exact ⟨rfl, hne, parent, rfl, h⟩

theorem PruneTree.pruneNode_shrinks (deferred : Bool) (smile : String)
    (node : MolpherMolecule) (ctx ctx' : PathFinderContext)
    (hn : ctx.candidates.find smile = some node)
    (h : PruneTree.pruneNode deferred smile node ctx = some ctx') : Shrinks ctx ctx' := by
  rcases PruneTree.pruneNode_cases _ _ _ _ _ h with
    ⟨_, _, parent, hp, he⟩ | ⟨_, ctx₁, hf, hc, rfl⟩
  · exact (Shrinks.shrinks_assign ctx _ parent _ hp (SameButLinks.withoutChild parent smile)).shrinks_trans
      (EraseSubTree.loop_shrinks _ _ _ _ he)
  · have hs := PruneTree.eraseAll_shrinks _ _ _ hf
    rw [ConcMap.contains_iff] at hc
    obtain ⟨v₁, hv₁⟩ := hc
    have hv := PruneTree.eraseAll_find _ _ _ hf smile v₁ hv₁
    rw [hn] at hv
    cases hv
    exact hs.shrinks_trans (Shrinks.shrinks_assign ctx₁ smile node _ hv₁ (SameButLinks.purged node))

/-- The ways a path-mode visit can complete: the node is fed through unchanged,
or the block under `if (prune)` ran. -/
theorem PathFinder.PruneTree.call_cases (mDeferred : SmileSet) (smile : String)
    (ctx ctx' : PathFinderContext) (fed : List String)
    (h : PathFinder.PruneTree.call mDeferred smile ctx = some (ctx', fed)) :
    ∃ node, ctx.candidates.find smile = some node ∧
      ((ctx' = ctx ∧ fed = node.descendants ∧ smile ∉ mDeferred ∧
          ¬ node.itersWithoutDistImprovement > ctx.params.itThreshold) ∨
        (fed = [] ∧
          (smile ∈ mDeferred ∨ node.itersWithoutDistImprovement > ctx.params.itThreshold) ∧
          PruneTree.pruneNode (decide (smile ∈ mDeferred)) smile node ctx = some ctx')) := by
  unfold PathFinder.PruneTree.call at h
  cases hf : ctx.candidates.find smile with
  | none => rw [hf] at h; simp at h
  | some node =>
    rw [hf] at h
    simp only [] at h
    refine ⟨node, rfl, ?_⟩
    split at h
    · rename_i hp
      right
      cases hn : PruneTree.pruneNode (decide (smile ∈ mDeferred)) smile node ctx with
      | none => rw [hn] at h; simp at h
      | some c =>
        rw [hn] at h
        simp only [Option.map_some', Option.some.injEq, Prod.mk.injEq] at h
        refine ⟨h.2.symm, ?_, by rw [← h.1]⟩
        simpa using hp
    · rename_i hp
      left
      simp only [Option.some.injEq, Prod.mk.injEq] at h
      simp only [Bool.or_eq_true, decide_eq_true_eq, not_or] at hp
      exact ⟨h.1.symm, h.2.symm, hp.1, hp.2⟩

/-- The ways an activity-mode visit can complete. -/
theorem PathFinderActivity.PruneTree.call_cases_act (mDeferred : SmileSet) (smile : String)
    (ctx ctx' : PathFinderContext) (fed : List String)
    (h : PathFinderActivity.PruneTree.call mDeferred smile ctx = some (ctx', fed)) :
    ∃ node, ctx.candidates.find smile = some node ∧
      ((ctx' = ctx ∧ fed = node.descendants) ∨
        (node.decayed = false ∧ node.itersFresh > ctx.params.decayThreshold ∧
          ctx' = { ctx with
            candidates := ctx.candidates.assign smile { node with decayed := true } } ∧
          fed = node.descendants) ∨
        (fed = [] ∧ node.parentSmile ≠ "" ∧ node.decayed = false ∧
          PruneTree.pruneNode (decide (smile ∈ mDeferred)) smile node ctx = some ctx')) := by
  unfold PathFinderActivity.PruneTree.call at h
  cases hf : ctx.candidates.find smile with
  | none => rw [hf] at h; simp at h
  | some node =>
    rw [hf] at h
    simp only [] at h
    refine ⟨node, rfl, ?_⟩
    split at h
    · simp only [Option.some.injEq, Prod.mk.injEq] at h
      exact Or.inl ⟨h.1.symm, h.2.symm⟩
    · rename_i hdec
      split at h
      · rename_i hfresh
        simp only [Option.some.injEq, Prod.mk.injEq] at h
        exact Or.inr (Or.inl ⟨by simpa using hdec, hfresh, h.1.symm, h.2.symm⟩)
      · split at h
        · rename_i hp
          cases hn : PruneTree.pruneNode (decide (smile ∈ mDeferred)) smile node ctx with
          | none => rw [hn] at h; simp at h
          | some c =>
            rw [hn] at h
            simp only [Option.map_some', Option.some.injEq, Prod.mk.injEq] at h
            simp only [Bool.and_eq_true, decide_eq_true_eq] at hp
            exact Or.inr (Or.inr ⟨h.2.symm, hp.2, by simpa using hdec, by rw [← h.1]⟩)
        · simp only [Option.some.injEq, Prod.mk.injEq] at h
          exact Or.inl ⟨h.1.symm, h.2.symm⟩

theorem PathFinder.PruneTree.call_shrinks (mDeferred : SmileSet) (smile : String)
    (ctx ctx' : PathFinderContext) (fed : List String)
    (h : PathFinder.PruneTree.call mDeferred smile ctx = some (ctx', fed)) :
    Shrinks ctx ctx' := by
  obtain ⟨node, hn, hc⟩ := PathFinder.PruneTree.call_cases _ _ _ _ _ h
  rcases hc with ⟨rfl, _⟩ | ⟨_, _, hp⟩
  · exact Shrinks.shrinks_refl _
  · exact PruneTree.pruneNode_shrinks _ _ _ _ _ hn hp

theorem PathFinderActivity.PruneTree.call_shrinks_act (mDeferred : SmileSet) (smile : String)
    (ctx ctx' : PathFinderContext) (fed : List String)
    (h : PathFinderActivity.PruneTree.call mDeferred smile ctx = some (ctx', fed)) :
    Shrinks ctx ctx' := by
  obtain ⟨node, hn, hc⟩ := PathFinderActivity.PruneTree.call_cases_act _ _ _ _ _ h
  rcases hc with ⟨rfl, _⟩ | ⟨_, _, rfl, _⟩ | ⟨_, _, _, hp⟩
  · exact Shrinks.shrinks_refl _
  · exact Shrinks.shrinks_assign ctx smile node _ hn (SameButLinks.decay node)
  · exact PruneTree.pruneNode_shrinks _ _ _ _ _ hn hp

/-- Induction over the path-mode worklist. -/
theorem PathFinder.PruneTree.worklist_rec (mDeferred : SmileSet)
    (R : List String → PathFinderContext → Prop)
    (hstep : ∀ smile queue ctx ctx' fed, R (smile :: queue) ctx →
      PathFinder.PruneTree.call mDeferred smile ctx = some (ctx', fed) →
      R (queue ++ fed) ctx') :
    ∀ fuel Q ctx ctx', R Q ctx → PathFinder.PruneTree mDeferred fuel Q ctx = some ctx' →
      R [] ctx' := by
  intro fuel
  induction fuel with
  | zero =>
    intro Q ctx ctx' hR h
    cases Q with
    | nil => simp only [PathFinder.PruneTree, Option.some.injEq] at h; exact h ▸ hR
    | cons a Q => simp [PathFinder.PruneTree] at h
  | succ n ih =>
    intro Q ctx ctx' hR h
    cases Q with
    | nil => simp only [PathFinder.PruneTree, Option.some.injEq] at h; exact h ▸ hR
    | cons smile queue =>
      simp only [PathFinder.PruneTree] at h
      cases hc : PathFinder.PruneTree.call mDeferred smile ctx with
      | none => rw [hc] at h; simp at h
      | some r =>
        obtain ⟨c₁, fed⟩ := r
        rw [hc] at h
        exact ih _ _ _ (hstep smile queue ctx c₁ fed hR hc) h

/-- Induction over the activity-mode worklist. -/
theorem PathFinderActivity.PruneTree.worklist_rec_act (mDeferred : SmileSet)
    (R : List String → PathFinderContext → Prop)
    (hstep : ∀ smile queue ctx ctx' fed, R (smile :: queue) ctx →
      PathFinderActivity.PruneTree.call mDeferred smile ctx = some (ctx', fed) →
      R (queue ++ fed) ctx') :
    ∀ fuel Q ctx ctx', R Q ctx →
      PathFinderActivity.PruneTree mDeferred fuel Q ctx = some ctx' → R [] ctx' := by
  intro fuel
  induction fuel with
  | zero =>
    intro Q ctx ctx' hR h
    cases Q with
    | nil => simp only [PathFinderActivity.PruneTree, Option.some.injEq] at h; exact h ▸ hR
    | cons a Q => simp [PathFinderActivity.PruneTree] at h
  | succ n ih =>
    intro Q ctx ctx' hR h
    cases Q with
    | nil => simp only [PathFinderActivity.PruneTree, Option.some.injEq] at h; exact h ▸ hR
    | cons smile queue =>
      simp only [PathFinderActivity.PruneTree] at h
      cases hc : PathFinderActivity.PruneTree.call mDeferred smile ctx with
      | none => rw [hc] at h; simp at h
      | some r =>
        obtain ⟨c₁, fed⟩ := r
        rw [hc] at h
        exact ih _ _ _ (hstep smile queue ctx c₁ fed hR hc) h

theorem PathFinder.PruneTree.shrinks (mDeferred : SmileSet) (fuel : Nat) (Q : List String)
    (ctx ctx' : PathFinderContext)
    (h : PathFinder.PruneTree mDeferred fuel Q ctx = some ctx') : Shrinks ctx ctx' :=
  PathFinder.PruneTree.worklist_rec mDeferred (fun _ c => Shrinks ctx c)
    (fun _ _ _ _ _ hR hc => hR.shrinks_trans (PathFinder.PruneTree.call_shrinks _ _ _ _ _ hc))
    fuel Q ctx ctx' (Shrinks.shrinks_refl ctx) h

theorem PathFinderActivity.PruneTree.shrinks_act (mDeferred : SmileSet) (fuel : Nat)
    (Q : List String) (ctx ctx' : PathFinderContext)
    (h : PathFinderActivity.PruneTree mDeferred fuel Q ctx = some ctx') : Shrinks ctx ctx' :=
  PathFinderActivity.PruneTree.worklist_rec_act mDeferred (fun _ c => Shrinks ctx c)
    (fun _ _ _ _ _ hR hc => hR.shrinks_trans (PathFinderActivity.PruneTree.call_shrinks_act _ _ _ _ _ hc))
    fuel Q ctx ctx' (Shrinks.shrinks_refl ctx) h

/-- What the path-mode Prune stage returns is what its worklist returns. -/
theorem PathFinder.pruneStage_eq (fuel : Nat) (deferredMols : List MolpherMolecule)
    (ctx ctx' : PathFinderContext) (h : PathFinder.pruneStage fuel deferredMols ctx = some ctx') :
    PathFinder.PruneTree (PathFinder.deferredSmiles ctx deferredMols) fuel
      [PathFinder.pruningRoot ctx] ctx = some ctx' := by
  unfold PathFinder.pruneStage at h
  cases hw : PathFinder.PruneTree (PathFinder.deferredSmiles ctx deferredMols) fuel
      [PathFinder.pruningRoot ctx] ctx with
  | none => rw [hw] at h; simp at h
  | some c =>
    rw [hw] at h
    simp only [Option.bind] at h
    split at h
    · simp at h
    · simpa using h

/-- What the activity-mode Prune stage returns is what its worklist returns. -/
theorem PathFinderActivity.pruneStage_eq_act (fuel : Nat) (startMols : List String)
    (ctx ctx' : PathFinderContext)
    (h : PathFinderActivity.pruneStage fuel startMols ctx = some ctx') :
    PathFinderActivity.PruneTree [] fuel startMols ctx = some ctx' := by
  unfold PathFinderActivity.pruneStage at h
  cases hw : PathFinderActivity.PruneTree [] fuel startMols ctx with
  | none => rw [hw] at h; simp at h
  | some c =>
    rw [hw] at h
    simp only [Option.bind] at h
    split at h
    · simp at h
    · simpa using h

/-! ## Parent/child linkage (P1) -/

theorem LinkedOrQueued.nil_iff (cands : ConcMap MolpherMolecule) :
    LinkedOrQueued [] cands ↔ LinkedToParent cands := by
  unfold LinkedOrQueued LinkedToParent
  simp

theorem LinkedOrQueued.mono {Q Q' : List String} {cands : ConcMap MolpherMolecule}
    (h : LinkedOrQueued Q cands) (hsub : ∀ q ∈ Q, q ∈ Q') : LinkedOrQueued Q' cands := by
  intro k c hk hp
  rcases h k c hk hp with h' | h'
  · exact Or.inl h'
  · exact Or.inr (hsub k h')

theorem EraseSubTree.loop_linked (fuel : Nat) (Q : List String)
    (ctx ctx' : PathFinderContext) (hl : LinkedOrQueued Q ctx.candidates)
    (h : EraseSubTree.loop fuel Q ctx = some ctx') : LinkedToParent ctx'.candidates := by
  rw [← LinkedOrQueued.nil_iff]
  refine EraseSubTree.loop_induct (fun Q c => LinkedOrQueued Q c.candidates) ?_
    fuel Q ctx ctx' hl h
  intro current rest c node hR hf k v hk hp
  simp only [EraseSubTree.eraseNode, ConcMap.find_erase] at hk ⊢
  by_cases e : current = k
  · simp [e] at hk
  · simp only [e, if_false] at hk
    rcases hR k v hk hp with ⟨p, hpf, hmem⟩ | hq
    · by_cases e' : current = v.parentSmile
      · right
        rw [← e', hf] at hpf
        cases hpf
        exact List.mem_append_right _ hmem
      · left
        exact ⟨p, by simp [e', hpf], hmem⟩
    · right
      rw [List.mem_cons] at hq
      rcases hq with rfl | hq
      · exact absurd rfl e
      · exact List.mem_append_left _ hq

theorem PruneTree.eraseAll_linked (D : List String) (ctx ctx' : PathFinderContext)
    (hl : LinkedToParent ctx.candidates)
    (h : D.foldlM (fun c child => EraseSubTree child c) ctx = some ctx') :
    LinkedToParent ctx'.candidates :=
  foldlM_invariant (fun c => LinkedToParent c.candidates) _ D
    (fun c d _ _ hs hb =>
      EraseSubTree.loop_linked _ [d] c _
        (((LinkedOrQueued.nil_iff _).mpr hs).mono (fun _ hq => by cases hq)) hb)
    ctx ctx' hl h

theorem PruneTree.pruneNode_linked (deferred : Bool) (smile : String)
    (node : MolpherMolecule) (ctx ctx' : PathFinderContext)
    (hn : ctx.candidates.find smile = some node)
    (hl : LinkedToParent ctx.candidates)
    (h : PruneTree.pruneNode deferred smile node ctx = some ctx') :
    LinkedToParent ctx'.candidates := by
  rcases PruneTree.pruneNode_cases _ _ _ _ _ h with
    ⟨_, _, parent, hp, he⟩ | ⟨_, ctx₁, hf, hc, rfl⟩
  · refine EraseSubTree.loop_linked _ [smile] _ _ ?_ he
    intro k c hk hpar
    simp only [ConcMap.find_assign] at hk ⊢
    -- the candidate before the parent lost `smile`
    have horig : ∃ c₀, ctx.candidates.find k = some c₀ ∧ c₀.parentSmile = c.parentSmile := by
      by_cases e : node.parentSmile = k
      · simp only [e, if_true, Option.some.injEq] at hk
        subst hk
        exact ⟨parent, e ▸ hp, rfl⟩
      · simp only [e, if_false] at hk
        exact ⟨c, hk, rfl⟩
    obtain ⟨c₀, hc₀, hps⟩ := horig
    obtain ⟨p, hpf, hmem⟩ := hl k c₀ hc₀ (hps ▸ hpar)
    rw [hps] at hpf
    by_cases e' : node.parentSmile = c.parentSmile
    · by_cases ek : k = smile
      · right; simp [ek]
      · left
        rw [← e', hp] at hpf
        cases hpf
        exact ⟨PruneTree.withoutChild parent smile, by simp [e'],
          (StrSet.mem_erase _ _ _).mpr ⟨hmem, ek⟩⟩
    · left
      exact ⟨p, by simp [e', hpf], hmem⟩
  · have hl₁ := PruneTree.eraseAll_linked _ _ _ hl hf
    have hgone := PruneTree.eraseAll_erased _ _ _ hf
    have hfind := PruneTree.eraseAll_find _ _ _ hf
    rw [ConcMap.contains_iff] at hc
    obtain ⟨v₁, hv₁⟩ := hc
    have hv := hfind smile v₁ hv₁
    rw [hn] at hv
    cases hv
    intro k c hk hpar
    simp only [ConcMap.find_assign] at hk ⊢
    by_cases e : smile = k
    · subst e
      simp only [if_true, Option.some.injEq] at hk
      subst hk
      obtain ⟨p, hpf, hmem⟩ := hl₁ smile node hv₁ hpar
      by_cases e' : smile = node.parentSmile
      · exfalso
        rw [← e', hv₁] at hpf
        cases hpf
        have := hgone smile hmem
        rw [hv₁] at this; cases this
      · exact ⟨p, by simp [PruneTree.purged, e', hpf], hmem⟩
    · simp only [e, if_false] at hk
      obtain ⟨p, hpf, hmem⟩ := hl₁ k c hk hpar
      by_cases e' : smile = c.parentSmile
      · exfalso
        rw [← e', hv₁] at hpf
        cases hpf
        have := hgone k hmem
        rw [hk] at this; cases this
      · exact ⟨p, by simp [e', hpf], hmem⟩

theorem PathFinder.PruneTree.call_linked (mDeferred : SmileSet) (smile : String)
    (ctx ctx' : PathFinderContext) (fed : List String)
    (hl : LinkedToParent ctx.candidates)
    (h : PathFinder.PruneTree.call mDeferred smile ctx = some (ctx', fed)) :
    LinkedToParent ctx'.candidates := by
  obtain ⟨node, hn, hc⟩ := PathFinder.PruneTree.call_cases _ _ _ _ _ h
  rcases hc with ⟨rfl, _⟩ | ⟨_, _, hp⟩
  · exact hl
  · exact PruneTree.pruneNode_linked _ _ _ _ _ hn hl hp

theorem LinkedToParent.assign_same_links (cands : ConcMap MolpherMolecule) (k : String)
    (v v' : MolpherMolecule) (hv : cands.find k = some v)
    (hp : v'.parentSmile = v.parentSmile) (hd : v'.descendants = v.descendants)
    (hl : LinkedToParent cands) : LinkedToParent (cands.assign k v') := by
  intro k₁ c hk hpar
  simp only [ConcMap.find_assign] at hk ⊢
  have horig : ∃ c₀, cands.find k₁ = some c₀ ∧ c₀.parentSmile = c.parentSmile := by
    by_cases e : k = k₁
    · simp only [e, if_true, Option.some.injEq] at hk
      subst hk
      exact ⟨v, e ▸ hv, hp.symm⟩
    · simp only [e, if_false] at hk
      exact ⟨c, hk, rfl⟩
  obtain ⟨c₀, hc₀, hps⟩ := horig
  obtain ⟨p, hpf, hmem⟩ := hl k₁ c₀ hc₀ (hps ▸ hpar)
  rw [hps] at hpf
  by_cases e' : k = c.parentSmile
  · rw [← e', hv] at hpf
    cases hpf
    exact ⟨v', by simp [e'], hd ▸ hmem⟩
  · exact ⟨p, by simp [e', hpf], hmem⟩

theorem PathFinderActivity.PruneTree.call_linked_act (mDeferred : SmileSet) (smile : String)
    (ctx ctx' : PathFinderContext) (fed : List String)
    (hl : LinkedToParent ctx.candidates)
    (h : PathFinderActivity.PruneTree.call mDeferred smile ctx = some (ctx', fed)) :
    LinkedToParent ctx'.candidates := by
  obtain ⟨node, hn, hc⟩ := PathFinderActivity.PruneTree.call_cases_act _ _ _ _ _ h
  rcases hc with ⟨rfl, _⟩ | ⟨_, _, rfl, _⟩ | ⟨_, _, _, hp⟩
  · exact hl
  · exact LinkedToParent.assign_same_links _ _ node _ hn rfl rfl hl
  · exact PruneTree.pruneNode_linked _ _ _ _ _ hn hl hp

theorem PathFinder.pruneStage_linked (fuel : Nat) (deferredMols : List MolpherMolecule)
    (ctx ctx' : PathFinderContext) (hl : LinkedToParent ctx.candidates)
    (h : PathFinder.pruneStage fuel deferredMols ctx = some ctx') :
    LinkedToParent ctx'.candidates :=
  PathFinder.PruneTree.worklist_rec _ (fun _ c => LinkedToParent c.candidates)
    (fun _ _ _ _ _ hR hc => PathFinder.PruneTree.call_linked _ _ _ _ _ hR hc)
    fuel _ ctx ctx' hl (PathFinder.pruneStage_eq _ _ _ _ h)

theorem PathFinderActivity.pruneStage_linked_act (fuel : Nat) (startMols : List String)
    (ctx ctx' : PathFinderContext) (hl : LinkedToParent ctx.candidates)
    (h : PathFinderActivity.pruneStage fuel startMols ctx = some ctx') :
    LinkedToParent ctx'.candidates :=
  PathFinderActivity.PruneTree.worklist_rec_act _ (fun _ c => LinkedToParent c.candidates)
    (fun _ _ _ _ _ hR hc => PathFinderActivity.PruneTree.call_linked_act _ _ _ _ _ hR hc)
    fuel _ ctx ctx' hl (PathFinderActivity.pruneStage_eq_act _ _ _ _ h)

/-! ## Stages that only touch counters -/

theorem SameButCounters.sbc_refl (v : MolpherMolecule) : SameButCounters v v := rfl

theorem SameButCounters.sbc_trans {a b c : MolpherMolecule} (h₁ : SameButCounters a b)
    (h₂ : SameButCounters b c) : SameButCounters a c := by
  unfold SameButCounters at *
  rw [h₂]; rw [h₁]

theorem SameButCounters.parentSmile {v v' : MolpherMolecule} (h : SameButCounters v v') :
    v'.parentSmile = v.parentSmile := by rw [h]

theorem SameButCounters.descendants {v v' : MolpherMolecule} (h : SameButCounters v v') :
    v'.descendants = v.descendants := by rw [h]

theorem SameButCounters.historicDescendants {v v' : MolpherMolecule}
    (h : SameButCounters v v') : v'.historicDescendants = v.historicDescendants := by rw [h]

theorem SameButCounters.smile {v v' : MolpherMolecule} (h : SameButCounters v v') :
    v'.smile = v.smile := by rw [h]

theorem CountersOnly.co_refl (c : PathFinderContext) : CountersOnly c c :=
  ⟨rfl, rfl, fun _ v' h => ⟨v', h, rfl⟩⟩

theorem CountersOnly.co_trans {a b c : PathFinderContext} (h₁ : CountersOnly a b)
    (h₂ : CountersOnly b c) : CountersOnly a c := by
  obtain ⟨e₁, k₁, f₁⟩ := h₁
  obtain ⟨e₂, k₂, f₂⟩ := h₂
  refine ⟨?_, k₂.trans k₁, ?_⟩
  · rw [e₂]; rw [e₁]
  · intro k v'' h
    obtain ⟨v', hv', r₂⟩ := f₂ k v'' h
    obtain ⟨v, hv, r₁⟩ := f₁ k v' hv'
    exact ⟨v, hv, r₁.sbc_trans r₂⟩

theorem CountersOnly.co_assign (c : PathFinderContext) (k : String) (v v' : MolpherMolecule)
    (hv : c.candidates.find k = some v) (hr : SameButCounters v v') :
    CountersOnly c { c with candidates := c.candidates.assign k v' } := by
  refine ⟨rfl, ?_, ?_⟩
  · simp only [ConcMap.keys_assign, (ConcMap.contains_iff _ _).mpr ⟨v, hv⟩, if_true]
  · intro k' w h
    simp only [ConcMap.find_assign] at h
    by_cases e : k = k'
    · subst e
      simp only [if_true, Option.some.injEq] at h
      subst h
      exact ⟨v, hv, hr⟩
    · simp only [e, if_false] at h
      exact ⟨w, h, rfl⟩

/-- Under `CountersOnly` lookups succeed on the same keys. -/
theorem CountersOnly.find_of {c c' : PathFinderContext} (h : CountersOnly c c') {k : String}
    {v : MolpherMolecule} (hk : c.candidates.find k = some v) :
    ∃ v', c'.candidates.find k = some v' ∧ SameButCounters v v' := by
  have hmem : k ∈ ConcMap.keys c'.candidates := by
    rw [h.2.1, ConcMap.mem_keys_iff]; exact ⟨v, hk⟩
  rw [ConcMap.mem_keys_iff] at hmem
  obtain ⟨v', hv'⟩ := hmem
  obtain ⟨v₀, hv₀, hr⟩ := h.2.2 k v' hv'
  rw [hk] at hv₀
  cases hv₀
  exact ⟨v', hv', hr⟩

theorem CountersOnly.linked {c c' : PathFinderContext} (h : CountersOnly c c')
    (hl : LinkedToParent c.candidates) : LinkedToParent c'.candidates := by
  intro k v' hk hpar
  obtain ⟨v, hv, hr⟩ := h.2.2 k v' hk
  rw [hr.parentSmile] at hpar ⊢
  obtain ⟨p, hp, hmem⟩ := hl k v hv hpar
  obtain ⟨p', hp', hr'⟩ := h.find_of hp
  exact ⟨p', hp', hr'.descendants ▸ hmem⟩

theorem PathFinder.UpdateTree.walk_counters (minDistance : ℚ) :
    ∀ (fuel : Nat) (ctx ctx' : PathFinderContext) (key : String),
      PathFinder.UpdateTree.walk minDistance fuel ctx key = some ctx' →
      CountersOnly ctx ctx' := by
  intro fuel
  induction fuel with
  | zero => intro ctx ctx' key h; simp [PathFinder.UpdateTree.walk] at h
  | succ n ih =>
    intro ctx ctx' key h
    simp only [PathFinder.UpdateTree.walk] at h
    cases hf : ctx.candidates.find key with
    | none => rw [hf] at h; simp at h
    | some node =>
      rw [hf] at h
      simp only [] at h
      split at h
      · refine (CountersOnly.co_assign ctx key node _ hf ?_).co_trans (ih _ _ _ h)
        split <;> rfl
      · simp only [Option.some.injEq] at h
        subst h; exact CountersOnly.co_refl _

theorem PathFinderActivity.UpdateTree.walk_counters_act (minDistance : ℚ) :
    ∀ (fuel : Nat) (ctx ctx' : PathFinderContext) (key : String),
      PathFinderActivity.UpdateTree.walk minDistance fuel ctx key = some ctx' →
      CountersOnly ctx ctx' := by
  intro fuel
  induction fuel with
  | zero => intro ctx ctx' key h; simp [PathFinderActivity.UpdateTree.walk] at h
  | succ n ih =>
    intro ctx ctx' key h
    simp only [PathFinderActivity.UpdateTree.walk] at h
    cases hf : ctx.candidates.find key with
    | none => rw [hf] at h; simp at h
    | some node =>
      rw [hf] at h
      simp only [] at h
      split at h
      · refine (CountersOnly.co_assign ctx key node _ hf ?_).co_trans (ih _ _ _ h)
        repeat' split
        all_goals rfl
      · simp only [Option.some.injEq] at h
        subst h
        refine CountersOnly.co_assign ctx key node _ hf ?_
        repeat' split
        all_goals rfl

theorem PathFinder.UpdateTree.counters (fuel : Nat) (modifiedParents : SmileSet)
    (ctx ctx' : PathFinderContext)
    (h : PathFinder.UpdateTree fuel modifiedParents ctx = some ctx') :
    CountersOnly ctx ctx' := by
  unfold PathFinder.UpdateTree at h
  refine foldlM_invariant (fun c => CountersOnly ctx c) _ modifiedParents ?_
    ctx ctx' (CountersOnly.co_refl ctx) h
  intro c p c' _ hs hb
  unfold PathFinder.UpdateTree.body at hb
  cases hf : c.candidates.find p with
  | none => rw [hf] at hb; simp at hb
  | some parent =>
    rw [hf] at hb
    simp only [] at hb
    cases hm : UpdateTree.minDistance (fun c => c.distToTarget) c parent with
    | none => rw [hm] at hb; simp at hb
    | some d =>
      rw [hm] at hb
      exact hs.co_trans (PathFinder.UpdateTree.walk_counters d fuel c c' p hb)

theorem PathFinderActivity.UpdateTree.counters_act (fuel : Nat) (modifiedParents : SmileSet)
    (ctx ctx' : PathFinderContext)
    (h : PathFinderActivity.UpdateTree fuel modifiedParents ctx = some ctx') :
    CountersOnly ctx ctx' := by
  unfold PathFinderActivity.UpdateTree at h
  refine foldlM_invariant (fun c => CountersOnly ctx c) _ modifiedParents ?_
    ctx ctx' (CountersOnly.co_refl ctx) h
  intro c p c' _ hs hb
  unfold PathFinderActivity.UpdateTree.body at hb
  cases hf : c.candidates.find p with
  | none => rw [hf] at hb; simp at hb
  | some parent =>
    rw [hf] at hb
    simp only [] at hb
    cases hm : UpdateTree.minDistance (fun c => c.distToEtalon) c parent with
    | none => rw [hm] at hb; simp at hb
    | some d =>
      rw [hm] at hb
      exact hs.co_trans (PathFinderActivity.UpdateTree.walk_counters_act d fuel c c' p hb)

theorem ConcMap.find_map_snd {V : Type} (f : V → V) (m : ConcMap V) (k : String) :
    ConcMap.find (m.map (fun kv => (kv.1, f kv.2))) k = (ConcMap.find m k).map f := by
  induction m with
  | nil => rfl
  | cons kv m ih =>
    obtain ⟨a, w⟩ := kv
    simp only [List.map_cons, ConcMap.find]
    split
    · rfl
    · exact ih

theorem PathFinder.FindLeaves.bump_counters (c : MolpherMolecule) :
    SameButCounters c (PathFinder.FindLeaves.bump c) := by
  unfold PathFinder.FindLeaves.bump
  split <;> rfl

theorem PathFinderActivity.FindNextBag.bump_counters_act (c : MolpherMolecule) :
    SameButCounters c (PathFinderActivity.FindNextBag.bump c) := by
  unfold PathFinderActivity.FindNextBag.bump
  split <;> rfl

/-! ## Acceptance scan: invariants -/

theorem SameEnv.env_refl (c : PathFinderContext) : SameEnv c c :=
  ⟨rfl, rfl, rfl, rfl, rfl, rfl, rfl⟩

theorem SameEnv.env_trans {a b c : PathFinderContext} (h₁ : SameEnv a b) (h₂ : SameEnv b c) :
    SameEnv a c := by
  obtain ⟨a₁, a₂, a₃, a₄, a₅, a₆, a₇⟩ := h₁
  obtain ⟨b₁, b₂, b₃, b₄, b₅, b₆, b₇⟩ := h₂
  exact ⟨b₁.trans a₁, b₂.trans a₂, b₃.trans a₃, b₄.trans a₄, b₅.trans a₅, b₆.trans a₆,
    b₇.trans a₇⟩

theorem SameEnv.scaffoldMode {c c' : PathFinderContext} (h : SameEnv c c') :
    c'.ScaffoldMode = c.ScaffoldMode := by
  unfold PathFinderContext.ScaffoldMode
  rw [h.2.2.2.2.2.1]

theorem Shrinks.shrinks_sameEnv {c c' : PathFinderContext} (h : Shrinks c c') : SameEnv c c' :=
  ⟨h.1, h.2.1, h.2.2.1, h.2.2.2.1, h.2.2.2.2.1, h.2.2.2.2.2.1, h.2.2.2.2.2.2.1⟩

theorem CountersOnly.co_sameEnv {c c' : PathFinderContext} (h : CountersOnly c c') :
    SameEnv c c' := by
  have e := h.1
  refine ⟨?_, ?_, ?_, ?_, ?_, ?_, ?_⟩ <;> rw [e]

theorem KeepsHistory.kh_refl (v : MolpherMolecule) : KeepsHistory v v :=
  ⟨fun _ h => h, fun h => h⟩

theorem KeepsHistory.kh_trans {a b c : MolpherMolecule} (h₁ : KeepsHistory a b)
    (h₂ : KeepsHistory b c) : KeepsHistory a c :=
  ⟨fun d hd => h₂.1 d (h₁.1 d hd), fun h => h₂.2 (h₁.2 h)⟩

theorem KeepsHistory.withChild (v : MolpherMolecule) (x : String) :
    KeepsHistory v (AcceptMorphs.withChild v x) := by
  refine ⟨fun d hd => (StrSet.mem_insert _ _ _).mpr (Or.inr hd), ?_⟩
  intro h d hd
  simp only [AcceptMorphs.withChild] at hd ⊢
  rw [StrSet.mem_insert] at hd ⊢
  rcases hd with e | hd
  · exact Or.inl e
  · exact Or.inr (h d hd)

theorem SameButLinks.links_keepsHistory {v v' : MolpherMolecule} (h : SameButLinks v v') :
    KeepsHistory v v' := by
  obtain ⟨e, hsub, _, _⟩ := h
  have hh : v'.historicDescendants = v.historicDescendants := by rw [e]
  exact ⟨fun d hd => hh ▸ hd, fun hs d hd => hh ▸ hs d (hsub d hd)⟩

theorem SameButCounters.sbc_keepsHistory {v v' : MolpherMolecule} (h : SameButCounters v v') :
    KeepsHistory v v' := by
  have hh := h.historicDescendants
  have hd := h.descendants
  exact ⟨fun d hd' => hh ▸ hd', fun hs d hd' => hh ▸ hs d (hd ▸ hd')⟩

theorem Shrinks.shrinks_historyKept {c c' : PathFinderContext} (h : Shrinks c c') :
    HistoryKept c.candidates c'.candidates := by
  intro k v v' hv hv'
  obtain ⟨v₀, hv₀, hr⟩ := h.2.2.2.2.2.2.2.1 k v' hv'
  rw [hv] at hv₀
  cases hv₀
  exact hr.links_keepsHistory

theorem CountersOnly.co_historyKept {c c' : PathFinderContext} (h : CountersOnly c c') :
    HistoryKept c.candidates c'.candidates := by
  intro k v v' hv hv'
  obtain ⟨v₀, hv₀, hr⟩ := h.2.2 k v' hv'
  rw [hv] at hv₀
  cases hv₀
  exact hr.sbc_keepsHistory

/-- What one completed final-scan step does to `candidates`, in terms of
lookups: nothing, or the morph is stored at its fingerprint and its parent gains
a child. -/
theorem AcceptMorphs.finalBody_find (gated : Bool) (mMorphs : List MolpherMolecule)
    (mSurvivors : List Bool) (st st' : AcceptMorphs) (idx : Nat)
    (h : AcceptMorphs.finalBody gated mMorphs mSurvivors st idx = some st') :
    SameEnv st.mCtx st'.mCtx ∧
    st'.mCtx.prunedDuringThisIter = st.mCtx.prunedDuringThisIter ∧
    (st'.mCtx.candidates = st.mCtx.candidates ∨
      ∃ morph parent, mSurvivors.getD idx false = true ∧ mMorphs[idx]? = some morph ∧
        (st.mCtx.candidates.assign morph.smile morph).find morph.parentSmile = some parent ∧
        ∀ k, st'.mCtx.candidates.find k =
          if morph.parentSmile = k then some (AcceptMorphs.withChild parent morph.smile)
          else if morph.smile = k then some morph
          else st.mCtx.candidates.find k) := by
  rcases AcceptMorphs.finalBody_cases _ _ _ _ _ _ h with
    ⟨hctx, _, _⟩ | ⟨morph, ctx₁, parent, hsv, hm, _, hins, hp, hctx, _, _⟩
  · rw [hctx]; exact ⟨SameEnv.env_refl _, rfl, Or.inl rfl⟩
  · obtain ⟨hc, e₁, e₂, e₃, e₄, e₅, e₆, e₇, e₈, _⟩ := AcceptMorphs.insertMorph_spec _ _ _ hins
    rw [hctx]
    refine ⟨⟨e₁, e₂, e₅, e₆, e₇, e₄, e₈⟩, e₃, Or.inr ⟨morph, parent, hsv, hm, hc ▸ hp, ?_⟩⟩
    intro k
    simp only [ConcMap.find_assign, hc]

theorem AcceptMorphs.linkInv_step (old : ConcMap MolpherMolecule) (gated : Bool)
    (mMorphs : List MolpherMolecule) (mSurvivors : List Bool)
    (hfresh : FreshSurvivors old mMorphs mSurvivors) (st st' : AcceptMorphs) (idx : Nat)
    (hinv : AcceptMorphs.linkInv old st)
    (h : AcceptMorphs.finalBody gated mMorphs mSurvivors st idx = some st') :
    AcceptMorphs.linkInv old st' := by
  obtain ⟨hl, hpar, hkeys, hhist, hkey⟩ := hinv
  obtain ⟨_, _, hc⟩ := AcceptMorphs.finalBody_find _ _ _ _ _ _ h
  rcases hc with hc | ⟨morph, parent, hsv, hm, hp, hfind⟩
  · unfold AcceptMorphs.linkInv
    rw [hc]; exact ⟨hl, hpar, hkeys, hhist, hkey⟩
  · obtain ⟨hnew, hparold⟩ := hfresh idx morph hm hsv
    have hne : morph.smile ≠ morph.parentSmile := by
      intro e; rw [e, hparold] at hnew; cases hnew
    -- the parent is an old candidate, found where it was before the insertion
    have hp₀ : st.mCtx.candidates.find morph.parentSmile = some parent := by
      rw [ConcMap.find_assign] at hp
      simpa [hne] using hp
    refine ⟨?_, ?_, ?_, ?_, ?_⟩
    · intro k c hk hcp
      rw [hfind] at hk
      by_cases e₁ : morph.parentSmile = k
      · -- the parent itself
        subst e₁
        simp only [if_true, Option.some.injEq] at hk
        subst hk
        simp only [AcceptMorphs.withChild] at hcp ⊢
        obtain ⟨p, hpf, hmem⟩ := hl _ parent hp₀ hcp
        have hold := hpar _ parent hp₀ hcp
        have hne₂ : morph.smile ≠ parent.parentSmile := by
          intro e; rw [e, hold] at hnew; cases hnew
        rw [hfind]
        by_cases e₃ : morph.parentSmile = parent.parentSmile
        · rw [← e₃, hp₀] at hpf
          cases hpf
          exact ⟨AcceptMorphs.withChild parent morph.smile, by simp [e₃],
            (StrSet.mem_insert _ _ _).mpr (Or.inr hmem)⟩
        · exact ⟨p, by simp [e₃, hne₂, hpf], hmem⟩
      · simp only [e₁, if_false] at hk
        by_cases e₂ : morph.smile = k
        · -- the inserted morph
          subst e₂
          simp only [if_true, Option.some.injEq] at hk
          subst hk
          rw [hfind]
          exact ⟨AcceptMorphs.withChild parent morph.smile, by simp,
            (StrSet.mem_insert _ _ _).mpr (Or.inl rfl)⟩
        · simp only [e₂, if_false] at hk
          obtain ⟨p, hpf, hmem⟩ := hl k c hk hcp
          have hold := hpar k c hk hcp
          have hne₂ : morph.smile ≠ c.parentSmile := by
            intro e; rw [e, hold] at hnew; cases hnew
          rw [hfind]
          by_cases e₃ : morph.parentSmile = c.parentSmile
          · rw [← e₃, hp₀] at hpf
            cases hpf
            exact ⟨AcceptMorphs.withChild parent morph.smile, by simp [e₃],
            (StrSet.mem_insert _ _ _).mpr (Or.inr hmem)⟩
          · exact ⟨p, by simp [e₃, hne₂, hpf], hmem⟩
    · intro k c hk hcp
      rw [hfind] at hk
      by_cases e₁ : morph.parentSmile = k
      · subst e₁
        simp only [if_true, Option.some.injEq] at hk
        subst hk
        exact hpar _ parent hp₀ hcp
      · simp only [e₁, if_false] at hk
        by_cases e₂ : morph.smile = k
        · simp only [e₂, if_true, Option.some.injEq] at hk
          subst hk
          exact hparold
        · simp only [e₂, if_false] at hk
          exact hpar k c hk hcp
    · intro k hk
      have := hkeys k hk
      rw [ConcMap.contains_iff] at this ⊢
      obtain ⟨v, hv⟩ := this
      rw [hfind]
      by_cases e₁ : morph.parentSmile = k
      · exact ⟨AcceptMorphs.withChild parent morph.smile, by simp [e₁]⟩
      · by_cases e₂ : morph.smile = k
        · exact ⟨morph, by simp [e₁, e₂]⟩
        · exact ⟨v, by simp [e₁, e₂, hv]⟩
    · intro k c c' hk hk'
      rw [hfind] at hk'
      have hcon : old.contains k = true := (ConcMap.contains_iff _ _).mpr ⟨c, hk⟩
      have hne₂ : morph.smile ≠ k := by
        intro e; rw [e, hcon] at hnew; cases hnew
      by_cases e₁ : morph.parentSmile = k
      · subst e₁
        simp only [if_true, Option.some.injEq] at hk'
        subst hk'
        exact (hhist _ c parent hk hp₀).kh_trans (KeepsHistory.withChild parent morph.smile)
      · simp only [e₁, hne₂, if_false] at hk'
        exact hhist k c c' hk hk'
    · intro hko k c hk
      rw [hfind] at hk
      by_cases e₁ : morph.parentSmile = k
      · subst e₁
        simp only [if_true, Option.some.injEq] at hk
        subst hk
        exact hkey hko _ parent hp₀
      · simp only [e₁, if_false] at hk
        by_cases e₂ : morph.smile = k
        · simp only [e₂, if_true, Option.some.injEq] at hk
          subst hk
          exact e₂
        · simp only [e₂, if_false] at hk
          exact hkey hko k c hk

/-! ## From the Filter to the acceptance scan -/

theorem FilterMorphs.survives_true (ctx : PathFinderContext) (morph : MolpherMolecule)
    (h : FilterMorphs.survives ctx morph = some true) :
    ctx.candidates.contains morph.parentSmile = true ∧
    (ctx.ScaffoldMode = false → ctx.candidates.contains morph.smile = false) := by
  unfold FilterMorphs.survives at h
  simp only [] at h
  split at h
  · cases h
  · rename_i hdead
    cases hp : ctx.candidates.find morph.parentSmile with
    | none => rw [hp] at h; simp at h
    | some parent =>
      refine ⟨(ConcMap.contains_iff _ _).mpr ⟨parent, hp⟩, ?_⟩
      intro hs
      cases hc : ctx.candidates.contains morph.smile
      · rfl
      · exfalso
        apply hdead
        simp only [FilterMorphs.alreadyExists, hs, Bool.not_false, if_true, hc,
          Bool.and_true, Bool.or_eq_true, Bool.not_eq_true', Bool.and_eq_true]
        by_cases hw : (decide (morph.molecularWeight < ctx.params.minAcceptableMolecularWeight) ||
            decide (morph.molecularWeight > ctx.params.maxAcceptableMolecularWeight)) = true
        · left; left; simpa using hw
        · by_cases hsa : (ctx.params.useSyntetizedFeasibility && decide (morph.sascore > 6)) = true
          · left; right
            simp only [Bool.not_eq_true] at hw
            simp only [Bool.or_eq_false_iff] at hw
            simp only [Bool.and_eq_true] at hsa
            simp [hw.1, hw.2, hsa.1, hsa.2]
          · right
            simp only [Bool.not_eq_true] at hw hsa
            simp only [Bool.or_eq_false_iff] at hw
            simp [hw.1, hw.2, hsa]

theorem List.getD_true_iff (l : List Bool) (i : Nat) :
    l.getD i false = true ↔ l[i]? = some true := by
  rw [List.getD_eq_getElem?_getD]
  cases l[i]? with
  | none => simp
  | some b => simp

/-- Every morph the path-mode Filter stage marks as a survivor passed the
predicate chain. -/
theorem PathFinder.filterStage_true (ctx : PathFinderContext) (morphs : List MolpherMolecule)
    (rand : Nat → Nat) (surv : List Bool)
    (h : PathFinder.filterStage ctx morphs rand = some surv) (i : Nat) (m : MolpherMolecule)
    (hm : morphs[i]? = some m) (ht : surv.getD i false = true) :
    FilterMorphs.survives ctx m = some true := by
  unfold PathFinder.filterStage PathFinder.FilterMorphs forRange at h
  obtain ⟨_, hin, _⟩ := foldlM_set_spec _ _
    (PathFinder.FilterMorphs.body_eq ctx _ morphs rand) _ _ _ (List.nodup_range' _ _) h
  have hlt : i < morphs.length := by
    rcases Nat.lt_or_ge i morphs.length with h' | h'
    · exact h'
    · rw [List.getElem?_eq_none h'] at hm; cases hm
  obtain ⟨o, ho, hv⟩ := hin i (by rw [List.mem_range'_1]; omega)
  rw [List.getD_true_iff] at ht
  unfold PathFinder.FilterMorphs.outcome at ho
  rw [hm] at ho
  simp only [] at ho
  split at ho
  · cases hs : FilterMorphs.survives ctx m with
    | none => rw [hs] at ho; simp at ho
    | some b =>
      rw [hs] at ho
      simp only [Option.map_some', Option.some.injEq] at ho
      subst ho
      rw [hv] at ht
      simp only [List.getElem?_set, if_true, List.length_replicate, hlt,
        Option.some.injEq] at ht
      rw [ht]
  · simp only [Option.some.injEq] at ho
    subst ho
    rw [hv] at ht
    simp [List.getElem?_replicate, hlt] at ht

/-- Every morph the activity-mode Filter stage marks as a survivor passed the
predicate chain. -/
theorem PathFinderActivity.filterStage_true_act (ctx : PathFinderContext)
    (morphs : List MolpherMolecule) (surv : List Bool)
    (h : PathFinderActivity.filterStage ctx morphs = some surv) (i : Nat)
    (m : MolpherMolecule) (hm : morphs[i]? = some m) (ht : surv.getD i false = true) :
    FilterMorphs.survives ctx m = some true := by
  unfold PathFinderActivity.filterStage PathFinderActivity.FilterMorphs forRange at h
  obtain ⟨_, hin, _⟩ := foldlM_set_spec _ _
    (PathFinderActivity.FilterMorphs.body_eq_act ctx morphs) _ _ _ (List.nodup_range' _ _) h
  have hlt : i < morphs.length := by
    rcases Nat.lt_or_ge i morphs.length with h' | h'
    · exact h'
    · rw [List.getElem?_eq_none h'] at hm; cases hm
  obtain ⟨o, ho, hv⟩ := hin i (by rw [List.mem_range'_1]; omega)
  rw [List.getD_true_iff] at ht
  unfold PathFinderActivity.FilterMorphs.outcome at ho
  rw [hm] at ho
  simp only [] at ho
  cases hs : FilterMorphs.survives ctx m with
  | none => rw [hs] at ho; simp at ho
  | some b =>
    rw [hs] at ho
    simp only [Option.map_some', Option.some.injEq] at ho
    subst ho
    rw [hv] at ht
    simp only [List.getElem?_set, if_true, List.length_replicate, hlt,
      Option.some.injEq] at ht
    rw [ht]

/-- Survivors of a Filter stage are fresh: always in non-scaffold mode, and in
scaffold mode when no survivor's fingerprint is a key yet. -/
theorem FreshSurvivors.of_survives (ctx : PathFinderContext) (morphs : List MolpherMolecule)
    (survivors : List Bool)
    (hpass : ∀ (i : Nat) m, morphs[i]? = some m → survivors.getD i false = true →
      FilterMorphs.survives ctx m = some true)
    (hscaf : ctx.ScaffoldMode = true → ∀ (i : Nat) m, morphs[i]? = some m →
      survivors.getD i false = true → ctx.candidates.contains m.smile = false) :
    FreshSurvivors ctx.candidates morphs survivors := by
  intro i m hm ht
  obtain ⟨hp, hn⟩ := FilterMorphs.survives_true ctx m (hpass i m hm ht)
  refine ⟨?_, hp⟩
  cases hs : ctx.ScaffoldMode
  · exact hn hs
  · exact hscaf hs i m hm ht

theorem AcceptMorphs.scan_linkInv (gated : Bool) (morphs : List MolpherMolecule)
    (survivors : List Bool) (ctx : PathFinderContext) (st : AcceptMorphs) (b e : Nat)
    (hfresh : FreshSurvivors ctx.candidates morphs survivors)
    (hl : LinkedToParent ctx.candidates)
    (hpar : ∀ k c, ctx.candidates.find k = some c → c.parentSmile ≠ "" →
      ctx.candidates.contains c.parentSmile = true)
    (h : forRange b e (AcceptMorphs.finalBody gated morphs survivors)
      { mCtx := ctx, mModifiedParents := [], mSurvivorCount := 0 } = some st) :
    AcceptMorphs.linkInv ctx.candidates st ∧ SameEnv ctx st.mCtx ∧
      st.mCtx.prunedDuringThisIter = ctx.prunedDuringThisIter := by
  refine forRange_invariant
    (fun s => AcceptMorphs.linkInv ctx.candidates s ∧ SameEnv ctx s.mCtx ∧
      s.mCtx.prunedDuringThisIter = ctx.prunedDuringThisIter) _ b e ?_ _ st ?_ h
  · intro s i s' _ _ hs hb
    obtain ⟨henv, hpr, _⟩ := AcceptMorphs.finalBody_find _ _ _ _ _ _ hb
    exact ⟨AcceptMorphs.linkInv_step _ _ _ _ hfresh _ _ _ hs.1 hb, hs.2.1.env_trans henv,
      hpr.trans hs.2.2⟩
  · refine ⟨⟨hl, hpar, fun _ hk => hk, ?_, fun hk => hk⟩, SameEnv.env_refl _, rfl⟩
    intro k c c' hk hk'
    rw [hk] at hk'
    cases hk'
    exact KeepsHistory.kh_refl _

theorem LinkedToParent.parent_contained {cands : ConcMap MolpherMolecule}
    (hl : LinkedToParent cands) :
    ∀ k c, cands.find k = some c → c.parentSmile ≠ "" →
      cands.contains c.parentSmile = true := by
  intro k c hk hp
  obtain ⟨p, hpf, _⟩ := hl k c hk hp
  exact (ConcMap.contains_iff _ _).mpr ⟨p, hpf⟩

theorem Shrinks.shrinks_keyed {c c' : PathFinderContext} (h : Shrinks c c')
    (hk : KeyedBySmile c.candidates) : KeyedBySmile c'.candidates := by
  intro k v' hv'
  obtain ⟨v, hv, e, _⟩ := h.2.2.2.2.2.2.2.1 k v' hv'
  have : v'.smile = v.smile := by rw [e]
  rw [this]; exact hk k v hv

theorem CountersOnly.co_keyed {c c' : PathFinderContext} (h : CountersOnly c c')
    (hk : KeyedBySmile c.candidates) : KeyedBySmile c'.candidates := by
  intro k v' hv'
  obtain ⟨v, hv, hr⟩ := h.2.2 k v' hv'
  rw [hr.smile]; exact hk k v hv

/-! ## The scaffold index -/

theorem ConcMap.find_mem {V : Type} : ∀ (m : ConcMap V) (k : String) (v : V),
    m.find k = some v → (k, v) ∈ m := by
  intro m
  induction m with
  | nil => intro k c hk; simp [ConcMap.find] at hk
  | cons kv m ih =>
    obtain ⟨a, w⟩ := kv
    intro k c hk
    simp only [ConcMap.find] at hk
    split at hk
    · rename_i e
      simp only [Option.some.injEq] at hk
      subst e; subst hk
      exact List.mem_cons_self _ _
    · exact List.mem_cons_of_mem _ (ih k c hk)

theorem ConcMap.keys_erase {V : Type} (m : ConcMap V) (k : String) :
    ConcMap.keys (ConcMap.erase m k) = (ConcMap.keys m).filter (fun a => decide (a ≠ k)) := by
  induction m with
  | nil => rfl
  | cons kv m ih =>
    obtain ⟨a, w⟩ := kv
    simp only [ConcMap.erase, ConcMap.keys, List.map_cons, List.filter_cons] at ih ⊢
    by_cases h : a = k
    · simp only [h, if_true, ne_eq, not_true_eq_false, decide_False, Bool.false_eq_true,
        if_false]
      exact h ▸ ih
    · simp only [h, if_false, ne_eq, not_false_eq_true, decide_True, if_true, List.map_cons]
      rw [ih]

theorem ConcMap.nodup_keys_erase {V : Type} (m : ConcMap V) (k : String)
    (h : (ConcMap.keys m).Nodup) : (ConcMap.keys (ConcMap.erase m k)).Nodup := by
  rw [ConcMap.keys_erase]
  exact h.filter _

theorem ConcMap.nodup_keys_assign {V : Type} (m : ConcMap V) (k : String) (v : V)
    (h : (ConcMap.keys m).Nodup) : (ConcMap.keys (ConcMap.assign m k v)).Nodup := by
  rw [ConcMap.keys_assign]
  split
  · exact h
  · rename_i hc
    rw [List.nodup_append]
    refine ⟨h, List.nodup_singleton k, ?_⟩
    intro a ha hk
    rw [List.mem_singleton] at hk
    subst hk
    exact hc (by
      rw [ConcMap.contains_iff]
      exact (ConcMap.mem_keys_iff m a).mp ha)

theorem ConcMap.contains_assign {V : Type} (m : ConcMap V) (k k' : String) (v : V) :
    (ConcMap.assign m k v).contains k' = true ↔ k = k' ∨ m.contains k' = true := by
  rw [ConcMap.contains_iff, ConcMap.contains_iff, ConcMap.find_assign]
  by_cases h : k = k'
  · simp [h]
  · simp [h]

theorem ConcMap.contains_erase {V : Type} (m : ConcMap V) (k k' : String) :
    (ConcMap.erase m k).contains k' = true ↔ k ≠ k' ∧ m.contains k' = true := by
  rw [ConcMap.contains_iff, ConcMap.contains_iff, ConcMap.find_erase]
  by_cases h : k = k'
  · simp [h]
  · simp [h]

/-- The size equality: index and candidates have the same number of entries. -/
theorem ScaffoldIndexed.sizes {G : String → String} {cands : ConcMap MolpherMolecule}
    {index : ConcMap String} (h : ScaffoldIndexed G cands index) :
    cands.length = index.length := by
  obtain ⟨_, hcov, himg, hinj, hnc, hni⟩ := h
  have hmap : ((ConcMap.keys cands).map G).Nodup := by
    refine List.Nodup.map_on ?_ hnc
    intro a ha b hb e
    exact hinj a b ((ConcMap.contains_iff _ _).mpr ((ConcMap.mem_keys_iff _ _).mp ha))
      ((ConcMap.contains_iff _ _).mpr ((ConcMap.mem_keys_iff _ _).mp hb)) e
  have hperm : ((ConcMap.keys cands).map G).Perm (ConcMap.keys index) := by
    rw [List.perm_ext_iff_of_nodup hmap hni]
    intro s
    rw [List.mem_map]
    constructor
    · rintro ⟨k, hk, rfl⟩
      have := hcov k ((ConcMap.contains_iff _ _).mpr ((ConcMap.mem_keys_iff _ _).mp hk))
      exact (ConcMap.mem_keys_iff _ _).mpr ((ConcMap.contains_iff _ _).mp this)
    · intro hs
      obtain ⟨k, hk, e⟩ := himg s
        ((ConcMap.contains_iff _ _).mpr ((ConcMap.mem_keys_iff _ _).mp hs))
      exact ⟨k, (ConcMap.mem_keys_iff _ _).mpr ((ConcMap.contains_iff _ _).mp hk), e⟩
  have := hperm.length_eq
  simpa [ConcMap.keys] using this

/-- The erase of a candidate together with the index entry of its scaffold. -/
theorem ScaffoldIndexed.erase_indexed {G : String → String} {cands : ConcMap MolpherMolecule}
    {index : ConcMap String} (h : ScaffoldIndexed G cands index) (current : String)
    (node : MolpherMolecule) (hf : cands.find current = some node) :
    ScaffoldIndexed G (cands.erase current) (index.erase node.scaffoldSmile) := by
  obtain ⟨hrec, hcov, himg, hinj, hnc, hni⟩ := h
  have hsc : node.scaffoldSmile = G current := hrec current node hf
  have hcur : cands.contains current = true := (ConcMap.contains_iff _ _).mpr ⟨node, hf⟩
  rw [hsc]
  refine ⟨fun k v hk => ?_, fun k hk => ?_, fun s hs => ?_, fun k k' hk hk' e => ?_,
    ConcMap.nodup_keys_erase _ _ hnc, ConcMap.nodup_keys_erase _ _ hni⟩
  · rw [ConcMap.find_erase] at hk
    split at hk
    · cases hk
    · exact hrec k v hk
  · rw [ConcMap.contains_erase] at hk ⊢
    exact ⟨fun e => hk.1 (hinj current k hcur hk.2 e), hcov k hk.2⟩
  · rw [ConcMap.contains_erase] at hs
    obtain ⟨k, hk, e⟩ := himg s hs.2
    refine ⟨k, ?_, e⟩
    rw [ConcMap.contains_erase]
    refine ⟨fun e' => hs.1 ?_, hk⟩
    rw [e', e]
  · rw [ConcMap.contains_erase] at hk hk'
    exact hinj k k' hk.2 hk'.2 e

/-- The rewrite of the record of a candidate that keeps its scaffold. -/
theorem ScaffoldIndexed.assign_record {G : String → String} {cands : ConcMap MolpherMolecule}
    {index : ConcMap String} (h : ScaffoldIndexed G cands index) (k : String)
    (v v' : MolpherMolecule) (hf : cands.find k = some v)
    (hs : v'.scaffoldSmile = v.scaffoldSmile) :
    ScaffoldIndexed G (cands.assign k v') index := by
  obtain ⟨hrec, hcov, himg, hinj, hnc, hni⟩ := h
  have hk : cands.contains k = true := (ConcMap.contains_iff _ _).mpr ⟨v, hf⟩
  have hcon : ∀ a, (cands.assign k v').contains a = true ↔ cands.contains a = true := by
    intro a
    rw [ConcMap.contains_assign]
    constructor
    · rintro (e | e)
      · exact e ▸ hk
      · exact e
    · exact Or.inr
  refine ⟨fun a w ha => ?_, fun a ha => hcov a ((hcon a).mp ha), fun s hs' => ?_,
    fun a b ha hb e => hinj a b ((hcon a).mp ha) ((hcon b).mp hb) e,
    ConcMap.nodup_keys_assign _ _ _ hnc, hni⟩
  · rw [ConcMap.find_assign] at ha
    split at ha
    · rename_i e
      cases ha
      rw [hs, ← e]
      exact hrec k v hf
    · exact hrec a w ha
  · obtain ⟨a, ha, e⟩ := himg s hs'
    exact ⟨a, (hcon a).mpr ha, e⟩

/-- A morph whose scaffold is not in the index is no candidate. -/
theorem ScaffoldIndexed.fresh_key {G : String → String} {cands : ConcMap MolpherMolecule}
    {index : ConcMap String} (h : ScaffoldIndexed G cands index) (morph : MolpherMolecule)
    (hm : morph.scaffoldSmile = G morph.smile)
    (hnew : index.contains morph.scaffoldSmile = false) :
    cands.contains morph.smile = false := by
  cases hc : cands.contains morph.smile with
  | false => rfl
  | true =>
    have := h.2.1 _ hc
    rw [← hm, hnew] at this
    cases this

/-- The scaffold-mode insertion of a morph with a new scaffold. -/
theorem ScaffoldIndexed.insert_step {G : String → String} {cands : ConcMap MolpherMolecule}
    {index : ConcMap String} (h : ScaffoldIndexed G cands index) (morph : MolpherMolecule)
    (hm : morph.scaffoldSmile = G morph.smile)
    (hnew : index.contains morph.scaffoldSmile = false) :
    ScaffoldIndexed G (cands.assign morph.smile morph)
      (index.assign morph.scaffoldSmile morph.smile) := by
  have hfresh := h.fresh_key morph hm hnew
  obtain ⟨hrec, hcov, himg, hinj, hnc, hni⟩ := h
  refine ⟨fun a w ha => ?_, fun a ha => ?_, fun s hs' => ?_, fun a b ha hb e => ?_,
    ConcMap.nodup_keys_assign _ _ _ hnc, ConcMap.nodup_keys_assign _ _ _ hni⟩
  · rw [ConcMap.find_assign] at ha
    split at ha
    · rename_i e
      cases ha
      rw [hm, e]
    · exact hrec a w ha
  · rw [ConcMap.contains_assign] at ha ⊢
    rcases ha with e | ha
    · left; rw [hm, e]
    · exact Or.inr (hcov a ha)
  · rw [ConcMap.contains_assign] at hs'
    rcases hs' with e | hs'
    · exact ⟨morph.smile, (ConcMap.contains_assign _ _ _ _).mpr (Or.inl rfl), by rw [← e, hm]⟩
    · obtain ⟨a, ha, e⟩ := himg s hs'
      exact ⟨a, (ConcMap.contains_assign _ _ _ _).mpr (Or.inr ha), e⟩
  · rw [ConcMap.contains_assign] at ha hb
    rcases ha with ea | ha <;> rcases hb with eb | hb
    · rw [← ea, ← eb]
    · exfalso
      have := hcov b hb
      rw [← e, ← ea, ← hm, hnew] at this
      cases this
    · exfalso
      have := hcov a ha
      rw [e, ← eb, ← hm, hnew] at this
      cases this
    · exact hinj a b ha hb e

theorem ConcMap.mem_of_contains {V : Type} (m : ConcMap V) (k : String)
    (h : m.contains k = true) : ∃ v, (k, v) ∈ m := by
  obtain ⟨v, hv⟩ := (ConcMap.contains_iff _ _).mp h
  exact ⟨v, ConcMap.find_mem _ _ _ hv⟩

theorem ConcMap.contains_of_mem {V : Type} (m : ConcMap V) (k : String) (v : V)
    (h : (k, v) ∈ m) : m.contains k = true := by
  rw [ConcMap.contains_iff]
  apply (ConcMap.mem_keys_iff m k).mp
  unfold ConcMap.keys
  exact List.mem_map.mpr ⟨(k, v), h, rfl⟩

theorem scaffoldIndexedCheck_sound (G : String → String) (cands : ConcMap MolpherMolecule)
    (index : ConcMap String) (h : scaffoldIndexedCheck G cands index = true) :
    ScaffoldIndexed G cands index := by
  unfold scaffoldIndexedCheck at h
  simp only [Bool.and_eq_true, List.all_eq_true, List.any_eq_true, decide_eq_true_eq] at h
  obtain ⟨⟨⟨⟨h1, h2⟩, h3⟩, h4⟩, h5⟩ := h
  refine ⟨fun k v hk => (h1 (k, v) (ConcMap.find_mem _ _ _ hk)).1, fun k hk => ?_,
    fun s hs => ?_, fun k k' hk hk' e => ?_, h4, h5⟩
  · obtain ⟨v, hv⟩ := ConcMap.mem_of_contains _ _ hk
    exact (h1 (k, v) hv).2
  · obtain ⟨v, hv⟩ := ConcMap.mem_of_contains _ _ hs
    obtain ⟨kv, hkv, e⟩ := h2 (s, v) hv
    exact ⟨kv.1, ConcMap.contains_of_mem _ _ kv.2 hkv, e⟩
  · have hk₁ : k ∈ ConcMap.keys cands :=
      (ConcMap.mem_keys_iff _ _).mpr ((ConcMap.contains_iff _ _).mp hk)
    have hk₂ : k' ∈ ConcMap.keys cands :=
      (ConcMap.mem_keys_iff _ _).mpr ((ConcMap.contains_iff _ _).mp hk')
    exact List.inj_on_of_nodup_map h3 hk₁ hk₂ e

/-- A morph that passes the predicate chain of Filter is not `alreadyExists`. -/
theorem FilterMorphs.survives_new (ctx : PathFinderContext) (morph : MolpherMolecule)
    (h : FilterMorphs.survives ctx morph = some true) :
    FilterMorphs.alreadyExists ctx morph = false := by
  unfold FilterMorphs.survives at h
  simp only [] at h
  split at h
  · cases h
  · rename_i hdead
    cases hc : FilterMorphs.alreadyExists ctx morph
    · rfl
    · exfalso
      apply hdead
      rw [hc]
      cases (decide (morph.molecularWeight < ctx.params.minAcceptableMolecularWeight) ||
            decide (morph.molecularWeight > ctx.params.maxAcceptableMolecularWeight)) <;>
        cases (ctx.params.useSyntetizedFeasibility && decide (morph.sascore > 6)) <;> rfl

/-- The survivors of Filter are new to `candidates` and their parents are
candidates, in scaffold mode as well when the scaffolds are those of `G`. -/
theorem ScaffoldsFrom.fresh_survivors {G : String → String} {ctx : PathFinderContext}
    {morphs : List MolpherMolecule} (hG : ScaffoldsFrom G ctx morphs) (survivors : List Bool)
    (hpass : ∀ (i : Nat) m, morphs[i]? = some m → survivors.getD i false = true →
      FilterMorphs.survives ctx m = some true) :
    FreshSurvivors ctx.candidates morphs survivors := by
  refine FreshSurvivors.of_survives ctx morphs survivors hpass ?_
  intro hmode i m hm hs
  obtain ⟨hI, hsc⟩ := hG hmode
  have hmem : m ∈ morphs := by
    obtain ⟨hlt, he⟩ := List.getElem?_eq_some.mp hm
    exact he ▸ List.getElem_mem hlt
  have hne := FilterMorphs.survives_new ctx m (hpass i m hm hs)
  unfold FilterMorphs.alreadyExists at hne
  simp only [hmode, Bool.not_true, Bool.false_eq_true, if_false, Bool.or_eq_false_iff] at hne
  exact hI.fresh_key m (hsc m hmem) hne.1

/-! ## P1 over an iteration -/

theorem linkedCheck_sound (cands : ConcMap MolpherMolecule) (h : linkedCheck cands = true) :
    LinkedToParent cands := by
  have hmem : ∀ (m : ConcMap MolpherMolecule) k c, m.find k = some c → (k, c) ∈ m := by
    intro m
    induction m with
    | nil => intro k c hk; simp [ConcMap.find] at hk
    | cons kv m ih =>
      obtain ⟨a, w⟩ := kv
      intro k c hk
      simp only [ConcMap.find] at hk
      split at hk
      · rename_i e
        simp only [Option.some.injEq] at hk
        subst e; subst hk
        exact List.mem_cons_self _ _
      · exact List.mem_cons_of_mem _ (ih k c hk)
  intro k c hk hp
  unfold linkedCheck at h
  rw [List.all_eq_true] at h
  have := h (k, c) (hmem cands k c hk)
  simp only [hp, decide_False, Bool.false_or] at this
  cases hf : cands.find c.parentSmile with
  | none => rw [hf] at this; cases this
  | some p =>
    rw [hf] at this
    exact ⟨p, rfl, by simpa using this⟩

/-- C1: the parent/child linkage P1 is kept by an iteration of the path finder.
If before AcceptScan every candidate with a non-empty `parentSmile` has that
parent as a key of `candidates` with the candidate's fingerprint among the
parent's `descendants`, and the survivors are those of the Filter stage, then
whenever AcceptScan, UpdateTree and Prune complete the same holds of every
candidate present afterwards; keys remain the candidates' own fingerprints.
In scaffold mode the scaffolds are those of the scaffold function `G` of the
run (`ScaffoldsFrom`). -/
theorem C1_linkage_preserved (G : String → String) (fuel : Nat)
    (ctx ctx' : PathFinderContext)
    (morphs : List MolpherMolecule) (rand : Nat → Nat) (survivors : List Bool)
    (deferredMols : List MolpherMolecule)
    (hP1 : LinkedToParent ctx.candidates)
    (hG : ScaffoldsFrom G ctx morphs)
    (hfilter : PathFinder.filterStage ctx morphs rand = some survivors)
    (hrun : PathFinder.acceptUpdatePrune fuel morphs survivors deferredMols ctx = some ctx') :
    LinkedToParent ctx'.candidates ∧
    (KeyedBySmile ctx.candidates → KeyedBySmile ctx'.candidates) := by
  have hfresh := hG.fresh_survivors survivors
    (PathFinder.filterStage_true ctx morphs rand survivors hfilter)
  unfold PathFinder.acceptUpdatePrune at hrun
  cases ha : PathFinder.acceptMorphs morphs survivors ctx with
  | none => rw [ha] at hrun; simp at hrun
  | some r =>
    rw [ha] at hrun
    simp only [Option.bind] at hrun
    unfold PathFinder.acceptMorphs PathFinder.AcceptMorphs at ha
    cases hf : forRange 0 morphs.length (AcceptMorphs.finalBody true morphs survivors)
        { mCtx := ctx, mModifiedParents := [], mSurvivorCount := 0 } with
    | none => rw [hf] at ha; simp at ha
    | some st =>
      rw [hf] at ha
      simp only [Option.map_some', Option.some.injEq] at ha
      subst ha
      obtain ⟨⟨hl₁, _, _, _, hk₁⟩, _, _⟩ := AcceptMorphs.scan_linkInv true morphs survivors
        ctx st 0 morphs.length hfresh hP1 hP1.parent_contained hf
      simp only [] at hrun
      cases hu : PathFinder.UpdateTree fuel st.mModifiedParents st.mCtx with
      | none => rw [hu] at hrun; simp at hrun
      | some ctx₂ =>
        rw [hu] at hrun
        simp only [] at hrun
        have hc := PathFinder.UpdateTree.counters _ _ _ _ hu
        have hl₂ := hc.linked hl₁
        split at hrun
        · simp only [Option.some.injEq] at hrun
          subst hrun
          exact ⟨hl₂, fun hk => hc.co_keyed (hk₁ hk)⟩
        · refine ⟨PathFinder.pruneStage_linked _ _ _ _ hl₂ hrun, fun hk => ?_⟩
          exact (PathFinder.PruneTree.shrinks _ _ _ _ _
            (PathFinder.pruneStage_eq _ _ _ _ hrun)).shrinks_keyed (hc.co_keyed (hk₁ hk))

/-- Witness for C1, outside scaffold mode and in it. In `filterCtx` (source
`"S"` with child `"A"`) the seven morphs of `filterMorphs` are filtered with the
constant draw `50` and `"A"` is deferred for pruning. In the scaffold-mode
`scaffCtx`, whose index holds the scaffold `"s" ++ k` of every key `k`, the
morph `"X"` of `"A"` with the scaffold `"sX"` and the morph `"Y"` of `"C"` with
the scaffold `"sY"` are filtered with the draw `0`. Both runs complete and
P1 holds afterwards. -/
theorem C1_linkage_preserved_witness :
    (LinkedToParent filterCtx.candidates ∧
      PathFinder.filterStage filterCtx filterMorphs (fun _ => 50)
        = some [true, false, false, false, false, false, false] ∧
      ∃ ctx', PathFinder.acceptUpdatePrune 10 filterMorphs
          [true, false, false, false, false, false, false] deferredA filterCtx = some ctx' ∧
        ConcMap.keys ctx'.candidates = ["S", "C"] ∧
        LinkedToParent ctx'.candidates) ∧
    (scaffCtx.ScaffoldMode = true ∧ LinkedToParent scaffCtx.candidates ∧
      ScaffoldsFrom (fun s => "s" ++ s) scaffCtx
        [{ blankMol with smile := "X", parentSmile := "A", scaffoldSmile := "sX" },
         { blankMol with smile := "Y", parentSmile := "C", scaffoldSmile := "sY" }] ∧
      PathFinder.filterStage scaffCtx
        [{ blankMol with smile := "X", parentSmile := "A", scaffoldSmile := "sX" },
         { blankMol with smile := "Y", parentSmile := "C", scaffoldSmile := "sY" }]
        (fun _ => 0) = some [true, true] ∧
      ∃ ctx', PathFinder.acceptUpdatePrune 10
          [{ blankMol with smile := "X", parentSmile := "A", scaffoldSmile := "sX" },
           { blankMol with smile := "Y", parentSmile := "C", scaffoldSmile := "sY" }]
          [true, true] [] scaffCtx = some ctx' ∧
        ConcMap.keys ctx'.candidates = ["R", "A", "B", "C", "X", "Y"] ∧
        LinkedToParent ctx'.candidates) := by
  have hP1 : LinkedToParent filterCtx.candidates := linkedCheck_sound _ (by decide)
  have hfilter : PathFinder.filterStage filterCtx filterMorphs (fun _ => 50)
      = some [true, false, false, false, false, false, false] := by decide!
  have hkeys : (PathFinder.acceptUpdatePrune 10 filterMorphs
      [true, false, false, false, false, false, false] deferredA filterCtx).map
      (fun c => ConcMap.keys c.candidates) = some ["S", "C"] := by decide!
  have hP1s : LinkedToParent scaffCtx.candidates := linkedCheck_sound _ (by decide)
  have hGs : ScaffoldsFrom (fun s => "s" ++ s) scaffCtx
      [{ blankMol with smile := "X", parentSmile := "A", scaffoldSmile := "sX" },
       { blankMol with smile := "Y", parentSmile := "C", scaffoldSmile := "sY" }] := by
    intro _
    refine ⟨scaffoldIndexedCheck_sound _ _ _ (by decide), fun m hm => ?_⟩
    simp only [List.mem_cons, List.mem_singleton, List.not_mem_nil, or_false] at hm
    rcases hm with rfl | rfl <;> decide
  have hfilters : PathFinder.filterStage scaffCtx
      [{ blankMol with smile := "X", parentSmile := "A", scaffoldSmile := "sX" },
       { blankMol with smile := "Y", parentSmile := "C", scaffoldSmile := "sY" }]
      (fun _ => 0) = some [true, true] := by decide!
  have hkeyss : (PathFinder.acceptUpdatePrune 10
      [{ blankMol with smile := "X", parentSmile := "A", scaffoldSmile := "sX" },
       { blankMol with smile := "Y", parentSmile := "C", scaffoldSmile := "sY" }]
      [true, true] [] scaffCtx).map
      (fun c => ConcMap.keys c.candidates) = some ["R", "A", "B", "C", "X", "Y"] := by decide!
  rw [Option.map_eq_some'] at hkeys hkeyss
  obtain ⟨c, hc, hk⟩ := hkeys
  obtain ⟨cs, hcs, hks⟩ := hkeyss
  exact ⟨⟨hP1, hfilter, c, hc, hk,
      (C1_linkage_preserved (fun s => s) 10 filterCtx c filterMorphs (fun _ => 50) _ deferredA
        hP1 (fun h => absurd h (by decide)) hfilter hc).1⟩,
    by decide, hP1s, hGs, hfilters, cs, hcs, hks,
      (C1_linkage_preserved (fun s => "s" ++ s) 10 scaffCtx cs _ (fun _ => 0) _ []
        hP1s hGs hfilters hcs).1⟩

/-! ## `historicDescendants` over the stages -/

theorem AcceptMorphs.stage_historyKept (gated : Bool) (morphs : List MolpherMolecule)
    (survivors : List Bool) (ctx : PathFinderContext) (st : AcceptMorphs)
    (hfresh : FreshSurvivors ctx.candidates morphs survivors)
    (h : forRange 0 morphs.length (AcceptMorphs.finalBody gated morphs survivors)
      { mCtx := ctx, mModifiedParents := [], mSurvivorCount := 0 } = some st) :
    HistoryKept ctx.candidates st.mCtx.candidates := by
  refine forRange_invariant
    (fun s => (∀ k, ctx.candidates.contains k = true → s.mCtx.candidates.contains k = true) ∧
      HistoryKept ctx.candidates s.mCtx.candidates) _ 0 morphs.length ?_ _ st ?_ h |>.2
  · intro s i s' _ _ hs hb
    obtain ⟨hkeys, hhist⟩ := hs
    refine ⟨fun k hk => AcceptMorphs.finalBody_keys _ _ _ _ _ _ hb k (hkeys k hk), ?_⟩
    obtain ⟨_, _, hc⟩ := AcceptMorphs.finalBody_find _ _ _ _ _ _ hb
    rcases hc with hc | ⟨morph, parent, hsv, hm, hp, hfind⟩
    · rw [hc]; exact hhist
    · obtain ⟨hnew, hparold⟩ := hfresh i morph hm hsv
      have hne : morph.smile ≠ morph.parentSmile := by
        intro e; rw [e, hparold] at hnew; cases hnew
      have hp₀ : s.mCtx.candidates.find morph.parentSmile = some parent := by
        rw [ConcMap.find_assign] at hp
        simpa [hne] using hp
      intro k c c' hk hk'
      rw [hfind] at hk'
      have hcon : ctx.candidates.contains k = true := (ConcMap.contains_iff _ _).mpr ⟨c, hk⟩
      have hne₂ : morph.smile ≠ k := by
        intro e; rw [e, hcon] at hnew; cases hnew
      by_cases e₁ : morph.parentSmile = k
      · subst e₁
        simp only [if_true, Option.some.injEq] at hk'
        subst hk'
        exact (hhist _ c parent hk hp₀).kh_trans (KeepsHistory.withChild parent morph.smile)
      · simp only [e₁, hne₂, if_false] at hk'
        exact hhist k c c' hk hk'
  · refine ⟨fun _ hk => hk, ?_⟩
    intro k c c' hk hk'
    rw [hk] at hk'
    cases hk'
    exact KeepsHistory.kh_refl _

/-- C10: every stage keeps the history of every candidate present before and
after it: nothing leaves `historicDescendants`, and
`historicDescendants ⊇ descendants` is kept. This holds of FindLeaves,
FindNextBag, UpdateTree and Prune in both modes, and of AcceptScan run on the
survivors of the Filter stage; in scaffold mode the scaffolds are those of the
scaffold function `G` of the run (`ScaffoldsFrom`). -/
theorem C10_history_kept (G : String → String) (ctx : PathFinderContext) :
    (∀ leaves, HistoryKept ctx.candidates (PathFinder.FindLeaves ctx.candidates leaves).1) ∧
    (∀ bag, HistoryKept ctx.candidates (PathFinderActivity.FindNextBag ctx.candidates bag).1) ∧
    (∀ morphs rand survivors r,
      PathFinder.filterStage ctx morphs rand = some survivors →
      ScaffoldsFrom G ctx morphs →
      PathFinder.acceptMorphs morphs survivors ctx = some r →
      HistoryKept ctx.candidates r.1.candidates) ∧
    (∀ morphs survivors r,
      PathFinderActivity.filterStage ctx morphs = some survivors →
      ScaffoldsFrom G ctx morphs →
      PathFinderActivity.acceptMorphs2 morphs survivors ctx = some r →
      HistoryKept ctx.candidates r.1.candidates) ∧
    (∀ fuel modifiedParents ctx', PathFinder.UpdateTree fuel modifiedParents ctx = some ctx' →
      HistoryKept ctx.candidates ctx'.candidates) ∧
    (∀ fuel modifiedParents ctx',
      PathFinderActivity.UpdateTree fuel modifiedParents ctx = some ctx' →
      HistoryKept ctx.candidates ctx'.candidates) ∧
    (∀ fuel deferredMols ctx', PathFinder.pruneStage fuel deferredMols ctx = some ctx' →
      HistoryKept ctx.candidates ctx'.candidates) ∧
    (∀ fuel startMols ctx', PathFinderActivity.pruneStage fuel startMols ctx = some ctx' →
      HistoryKept ctx.candidates ctx'.candidates) := by
  refine ⟨?_, ?_, ?_, ?_, ?_, ?_, ?_, ?_⟩
  · intro leaves k c c' hk hk'
    simp only [PathFinder.FindLeaves, ConcMap.find_map_snd, hk, Option.map_some',
      Option.some.injEq] at hk'
    subst hk'
    exact (PathFinder.FindLeaves.bump_counters c).sbc_keepsHistory
  · intro bag k c c' hk hk'
    simp only [PathFinderActivity.FindNextBag, ConcMap.find_map_snd, hk, Option.map_some',
      Option.some.injEq] at hk'
    subst hk'
    exact (PathFinderActivity.FindNextBag.bump_counters_act c).sbc_keepsHistory
  · intro morphs rand survivors r hfilter hG ha
    have hfresh := hG.fresh_survivors survivors
      (PathFinder.filterStage_true ctx morphs rand survivors hfilter)
    unfold PathFinder.acceptMorphs PathFinder.AcceptMorphs at ha
    cases hf : forRange 0 morphs.length (AcceptMorphs.finalBody true morphs survivors)
        { mCtx := ctx, mModifiedParents := [], mSurvivorCount := 0 } with
    | none => rw [hf] at ha; simp at ha
    | some st =>
      rw [hf] at ha
      simp only [Option.map_some', Option.some.injEq] at ha
      subst ha
      exact AcceptMorphs.stage_historyKept true morphs survivors ctx st hfresh hf
  · intro morphs survivors r hfilter hG ha
    have hfresh := hG.fresh_survivors survivors
      (PathFinderActivity.filterStage_true_act ctx morphs survivors hfilter)
    unfold PathFinderActivity.acceptMorphs2 PathFinderActivity.AcceptMorphs at ha
    cases hf : forRange 0 morphs.length (AcceptMorphs.finalBody false morphs survivors)
        { mCtx := ctx, mModifiedParents := [], mSurvivorCount := 0 } with
    | none => rw [hf] at ha; simp at ha
    | some st =>
      rw [hf] at ha
      simp only [Option.map_some', Option.some.injEq] at ha
      subst ha
      exact AcceptMorphs.stage_historyKept false morphs survivors ctx st hfresh hf
  · intro fuel mp ctx' h
    exact (PathFinder.UpdateTree.counters _ _ _ _ h).co_historyKept
  · intro fuel mp ctx' h
    exact (PathFinderActivity.UpdateTree.counters_act _ _ _ _ h).co_historyKept
  · intro fuel dm ctx' h
    exact (PathFinder.PruneTree.shrinks _ _ _ _ _
      (PathFinder.pruneStage_eq _ _ _ _ h)).shrinks_historyKept
  · intro fuel sm ctx' h
    exact (PathFinderActivity.PruneTree.shrinks_act _ _ _ _ _
      (PathFinderActivity.pruneStage_eq_act _ _ _ _ h)).shrinks_historyKept

/-- Witness for C10: in the scaffold-mode `scaffCtx`, whose index holds the
scaffold `"s" ++ k` of every key `k`, the morph `"X"` of `"A"` with the scaffold
`"sX"` passes the Filter and is accepted; every candidate keeps its history, and
that of `"A"` grows from `["B"]` to `["B", "X"]`. -/
theorem C10_history_kept_witness :
    PathFinder.filterStage scaffCtx
      [{ blankMol with smile := "X", parentSmile := "A", scaffoldSmile := "sX" }]
      (fun _ => 0) = some [true] ∧
    ∃ r, PathFinder.acceptMorphs
        [{ blankMol with smile := "X", parentSmile := "A", scaffoldSmile := "sX" }] [true]
        scaffCtx = some r ∧
      (r.1.candidates.find "A").map (fun v => v.historicDescendants) = some ["B", "X"] ∧
      HistoryKept scaffCtx.candidates r.1.candidates := by
  have hfilter : PathFinder.filterStage scaffCtx
      [{ blankMol with smile := "X", parentSmile := "A", scaffoldSmile := "sX" }]
      (fun _ => 0) = some [true] := by decide!
  have hacc : ((PathFinder.acceptMorphs
      [{ blankMol with smile := "X", parentSmile := "A", scaffoldSmile := "sX" }] [true]
      scaffCtx).bind (fun r => r.1.candidates.find "A")).map
        (fun v => v.historicDescendants) = some ["B", "X"] := by decide!
  cases hr : PathFinder.acceptMorphs
      [{ blankMol with smile := "X", parentSmile := "A", scaffoldSmile := "sX" }] [true]
      scaffCtx with
  | none => rw [hr] at hacc; cases hacc
  | some r =>
    rw [hr] at hacc
    refine ⟨hfilter, r, rfl, hacc, ?_⟩
    exact (C10_history_kept (fun s => "s" ++ s) scaffCtx).2.2.1 _ (fun _ => 0) [true] r hfilter
      (fun _ => ⟨scaffoldIndexedCheck_sound _ _ _ (by decide), fun m hm => by
        simp only [List.mem_singleton] at hm
        subst hm
        decide⟩) hr

/-! ## Sources under Prune -/

theorem Shrinks.unreferenced {c c' : PathFinderContext} (h : Shrinks c c') {s : String}
    (hu : Unreferenced s c.candidates) : Unreferenced s c'.candidates := by
  intro k v' hv' hmem
  obtain ⟨v, hv, _, hsub, _⟩ := h.2.2.2.2.2.2.2.1 k v' hv'
  exact hu k v hv (hsub s hmem)

theorem EraseSubTree.loop_keeps (s : String) (fuel : Nat) (Q : List String)
    (ctx ctx' : PathFinderContext) (hq : s ∉ Q) (hu : Unreferenced s ctx.candidates)
    (hc : ctx.candidates.contains s = true)
    (h : EraseSubTree.loop fuel Q ctx = some ctx') : ctx'.candidates.contains s = true := by
  refine (EraseSubTree.loop_induct
    (fun Q c => s ∉ Q ∧ Unreferenced s c.candidates ∧ c.candidates.contains s = true) ?_
    fuel Q ctx ctx' ⟨hq, hu, hc⟩ h).2.2
  intro current rest c node ⟨hq', hu', hc'⟩ hf
  rw [List.mem_cons, not_or] at hq'
  refine ⟨?_, (Shrinks.eraseNode c current node hf).unreferenced hu', ?_⟩
  · rw [List.mem_append, not_or]
    exact ⟨hq'.2, hu' current node hf⟩
  · rw [ConcMap.contains_iff] at hc' ⊢
    obtain ⟨v, hv⟩ := hc'
    refine ⟨v, ?_⟩
    simp only [EraseSubTree.eraseNode, ConcMap.find_erase]
    rw [if_neg (Ne.symm hq'.1)]
    exact hv

theorem PruneTree.eraseAll_keeps (s : String) (D : List String)
    (ctx ctx' : PathFinderContext) (hq : s ∉ D) (hu : Unreferenced s ctx.candidates)
    (hc : ctx.candidates.contains s = true)
    (h : D.foldlM (fun c child => EraseSubTree child c) ctx = some ctx') :
    ctx'.candidates.contains s = true := by
  refine (foldlM_invariant
    (fun c => Unreferenced s c.candidates ∧ c.candidates.contains s = true) _ D ?_
    ctx ctx' ⟨hu, hc⟩ h).2
  intro c d c' hd ⟨hu', hc'⟩ hb
  refine ⟨(EraseSubTree.loop_shrinks _ _ _ _ hb).unreferenced hu', ?_⟩
  refine EraseSubTree.loop_keeps s _ [d] c c' ?_ hu' hc' hb
  intro hmem
  rw [List.mem_singleton] at hmem
  exact hq (hmem ▸ hd)

theorem PruneTree.pruneNode_keeps (s : String) (deferred : Bool) (smile : String)
    (node : MolpherMolecule) (ctx ctx' : PathFinderContext) (hne : s ≠ smile)
    (hn : ctx.candidates.find smile = some node)
    (hu : Unreferenced s ctx.candidates) (hc : ctx.candidates.contains s = true)
    (h : PruneTree.pruneNode deferred smile node ctx = some ctx') :
    ctx'.candidates.contains s = true := by
  rcases PruneTree.pruneNode_cases _ _ _ _ _ h with
    ⟨_, _, parent, hp, he⟩ | ⟨_, ctx₁, hf, _, rfl⟩
  · have hs := Shrinks.shrinks_assign ctx _ parent _ hp (SameButLinks.withoutChild parent smile)
    refine EraseSubTree.loop_keeps s _ [smile] _ ctx' ?_ (hs.unreferenced hu) ?_ he
    · simpa using hne
    · rw [ConcMap.contains_iff] at hc ⊢
      obtain ⟨v, hv⟩ := hc
      simp only [ConcMap.find_assign]
      split
      · exact ⟨_, rfl⟩
      · exact ⟨v, hv⟩
  · have := PruneTree.eraseAll_keeps s _ ctx ctx₁ (hu smile node hn) hu hc hf
    rw [ConcMap.contains_iff] at this ⊢
    obtain ⟨v, hv⟩ := this
    simp only [ConcMap.find_assign]
    split
    · exact ⟨_, rfl⟩
    · exact ⟨v, hv⟩

theorem PathFinder.root_not_deferred (ctx : PathFinderContext)
    (deferredMols : List MolpherMolecule) :
    PathFinder.pruningRoot ctx ∉ PathFinder.deferredSmiles ctx deferredMols := by
  unfold PathFinder.deferredSmiles
  suffices hgen : ∀ (l : List MolpherMolecule) (s : SmileSet),
      PathFinder.pruningRoot ctx ∉ s →
      PathFinder.pruningRoot ctx ∉ l.foldl
        (fun s it =>
          if (decide (it.smile = ctx.source.smile) ||
              (ctx.ScaffoldMode && decide (it.smile = ctx.tempSource.smile))) = true then s
          else (SmileSet.insert s it.smile).1) s from
    hgen deferredMols [] (List.not_mem_nil _)
  intro l
  induction l with
  | nil => intro s hs; exact hs
  | cons it l ih =>
    intro s hs
    simp only [List.foldl_cons]
    apply ih
    split
    · exact hs
    · rename_i hcond
      simp only [Bool.or_eq_true, decide_eq_true_eq, Bool.and_eq_true, not_or, not_and] at hcond
      unfold SmileSet.insert
      split
      · exact hs
      · simp only [List.mem_append, List.mem_singleton, not_or]
        refine ⟨hs, ?_⟩
        unfold PathFinder.pruningRoot
        cases hm : ctx.ScaffoldMode
        · simp only [Bool.not_false, if_true]
          exact fun e => hcond.1 e.symm
        · simp only [Bool.not_true, Bool.false_eq_true, if_false]
          exact fun e => hcond.2 hm e.symm

/-- A visit of a candidate with empty `parentSmile` in activity mode erases
nothing: it hands the candidate's descendants to the feeder and leaves the keys
of `candidates` and `prunedDuringThisIter` as they were. -/
theorem PathFinderActivity.PruneTree.call_source (mDeferred : SmileSet) (s : String)
    (c : PathFinderContext) (v : MolpherMolecule) (hv : c.candidates.find s = some v)
    (hp : v.parentSmile = "") :
    ∃ c', PathFinderActivity.PruneTree.call mDeferred s c = some (c', v.descendants) ∧
      ConcMap.keys c'.candidates = ConcMap.keys c.candidates ∧
      c'.prunedDuringThisIter = c.prunedDuringThisIter := by
  unfold PathFinderActivity.PruneTree.call
  rw [hv]
  simp only [hp, ne_eq, not_true_eq_false, decide_False, Bool.and_false, Bool.false_eq_true,
    if_false]
  split
  · exact ⟨c, rfl, rfl, rfl⟩
  · split
    · refine ⟨_, rfl, ?_, rfl⟩
      simp only [ConcMap.keys_assign, (ConcMap.contains_iff _ _).mpr ⟨v, hv⟩, if_true]
    · exact ⟨c, rfl, rfl, rfl⟩

/-- What holds of the sources under Prune, whatever the deferred list and the
`morphDerivations` counts: in activity mode for every value of the sources'
counters, in path mode provided the source's `itersWithoutDistImprovement` does
not exceed `itThreshold`, the visit of a source only feeds its descendants, and
every source is still a key of `candidates` when the Prune stage completes. -/
theorem sources_survive_prune (fuel : Nat) (ctx ctx' : PathFinderContext) :
    (∀ deferredMols node,
      ctx.candidates.find (PathFinder.pruningRoot ctx) = some node →
      Unreferenced (PathFinder.pruningRoot ctx) ctx.candidates →
      node.itersWithoutDistImprovement ≤ ctx.params.itThreshold →
      PathFinder.PruneTree.call (PathFinder.deferredSmiles ctx deferredMols)
          (PathFinder.pruningRoot ctx) ctx = some (ctx, node.descendants) ∧
      (PathFinder.pruneStage fuel deferredMols ctx = some ctx' →
        ctx'.candidates.contains (PathFinder.pruningRoot ctx) = true)) ∧
    (∀ startMols : List String,
      (∀ s ∈ startMols, (∃ v, ctx.candidates.find s = some v ∧ v.parentSmile = "") ∧
        Unreferenced s ctx.candidates) →
      (∀ s ∈ startMols, ∀ v, ctx.candidates.find s = some v →
        ∃ c', PathFinderActivity.PruneTree.call [] s ctx = some (c', v.descendants) ∧
          ConcMap.keys c'.candidates = ConcMap.keys ctx.candidates ∧
          c'.prunedDuringThisIter = ctx.prunedDuringThisIter) ∧
      (PathFinderActivity.pruneStage fuel startMols ctx = some ctx' →
        ∀ s ∈ startMols, ctx'.candidates.contains s = true)) := by
  constructor
  · intro deferredMols node hroot hunref hfresh
    have hnd := PathFinder.root_not_deferred ctx deferredMols
    have hcall : PathFinder.PruneTree.call (PathFinder.deferredSmiles ctx deferredMols)
        (PathFinder.pruningRoot ctx) ctx = some (ctx, node.descendants) := by
      unfold PathFinder.PruneTree.call
      rw [hroot]
      simp [hnd, Nat.not_lt.mpr hfresh]
    refine ⟨hcall, ?_⟩
    intro hrun
    have hw := PathFinder.pruneStage_eq _ _ _ _ hrun
    have := PathFinder.PruneTree.worklist_rec (PathFinder.deferredSmiles ctx deferredMols)
      (fun Q c => (Q = [PathFinder.pruningRoot ctx] ∧ c = ctx) ∨
        (PathFinder.pruningRoot ctx ∉ Q ∧
          Unreferenced (PathFinder.pruningRoot ctx) c.candidates ∧
          c.candidates.contains (PathFinder.pruningRoot ctx) = true))
      (by
        intro smile queue c c' fed hR hc
        rcases hR with ⟨hQ, rfl⟩ | ⟨hq, hu, hcon⟩
        · simp only [List.cons.injEq] at hQ
          obtain ⟨rfl, rfl⟩ := hQ
          rw [hcall] at hc
          simp only [Option.some.injEq, Prod.mk.injEq] at hc
          obtain ⟨rfl, rfl⟩ := hc
          right
          exact ⟨by simpa using hunref _ node hroot, hunref,
            (ConcMap.contains_iff _ _).mpr ⟨node, hroot⟩⟩
        · rw [List.mem_cons, not_or] at hq
          obtain ⟨n', hn', hcase⟩ := PathFinder.PruneTree.call_cases _ _ _ _ _ hc
          right
          rcases hcase with ⟨rfl, rfl, _⟩ | ⟨rfl, _, hp⟩
          · refine ⟨?_, hu, hcon⟩
            rw [List.mem_append, not_or]
            exact ⟨hq.2, hu smile n' hn'⟩
          · refine ⟨by simpa using hq.2,
              (PruneTree.pruneNode_shrinks _ _ _ _ _ hn' hp).unreferenced hu, ?_⟩
            exact PruneTree.pruneNode_keeps _ _ _ _ _ _ hq.1 hn' hu hcon hp)
      fuel _ ctx ctx' (Or.inl ⟨rfl, rfl⟩) hw
    rcases this with ⟨hQ, _⟩ | ⟨_, _, hcon⟩
    · cases hQ
    · exact hcon
  · intro startMols hsrc
    refine ⟨?_, ?_⟩
    · intro s hs v hv
      obtain ⟨⟨v₀, hv₀, hp⟩, _⟩ := hsrc s hs
      rw [hv] at hv₀
      cases hv₀
      exact PathFinderActivity.PruneTree.call_source [] s ctx v hv hp
    · intro hrun s hs
      have hw := PathFinderActivity.pruneStage_eq_act _ _ _ _ hrun
      have := PathFinderActivity.PruneTree.worklist_rec_act []
        (fun _ c => ∀ s ∈ startMols,
          (∃ v, c.candidates.find s = some v ∧ v.parentSmile = "") ∧
            Unreferenced s c.candidates)
        (by
          intro smile queue c c' fed hR hc s hs
          obtain ⟨⟨v, hv, hp⟩, hu⟩ := hR s hs
          have hsh := PathFinderActivity.PruneTree.call_shrinks_act _ _ _ _ _ hc
          refine ⟨?_, hsh.unreferenced hu⟩
          have hcon : c'.candidates.contains s = true := by
            obtain ⟨n', hn', hcase⟩ := PathFinderActivity.PruneTree.call_cases_act _ _ _ _ _ hc
            rcases hcase with ⟨rfl, _⟩ | ⟨_, _, rfl, _⟩ | ⟨_, hpn, _, hprune⟩
            · exact (ConcMap.contains_iff _ _).mpr ⟨v, hv⟩
            · rw [ConcMap.contains_iff]
              simp only [ConcMap.find_assign]
              split
              · exact ⟨_, rfl⟩
              · exact ⟨v, hv⟩
            · have hne : s ≠ smile := by
                rintro rfl
                rw [hv] at hn'
                cases hn'
                exact hpn hp
              exact PruneTree.pruneNode_keeps _ _ _ _ _ _ hne hn' hu
                ((ConcMap.contains_iff _ _).mpr ⟨v, hv⟩) hprune
          rw [ConcMap.contains_iff] at hcon
          obtain ⟨v', hv'⟩ := hcon
          obtain ⟨v₀, hv₀, e, _⟩ := hsh.2.2.2.2.2.2.2.1 s v' hv'
          rw [hv] at hv₀
          cases hv₀
          refine ⟨v', hv', ?_⟩
          rw [e]; exact hp)
        fuel _ ctx ctx' hsrc hw
      obtain ⟨⟨v, hv, _⟩, _⟩ := this s hs
      exact (ConcMap.contains_iff _ _).mpr ⟨v, hv⟩

/-- The cast `(int) x` against an integer draw: `draw < (int) x` exactly when
`draw < ⌊x⌋`, for a draw that is not negative. -/
theorem truncToInt_lt_iff (x : ℚ) (draw : Nat) :
    (draw : Int) < truncToInt x ↔ (draw : Int) < ⌊x⌋ := by
  have hfl : ⌊x⌋ = x.num / (x.den : Int) := Rat.floor_def' x
  unfold truncToInt
  rcases le_or_lt 0 x.num with h | h
  · rw [hfl, Int.tdiv_eq_ediv h (Int.ofNat_nonneg _)]
  · have h1 : x.num.tdiv (x.den : Int) ≤ 0 := by
      have := Int.neg_tdiv (-x.num) (x.den : Int)
      rw [neg_neg] at this
      rw [this]
      have := @Int.tdiv_nonneg (-x.num) (x.den : Int) (by omega) (Int.ofNat_nonneg _)
      omega
    have h2 : ⌊x⌋ < 0 := by
      rw [Int.floor_lt]
      have : x < 0 := Rat.num_neg.mp h
      simpa using this
    constructor
    · intro h3; omega
    · intro h3; omega

theorem floorLog2.go_spec : ∀ (fuel n : Nat), 1 ≤ n → n ≤ fuel →
    2 ^ floorLog2.go fuel n ≤ n ∧ n < 2 ^ (floorLog2.go fuel n + 1)
  | 0, n, h1, h2 => by omega
  | fuel + 1, n, h1, h2 => by
    unfold floorLog2.go
    split
    · rename_i h; simp; omega
    · rename_i h
      have ih := floorLog2.go_spec fuel (n / 2) (by omega) (by omega)
      rw [pow_succ, pow_succ]
      constructor <;> omega

theorem floorLog2_spec (n : Nat) (h : 1 ≤ n) :
    2 ^ floorLog2 n ≤ n ∧ n < 2 ^ (floorLog2 n + 1) :=
  floorLog2.go_spec n n h le_rfl

theorem abs_eq_natAbs_div (x : ℚ) : |x| = (x.num.natAbs : ℚ) / (x.den : ℚ) := by
  conv_lhs => rw [← Rat.num_div_den x]
  rw [abs_div, Nat.abs_cast, Nat.cast_natAbs, Int.cast_abs]

theorem binaryExponent_le (x : ℚ) (hx : x ≠ 0) : (2 : ℚ) ^ binaryExponent x ≤ |x| := by
  unfold binaryExponent
  simp only
  split
  · assumption
  · have hn : 1 ≤ x.num.natAbs := by
      have := Rat.num_ne_zero.mpr hx
      omega
    have hd : 1 ≤ x.den := x.den_pos
    have h1 := (floorLog2_spec _ hn).1
    have h2 := (floorLog2_spec _ hd).2
    rw [abs_eq_natAbs_div, le_div_iff₀ (by exact_mod_cast hd)]
    have h1q : (2 : ℚ) ^ (floorLog2 x.num.natAbs : Int) ≤ (x.num.natAbs : ℚ) := by
      rw [zpow_natCast]; exact_mod_cast h1
    have h2q : (x.den : ℚ) ≤ (2 : ℚ) ^ ((floorLog2 x.den : Int) + 1) := by
      rw [← Nat.cast_succ, zpow_natCast]; exact_mod_cast h2.le
    calc (2 : ℚ) ^ ((floorLog2 x.num.natAbs : Int) - (floorLog2 x.den : Int) - 1) * (x.den : ℚ)
        ≤ (2 : ℚ) ^ ((floorLog2 x.num.natAbs : Int) - (floorLog2 x.den : Int) - 1) *
            (2 : ℚ) ^ ((floorLog2 x.den : Int) + 1) :=
          mul_le_mul_of_nonneg_left h2q (by positivity)
      _ = (2 : ℚ) ^ (floorLog2 x.num.natAbs : Int) := by
          rw [← zpow_add₀ (by norm_num : (2 : ℚ) ≠ 0)]; congr 1; ring
      _ ≤ _ := h1q

theorem binaryExponent_lt (x : ℚ) (hx : x ≠ 0) : |x| < (2 : ℚ) ^ (binaryExponent x + 1) := by
  unfold binaryExponent
  simp only
  split
  · have hn : 1 ≤ x.num.natAbs := by
      have := Rat.num_ne_zero.mpr hx
      omega
    have hd : 1 ≤ x.den := x.den_pos
    have h1 := (floorLog2_spec _ hn).2
    have h2 := (floorLog2_spec _ hd).1
    rw [abs_eq_natAbs_div, div_lt_iff₀ (by exact_mod_cast hd)]
    have h1q : (x.num.natAbs : ℚ) < (2 : ℚ) ^ ((floorLog2 x.num.natAbs : Int) + 1) := by
      rw [← Nat.cast_succ, zpow_natCast]; exact_mod_cast h1
    have h2q : (2 : ℚ) ^ (floorLog2 x.den : Int) ≤ (x.den : ℚ) := by
      rw [zpow_natCast]; exact_mod_cast h2
    calc (x.num.natAbs : ℚ) < (2 : ℚ) ^ ((floorLog2 x.num.natAbs : Int) + 1) := h1q
      _ = (2 : ℚ) ^ ((floorLog2 x.num.natAbs : Int) - (floorLog2 x.den : Int) + 1) *
            (2 : ℚ) ^ (floorLog2 x.den : Int) := by
          rw [← zpow_add₀ (by norm_num : (2 : ℚ) ≠ 0)]; congr 1; ring
      _ ≤ _ := mul_le_mul_of_nonneg_left h2q (by positivity)
  · rename_i h
    rw [sub_add_cancel]
    exact lt_of_not_le h

theorem roundHalfEven_err (m : ℚ) : |(roundHalfEven m : ℚ) - m| ≤ 1 / 2 := by
  have h0 := Int.floor_le m
  have h1 := Int.lt_floor_add_one m
  unfold roundHalfEven
  rw [abs_le]
  split
  · constructor <;> linarith
  · split
    · push_cast; constructor <;> linarith
    · have : m - ⌊m⌋ = 1 / 2 := le_antisymm (not_lt.mp ‹_›) (not_lt.mp ‹_›)
      split
      · constructor <;> linarith
      · push_cast; constructor <;> linarith

/-- The rounding error of `binary64`: half a unit in the last place. -/
theorem binary64_ulp (x : ℚ) (h : x ≠ 0) :
    |binary64 x - x| ≤ 2 ^ (max (binaryExponent x) (-1022) - 53) := by
  unfold binary64
  rw [if_neg h]
  simp only
  generalize max (binaryExponent x) (-1022) = E
  have hu : (0 : ℚ) < 2 ^ (E - 52) := by positivity
  have hr := roundHalfEven_err (x / 2 ^ (E - 52))
  have : (roundHalfEven (x / 2 ^ (E - 52)) : ℚ) * 2 ^ (E - 52) - x =
      ((roundHalfEven (x / 2 ^ (E - 52)) : ℚ) - x / 2 ^ (E - 52)) * 2 ^ (E - 52) := by
    field_simp
  rw [this, abs_mul, abs_of_pos hu]
  calc _ ≤ 1 / 2 * (2 : ℚ) ^ (E - 52) := mul_le_mul_of_nonneg_right hr hu.le
    _ = 2 ^ (E - 53) := by
        rw [show E - 52 = (E - 53) + 1 by ring, zpow_add₀ (by norm_num : (2 : ℚ) ≠ 0)]
        ring

/-- The rounding error of `binary64` below `2 ^ k`. -/
theorem binary64_abs (x : ℚ) (k : Int) (hk : -1022 ≤ k) (hx : |x| ≤ 2 ^ k) :
    |binary64 x - x| ≤ 2 ^ (k - 53) := by
  rcases eq_or_ne x 0 with h | h
  · subst h; simp [binary64]; positivity
  · have hle := binaryExponent_le x h
    have he : binaryExponent x ≤ k := by
      have : (2 : ℚ) ^ binaryExponent x ≤ 2 ^ k := hle.trans hx
      exact (zpow_le_zpow_iff_right₀ (by norm_num : (1 : ℚ) < 2)).mp this
    have hE : max (binaryExponent x) (-1022) ≤ k := max_le he hk
    exact (binary64_ulp x h).trans (zpow_le_zpow_right₀ (by norm_num) (by omega))

/-- The relative rounding error of `binary64` in the normal range: `2 ^ (-53)`. -/
theorem binary64_rel (x : ℚ) (hx : x = 0 ∨ 2 ^ (-1022 : Int) ≤ |x|) :
    |binary64 x - x| ≤ 2 ^ (-53 : Int) * |x| := by
  rcases eq_or_ne x 0 with h | h
  · subst h; simp [binary64]
  · have hx : (2 : ℚ) ^ (-1022 : Int) ≤ |x| := hx.resolve_left h
    have hlt := binaryExponent_lt x h
    have hle := binaryExponent_le x h
    have he : -1022 ≤ binaryExponent x := by
      have : (2 : ℚ) ^ (-1022 : Int) < 2 ^ (binaryExponent x + 1) := lt_of_le_of_lt hx hlt
      have := (zpow_lt_zpow_iff_right₀ (by norm_num : (1 : ℚ) < 2)).mp this
      omega
    have := binary64_ulp x h
    rw [max_eq_left he] at this
    calc |binary64 x - x| ≤ 2 ^ (binaryExponent x - 53) := this
      _ = 2 ^ (-53 : Int) * 2 ^ binaryExponent x := by
          rw [← zpow_add₀ (by norm_num : (2 : ℚ) ≠ 0)]; congr 1; ring
      _ ≤ 2 ^ (-53 : Int) * |x| := mul_le_mul_of_nonneg_left hle (by positivity)

theorem binary64_natCast (a : Nat) :
    |binary64 (a : ℚ) - a| ≤ 2 ^ (-53 : Int) * (a : ℚ) := by
  have := binary64_rel (a : ℚ) (by
    rcases Nat.eq_zero_or_pos a with h | h
    · left; exact_mod_cast h
    · right
      rw [Nat.abs_cast]
      calc (2 : ℚ) ^ (-1022 : Int) ≤ 2 ^ (0 : Int) := zpow_le_zpow_right₀ (by norm_num) (by norm_num)
        _ = 1 := by simp
        _ ≤ a := by exact_mod_cast h)
  rwa [Nat.abs_cast] at this
theorem quotient_err (u a n a' d' : ℚ) (hu0 : 0 < u) (hu : u ≤ 1 / 8) (ha0 : 0 ≤ a)
    (han : a ≤ n) (hn : 0 < n) (ha' : |a' - a| ≤ u * a)
    (hd1 : 4 * n * (1 - u) ^ 2 ≤ d') (hd2 : d' ≤ 4 * n * (1 + u) ^ 2) :
    |a' / d' - a / (4 * n)| ≤ u := by
  rw [abs_le] at ha'
  have hu1 : 0 < 1 - u := by linarith
  have hd0 : 0 < d' := lt_of_lt_of_le (by positivity) hd1
  have h4n : (0 : ℚ) < 4 * n := by positivity
  have e : a' / d' - a / (4 * n) = (a' * (4 * n) - a * d') / (d' * (4 * n)) := by
    field_simp
    ring
  have hden : 0 < d' * (4 * n) := by positivity
  have hau : 0 ≤ a * u := mul_nonneg ha0 hu0.le
  have hpoly : 0 ≤ 1 - 7 * u + 4 * u ^ 2 := by nlinarith
  rw [e, abs_le]
  constructor
  · rw [le_div_iff₀ hden]
    have h3 : a * (1 - u) ≤ a' := by linarith [ha'.1]
    have ha'0 : 0 ≤ a' := le_trans (mul_nonneg ha0 hu1.le) h3
    suffices h : (a - 4 * n * u) * d' ≤ a' * (4 * n) by linarith
    rcases le_or_lt (a - 4 * n * u) 0 with hc | hc
    · exact le_trans (mul_nonpos_of_nonpos_of_nonneg hc hd0.le) (by positivity)
    · have k1 : a * (1 - 4 * u) * (1 + u) ^ 2 ≤ a * (1 - u) := by
        have e2 : a * (1 - u) - a * (1 - 4 * u) * (1 + u) ^ 2 =
            a * u * (1 + 7 * u + 4 * u ^ 2) := by ring
        have : 0 ≤ a * u * (1 + 7 * u + 4 * u ^ 2) := by positivity
        linarith
      have k2 : (a - 4 * n * u) * (1 + u) ^ 2 ≤ a * (1 - 4 * u) * (1 + u) ^ 2 := by
        apply mul_le_mul_of_nonneg_right _ (sq_nonneg _)
        nlinarith
      calc (a - 4 * n * u) * d' ≤ (a - 4 * n * u) * (4 * n * (1 + u) ^ 2) :=
            mul_le_mul_of_nonneg_left hd2 hc.le
        _ = (a - 4 * n * u) * (1 + u) ^ 2 * (4 * n) := by ring
        _ ≤ a' * (4 * n) := mul_le_mul_of_nonneg_right (by linarith) h4n.le
  · rw [div_le_iff₀ hden]
    have h3 : a' ≤ a * (1 + u) := by linarith [ha'.2]
    suffices h : a' * (4 * n) ≤ (a + 4 * n * u) * d' by linarith
    have k1 : a * (1 + u) ≤ a * (1 + 4 * u) * (1 - u) ^ 2 := by
      have e2 : a * (1 + 4 * u) * (1 - u) ^ 2 - a * (1 + u) =
          a * u * (1 - 7 * u + 4 * u ^ 2) := by ring
      have : 0 ≤ a * u * (1 - 7 * u + 4 * u ^ 2) := mul_nonneg hau hpoly
      linarith
    have k2 : a * (1 + 4 * u) * (1 - u) ^ 2 ≤ (a + 4 * n * u) * (1 - u) ^ 2 := by
      apply mul_le_mul_of_nonneg_right _ (sq_nonneg _)
      nlinarith
    calc a' * (4 * n) ≤ (a + 4 * n * u) * (1 - u) ^ 2 * (4 * n) :=
          mul_le_mul_of_nonneg_right (by linarith) h4n.le
      _ = (a + 4 * n * u) * (4 * n * (1 - u) ^ 2) := by ring
      _ ≤ (a + 4 * n * u) * d' := mul_le_mul_of_nonneg_left hd1 (by positivity)

theorem roll_error_core (a n : Nat) (h : a < n) :
    |binary64 (binary64 (1 / 4 - binary64 (binary64 (a : ℚ) / binary64 (binary64 (n : ℚ) * 4)))
        * 100) - (1 / 4 - (a : ℚ) / ((n : ℚ) * 4)) * 100| ≤ 1 / 2 ^ 45 := by
  have hu : (2 : ℚ) ^ (-53 : Int) = 1 / 2 ^ 53 := by norm_num [zpow_neg]
  have hA := binary64_natCast a
  have hN := binary64_natCast n
  rw [hu] at hA hN
  generalize binary64 (a : ℚ) = A at hA ⊢
  generalize binary64 (n : ℚ) = Nh at hN ⊢
  have hn1 : (1 : ℚ) ≤ n := by exact_mod_cast (show 1 ≤ n by omega)
  have han : (a : ℚ) ≤ n := by exact_mod_cast h.le
  have ha0 : (0 : ℚ) ≤ a := Nat.cast_nonneg a
  rw [abs_le] at hN
  have hNh : (1 : ℚ) / 2 ≤ Nh := by linarith [hN.1]
  have hD := binary64_rel (Nh * 4) (Or.inr (by
    rw [abs_of_pos (by linarith)]
    calc (2 : ℚ) ^ (-1022 : Int) ≤ 2 ^ (0 : Int) :=
          zpow_le_zpow_right₀ (by norm_num) (by norm_num)
      _ ≤ Nh * 4 := by simp; linarith))
  rw [hu, abs_of_pos (by linarith : (0 : ℚ) < Nh * 4), abs_le] at hD
  generalize binary64 (Nh * 4) = D at hD ⊢
  have hd1 : 4 * (n : ℚ) * (1 - 1 / 2 ^ 53) ^ 2 ≤ D := by nlinarith [hD.1, hN.1]
  have hd2 : D ≤ 4 * (n : ℚ) * (1 + 1 / 2 ^ 53) ^ 2 := by nlinarith [hD.2, hN.2]
  have hR := quotient_err (1 / 2 ^ 53) a n A D (by norm_num) (by norm_num) ha0 han
    (by linarith) hA hd1 hd2
  have hq0 : 0 ≤ (a : ℚ) / (4 * n) := by positivity
  have hq1 : (a : ℚ) / (4 * n) ≤ 1 / 4 := by
    rw [div_le_iff₀ (by linarith)]; linarith
  rw [show (n : ℚ) * 4 = 4 * n by ring]
  generalize (a : ℚ) / (4 * n) = q at hR hq0 hq1 ⊢
  generalize A / D = R at hR ⊢
  rw [abs_le] at hR
  have hQ := binary64_abs R (-1) (by norm_num) (by
    rw [abs_le]; norm_num [zpow_neg] at *; constructor <;> linarith)
  norm_num [zpow_neg] at hQ
  generalize binary64 R = Q at hQ ⊢
  rw [abs_le] at hQ
  have hP := binary64_abs (1 / 4 - Q) (-1) (by norm_num) (by
    rw [abs_le]; norm_num [zpow_neg] at *; constructor <;> linarith)
  norm_num [zpow_neg] at hP
  generalize binary64 (1 / 4 - Q) = P at hP ⊢
  rw [abs_le] at hP
  have hT := binary64_abs (P * 100) 5 (by norm_num) (by
    rw [abs_le]; norm_num [zpow_neg] at *; constructor <;> linarith)
  norm_num [zpow_neg] at hT
  generalize binary64 (P * 100) = T at hT ⊢
  rw [abs_le] at hT ⊢
  norm_num at *
  constructor <;> linarith

/-- The double `acceptProbability * 100` of the roll lies within `2 ^ (-45)` of
the real number `100 * p`. -/
theorem PathFinder.FilterMorphs.roll_error (ctx : PathFinderContext) (mGlobalMorphCount : Nat)
    (morph : MolpherMolecule) (idx : Nat) (hidx : idx < mGlobalMorphCount) :
    |binary64 (PathFinder.FilterMorphs.acceptProbabilityDouble ctx mGlobalMorphCount morph idx
        * 100) -
      PathFinder.FilterMorphs.acceptProbability ctx mGlobalMorphCount morph idx * 100|
      ≤ 1 / 2 ^ 45 := by
  unfold PathFinder.FilterMorphs.acceptProbabilityDouble PathFinder.FilterMorphs.acceptProbability
  split
  · rename_i hc
    exact roll_error_core _ _ (by omega)
  · decide!

/-- The roll as a comparison of rationals: the draw passes exactly when
`draw + 1` does not exceed the double `acceptProbability * 100`. -/
theorem PathFinder.FilterMorphs.mightSurvive_iff (ctx : PathFinderContext)
    (mGlobalMorphCount : Nat) (morph : MolpherMolecule) (idx draw : Nat) :
    PathFinder.FilterMorphs.mightSurvive ctx mGlobalMorphCount morph idx draw = true ↔
      (draw : ℚ) + 1 ≤
        binary64 (PathFinder.FilterMorphs.acceptProbabilityDouble ctx mGlobalMorphCount morph idx
          * 100) := by
  unfold PathFinder.FilterMorphs.mightSurvive
  rw [decide_eq_true_eq, truncToInt_lt_iff, Int.lt_iff_add_one_le, Int.le_floor]
  push_cast
  rfl

/-- C19: in the path-mode Filter every morph at an index below
`cntCandidatesToKeep`, and every morph equal to the target (by fingerprint, in
scaffold mode by scaffold), has acceptance probability `1.0` and passes the roll
for every draw in `[0, 99]`. -/
theorem C19_guaranteed_roll_window (ctx : PathFinderContext) (mGlobalMorphCount : Nat)
    (morph : MolpherMolecule) (idx : Nat)
    (h : idx < ctx.params.cntCandidatesToKeep ∨
      (if ctx.ScaffoldMode then morph.scaffoldSmile = ctx.target.scaffoldSmile
       else morph.smile = ctx.target.smile)) :
    PathFinder.FilterMorphs.acceptProbability ctx mGlobalMorphCount morph idx = 1 ∧
    ∀ draw, draw ≤ 99 →
      PathFinder.FilterMorphs.mightSurvive ctx mGlobalMorphCount morph idx draw = true := by
  have hc : ¬ (idx ≥ ctx.params.cntCandidatesToKeep ∧
      PathFinder.FilterMorphs.isTarget ctx morph = false) := by
    rintro ⟨h1, h2⟩
    rcases h with h | h
    · omega
    · unfold PathFinder.FilterMorphs.isTarget at h2
      cases hs : ctx.ScaffoldMode <;> simp [hs] at h h2 <;> exact h2 h
  have hp : PathFinder.FilterMorphs.acceptProbability ctx mGlobalMorphCount morph idx = 1 := by
    unfold PathFinder.FilterMorphs.acceptProbability
    rw [if_neg hc]
  have hd : PathFinder.FilterMorphs.acceptProbabilityDouble ctx mGlobalMorphCount morph idx
      = 1 := by
    unfold PathFinder.FilterMorphs.acceptProbabilityDouble
    rw [if_neg hc]
  refine ⟨hp, fun draw hd99 => ?_⟩
  unfold PathFinder.FilterMorphs.mightSurvive
  rw [hd, decide_eq_true_eq, truncToInt_lt_iff, one_mul]
  have : ⌊binary64 (100 : ℚ)⌋ = 100 := by decide!
  rw [this]
  omega

/-- Witness for C19: in `filterCtx` (one guaranteed place) the morph `"T"`, the
target, at index 5 of 7 has probability 1 and passes the roll at the draw 99. -/
theorem C19_guaranteed_roll_window_witness :
    PathFinder.FilterMorphs.acceptProbability filterCtx 7
        { blankMol with smile := "T", parentSmile := "S" } 5 = 1 ∧
    ∀ draw, draw ≤ 99 →
      PathFinder.FilterMorphs.mightSurvive filterCtx 7
        { blankMol with smile := "T", parentSmile := "S" } 5 draw = true :=
  C19_guaranteed_roll_window filterCtx 7 { blankMol with smile := "T", parentSmile := "S" } 5
    (Or.inr (by decide))

/-- C20, as stated, fails: at index 2 of 3 morphs with one guaranteed place the
probability is `1/8`, so `100 * p = 12.5`; the draw 12 is below it, yet the roll
`12 < (int) 12.5` is lost. -/
theorem C20_roll_truncates :
    PathFinder.FilterMorphs.acceptProbability filterCtx 3
        { blankMol with smile := "G", parentSmile := "S" } 2 = 1 / 8 ∧
    ((12 : Nat) : ℚ) < 100 * (1 / 8 : ℚ) ∧
    PathFinder.FilterMorphs.mightSurvive filterCtx 3
        { blankMol with smile := "G", parentSmile := "S" } 2 12 = false := by
  refine ⟨by decide!, by norm_num, by decide!⟩

/-- C20, amended: the morph passes the roll iff the draw is below
`(int) (acceptProbability * 100)`, the probability and the product being the
doubles the machine computes. Against the real number `p` of the formula, at an
index of the list: every draw with `d + 1 ≤ 100 * p - 2 ^ (-45)` passes, every
passing draw has `d + 1 ≤ 100 * p + 2 ^ (-45)`, and for a list of fewer than
`2 ^ 45` morphs the roll is passed iff `d + 1 ≤ 100 * p`, unless `100 * p` is
the integer `d + 1` itself. -/
theorem C20_roll_threshold_amended (ctx : PathFinderContext) (mGlobalMorphCount : Nat)
    (morph : MolpherMolecule) (idx draw : Nat) (hidx : idx < mGlobalMorphCount) :
    (PathFinder.FilterMorphs.mightSurvive ctx mGlobalMorphCount morph idx draw = true ↔
      (draw : Int) < truncToInt (binary64
        (PathFinder.FilterMorphs.acceptProbabilityDouble ctx mGlobalMorphCount morph idx
          * 100))) ∧
    ((draw : ℚ) + 1 ≤
        100 * PathFinder.FilterMorphs.acceptProbability ctx mGlobalMorphCount morph idx
          - 1 / 2 ^ 45 →
      PathFinder.FilterMorphs.mightSurvive ctx mGlobalMorphCount morph idx draw = true) ∧
    (PathFinder.FilterMorphs.mightSurvive ctx mGlobalMorphCount morph idx draw = true →
      (draw : ℚ) + 1 ≤
        100 * PathFinder.FilterMorphs.acceptProbability ctx mGlobalMorphCount morph idx
          + 1 / 2 ^ 45) ∧
    (mGlobalMorphCount < 2 ^ 45 →
      (draw : ℚ) + 1 ≠
        100 * PathFinder.FilterMorphs.acceptProbability ctx mGlobalMorphCount morph idx →
      (PathFinder.FilterMorphs.mightSurvive ctx mGlobalMorphCount morph idx draw = true ↔
        (draw : ℚ) + 1 ≤
          100 * PathFinder.FilterMorphs.acceptProbability ctx mGlobalMorphCount morph idx)) := by
  have hE := PathFinder.FilterMorphs.roll_error ctx mGlobalMorphCount morph idx hidx
  have hI := PathFinder.FilterMorphs.mightSurvive_iff ctx mGlobalMorphCount morph idx draw
  rw [mul_comm (PathFinder.FilterMorphs.acceptProbability ctx mGlobalMorphCount morph idx) 100,
    abs_le] at hE
  refine ⟨?_, ?_, ?_, ?_⟩
  · unfold PathFinder.FilterMorphs.mightSurvive
    rw [decide_eq_true_eq]
  · intro h; rw [hI]; linarith [hE.1]
  · intro h; rw [hI] at h; linarith [hE.2]
  · intro hN hne
    rw [hI]
    -- 100 * p is a fraction over n := N - keep (or 100)
    obtain ⟨n, hn0, hnN, k, hk⟩ : ∃ n : Nat, 0 < n ∧ n ≤ mGlobalMorphCount ∧ ∃ k : Int,
        100 * PathFinder.FilterMorphs.acceptProbability ctx mGlobalMorphCount morph idx =
          (k : ℚ) / n := by
      unfold PathFinder.FilterMorphs.acceptProbability
      split
      · rename_i hc
        refine ⟨mGlobalMorphCount - ctx.params.cntCandidatesToKeep, by omega, by omega,
          25 * ((mGlobalMorphCount - ctx.params.cntCandidatesToKeep : Nat) : Int) -
            25 * ((idx - ctx.params.cntCandidatesToKeep : Nat) : Int), ?_⟩
        have : (0 : ℚ) < ((mGlobalMorphCount - ctx.params.cntCandidatesToKeep : Nat) : ℚ) := by
          exact_mod_cast (show 0 < mGlobalMorphCount - ctx.params.cntCandidatesToKeep by omega)
        push_cast
        field_simp
        ring
      · exact ⟨1, by omega, by omega, 100, by norm_num⟩
    rw [hk] at hne hE ⊢
    have hnq : (0 : ℚ) < n := by exact_mod_cast hn0
    have hn45 : (n : ℚ) < 2 ^ 45 := by
      have : n < 2 ^ 45 := lt_of_le_of_lt hnN hN
      exact_mod_cast this
    have hgap : ∀ m : Int, (m : ℚ) ≠ (k : ℚ) / n →
        ((m : ℚ) ≤ (k : ℚ) / n - 1 / n ∨ (k : ℚ) / n + 1 / n ≤ (m : ℚ)) := by
      intro m hm
      have hmk : m * (n : Int) ≠ k := by
        intro e; apply hm; rw [← e]; push_cast; field_simp
      rcases lt_or_gt_of_ne hmk with hlt | hgt
      · left
        have : m * (n : Int) + 1 ≤ k := hlt
        have : ((m * (n : Int) + 1 : Int) : ℚ) ≤ k := by exact_mod_cast this
        push_cast at this
        rw [← sub_div, le_div_iff₀ hnq]; linarith
      · right
        have : k + 1 ≤ m * (n : Int) := hgt
        have : ((k + 1 : Int) : ℚ) ≤ ((m * (n : Int) : Int) : ℚ) := by exact_mod_cast this
        push_cast at this
        rw [← add_div, div_le_iff₀ hnq]; linarith
    have h1n : (1 : ℚ) / 2 ^ 45 < 1 / n := by
      apply one_div_lt_one_div_of_lt hnq hn45
    have := hgap ((draw : Int) + 1) (by push_cast; exact hne)
    push_cast at this
    constructor
    · intro h
      rcases this with h' | h'
      · linarith
      · exfalso; linarith [hE.2]
    · intro h
      rcases this with h' | h'
      · linarith [hE.1]
      · exfalso; linarith

/-- Witness for C20: in `filterCtx` (one guaranteed place) the morph at index 5
of 6 has `100 * p = 5`; the draw 3 passes, and the draw 4, for which `d + 1` is
`100 * p` itself, does not: the double product is `4.999999999999999`. -/
theorem C20_roll_threshold_amended_witness :
    (5 : Nat) < 6 ∧
    100 * PathFinder.FilterMorphs.acceptProbability filterCtx 6
        { blankMol with smile := "G", parentSmile := "S" } 5 = 5 ∧
    PathFinder.FilterMorphs.mightSurvive filterCtx 6
        { blankMol with smile := "G", parentSmile := "S" } 5 3 = true ∧
    (PathFinder.FilterMorphs.mightSurvive filterCtx 6
        { blankMol with smile := "G", parentSmile := "S" } 5 3 = true ↔
      ((3 : Nat) : ℚ) + 1 ≤ 100 * PathFinder.FilterMorphs.acceptProbability filterCtx 6
        { blankMol with smile := "G", parentSmile := "S" } 5) ∧
    PathFinder.FilterMorphs.mightSurvive filterCtx 6
        { blankMol with smile := "G", parentSmile := "S" } 5 4 = false :=
  ⟨by decide, by decide!,
    (C20_roll_threshold_amended filterCtx 6 { blankMol with smile := "G", parentSmile := "S" }
      5 3 (by decide)).2.1 (by decide!),
    (C20_roll_threshold_amended filterCtx 6 { blankMol with smile := "G", parentSmile := "S" }
      5 3 (by decide)).2.2.2 (by decide) (by decide!),
    by decide!⟩

theorem AcceptMorphs.insertMorph_frame (ctx ctx₁ : PathFinderContext) (morph : MolpherMolecule)
    (h : AcceptMorphs.insertMorph ctx morph = some ctx₁) : ctx₁.frame = ctx.frame := by
  unfold AcceptMorphs.insertMorph at h
  split at h
  · simp only [Option.some.injEq] at h; subst h; rfl
  · split at h
    · cases h
    · simp only [Option.some.injEq] at h; subst h; rfl

theorem AcceptMorphs.finalBody_frame (gated : Bool) (mMorphs : List MolpherMolecule)
    (mSurvivors : List Bool) (st st' : AcceptMorphs) (idx : Nat)
    (h : AcceptMorphs.finalBody gated mMorphs mSurvivors st idx = some st') :
    st'.mCtx.frame = st.mCtx.frame := by
  rcases AcceptMorphs.finalBody_cases _ _ _ _ _ _ h with ⟨e, _⟩ |
    ⟨morph, ctx₁, parent, _, _, _, hi, _, e, _⟩
  · rw [e]
  · rw [e, ← AcceptMorphs.insertMorph_frame _ _ _ hi]; rfl

theorem PathFinder.acceptMorphs_frame (morphs : List MolpherMolecule) (survivors : List Bool)
    (ctx : PathFinderContext) (r : PathFinderContext × SmileSet)
    (h : PathFinder.acceptMorphs morphs survivors ctx = some r) : r.1.frame = ctx.frame := by
  unfold PathFinder.acceptMorphs PathFinder.AcceptMorphs at h
  rw [Option.map_eq_some'] at h
  obtain ⟨st, hst, rfl⟩ := h
  exact forRange_invariant (fun s => s.mCtx.frame = ctx.frame) _ _ _
    (fun s i s' _ _ hs hb => (AcceptMorphs.finalBody_frame _ _ _ _ _ _ hb).trans hs)
    _ _ rfl hst

theorem PathFinderActivity.acceptMorphs2_frame (morphs : List MolpherMolecule)
    (survivors : List Bool) (ctx : PathFinderContext) (r : PathFinderContext × SmileSet)
    (h : PathFinderActivity.acceptMorphs2 morphs survivors ctx = some r) :
    r.1.frame = ctx.frame := by
  unfold PathFinderActivity.acceptMorphs2 PathFinderActivity.AcceptMorphs at h
  rw [Option.map_eq_some'] at h
  obtain ⟨st, hst, rfl⟩ := h
  exact forRange_invariant (fun s => s.mCtx.frame = ctx.frame) _ _ _
    (fun s i s' _ _ hs hb => (AcceptMorphs.finalBody_frame _ _ _ _ _ _ hb).trans hs)
    _ _ rfl hst

theorem CountersOnly.frame_eq {c c' : PathFinderContext} (h : CountersOnly c c') :
    c'.frame = c.frame := by
  have := congrArg PathFinderContext.frame h.1
  exact this

theorem CountersOnly.pruned_eq {c c' : PathFinderContext} (h : CountersOnly c c') :
    c'.prunedDuringThisIter = c.prunedDuringThisIter ∧
    c'.candidateScaffoldMolecules = c.candidateScaffoldMolecules := by
  have h1 := congrArg PathFinderContext.prunedDuringThisIter h.1
  have h2 := congrArg PathFinderContext.candidateScaffoldMolecules h.1
  exact ⟨h1, h2⟩

theorem EraseSubTree.loop_frame (fuel : Nat) (Q : List String) (ctx ctx' : PathFinderContext)
    (h : EraseSubTree.loop fuel Q ctx = some ctx') : ctx'.frame = ctx.frame :=
  EraseSubTree.loop_induct (fun _ c => c.frame = ctx.frame)
    (fun _ _ _ _ hR _ => hR) fuel Q ctx ctx' rfl h

theorem EraseSubTree.erase_frame (root : String) (ctx ctx' : PathFinderContext)
    (h : EraseSubTree root ctx = some ctx') : ctx'.frame = ctx.frame :=
  EraseSubTree.loop_frame _ _ _ _ h

theorem PruneTree.eraseAll_frame (D : List String) (ctx ctx' : PathFinderContext)
    (h : D.foldlM (fun c child => EraseSubTree child c) ctx = some ctx') :
    ctx'.frame = ctx.frame :=
  foldlM_invariant (fun c => c.frame = ctx.frame) _ D
    (fun _ _ _ _ hs hb => (EraseSubTree.erase_frame _ _ _ hb).trans hs) ctx ctx' rfl h

theorem PruneTree.pruneNode_frame (deferred : Bool) (smile : String) (node : MolpherMolecule)
    (ctx ctx' : PathFinderContext)
    (h : PruneTree.pruneNode deferred smile node ctx = some ctx') : ctx'.frame = ctx.frame := by
  rcases PruneTree.pruneNode_cases _ _ _ _ _ h with ⟨_, _, parent, _, he⟩ | ⟨_, ctx₁, hf, _, rfl⟩
  · exact (EraseSubTree.erase_frame _ _ _ he :)
  · exact (PruneTree.eraseAll_frame _ _ _ hf :)

theorem PathFinder.PruneTree.call_frame (mDeferred : SmileSet) (smile : String)
    (ctx ctx' : PathFinderContext) (fed : List String)
    (h : PathFinder.PruneTree.call mDeferred smile ctx = some (ctx', fed)) :
    ctx'.frame = ctx.frame := by
  obtain ⟨node, _, hc⟩ := PathFinder.PruneTree.call_cases _ _ _ _ _ h
  rcases hc with ⟨rfl, _⟩ | ⟨_, _, hp⟩
  · rfl
  · exact PruneTree.pruneNode_frame _ _ _ _ _ hp

theorem PathFinderActivity.PruneTree.call_frame_act (mDeferred : SmileSet) (smile : String)
    (ctx ctx' : PathFinderContext) (fed : List String)
    (h : PathFinderActivity.PruneTree.call mDeferred smile ctx = some (ctx', fed)) :
    ctx'.frame = ctx.frame := by
  obtain ⟨node, _, hc⟩ := PathFinderActivity.PruneTree.call_cases_act _ _ _ _ _ h
  rcases hc with ⟨rfl, _⟩ | ⟨_, _, rfl, _⟩ | ⟨_, _, _, hp⟩
  · rfl
  · rfl
  · exact PruneTree.pruneNode_frame _ _ _ _ _ hp

theorem PathFinder.pruneStage_frame (fuel : Nat) (deferredMols : List MolpherMolecule)
    (ctx ctx' : PathFinderContext) (h : PathFinder.pruneStage fuel deferredMols ctx = some ctx') :
    ctx'.frame = ctx.frame :=
  PathFinder.PruneTree.worklist_rec _ (fun _ c => c.frame = ctx.frame)
    (fun _ _ _ _ _ hR hc => (PathFinder.PruneTree.call_frame _ _ _ _ _ hc).trans hR)
    fuel _ ctx ctx' rfl (PathFinder.pruneStage_eq _ _ _ _ h)

theorem PathFinderActivity.pruneStage_frame_act (fuel : Nat) (startMols : List String)
    (ctx ctx' : PathFinderContext)
    (h : PathFinderActivity.pruneStage fuel startMols ctx = some ctx') :
    ctx'.frame = ctx.frame :=
  PathFinderActivity.PruneTree.worklist_rec_act _ (fun _ c => c.frame = ctx.frame)
    (fun _ _ _ _ _ hR hc => (PathFinderActivity.PruneTree.call_frame_act _ _ _ _ _ hc).trans hR)
    fuel _ ctx ctx' rfl (PathFinderActivity.pruneStage_eq_act _ _ _ _ h)

theorem PathFinder.UpdateTree.update_frame (fuel : Nat) (modifiedParents : SmileSet)
    (ctx ctx' : PathFinderContext)
    (h : PathFinder.UpdateTree fuel modifiedParents ctx = some ctx') :
    ctx'.frame = ctx.frame :=
  (PathFinder.UpdateTree.counters _ _ _ _ h).frame_eq

theorem PathFinderActivity.UpdateTree.frame_eq_act (fuel : Nat) (modifiedParents : SmileSet)
    (ctx ctx' : PathFinderContext)
    (h : PathFinderActivity.UpdateTree fuel modifiedParents ctx = some ctx') :
    ctx'.frame = ctx.frame :=
  (PathFinderActivity.UpdateTree.counters_act _ _ _ _ h).frame_eq

/-- Two contexts with the same frame agree on every field outside the three the
stages write. -/
theorem PathFinderContext.frame_fields {a b : PathFinderContext} (h : a.frame = b.frame) :
    a.iterIdx = b.iterIdx ∧ a.elapsedSeconds = b.elapsedSeconds ∧ a.params = b.params ∧
    a.morphDerivations = b.morphDerivations ∧ a.source = b.source ∧ a.target = b.target ∧
    a.tempSource = b.tempSource ∧ a.scaffoldSelector = b.scaffoldSelector ∧
    a.pathScaffoldMolecules = b.pathScaffoldMolecules ∧ a.padelBatchSize = b.padelBatchSize := by
  have e1 : a.frame.iterIdx = b.frame.iterIdx := by rw [h]
  have e2 : a.frame.elapsedSeconds = b.frame.elapsedSeconds := by rw [h]
  have e3 : a.frame.params = b.frame.params := by rw [h]
  have e4 : a.frame.morphDerivations = b.frame.morphDerivations := by rw [h]
  have e5 : a.frame.source = b.frame.source := by rw [h]
  have e6 : a.frame.target = b.frame.target := by rw [h]
  have e7 : a.frame.tempSource = b.frame.tempSource := by rw [h]
  have e8 : a.frame.scaffoldSelector = b.frame.scaffoldSelector := by rw [h]
  have e9 : a.frame.pathScaffoldMolecules = b.frame.pathScaffoldMolecules := by rw [h]
  have e10 : a.frame.padelBatchSize = b.frame.padelBatchSize := by rw [h]
  exact ⟨e1, e2, e3, e4, e5, e6, e7, e8, e9, e10⟩

/-- The generation loop writes `morphDerivations` only. -/
theorem PathFinder.generateMorphs_frame (Cancelled : Nat → Bool)
    (GenerateMorphs : MolpherMolecule → Nat → List MolpherMolecule) :
    ∀ (leaves : List MolpherMolecule) (k : Nat) (st : PathFinderContext × CollectMorphs),
      (PathFinder.generateMorphs Cancelled GenerateMorphs k leaves st).1.1 =
        { st.1 with morphDerivations :=
            (PathFinder.generateMorphs Cancelled GenerateMorphs k leaves st).1.1.morphDerivations }
  | [], _, _ => rfl
  | candidate :: rest, k, st => by
    unfold PathFinder.generateMorphs
    simp only []
    split
    · split <;> rfl
    · have ih := PathFinder.generateMorphs_frame Cancelled GenerateMorphs rest (k + 2)
        (if (!Cancelled k) = true then PathFinder.generateFor GenerateMorphs st candidate else st)
      rw [ih]
      split <;> rfl

/-- The tail of a non-cancelled path-mode iteration, stage by stage. -/
theorem PathFinder.iterationTail_run (fuel : Nat) (Cancelled : Nat → Bool)
    (parallel_sort : List MolpherMolecule → List MolpherMolecule) (rand : Nat → Nat)
    (deferredMols : List MolpherMolecule) (elapsed : Nat)
    (canContinueCurrentJob pathFound : Bool) (ctx : PathFinderContext)
    (collected : List MolpherMolecule) (r : PathFinderContext × Bool × Bool)
    (hnc : ∀ k, Cancelled k = false)
    (h : PathFinder.iterationTail fuel Cancelled parallel_sort rand deferredMols elapsed
      canContinueCurrentJob pathFound ctx collected = some r) :
    ∃ survivors acc ctx₂ ctx₃,
      PathFinder.filterStage ctx (parallel_sort collected) rand = some survivors ∧
      PathFinder.acceptMorphs (parallel_sort collected) survivors ctx = some acc ∧
      PathFinder.UpdateTree fuel acc.2 acc.1 = some ctx₂ ∧
      ((PathFinder.pathFound ctx₂ = true ∧ ctx₃ = ctx₂) ∨
        (PathFinder.pathFound ctx₂ = false ∧
          PathFinder.pruneStage fuel deferredMols ctx₂ = some ctx₃)) ∧
      r = ((evaluateTermination elapsed canContinueCurrentJob ctx₃).1,
           (evaluateTermination elapsed canContinueCurrentJob ctx₃).2,
           PathFinder.pathFound ctx₂) := by
  unfold PathFinder.iterationTail at h
  simp only [hnc, Bool.not_false, if_true, Bool.and_true] at h
  cases hf : PathFinder.filterStage ctx (parallel_sort collected) rand with
  | none => rw [hf] at h; cases h
  | some survivors =>
    rw [hf] at h
    simp only [Option.bind] at h
    cases ha : PathFinder.acceptMorphs (parallel_sort collected) survivors ctx with
    | none => rw [ha] at h; cases h
    | some acc =>
      rw [ha] at h
      simp only [] at h
      cases hu : PathFinder.UpdateTree fuel acc.2 acc.1 with
      | none => rw [hu] at h; cases h
      | some ctx₂ =>
        rw [hu] at h
        simp only [] at h
        cases hp : PathFinder.pathFound ctx₂
        · simp only [hp, Bool.not_false, if_true] at h
          cases hpr : PathFinder.pruneStage fuel deferredMols ctx₂ with
          | none => rw [hpr] at h; cases h
          | some ctx₃ =>
            rw [hpr] at h
            simp only [Option.some.injEq] at h
            exact ⟨survivors, acc, ctx₂, ctx₃, rfl, ha, hu, Or.inr ⟨hp, hpr⟩, by rw [hp]; exact h.symm⟩
        · simp only [hp, Bool.not_true, Bool.false_eq_true, if_false, Option.some.injEq] at h
          exact ⟨survivors, acc, ctx₂, ctx₂, rfl, ha, hu, Or.inl ⟨hp, rfl⟩, by rw [hp]; exact h.symm⟩

/-- The frame of the context handed to `CommitIteration` by a non-cancelled
tail: only the stages' three fields and the two clocks differ. -/
theorem PathFinder.iterationTail_frame (fuel : Nat) (Cancelled : Nat → Bool)
    (parallel_sort : List MolpherMolecule → List MolpherMolecule) (rand : Nat → Nat)
    (deferredMols : List MolpherMolecule) (elapsed : Nat)
    (canContinueCurrentJob pathFound : Bool) (ctx : PathFinderContext)
    (collected : List MolpherMolecule) (r : PathFinderContext × Bool × Bool)
    (hnc : ∀ k, Cancelled k = false)
    (h : PathFinder.iterationTail fuel Cancelled parallel_sort rand deferredMols elapsed
      canContinueCurrentJob pathFound ctx collected = some r) :
    ∃ ctx₃, ctx₃.frame = ctx.frame ∧
      r.1 = (evaluateTermination elapsed canContinueCurrentJob ctx₃).1 ∧
      r.2.1 = (evaluateTermination elapsed canContinueCurrentJob ctx₃).2 := by
  obtain ⟨survivors, acc, ctx₂, ctx₃, _, ha, hu, hp, rfl⟩ :=
    PathFinder.iterationTail_run _ _ _ _ _ _ _ _ _ _ _ hnc h
  have h2 : ctx₂.frame = ctx.frame :=
    (PathFinder.UpdateTree.update_frame _ _ _ _ hu).trans (PathFinder.acceptMorphs_frame _ _ _ _ ha)
  refine ⟨ctx₃, ?_, rfl, rfl⟩
  rcases hp with ⟨_, rfl⟩ | ⟨_, hpr⟩
  · exact h2
  · exact (PathFinder.pruneStage_frame _ _ _ _ hpr).trans h2

/-- C17, as stated, fails on `pathFound`: a non-cancelled iteration on
`directHitCtx` finds the path at `iterIdx = 1 < 10 = cntIterations` and
`elapsedSeconds = 3 < 1000 = timeMaxSeconds`, and the flag handed to
`CommitIteration` is `true`, next to `pathFound = true`. -/
theorem C17_path_found_leaves_flag_set :
    (PathFinder.iteration 5 (fun _ => false) exParams (fun _ _ => []) id (fun _ => 0) [] 3
        true false directHitCtx).map
      (fun r => (r.1.iterIdx, r.1.params.cntIterations, r.1.elapsedSeconds,
        r.1.params.timeMaxSeconds, r.2.1, r.2.2))
      = some (1, 10, 3, 1000, true, true) := by
  decide!

/-- C17, amended: after a non-cancelled path-mode iteration, entered with
`canContinueCurrentJob` set, the flag handed to `CommitIteration` is false
exactly when the incremented `iterIdx` has reached `cntIterations` or
`elapsedSeconds` has reached `timeMaxSeconds`; `pathFound` does not enter it. -/
theorem C17_can_continue_amended (fuel : Nat) (Cancelled : Nat → Bool)
    (jobParams : MolpherParam)
    (GenerateMorphs : MolpherMolecule → Nat → List MolpherMolecule)
    (parallel_sort : List MolpherMolecule → List MolpherMolecule) (rand : Nat → Nat)
    (deferredMols : List MolpherMolecule) (elapsed : Nat) (pathFound : Bool)
    (ctx : PathFinderContext) (r : PathFinderContext × Bool × Bool)
    (hnc : ∀ k, Cancelled k = false)
    (hrun : PathFinder.iteration fuel Cancelled jobParams GenerateMorphs parallel_sort rand
      deferredMols elapsed true pathFound ctx = some r) :
    r.1.iterIdx = (ctx.iterIdx + 1) % UINT_MOD ∧
    r.1.elapsedSeconds = (ctx.elapsedSeconds + elapsed) % UINT_MOD ∧
    r.1.params = jobParams ∧
    (r.2.1 = false ↔
      (jobParams.cntIterations ≤ r.1.iterIdx ∨ jobParams.timeMaxSeconds ≤ r.1.elapsedSeconds)) := by
  unfold PathFinder.iteration at hrun
  simp only [hnc, Bool.not_false, if_true] at hrun
  obtain ⟨ctx₃, hfr, h1, h2⟩ := PathFinder.iterationTail_frame _ _ _ _ _ _ _ _ _ _ _
    (fun _ => rfl) hrun
  rw [PathFinder.generateMorphs_frame] at hfr
  have hi : ctx₃.iterIdx = ctx.iterIdx := (PathFinderContext.frame_fields hfr).1
  have he : ctx₃.elapsedSeconds = ctx.elapsedSeconds := (PathFinderContext.frame_fields hfr).2.1
  have hp : ctx₃.params = jobParams := (PathFinderContext.frame_fields hfr).2.2.1
  rw [h1, h2]
  simp only [evaluateTermination, if_true, hi, he, hp]
  refine ⟨trivial, trivial, trivial, ?_⟩
  cases hA : decide (jobParams.cntIterations ≤ (ctx.iterIdx + 1) % UINT_MOD) <;>
    cases hB : decide (jobParams.timeMaxSeconds ≤ (ctx.elapsedSeconds + elapsed) % UINT_MOD) <;>
    simp_all

/-- Witness for C17 (amended): the iteration on `directHitCtx` with a budget of
one iteration returns the flag `false`. -/
theorem C17_can_continue_amended_witness :
    ∃ r, PathFinder.iteration 5 (fun _ => false) { exParams with cntIterations := 1 }
        (fun _ _ => []) id (fun _ => 0) [] 3 true false directHitCtx = some r ∧
      r.1.iterIdx = 1 ∧ r.2.1 = false := by
  have hs : (PathFinder.iteration 5 (fun _ => false) { exParams with cntIterations := 1 }
        (fun _ _ => []) id (fun _ => 0) [] 3 true false directHitCtx).isSome = true := by
    decide!
  obtain ⟨r, hr⟩ := Option.isSome_iff_exists.mp hs
  have h := C17_can_continue_amended 5 (fun _ => false) { exParams with cntIterations := 1 }
    (fun _ _ => []) id (fun _ => 0) [] 3 false directHitCtx r (fun _ => rfl) hr
  refine ⟨r, hr, h.1, h.2.2.2.mpr (Or.inl ?_)⟩
  rw [h.1]
  decide

/-- C12: when `prunedDuringThisIter` is empty before Prune, a completed Prune
stage (path mode with any deferred list, activity mode with any start molecules)
leaves in it exactly the keys `candidates` had before and no longer has, each
once. -/
theorem C12_prune_reporting (fuel : Nat) (ctx ctx' : PathFinderContext)
    (hempty : ctx.prunedDuringThisIter = []) :
    (∀ deferredMols, PathFinder.pruneStage fuel deferredMols ctx = some ctx' →
      ctx'.prunedDuringThisIter.Nodup ∧
      ∀ k, k ∈ ctx'.prunedDuringThisIter ↔
        (ctx.candidates.contains k = true ∧ ctx'.candidates.contains k = false)) ∧
    (∀ startMols, PathFinderActivity.pruneStage fuel startMols ctx = some ctx' →
      ctx'.prunedDuringThisIter.Nodup ∧
      ∀ k, k ∈ ctx'.prunedDuringThisIter ↔
        (ctx.candidates.contains k = true ∧ ctx'.candidates.contains k = false)) := by
  have key : Shrinks ctx ctx' → ctx'.prunedDuringThisIter.Nodup ∧
      ∀ k, k ∈ ctx'.prunedDuringThisIter ↔
        (ctx.candidates.contains k = true ∧ ctx'.candidates.contains k = false) := by
    intro hs
    obtain ⟨L, hL, hnd, hmem⟩ := hs.2.2.2.2.2.2.2.2
    rw [hempty, List.nil_append] at hL
    rw [hL]
    exact ⟨hnd, hmem⟩
  exact ⟨fun _ h => key (PathFinder.PruneTree.shrinks _ _ _ _ _ (PathFinder.pruneStage_eq _ _ _ _ h)),
    fun _ h => key (PathFinderActivity.PruneTree.shrinks_act _ _ _ _ _
      (PathFinderActivity.pruneStage_eq_act _ _ _ _ h))⟩

/-- Witness for C12: in `filterCtx` with `"A"` deferred, the path-mode Prune
stage erases `"A"` and reports `["A"]`. -/
theorem C12_prune_reporting_witness :
    ∃ ctx', PathFinder.pruneStage 5 deferredA filterCtx = some ctx' ∧
      ConcMap.keys ctx'.candidates = ["S"] ∧ ctx'.prunedDuringThisIter = ["A"] ∧
      ctx'.prunedDuringThisIter.Nodup ∧
      ∀ k, k ∈ ctx'.prunedDuringThisIter ↔
        (filterCtx.candidates.contains k = true ∧ ctx'.candidates.contains k = false) := by
  have hs : (PathFinder.pruneStage 5 deferredA filterCtx).isSome = true := by decide
  obtain ⟨ctx', hc⟩ := Option.isSome_iff_exists.mp hs
  have hk : (PathFinder.pruneStage 5 deferredA filterCtx).map
      (fun c => (ConcMap.keys c.candidates, c.prunedDuringThisIter)) = some (["S"], ["A"]) := by
    decide
  rw [hc] at hk
  simp only [Option.map_some', Option.some.injEq, Prod.mk.injEq] at hk
  have h := (C12_prune_reporting 5 filterCtx ctx' rfl).1 deferredA hc
  exact ⟨ctx', hc, hk.1, hk.2, h.1, h.2⟩

/-- C14: in activity mode the visit of a non-decayed candidate with
`itersFresh > decayThreshold` sets `decayed`, keeps the candidate (and every
other key, unchanged), reports and erases nothing, and hands exactly its
descendants to the feeder, whatever the deferred set, the counter
`itersWithoutDistImprovement` and the derivation counts. -/
theorem C14_activity_decay (mDeferred : SmileSet) (smile : String) (ctx : PathFinderContext)
    (node : MolpherMolecule) (hv : ctx.candidates.find smile = some node)
    (hd : node.decayed = false) (hf : node.itersFresh > ctx.params.decayThreshold) :
    ∃ ctx', PathFinderActivity.PruneTree.call mDeferred smile ctx =
        some (ctx', node.descendants) ∧
      ctx'.candidates.find smile = some { node with decayed := true } ∧
      (∀ k, k ≠ smile → ctx'.candidates.find k = ctx.candidates.find k) ∧
      ConcMap.keys ctx'.candidates = ConcMap.keys ctx.candidates ∧
      ctx'.prunedDuringThisIter = ctx.prunedDuringThisIter ∧
      ctx'.candidateScaffoldMolecules = ctx.candidateScaffoldMolecules ∧
      ctx'.morphDerivations = ctx.morphDerivations := by
  refine ⟨{ ctx with candidates := ctx.candidates.assign smile { node with decayed := true } },
    ?_, ?_, ?_, ?_, rfl, rfl, rfl⟩
  · unfold PathFinderActivity.PruneTree.call
    rw [hv]
    simp only [hd, Bool.false_eq_true, if_false, hf, if_true]
  · exact ConcMap.find_assign_self _ _ _
  · intro k hk
    exact ConcMap.find_assign_ne _ _ (Ne.symm hk)
  · simp only [ConcMap.keys_assign, (ConcMap.contains_iff _ _).mpr ⟨node, hv⟩, if_true]

/-- Witness for C14: the visit of `"A"` in `decayCtx`, with `"A"` deferred. -/
theorem C14_activity_decay_witness :
    ∃ ctx', PathFinderActivity.PruneTree.call ["A"] "A" decayCtx = some (ctx', ["B"]) ∧
      (ctx'.candidates.find "A").map (fun v => v.decayed) = some true ∧
      ConcMap.keys ctx'.candidates = ["S", "A", "B"] ∧
      ctx'.prunedDuringThisIter = [] := by
  obtain ⟨ctx', h1, h2, _, h4, h5, _⟩ := C14_activity_decay ["A"] "A" decayCtx
    { blankMol with smile := "A", parentSmile := "S", descendants := ["B"],
                    historicDescendants := ["B"], itersFresh := 6,
                    itersWithoutDistImprovement := 9 } rfl rfl (by decide)
  exact ⟨ctx', h1, by rw [h2]; rfl, h4, h5⟩

/-- Whatever the cancellation token does, the context a path-mode tail returns
differs from the one it got in the three fields of the stages and the two
clocks only. -/
theorem PathFinder.iterationTail_frame_any (fuel : Nat) (Cancelled : Nat → Bool)
    (parallel_sort : List MolpherMolecule → List MolpherMolecule) (rand : Nat → Nat)
    (deferredMols : List MolpherMolecule) (elapsed : Nat)
    (canContinueCurrentJob pathFound : Bool) (ctx : PathFinderContext)
    (collected : List MolpherMolecule) (r : PathFinderContext × Bool × Bool)
    (h : PathFinder.iterationTail fuel Cancelled parallel_sort rand deferredMols elapsed
      canContinueCurrentJob pathFound ctx collected = some r) :
    ∃ ctx₃, ctx₃.frame = ctx.frame ∧
      (r.1 = ctx₃ ∨ r.1 = (evaluateTermination elapsed canContinueCurrentJob ctx₃).1) := by
  unfold PathFinder.iterationTail at h
  simp only [Option.bind_eq_some] at h
  obtain ⟨survivors, _, acc, ha, ctx₂, hu, ctx₃, hp, h⟩ := h
  have h1 := PathFinder.acceptMorphs_frame _ _ _ _ ha
  have aux : ∀ (b : Bool) (o : Option PathFinderContext) (x y : PathFinderContext),
      (if b = true then o else some x) = some y → (o = some y ∨ y = x) := by
    intro b o x y hb
    cases b
    · simp only [Bool.false_eq_true, if_false, Option.some.injEq] at hb
      exact Or.inr hb.symm
    · simp only [if_true] at hb
      exact Or.inl hb
  have h2 : ctx₂.frame = ctx.frame := by
    rcases aux _ _ _ _ hu with hu | rfl
    · exact (PathFinder.UpdateTree.update_frame _ _ _ _ hu).trans h1
    · exact h1
  have h3 : ctx₃.frame = ctx.frame := by
    rcases aux _ _ _ _ hp with hp | rfl
    · exact (PathFinder.pruneStage_frame _ _ _ _ hp).trans h2
    · exact h2
  refine ⟨ctx₃, h3, ?_⟩
  split at h
  · simp only [Option.some.injEq] at h; rw [← h]; exact Or.inr rfl
  · simp only [Option.some.injEq] at h; rw [← h]; exact Or.inl rfl

/-- One charge keeps every entry of `morphDerivations`. -/
theorem PathFinder.generateFor_keeps
    (GenerateMorphs : MolpherMolecule → Nat → List MolpherMolecule)
    (st : PathFinderContext × CollectMorphs) (candidate : MolpherMolecule) (k : String)
    (hk : st.1.morphDerivations.contains k = true) :
    (PathFinder.generateFor GenerateMorphs st candidate).1.morphDerivations.contains k = true := by
  unfold PathFinder.generateFor
  simp only []
  rw [ConcMap.contains_iff] at hk ⊢
  obtain ⟨v, hv⟩ := hk
  rw [ConcMap.find_assign]
  split
  · exact ⟨_, rfl⟩
  · exact ⟨v, hv⟩

/-- The generation loop keeps every entry of `morphDerivations`. -/
theorem PathFinder.generateMorphs_keeps (Cancelled : Nat → Bool)
    (GenerateMorphs : MolpherMolecule → Nat → List MolpherMolecule) (key : String) :
    ∀ (leaves : List MolpherMolecule) (k : Nat) (st : PathFinderContext × CollectMorphs),
      st.1.morphDerivations.contains key = true →
      (PathFinder.generateMorphs Cancelled GenerateMorphs k leaves st).1.1.morphDerivations.contains
        key = true
  | [], _, _, h => h
  | candidate :: rest, k, st, h => by
    unfold PathFinder.generateMorphs
    simp only []
    have h' : (if (!Cancelled k) = true then PathFinder.generateFor GenerateMorphs st candidate
        else st).1.morphDerivations.contains key = true := by
      split
      · exact PathFinder.generateFor_keeps _ _ _ _ h
      · exact h
    split
    · exact h'
    · exact PathFinder.generateMorphs_keeps Cancelled GenerateMorphs key rest (k + 2) _ h'

/-- C11, as stated, fails at the top of the `unsigned int` range: a candidate
charged `4294967295` derivations that gets one more delivery is charged `0`. -/
theorem C11_charge_wraps :
    (PathFinder.generateFor (fun _ _ => [morphX])
        ({ filterCtx with morphDerivations := [("S", 4294967295)] }, CollectMorphs.ctor [])
        { blankMol with smile := "S" }).1.morphDerivations.find "S" = some 0 := by
  decide

/-- C11, amended: after morph generation for a selected candidate `c`, entered
with the collector's counter at zero (as after its construction or a withdraw),
`morphDerivations[c]` is its previous value (0 if absent) plus the number of
deliveries made for `c`, duplicates included, modulo `2^32` (the sum itself when
it is below `2^32`), every other entry is unchanged and the counter is zero
again; FindLeaves aside, which does not take the map, AcceptScan, UpdateTree and
Prune of both modes leave `morphDerivations` as it is, and a whole path-mode
iteration, cancelled or not, removes no entry. -/
theorem C11_charging_amended (GenerateMorphs : MolpherMolecule → Nat → List MolpherMolecule)
    (ctx : PathFinderContext) :
    (∀ (collector : CollectMorphs) (c : MolpherMolecule),
      collector.mCollectAttemptCount = 0 →
      ∃ deliveries : List MolpherMolecule,
        (deliveries = GenerateMorphs c ctx.params.cntMorphs ∨
          deliveries = GenerateMorphs c ctx.params.cntMorphsInDepth) ∧
        (PathFinder.generateFor GenerateMorphs (ctx, collector) c).2 =
          (CollectMorphs.WithdrawCollectAttemptCount
            (CollectMorphs.deliver collector deliveries)).2 ∧
        (PathFinder.generateFor GenerateMorphs (ctx, collector) c).2.mCollectAttemptCount = 0 ∧
        (∀ prev, (ctx.morphDerivations.find c.smile).getD 0 = prev → prev < UINT_MOD →
          (PathFinder.generateFor GenerateMorphs (ctx, collector) c).1.morphDerivations.find
              c.smile = some ((prev + deliveries.length) % UINT_MOD) ∧
          (prev + deliveries.length < UINT_MOD →
            (PathFinder.generateFor GenerateMorphs (ctx, collector) c).1.morphDerivations.find
              c.smile = some (prev + deliveries.length))) ∧
        (∀ k, k ≠ c.smile →
          (PathFinder.generateFor GenerateMorphs (ctx, collector) c).1.morphDerivations.find k =
            ctx.morphDerivations.find k)) ∧
    (∀ morphs survivors r, PathFinder.acceptMorphs morphs survivors ctx = some r →
      r.1.morphDerivations = ctx.morphDerivations) ∧
    (∀ morphs survivors r, PathFinderActivity.acceptMorphs2 morphs survivors ctx = some r →
      r.1.morphDerivations = ctx.morphDerivations) ∧
    (∀ fuel parents ctx', PathFinder.UpdateTree fuel parents ctx = some ctx' →
      ctx'.morphDerivations = ctx.morphDerivations) ∧
    (∀ fuel parents ctx', PathFinderActivity.UpdateTree fuel parents ctx = some ctx' →
      ctx'.morphDerivations = ctx.morphDerivations) ∧
    (∀ fuel deferredMols ctx', PathFinder.pruneStage fuel deferredMols ctx = some ctx' →
      ctx'.morphDerivations = ctx.morphDerivations) ∧
    (∀ fuel startMols ctx', PathFinderActivity.pruneStage fuel startMols ctx = some ctx' →
      ctx'.morphDerivations = ctx.morphDerivations) ∧
    (∀ fuel Cancelled jobParams parallel_sort rand deferredMols elapsed canContinue pathFound r,
      PathFinder.iteration fuel Cancelled jobParams GenerateMorphs parallel_sort rand
        deferredMols elapsed canContinue pathFound ctx = some r →
      ∀ k, ctx.morphDerivations.contains k = true →
        r.1.morphDerivations.contains k = true) := by
  refine ⟨?_, fun _ _ _ h => (PathFinderContext.frame_fields
      (PathFinder.acceptMorphs_frame _ _ _ _ h)).2.2.2.1,
    fun _ _ _ h => (PathFinderContext.frame_fields
      (PathFinderActivity.acceptMorphs2_frame _ _ _ _ h)).2.2.2.1,
    fun _ _ _ h => (PathFinderContext.frame_fields
      (PathFinder.UpdateTree.update_frame _ _ _ _ h)).2.2.2.1,
    fun _ _ _ h => (PathFinderContext.frame_fields
      (PathFinderActivity.UpdateTree.frame_eq_act _ _ _ _ h)).2.2.2.1,
    fun _ _ _ h => (PathFinderContext.frame_fields
      (PathFinder.pruneStage_frame _ _ _ _ h)).2.2.2.1,
    fun _ _ _ h => (PathFinderContext.frame_fields
      (PathFinderActivity.pruneStage_frame_act _ _ _ _ h)).2.2.2.1, ?_⟩
  · intro collector c hzero
    refine ⟨GenerateMorphs c (if c.distToTarget < ctx.params.distToTargetDepthSwitch then
      ctx.params.cntMorphsInDepth else ctx.params.cntMorphs), ?_, rfl, rfl, ?_, ?_⟩
    · split
      · exact Or.inr rfl
      · exact Or.inl rfl
    · intro prev hprev hlt
      have hw : ∀ ms, (CollectMorphs.WithdrawCollectAttemptCount
          (CollectMorphs.deliver collector ms)).1 = ms.length % UINT_MOD := by
        intro ms
        rw [CollectMorphs.withdraw_fst, CollectMorphs.count_deliver, hzero, Nat.zero_add]
      have hval : (PathFinder.generateFor GenerateMorphs (ctx, collector) c).1.morphDerivations.find
          c.smile = some ((prev + (GenerateMorphs c (if c.distToTarget <
            ctx.params.distToTargetDepthSwitch then ctx.params.cntMorphsInDepth
            else ctx.params.cntMorphs)).length) % UINT_MOD) := by
        unfold PathFinder.generateFor
        simp only []
        rw [ConcMap.find_assign_self, hw]
        cases hf : ctx.morphDerivations.find c.smile with
        | none =>
          rw [hf] at hprev
          simp only [Option.getD_none] at hprev
          subst hprev
          simp
        | some n =>
          rw [hf] at hprev
          simp only [Option.getD_some] at hprev
          subst hprev
          simp only [Option.some.injEq]
          rw [Nat.add_mod_mod]
      exact ⟨hval, fun hsum => by rw [hval, Nat.mod_eq_of_lt hsum]⟩
    · intro k hk
      unfold PathFinder.generateFor
      simp only []
      exact ConcMap.find_assign_ne _ _ (Ne.symm hk)
  · intro fuel Cancelled jobParams parallel_sort rand deferredMols elapsed canContinue
      pathFound r hrun k hk
    unfold PathFinder.iteration at hrun
    obtain ⟨ctx₃, hfr, hr⟩ := PathFinder.iterationTail_frame_any _ _ _ _ _ _ _ _ _ _ _ hrun
    have hmd : r.1.morphDerivations = ctx₃.morphDerivations := by
      rcases hr with e | e
      · rw [e]
      · rw [e]; unfold evaluateTermination; simp only []; split <;> rfl
    rw [hmd, (PathFinderContext.frame_fields hfr).2.2.2.1]
    apply PathFinder.generateMorphs_keeps
    simp only []
    split <;> exact hk

/-- Witness for C11 (amended): in `filterCtx` the source `"S"`, charged 3, gets
two deliveries of the same morph and is charged 5. -/
theorem C11_charging_amended_witness :
    (PathFinder.generateFor (fun _ _ => [morphX, morphX]) (filterCtx, CollectMorphs.ctor [])
        { blankMol with smile := "S" }).1.morphDerivations.find "S" = some 5 := by
  obtain ⟨d, hd, _, _, hv, _⟩ :=
    (C11_charging_amended (fun _ _ => [morphX, morphX]) filterCtx).1 (CollectMorphs.ctor [])
      { blankMol with smile := "S" } rfl
  have hd' : d = [morphX, morphX] := by rcases hd with h | h <;> exact h
  subst hd'
  exact (hv 3 (by decide) (by decide)).2 (by decide)

/-- A final scan over survivors that are all `false` changes nothing. -/
theorem AcceptMorphs.scan_none (gated : Bool) (mMorphs : List MolpherMolecule) (n : Nat)
    (st : AcceptMorphs) (b e : Nat) :
    forRange b e (AcceptMorphs.finalBody gated mMorphs (List.replicate n false)) st = some st := by
  obtain ⟨s', hs', heq⟩ := forRange_total (fun s => s = st)
    (AcceptMorphs.finalBody gated mMorphs (List.replicate n false)) b e
    (fun s i _ _ hs => by
      subst hs
      refine ⟨s, ?_, rfl⟩
      unfold AcceptMorphs.finalBody
      have : (List.replicate n false).getD i false = false := by
        rw [List.getD_eq_getElem?_getD, List.getElem?_replicate]
        split <;> rfl
      rw [this]
      rfl)
    st rfl
  rw [hs', heq]

/-- C15: in path mode a token set before the Filter guard, and set from then
on, leaves the whole context as it was (the survivors stay all `false`, so the
unguarded `acceptMorphs` inserts nothing). In activity mode the survivors start
all `true` and `acceptMorphs2` is not guarded either: with the token set
throughout the tail, the morph `"C"` of parent `"S"` is inserted into the
candidates of `filterCtx` and linked to `"S"`. -/
theorem C15_cancel_before_filter :
    (∀ fuel Cancelled parallel_sort rand deferredMols elapsed canContinue pathFound ctx
        collected,
      (∀ k, 2 ≤ k → Cancelled k = true) →
      PathFinder.iterationTail fuel Cancelled parallel_sort rand deferredMols elapsed
        canContinue pathFound ctx collected = some (ctx, canContinue, pathFound)) ∧
    ConcMap.keys filterCtx.candidates = ["S", "A"] ∧
    (PathFinderActivity.iterationTail 5 (fun _ => true) id ["S"] 3 true false filterCtx
        [{ blankMol with smile := "C", parentSmile := "S" }]).map
      (fun r => (ConcMap.keys r.1.candidates,
        (r.1.candidates.find "S").map (fun v => v.descendants)))
      = some (["S", "A", "C"], some ["A", "C"]) := by
  refine ⟨?_, by decide, by decide!⟩
  intro fuel Cancelled parallel_sort rand deferredMols elapsed canContinue pathFound ctx
    collected hc
  unfold PathFinder.iterationTail PathFinder.acceptMorphs PathFinder.AcceptMorphs
  simp only [hc 2 (by omega), hc 3 (by omega), hc 4 (by omega), hc 5 (by omega),
    hc 8 (by omega), Bool.not_true, Bool.false_eq_true, if_false, Option.some_bind,
    AcceptMorphs.scan_none, Option.map_some', Bool.and_false]

theorem forRange_empty {σ : Type} (body : σ → Nat → Option σ) (b e : Nat) (h : e ≤ b) (s : σ) :
    forRange b e body s = some s := by
  unfold forRange
  rw [Nat.sub_eq_zero_of_le h]
  rfl

theorem forRange_succ {σ : Type} (body : σ → Nat → Option σ) (b i : Nat) (h : b ≤ i) (s : σ) :
    forRange b (i + 1) body s = (forRange b i body s).bind (fun t => body t i) := by
  unfold forRange
  have : i + 1 - b = (i - b) + 1 := by omega
  rw [this, List.range'_concat, List.foldlM_append]
  have hi : b + 1 * (i - b) = i := by omega
  rw [hi]
  cases (List.range' b (i - b)).foldlM body s with
  | none => rfl
  | some t => simp [List.foldlM]

theorem forRange_split {σ : Type} (body : σ → Nat → Option σ) (b m e : Nat) (h₁ : b ≤ m)
    (h₂ : m ≤ e) (s : σ) :
    forRange b e body s = (forRange b m body s).bind (forRange m e body) := by
  unfold forRange
  have : e - b = (e - m) + (m - b) := by omega
  rw [this, ← List.range'_append, List.foldlM_append]
  have hi : b + 1 * (m - b) = m := by omega
  rw [hi]
  rfl

theorem countIn_empty (survivors : List Bool) (b e : Nat) (h : e ≤ b) :
    countIn survivors b e = 0 := by
  unfold countIn
  rw [Nat.sub_eq_zero_of_le h]
  rfl

theorem countIn_succ (survivors : List Bool) (b i : Nat) (h : b ≤ i) :
    countIn survivors b (i + 1) =
      countIn survivors b i + (if survivors.getD i false then 1 else 0) := by
  unfold countIn
  have : i + 1 - b = (i - b) + 1 := by omega
  rw [this, List.range'_concat, List.filter_append, List.length_append]
  have hi : b + 1 * (i - b) = i := by omega
  rw [hi]
  cases hc : survivors.getD i false
  · simp only [List.filter_cons, List.filter_nil, hc, Bool.false_eq_true, if_false]; rfl
  · simp only [List.filter_cons, List.filter_nil, hc, if_true]; rfl

theorem countIn_split (survivors : List Bool) (b m e : Nat) (h₁ : b ≤ m) (h₂ : m ≤ e) :
    countIn survivors b e = countIn survivors b m + countIn survivors m e := by
  unfold countIn
  have : e - b = (e - m) + (m - b) := by omega
  rw [this, ← List.range'_append, List.filter_append, List.length_append]
  have hi : b + 1 * (m - b) = m := by omega
  rw [hi]

/-- The scan keeps the mode of the context. -/
theorem AcceptMorphs.scan_frame (gated : Bool) (mMorphs : List MolpherMolecule)
    (mSurvivors : List Bool) (st₀ st : AcceptMorphs) (b e : Nat)
    (h : forRange b e (AcceptMorphs.finalBody gated mMorphs mSurvivors) st₀ = some st) :
    st.mCtx.frame = st₀.mCtx.frame :=
  forRange_invariant (fun s => s.mCtx.frame = st₀.mCtx.frame) _ _ _
    (fun _ _ _ _ _ hs hb => (AcceptMorphs.finalBody_frame _ _ _ _ _ _ hb).trans hs)
    _ _ rfl h

theorem PathFinderContext.frame_mode {a b : PathFinderContext} (h : a.frame = b.frame) :
    a.ScaffoldMode = b.ScaffoldMode := by
  unfold PathFinderContext.ScaffoldMode
  rw [(PathFinderContext.frame_fields h).2.2.2.2.2.2.2.1]

/-- One turn of the final scan, by whether it inserts. -/
theorem AcceptMorphs.finalBody_step (gated : Bool) (mMorphs : List MolpherMolecule)
    (mSurvivors : List Bool) (st st' : AcceptMorphs) (idx : Nat)
    (h : AcceptMorphs.finalBody gated mMorphs mSurvivors st idx = some st') :
    (AcceptMorphs.inserts gated mMorphs mSurvivors st idx = false ∧
      st'.mCtx = st.mCtx ∧ st'.mModifiedParents = st.mModifiedParents ∧
      (st.mCtx.ScaffoldMode = false →
        st'.mSurvivorCount =
          st.mSurvivorCount + (if mSurvivors.getD idx false then 1 else 0))) ∨
    (AcceptMorphs.inserts gated mMorphs mSurvivors st idx = true ∧
      ∃ morph ctx₁ parent,
        mSurvivors.getD idx false = true ∧ mMorphs[idx]? = some morph ∧
        AcceptMorphs.insertMorph st.mCtx morph = some ctx₁ ∧
        ctx₁.candidates.find morph.parentSmile = some parent ∧
        st'.mCtx = { ctx₁ with
          candidates :=
            ctx₁.candidates.assign morph.parentSmile
              (AcceptMorphs.withChild parent morph.smile) } ∧
        st'.mModifiedParents = (SmileSet.insert st.mModifiedParents parent.smile).1 ∧
        st'.mSurvivorCount = st.mSurvivorCount + 1) := by
  unfold AcceptMorphs.finalBody at h
  unfold AcceptMorphs.inserts
  cases hsv : mSurvivors.getD idx false
  · simp only [hsv, Bool.false_eq_true, if_false, Option.some.injEq] at h
    subst h
    exact Or.inl ⟨by simp, rfl, rfl, fun _ => by simp⟩
  · simp only [hsv, if_true] at h
    cases hg : (!gated || decide (st.mSurvivorCount < st.mCtx.params.cntCandidatesToKeepMax))
    · simp only [hg, Bool.false_eq_true, if_false, Option.some.injEq] at h
      subst h
      exact Or.inl ⟨by simp, rfl, rfl, fun _ => by simp⟩
    · simp only [hg, if_true] at h
      cases hm : mMorphs[idx]? with
      | none => rw [hm] at h; simp at h
      | some morph =>
        rw [hm] at h
        simp only [] at h
        cases hi : AcceptMorphs.insertMorph st.mCtx morph with
        | none =>
          rw [hi] at h
          simp only [Option.some.injEq] at h
          subst h
          refine Or.inl ⟨by simp [hi], rfl, rfl, fun hmode => ?_⟩
          unfold AcceptMorphs.insertMorph at hi
          simp [hmode] at hi
        | some ctx₁ =>
          rw [hi] at h
          simp only [] at h
          unfold AcceptMorphs.linkParent at h
          cases hp : ctx₁.candidates.find morph.parentSmile with
          | none => rw [hp] at h; simp at h
          | some parent =>
            rw [hp] at h
            simp only [Option.some.injEq] at h
            subst h
            exact Or.inr ⟨by simp [hi], morph, ctx₁, parent, rfl, rfl, hi, hp, rfl, rfl, rfl⟩

/-- Outside scaffold mode the counter of the final scan over `[b, i)` has grown
by the number of survivors in `[b, i)`. -/
theorem AcceptMorphs.scan_count (gated : Bool) (mMorphs : List MolpherMolecule)
    (mSurvivors : List Bool) (st₀ : AcceptMorphs) (b : Nat)
    (hmode : st₀.mCtx.ScaffoldMode = false) :
    ∀ (i : Nat) (st : AcceptMorphs),
      forRange b i (AcceptMorphs.finalBody gated mMorphs mSurvivors) st₀ = some st →
      st.mSurvivorCount = st₀.mSurvivorCount + countIn mSurvivors b i := by
  intro i
  induction i with
  | zero =>
    intro st h
    rw [forRange_empty _ _ _ (Nat.zero_le _)] at h
    cases h
    rw [countIn_empty _ _ _ (Nat.zero_le _)]; rfl
  | succ i ih =>
    intro st h
    by_cases hb : b ≤ i
    · rw [forRange_succ _ _ _ hb, Option.bind_eq_some] at h
      obtain ⟨t, ht, hbody⟩ := h
      have hc := ih t ht
      have hmt : t.mCtx.ScaffoldMode = false := by
        rw [PathFinderContext.frame_mode (AcceptMorphs.scan_frame _ _ _ _ _ _ _ ht)]
        exact hmode
      rw [countIn_succ _ _ _ hb]
      rcases AcceptMorphs.finalBody_step _ _ _ _ _ _ hbody with ⟨_, _, _, hcnt⟩ |
        ⟨_, _, _, _, hsv, _, _, _, _, _, hcnt⟩
      · rw [hcnt hmt, hc]; omega
      · rw [hcnt, hc, hsv]; simp; omega
    · rw [forRange_empty _ _ _ (by omega)] at h
      cases h
      rw [countIn_empty _ _ _ (by omega)]; rfl

theorem AcceptMorphs.insertedAt_eq (gated : Bool) (mMorphs : List MolpherMolecule)
    (mSurvivors : List Bool) (st₀ st : AcceptMorphs) (b i : Nat)
    (h : forRange b i (AcceptMorphs.finalBody gated mMorphs mSurvivors) st₀ = some st) :
    AcceptMorphs.insertedAt gated mMorphs mSurvivors st₀ b i =
      AcceptMorphs.inserts gated mMorphs mSurvivors st i := by
  unfold AcceptMorphs.insertedAt
  rw [h]

/-- A scan that completes over `[b, e)` completes over every `[b, i)`, `i ≤ e`. -/
theorem forRange_prefix {σ : Type} (body : σ → Nat → Option σ) (b i e : Nat) (hbi : b ≤ i)
    (hie : i ≤ e) (s s' : σ) (h : forRange b e body s = some s') :
    ∃ t, forRange b i body s = some t ∧ forRange i e body t = some s' := by
  rw [forRange_split body b i e hbi hie, Option.bind_eq_some] at h
  exact h

/-- The keys after a final scan over `[b, i)`: those before, and the
fingerprints of the morphs inserted. -/
theorem AcceptMorphs.scan_keys (gated : Bool) (mMorphs : List MolpherMolecule)
    (mSurvivors : List Bool) (st₀ : AcceptMorphs) (b : Nat) :
    ∀ (i : Nat) (st : AcceptMorphs),
      forRange b i (AcceptMorphs.finalBody gated mMorphs mSurvivors) st₀ = some st →
      ∀ k, st.mCtx.candidates.contains k = true ↔
        (st₀.mCtx.candidates.contains k = true ∨
          ∃ j m, b ≤ j ∧ j < i ∧ mMorphs[j]? = some m ∧ m.smile = k ∧
            AcceptMorphs.insertedAt gated mMorphs mSurvivors st₀ b j = true) := by
  intro i
  induction i with
  | zero =>
    intro st h k
    rw [forRange_empty _ _ _ (Nat.zero_le _)] at h
    cases h
    constructor
    · exact Or.inl
    · rintro (h | ⟨j, _, _, hj, _⟩)
      · exact h
      · omega
  | succ i ih =>
    intro st h k
    by_cases hb : b ≤ i
    · rw [forRange_succ _ _ _ hb, Option.bind_eq_some] at h
      obtain ⟨t, ht, hbody⟩ := h
      have hk := ih t ht k
      have hins := AcceptMorphs.insertedAt_eq _ _ _ _ _ _ _ ht
      rcases AcceptMorphs.finalBody_step _ _ _ _ _ _ hbody with ⟨hno, hctx, _, _⟩ |
        ⟨hyes, morph, ctx₁, parent, _, hm, hi, hp, hctx, _, _⟩
      · rw [hctx, hk]
        constructor
        · rintro (h | ⟨j, m, h1, h2, h3⟩)
          · exact Or.inl h
          · exact Or.inr ⟨j, m, h1, by omega, h3⟩
        · rintro (h | ⟨j, m, h1, h2, h3, h4, h5⟩)
          · exact Or.inl h
          · rcases Nat.lt_succ_iff_lt_or_eq.mp h2 with h2 | rfl
            · exact Or.inr ⟨j, m, h1, h2, h3, h4, h5⟩
            · rw [hins, hno] at h5; cases h5
      · have hc₁ := (AcceptMorphs.insertMorph_spec _ _ _ hi).1
        have hkey : st.mCtx.candidates.contains k = true ↔
            (k = morph.smile ∨ t.mCtx.candidates.contains k = true) := by
          rw [hctx]
          simp only [ConcMap.contains_iff, ConcMap.find_assign, hc₁]
          constructor
          · rintro ⟨v, hv⟩
            split at hv
            · rename_i hpk
              subst hpk
              rw [hc₁, ConcMap.find_assign] at hp
              split at hp
              · rename_i hsm; exact Or.inl hsm.symm
              · exact Or.inr ⟨_, hp⟩
            · split at hv
              · rename_i hsm; exact Or.inl hsm.symm
              · exact Or.inr ⟨v, hv⟩
          · rintro (rfl | ⟨v, hv⟩)
            · split
              · exact ⟨_, rfl⟩
              · simp
            · split
              · exact ⟨_, rfl⟩
              · split
                · exact ⟨_, rfl⟩
                · exact ⟨v, hv⟩
        rw [hkey, hk]
        constructor
        · rintro (rfl | h | ⟨j, m, h1, h2, h3⟩)
          · exact Or.inr ⟨i, morph, hb, by omega, hm, rfl, by rw [hins, hyes]⟩
          · exact Or.inl h
          · exact Or.inr ⟨j, m, h1, by omega, h3⟩
        · rintro (h | ⟨j, m, h1, h2, h3, h4, h5⟩)
          · exact Or.inr (Or.inl h)
          · rcases Nat.lt_succ_iff_lt_or_eq.mp h2 with h2 | rfl
            · exact Or.inr (Or.inr ⟨j, m, h1, h2, h3, h4, h5⟩)
            · rw [hm] at h3
              cases h3
              exact Or.inl h4.symm
    · rw [forRange_empty _ _ _ (by omega)] at h
      cases h
      constructor
      · exact Or.inl
      · rintro (h | ⟨j, _, h1, hj, _⟩)
        · exact h
        · omega

/-- Outside scaffold mode the final scan over `[b, i)` from `st₀` inserts the
morph at `i` exactly when it survives and the gate, if any, sees fewer than
`cntCandidatesToKeepMax` survivors counted so far. -/
theorem AcceptMorphs.insertedAt_iff (gated : Bool) (mMorphs : List MolpherMolecule)
    (mSurvivors : List Bool) (st₀ st : AcceptMorphs) (b i : Nat)
    (hmode : st₀.mCtx.ScaffoldMode = false) (hi : i < mMorphs.length)
    (h : forRange b i (AcceptMorphs.finalBody gated mMorphs mSurvivors) st₀ = some st) :
    AcceptMorphs.insertedAt gated mMorphs mSurvivors st₀ b i = true ↔
      (mSurvivors.getD i false = true ∧
        (gated = true →
          st₀.mSurvivorCount + countIn mSurvivors b i <
            st₀.mCtx.params.cntCandidatesToKeepMax)) := by
  rw [AcceptMorphs.insertedAt_eq _ _ _ _ _ _ _ h]
  have hfr := AcceptMorphs.scan_frame _ _ _ _ _ _ _ h
  have hmt : st.mCtx.ScaffoldMode = false := by
    rw [PathFinderContext.frame_mode hfr]; exact hmode
  have hpar : st.mCtx.params = st₀.mCtx.params := (PathFinderContext.frame_fields hfr).2.2.1
  have hcnt := AcceptMorphs.scan_count gated mMorphs mSurvivors st₀ b hmode i st h
  unfold AcceptMorphs.inserts
  rw [List.getElem?_eq_getElem hi]
  have hsome : (AcceptMorphs.insertMorph st.mCtx mMorphs[i]).isSome = true := by
    unfold AcceptMorphs.insertMorph
    simp [hmt]
  simp only [hsome, Bool.and_true, Bool.and_eq_true, Bool.or_eq_true, Bool.not_eq_true',
    decide_eq_true_eq, hcnt, hpar]
  cases gated <;> simp

/-- The survivors that find the gate open are the first
`min cap (number of survivors)` survivors. -/
theorem countIn_gate (survivors : List Bool) (cap : Nat) :
    ∀ n, ((List.range n).filter
        (fun i => survivors.getD i false && decide (countIn survivors 0 i < cap))).length =
      min cap (countIn survivors 0 n) := by
  intro n
  induction n with
  | zero => simp [countIn_empty]
  | succ n ih =>
    rw [List.range_succ, List.filter_append, List.length_append, ih,
      countIn_succ _ _ _ (Nat.zero_le _)]
    cases hs : survivors.getD n false
    · simp only [List.filter_cons, List.filter_nil, hs, Bool.false_and, Bool.false_eq_true,
        if_false, List.length_nil]
      omega
    · by_cases hc : countIn survivors 0 n < cap
      · simp only [List.filter_cons, List.filter_nil, hs, Bool.true_and, hc, decide_True,
          if_true, List.length_singleton]
        omega
      · simp only [List.filter_cons, List.filter_nil, hs, Bool.true_and, hc, decide_False,
          Bool.false_eq_true, if_false, List.length_nil, if_true]
        omega

/-- The final scan completes when the parent of every surviving morph is a key
of `candidates`, and then every key it found is still there. -/
theorem AcceptMorphs.scan_total (gated : Bool) (morphs : List MolpherMolecule)
    (survivors : List Bool) (ctx : PathFinderContext)
    (hpar : ∀ (i : Nat) m, morphs[i]? = some m → survivors.getD i false = true →
      ctx.candidates.contains m.parentSmile = true) :
    ∃ st, forRange 0 morphs.length (AcceptMorphs.finalBody gated morphs survivors)
        { mCtx := ctx, mModifiedParents := [], mSurvivorCount := 0 } = some st ∧
      ∀ k, ctx.candidates.contains k = true → st.mCtx.candidates.contains k = true :=
  forRange_total
    (fun st : AcceptMorphs => ∀ k, ctx.candidates.contains k = true →
      st.mCtx.candidates.contains k = true)
    (AcceptMorphs.finalBody gated morphs survivors) 0 morphs.length
    (by
      intro s i _ hi hs
      obtain ⟨s', hs'⟩ := AcceptMorphs.finalBody_total gated morphs survivors s i hi
        (fun m hm hsv => hs _ (hpar i m hm hsv))
      exact ⟨s', hs', fun k hk => AcceptMorphs.finalBody_keys _ _ _ _ _ _ hs' k (hs k hk)⟩)
    { mCtx := ctx, mModifiedParents := [], mSurvivorCount := 0 } (fun k hk => hk)

/-- C26: outside scaffold mode, a completed path-mode AcceptScan inserts the
morph at index `i` exactly when it survives and fewer than
`cntCandidatesToKeepMax` survivors stand at smaller indices, so the keys it adds
are the fingerprints of the first `min cap (number of survivors)` survivors; a
completed activity-mode scan inserts every survivor. Each scan completes when
the parent of every surviving morph is a key of `candidates`. -/
theorem C26_acceptance_follows_order (morphs : List MolpherMolecule) (survivors : List Bool)
    (ctx : PathFinderContext) (hmode : ctx.ScaffoldMode = false) :
    (∀ r, PathFinder.acceptMorphs morphs survivors ctx = some r →
      (∀ i, i < morphs.length →
        (AcceptMorphs.insertedAt true morphs survivors
            { mCtx := ctx, mModifiedParents := [], mSurvivorCount := 0 } 0 i = true ↔
          (survivors.getD i false = true ∧
            countIn survivors 0 i < ctx.params.cntCandidatesToKeepMax))) ∧
      (∀ k, r.1.candidates.contains k = true ↔
        (ctx.candidates.contains k = true ∨
          ∃ i m, morphs[i]? = some m ∧ m.smile = k ∧ survivors.getD i false = true ∧
            countIn survivors 0 i < ctx.params.cntCandidatesToKeepMax))) ∧
    ((List.range morphs.length).filter
        (fun i => survivors.getD i false &&
          decide (countIn survivors 0 i < ctx.params.cntCandidatesToKeepMax))).length =
      min ctx.params.cntCandidatesToKeepMax (countIn survivors 0 morphs.length) ∧
    (∀ r, PathFinderActivity.acceptMorphs2 morphs survivors ctx = some r →
      (∀ i, i < morphs.length →
        (AcceptMorphs.insertedAt false morphs survivors
            { mCtx := ctx, mModifiedParents := [], mSurvivorCount := 0 } 0 i = true ↔
          survivors.getD i false = true)) ∧
      (∀ k, r.1.candidates.contains k = true ↔
        (ctx.candidates.contains k = true ∨
          ∃ i m, morphs[i]? = some m ∧ m.smile = k ∧ survivors.getD i false = true))) ∧
    ((∀ (i : Nat) m, morphs[i]? = some m → survivors.getD i false = true →
        ctx.candidates.contains m.parentSmile = true) →
      (PathFinder.acceptMorphs morphs survivors ctx).isSome = true ∧
      (PathFinderActivity.acceptMorphs2 morphs survivors ctx).isSome = true) := by
  have main : ∀ (gated : Bool) (st : AcceptMorphs),
      forRange 0 morphs.length (AcceptMorphs.finalBody gated morphs survivors)
        { mCtx := ctx, mModifiedParents := [], mSurvivorCount := 0 } = some st →
      (∀ i, i < morphs.length →
        (AcceptMorphs.insertedAt gated morphs survivors
            { mCtx := ctx, mModifiedParents := [], mSurvivorCount := 0 } 0 i = true ↔
          (survivors.getD i false = true ∧
            (gated = true → countIn survivors 0 i < ctx.params.cntCandidatesToKeepMax)))) ∧
      (∀ k, st.mCtx.candidates.contains k = true ↔
        (ctx.candidates.contains k = true ∨
          ∃ i m, morphs[i]? = some m ∧ m.smile = k ∧ survivors.getD i false = true ∧
            (gated = true → countIn survivors 0 i < ctx.params.cntCandidatesToKeepMax))) := by
    intro gated st hst
    have hins : ∀ i, i < morphs.length →
        (AcceptMorphs.insertedAt gated morphs survivors
            { mCtx := ctx, mModifiedParents := [], mSurvivorCount := 0 } 0 i = true ↔
          (survivors.getD i false = true ∧
            (gated = true → countIn survivors 0 i < ctx.params.cntCandidatesToKeepMax))) := by
      intro i hi
      obtain ⟨t, ht, _⟩ := forRange_prefix _ 0 i morphs.length (Nat.zero_le _) (Nat.le_of_lt hi)
        _ _ hst
      have := AcceptMorphs.insertedAt_iff gated morphs survivors _ t 0 i hmode hi ht
      simpa using this
    refine ⟨hins, fun k => ?_⟩
    rw [AcceptMorphs.scan_keys gated morphs survivors _ 0 morphs.length st hst k]
    constructor
    · rintro (h | ⟨j, m, _, hj, hm, hk, hi⟩)
      · exact Or.inl h
      · exact Or.inr ⟨j, m, hm, hk, (hins j hj).mp hi⟩
    · rintro (h | ⟨j, m, hm, hk, hi⟩)
      · exact Or.inl h
      · have hj : j < morphs.length := by
          rw [List.getElem?_eq_some_iff] at hm
          exact hm.1
        exact Or.inr ⟨j, m, Nat.zero_le _, hj, hm, hk, (hins j hj).mpr hi⟩
  refine ⟨?_, countIn_gate survivors _ _, ?_, ?_⟩
  · intro r hr
    unfold PathFinder.acceptMorphs PathFinder.AcceptMorphs at hr
    rw [Option.map_eq_some'] at hr
    obtain ⟨st, hst, rfl⟩ := hr
    have := main true st hst
    simpa using this
  · intro r hr
    unfold PathFinderActivity.acceptMorphs2 PathFinderActivity.AcceptMorphs at hr
    rw [Option.map_eq_some'] at hr
    obtain ⟨st, hst, rfl⟩ := hr
    have := main false st hst
    simpa using this
  · intro hpar
    constructor
    · obtain ⟨st, hst, _⟩ := AcceptMorphs.scan_total true morphs survivors ctx hpar
      unfold PathFinder.acceptMorphs PathFinder.AcceptMorphs
      rw [hst]; rfl
    · obtain ⟨st, hst, _⟩ := AcceptMorphs.scan_total false morphs survivors ctx hpar
      unfold PathFinderActivity.acceptMorphs2 PathFinderActivity.AcceptMorphs
      rw [hst]; rfl

/-- Witness for C26: on `filterCtx` (cap 2) with three morphs of `"S"`, all
surviving, the path-mode scan adds `"C"` and `"D"` and leaves `"G"` out. -/
theorem C26_acceptance_follows_order_witness :
    ∃ r, PathFinder.acceptMorphs
        [{ blankMol with smile := "C", parentSmile := "S" },
         { blankMol with smile := "D", parentSmile := "S" },
         { blankMol with smile := "G", parentSmile := "S" }] [true, true, true] filterCtx
        = some r ∧
      r.1.candidates.contains "D" = true ∧ r.1.candidates.contains "G" = false := by
  have h := C26_acceptance_follows_order
    [{ blankMol with smile := "C", parentSmile := "S" },
     { blankMol with smile := "D", parentSmile := "S" },
     { blankMol with smile := "G", parentSmile := "S" }] [true, true, true] filterCtx
    (by decide)
  have hs := (h.2.2.2 (by
    intro i m hm _
    match i, hm with
    | 0, hm => cases hm; decide
    | 1, hm => cases hm; decide
    | 2, hm => cases hm; decide
    | (n + 3), hm => simp at hm)).1
  obtain ⟨r, hr⟩ := Option.isSome_iff_exists.mp hs
  refine ⟨r, hr, ?_, ?_⟩
  · rw [(h.1 r hr).2 "D"]
    exact Or.inr ⟨1, _, rfl, rfl, by decide, by decide⟩
  · rw [Bool.eq_false_iff]
    intro hc
    rw [(h.1 r hr).2 "G"] at hc
    rcases hc with hc | ⟨i, m, hm, hk, _, hcnt⟩
    · revert hc; decide
    · match i, hm with
      | 0, hm => cases hm; revert hk; decide
      | 1, hm => cases hm; revert hk; decide
      | 2, hm => revert hcnt; decide
      | (n + 3), hm => simp at hm

/-- The pre-scan over `[b, e)` adds the number of survivors in `[b, e)` to the
counter and touches nothing else. -/
theorem AcceptMorphs.preScan_spec (mSurvivors : List Bool) (st : AcceptMorphs) (b e : Nat) :
    AcceptMorphs.preScan mSurvivors st b e =
      { st with mSurvivorCount := st.mSurvivorCount + countIn mSurvivors b e } := by
  unfold AcceptMorphs.preScan countIn
  generalize List.range' b (e - b) = l
  induction l generalizing st with
  | nil => rfl
  | cons a l ih =>
    rw [List.foldl_cons, ih]
    unfold AcceptMorphs.preBody
    cases h : mSurvivors.getD a false
    · simp only [Bool.false_eq_true, if_false, List.filter_cons, h]
    · simp only [if_true, List.filter_cons, h, List.length_cons]
      congr 1
      omega

/-- C27: outside scaffold mode the scan decomposes: for every split point `m`,
the final pass over `[m, n)` seeded (by `reverse_join` or `assign`) with the
count of a pre-scan over `[0, m)`, on any context of the same frame, inserts
the morph at `i ≥ m` exactly when the sequential final pass over `[0, n)` does,
and the sequential pass is the final pass over `[0, m)` followed by the seeded
final pass over `[m, n)`. In scaffold mode it does not: in `scaffCtx` (cap 2)
all of `sharedScaffoldMorphs` pass the Filter; the sequential pass skips `"Y"`
without counting it and inserts `"Z"`, while the pre-scan over `[0, 2)` counts
two survivors and the seeded final pass over `[2, 3)` leaves `"Z"` out. -/
theorem C27_scan_decomposition :
    (∀ (gated : Bool) (morphs : List MolpherMolecule) (survivors : List Bool)
        (ctx ctx' : PathFinderContext) (parents : SmileSet) (m i : Nat)
        (t t' seeded : AcceptMorphs),
      ctx.ScaffoldMode = false → ctx'.frame = ctx.frame → m ≤ i → i < morphs.length →
      (seeded = AcceptMorphs.reverse_join
          { mCtx := ctx', mModifiedParents := parents, mSurvivorCount := 0 }
          (AcceptMorphs.preScan survivors
            (AcceptMorphs.split { mCtx := ctx, mModifiedParents := [], mSurvivorCount := 0 })
            0 m) ∨
        seeded = AcceptMorphs.assign
          { mCtx := ctx', mModifiedParents := parents, mSurvivorCount := 0 }
          (AcceptMorphs.preScan survivors
            (AcceptMorphs.split { mCtx := ctx, mModifiedParents := [], mSurvivorCount := 0 })
            0 m)) →
      forRange 0 i (AcceptMorphs.finalBody gated morphs survivors)
        { mCtx := ctx, mModifiedParents := [], mSurvivorCount := 0 } = some t →
      forRange m i (AcceptMorphs.finalBody gated morphs survivors) seeded = some t' →
      AcceptMorphs.insertedAt gated morphs survivors seeded m i =
        AcceptMorphs.insertedAt gated morphs survivors
          { mCtx := ctx, mModifiedParents := [], mSurvivorCount := 0 } 0 i) ∧
    (∀ (gated : Bool) (morphs : List MolpherMolecule) (survivors : List Bool)
        (ctx : PathFinderContext) (m n : Nat),
      ctx.ScaffoldMode = false → m ≤ n →
      forRange 0 n (AcceptMorphs.finalBody gated morphs survivors)
          { mCtx := ctx, mModifiedParents := [], mSurvivorCount := 0 } =
        (forRange 0 m (AcceptMorphs.finalBody gated morphs survivors)
          { mCtx := ctx, mModifiedParents := [], mSurvivorCount := 0 }).bind
          (fun left =>
            forRange m n (AcceptMorphs.finalBody gated morphs survivors)
              (AcceptMorphs.assign left
                (AcceptMorphs.preScan survivors
                  (AcceptMorphs.split
                    { mCtx := ctx, mModifiedParents := [], mSurvivorCount := 0 }) 0 m)))) ∧
    (scaffCtx.ScaffoldMode = true ∧
      PathFinder.filterStage scaffCtx sharedScaffoldMorphs (fun _ => 0)
        = some [true, true, true] ∧
      AcceptMorphs.insertedAt true sharedScaffoldMorphs [true, true, true]
        { mCtx := scaffCtx, mModifiedParents := [], mSurvivorCount := 0 } 0 2 = true ∧
      (AcceptMorphs.preScan [true, true, true]
        (AcceptMorphs.split { mCtx := scaffCtx, mModifiedParents := [], mSurvivorCount := 0 })
        0 2).mSurvivorCount = 2 ∧
      (∀ left, forRange 0 2 (AcceptMorphs.finalBody true sharedScaffoldMorphs [true, true, true])
          { mCtx := scaffCtx, mModifiedParents := [], mSurvivorCount := 0 } = some left →
        AcceptMorphs.insertedAt true sharedScaffoldMorphs [true, true, true]
          (AcceptMorphs.assign left
            (AcceptMorphs.preScan [true, true, true]
              (AcceptMorphs.split
                { mCtx := scaffCtx, mModifiedParents := [], mSurvivorCount := 0 }) 0 2))
          2 2 = false)) := by
  refine ⟨?_, ?_, by decide, by decide!, by decide!, by decide, ?_⟩
  · intro gated morphs survivors ctx ctx' parents m i t t' seeded hmode hfr hmi hi hseed ht ht'
    have hcount : seeded.mSurvivorCount = countIn survivors 0 m ∧ seeded.mCtx = ctx' := by
      rcases hseed with rfl | rfl
      · rw [AcceptMorphs.preScan_spec]
        simp [AcceptMorphs.reverse_join, AcceptMorphs.split]
      · rw [AcceptMorphs.preScan_spec]
        simp [AcceptMorphs.assign, AcceptMorphs.split]
    have hmode' : seeded.mCtx.ScaffoldMode = false := by
      rw [hcount.2, PathFinderContext.frame_mode hfr]; exact hmode
    have h1 := AcceptMorphs.insertedAt_iff gated morphs survivors _ t 0 i hmode hi ht
    have h2 := AcceptMorphs.insertedAt_iff gated morphs survivors seeded t' m i hmode' hi ht'
    rw [hcount.1, hcount.2, (PathFinderContext.frame_fields hfr).2.2.1,
      ← countIn_split _ 0 m i (Nat.zero_le _) hmi] at h2
    simp only [Nat.zero_add] at h1
    rw [Bool.eq_iff_iff, h1, h2]
  · intro gated morphs survivors ctx m n hmode hmn
    rw [forRange_split _ 0 m n (Nat.zero_le _) hmn]
    cases hl : forRange 0 m (AcceptMorphs.finalBody gated morphs survivors)
        { mCtx := ctx, mModifiedParents := [], mSurvivorCount := 0 } with
    | none => rfl
    | some left =>
      simp only [Option.some_bind]
      have hc := AcceptMorphs.scan_count gated morphs survivors _ 0 hmode m left hl
      rw [AcceptMorphs.preScan_spec]
      have : AcceptMorphs.assign left
          { AcceptMorphs.split { mCtx := ctx, mModifiedParents := [], mSurvivorCount := 0 } with
            mSurvivorCount :=
              (AcceptMorphs.split
                { mCtx := ctx, mModifiedParents := [], mSurvivorCount := 0 }).mSurvivorCount +
                countIn survivors 0 m } = left := by
        unfold AcceptMorphs.assign AcceptMorphs.split
        simp only [Nat.zero_add] at hc ⊢
        rw [← hc]
      rw [this]
  · intro left hl
    have hleft : left.mCtx.params = exParams :=
      (PathFinderContext.frame_fields (AcceptMorphs.scan_frame _ _ _ _ _ _ _ hl)).2.2.1
    unfold AcceptMorphs.insertedAt
    rw [forRange_empty _ _ _ (Nat.le_refl _)]
    simp only [AcceptMorphs.inserts, AcceptMorphs.assign, AcceptMorphs.preScan_spec,
      AcceptMorphs.split, hleft]
    have hgate : decide (0 + countIn [true, true, true] 0 2 < exParams.cntCandidatesToKeepMax)
        = false := by decide
    rw [hgate]
    simp

theorem SmileSet.mem_insert_fst (s : SmileSet) (x y : String) :
    y ∈ (SmileSet.insert s x).1 ↔ y = x ∨ y ∈ s := by
  unfold SmileSet.insert
  split
  · constructor
    · exact Or.inr
    · rintro (rfl | h)
      · assumption
      · exact h
  · simp only [List.mem_append, List.mem_singleton]
    exact Or.comm

/-- What the final scan over `[0, i)` has done to the parents, when the
survivors are new to the candidates and their parents are among them: the old
candidates are still there under their fingerprints, every inserted morph is
listed by the candidate at its `parentSmile`, and `mModifiedParents` holds the
fingerprints of the parents of the inserted morphs. -/
theorem AcceptMorphs.scan_links (gated : Bool) (morphs : List MolpherMolecule)
    (survivors : List Bool) (ctx : PathFinderContext)
    (hfresh : FreshSurvivors ctx.candidates morphs survivors) :
    ∀ (i : Nat) (st : AcceptMorphs),
      forRange 0 i (AcceptMorphs.finalBody gated morphs survivors)
        { mCtx := ctx, mModifiedParents := [], mSurvivorCount := 0 } = some st →
      (∀ k v, ctx.candidates.find k = some v →
        ∃ v', st.mCtx.candidates.find k = some v' ∧ v'.smile = v.smile) ∧
      (∀ j m, j < i → morphs[j]? = some m →
        AcceptMorphs.insertedAt gated morphs survivors
          { mCtx := ctx, mModifiedParents := [], mSurvivorCount := 0 } 0 j = true →
        ∃ p, st.mCtx.candidates.find m.parentSmile = some p ∧
          m.smile ∈ p.descendants ∧ m.smile ∈ p.historicDescendants) ∧
      (∀ x, x ∈ st.mModifiedParents ↔
        ∃ j m p, j < i ∧ morphs[j]? = some m ∧
          AcceptMorphs.insertedAt gated morphs survivors
            { mCtx := ctx, mModifiedParents := [], mSurvivorCount := 0 } 0 j = true ∧
          ctx.candidates.find m.parentSmile = some p ∧ p.smile = x) := by
  intro i
  induction i with
  | zero =>
    intro st h
    rw [forRange_empty _ _ _ (Nat.zero_le _)] at h
    cases h
    refine ⟨fun k v hk => ⟨v, hk, rfl⟩, fun j m hj => by omega, fun x => ?_⟩
    constructor
    · intro hx; cases hx
    · rintro ⟨j, _, _, hj, _⟩; omega
  | succ i ih =>
    intro st h
    rw [forRange_succ _ _ _ (Nat.zero_le _), Option.bind_eq_some] at h
    obtain ⟨t, ht, hbody⟩ := h
    obtain ⟨hold, hlink, hmod⟩ := ih t ht
    have hins := AcceptMorphs.insertedAt_eq _ _ _ _ _ _ _ ht
    rcases AcceptMorphs.finalBody_step _ _ _ _ _ _ hbody with ⟨hno, hctx, hmp, _⟩ |
      ⟨hyes, morph, ctx₁, parent, hsv, hm, hi, hp, hctx, hmp, _⟩
    · rw [hctx, hmp]
      refine ⟨hold, fun j m hj hmj hinsj => ?_, fun x => ?_⟩
      · rcases Nat.lt_succ_iff_lt_or_eq.mp hj with hj | rfl
        · exact hlink j m hj hmj hinsj
        · rw [hins, hno] at hinsj; cases hinsj
      · rw [hmod]
        constructor
        · rintro ⟨j, m, p, hj, h⟩
          exact ⟨j, m, p, by omega, h⟩
        · rintro ⟨j, m, p, hj, hmj, hinsj, h⟩
          rcases Nat.lt_succ_iff_lt_or_eq.mp hj with hj | rfl
          · exact ⟨j, m, p, hj, hmj, hinsj, h⟩
          · rw [hins, hno] at hinsj; cases hinsj
    · obtain ⟨hnew, hparold⟩ := hfresh i morph hm hsv
      have hne : morph.smile ≠ morph.parentSmile := by
        intro e
        rw [e, hparold] at hnew
        cases hnew
      have hc₁ := (AcceptMorphs.insertMorph_spec _ _ _ hi).1
      rw [hc₁, ConcMap.find_assign_ne _ _ hne] at hp
      have hfind : ∀ k, st.mCtx.candidates.find k =
          if morph.parentSmile = k then some (AcceptMorphs.withChild parent morph.smile)
          else if morph.smile = k then some morph else t.mCtx.candidates.find k := by
        intro k
        rw [hctx]
        simp only [ConcMap.find_assign, hc₁]
      obtain ⟨pold, hpold⟩ := (ConcMap.contains_iff _ _).mp hparold
      obtain ⟨p', hp', hsm⟩ := hold _ _ hpold
      rw [hp] at hp'
      cases hp'
      have hgrow : ∀ k, ctx.candidates.contains k = true → ∀ v, t.mCtx.candidates.find k = some v →
          ∃ v', st.mCtx.candidates.find k = some v' ∧ v'.smile = v.smile ∧
            (∀ d, d ∈ v.descendants → d ∈ v'.descendants) ∧
            (∀ d, d ∈ v.historicDescendants → d ∈ v'.historicDescendants) := by
        intro k hk v hv
        rw [hfind]
        split
        · rename_i e
          subst e
          rw [hp] at hv
          cases hv
          refine ⟨_, rfl, rfl, fun d hd => ?_, fun d hd => ?_⟩
          · exact (StrSet.mem_insert _ _ _).mpr (Or.inr hd)
          · exact (StrSet.mem_insert _ _ _).mpr (Or.inr hd)
        · split
          · rename_i e
            subst e
            rw [hnew] at hk
            cases hk
          · exact ⟨v, hv, rfl, fun _ hd => hd, fun _ hd => hd⟩
      refine ⟨fun k v hk => ?_, fun j m hj hmj hinsj => ?_, fun x => ?_⟩
      · obtain ⟨v₁, hv₁, hs₁⟩ := hold k v hk
        obtain ⟨v₂, hv₂, hs₂, _⟩ := hgrow k ((ConcMap.contains_iff _ _).mpr ⟨v, hk⟩) v₁ hv₁
        exact ⟨v₂, hv₂, hs₂.trans hs₁⟩
      · rcases Nat.lt_succ_iff_lt_or_eq.mp hj with hj | rfl
        · obtain ⟨p, hp₁, hd, hh⟩ := hlink j m hj hmj hinsj
          have hsvj : survivors.getD j false = true := by
            obtain ⟨tj, htj, _⟩ := forRange_prefix _ 0 j i (Nat.zero_le _) (Nat.le_of_lt hj)
              _ _ ht
            rw [AcceptMorphs.insertedAt_eq _ _ _ _ _ _ _ htj] at hinsj
            unfold AcceptMorphs.inserts at hinsj
            simp only [Bool.and_eq_true] at hinsj
            exact hinsj.1.1
          obtain ⟨p₂, hp₂, _, hd₂, hh₂⟩ := hgrow _ (hfresh j m hmj hsvj).2 p hp₁
          exact ⟨p₂, hp₂, hd₂ _ hd, hh₂ _ hh⟩
        · rw [hm] at hmj
          cases hmj
          refine ⟨_, by rw [hfind, if_pos rfl], ?_, ?_⟩
          · exact (StrSet.mem_insert _ _ _).mpr (Or.inl rfl)
          · exact (StrSet.mem_insert _ _ _).mpr (Or.inl rfl)
      · rw [hmp, SmileSet.mem_insert_fst, hmod]
        constructor
        · rintro (rfl | ⟨j, m, p, hj, h⟩)
          · exact ⟨i, morph, pold, Nat.lt_succ_self _, hm, by rw [hins, hyes], hpold, hsm.symm⟩
          · exact ⟨j, m, p, by omega, h⟩
        · rintro ⟨j, m, p, hj, hmj, hinsj, hpj, hx⟩
          rcases Nat.lt_succ_iff_lt_or_eq.mp hj with hj | rfl
          · exact Or.inr ⟨j, m, p, hj, hmj, hinsj, hpj, hx⟩
          · rw [hm] at hmj
            cases hmj
            rw [hpold] at hpj
            cases hpj
            exact Or.inl (hx.symm.trans hsm.symm)

/-- C28: for the survivors of the Filter stage, AcceptScan (either mode)
completes, and afterwards every inserted morph's fingerprint is in `descendants`
and in `historicDescendants` of the candidate keyed by its `parentSmile`, and,
the candidates being keyed by their own fingerprints, `modifiedParents` is
exactly the set of the `parentSmile`s of the inserted morphs. In scaffold mode
the scaffolds are those of the scaffold function `G` of the run
(`ScaffoldsFrom`). -/
theorem C28_accept_linkage (G : String → String) (ctx : PathFinderContext)
    (morphs : List MolpherMolecule) (survivors : List Bool)
    (hpass : ∀ (i : Nat) m, morphs[i]? = some m → survivors.getD i false = true →
      FilterMorphs.survives ctx m = some true)
    (hG : ScaffoldsFrom G ctx morphs)
    (hkeyed : KeyedBySmile ctx.candidates) :
    (∀ r, PathFinder.acceptMorphs morphs survivors ctx = some r →
      (∀ i m, morphs[i]? = some m →
        AcceptMorphs.insertedAt true morphs survivors
          { mCtx := ctx, mModifiedParents := [], mSurvivorCount := 0 } 0 i = true →
        ∃ p, r.1.candidates.find m.parentSmile = some p ∧
          m.smile ∈ p.descendants ∧ m.smile ∈ p.historicDescendants) ∧
      (∀ x, x ∈ r.2 ↔ ∃ i m, morphs[i]? = some m ∧
        AcceptMorphs.insertedAt true morphs survivors
          { mCtx := ctx, mModifiedParents := [], mSurvivorCount := 0 } 0 i = true ∧
        m.parentSmile = x)) ∧
    (∀ r, PathFinderActivity.acceptMorphs2 morphs survivors ctx = some r →
      (∀ i m, morphs[i]? = some m →
        AcceptMorphs.insertedAt false morphs survivors
          { mCtx := ctx, mModifiedParents := [], mSurvivorCount := 0 } 0 i = true →
        ∃ p, r.1.candidates.find m.parentSmile = some p ∧
          m.smile ∈ p.descendants ∧ m.smile ∈ p.historicDescendants) ∧
      (∀ x, x ∈ r.2 ↔ ∃ i m, morphs[i]? = some m ∧
        AcceptMorphs.insertedAt false morphs survivors
          { mCtx := ctx, mModifiedParents := [], mSurvivorCount := 0 } 0 i = true ∧
        m.parentSmile = x)) ∧
    ((PathFinder.acceptMorphs morphs survivors ctx).isSome = true ∧
      (PathFinderActivity.acceptMorphs2 morphs survivors ctx).isSome = true) := by
  have hfresh := hG.fresh_survivors survivors hpass
  have main : ∀ (gated : Bool) (st : AcceptMorphs),
      forRange 0 morphs.length (AcceptMorphs.finalBody gated morphs survivors)
        { mCtx := ctx, mModifiedParents := [], mSurvivorCount := 0 } = some st →
      (∀ i m, morphs[i]? = some m →
        AcceptMorphs.insertedAt gated morphs survivors
          { mCtx := ctx, mModifiedParents := [], mSurvivorCount := 0 } 0 i = true →
        ∃ p, st.mCtx.candidates.find m.parentSmile = some p ∧
          m.smile ∈ p.descendants ∧ m.smile ∈ p.historicDescendants) ∧
      (∀ x, x ∈ st.mModifiedParents ↔ ∃ i m, morphs[i]? = some m ∧
        AcceptMorphs.insertedAt gated morphs survivors
          { mCtx := ctx, mModifiedParents := [], mSurvivorCount := 0 } 0 i = true ∧
        m.parentSmile = x) := by
    intro gated st hst
    obtain ⟨_, hlink, hmod⟩ := AcceptMorphs.scan_links gated morphs survivors ctx hfresh _ st hst
    have hlen : ∀ (i : Nat) m, morphs[i]? = some m → i < morphs.length := by
      intro i m hm
      rw [List.getElem?_eq_some_iff] at hm
      exact hm.1
    have hsurv : ∀ (i : Nat) m, morphs[i]? = some m →
        AcceptMorphs.insertedAt gated morphs survivors
          { mCtx := ctx, mModifiedParents := [], mSurvivorCount := 0 } 0 i = true →
        survivors.getD i false = true := by
      intro i m hm hins
      obtain ⟨t, ht, _⟩ := forRange_prefix _ 0 i morphs.length (Nat.zero_le _)
        (Nat.le_of_lt (hlen i m hm)) _ _ hst
      rw [AcceptMorphs.insertedAt_eq _ _ _ _ _ _ _ ht] at hins
      unfold AcceptMorphs.inserts at hins
      simp only [Bool.and_eq_true] at hins
      exact hins.1.1
    refine ⟨fun i m hm hins => hlink i m (hlen i m hm) hm hins, fun x => ?_⟩
    rw [hmod]
    constructor
    · rintro ⟨j, m, p, _, hm, hins, hp, hx⟩
      exact ⟨j, m, hm, hins, (hkeyed _ _ hp).symm.trans hx⟩
    · rintro ⟨j, m, hm, hins, hx⟩
      obtain ⟨p, hp⟩ := (ConcMap.contains_iff _ _).mp (hfresh j m hm (hsurv j m hm hins)).2
      exact ⟨j, m, p, hlen j m hm, hm, hins, hp, (hkeyed _ _ hp).trans hx⟩
  have hpar : ∀ (i : Nat) m, morphs[i]? = some m → survivors.getD i false = true →
      ctx.candidates.contains m.parentSmile = true := fun i m hm hs => (hfresh i m hm hs).2
  refine ⟨?_, ?_, ?_, ?_⟩
  · intro r hr
    unfold PathFinder.acceptMorphs PathFinder.AcceptMorphs at hr
    rw [Option.map_eq_some'] at hr
    obtain ⟨st, hst, rfl⟩ := hr
    exact main true st hst
  · intro r hr
    unfold PathFinderActivity.acceptMorphs2 PathFinderActivity.AcceptMorphs at hr
    rw [Option.map_eq_some'] at hr
    obtain ⟨st, hst, rfl⟩ := hr
    exact main false st hst
  · obtain ⟨st, hst, _⟩ := AcceptMorphs.scan_total true morphs survivors ctx hpar
    unfold PathFinder.acceptMorphs PathFinder.AcceptMorphs
    rw [hst]; rfl
  · obtain ⟨st, hst, _⟩ := AcceptMorphs.scan_total false morphs survivors ctx hpar
    unfold PathFinderActivity.acceptMorphs2 PathFinderActivity.AcceptMorphs
    rw [hst]; rfl

/-- Witness for C28, outside scaffold mode and in it: in `filterCtx` the morph
`"C"` of `"S"` is inserted and `"S"` lists it; in the scaffold-mode `scaffCtx`,
whose index holds the scaffold `"s" ++ k` of every key `k`, the morph `"X"` of
`"A"` with the scaffold `"sX"` is inserted and `"A"` lists it. -/
theorem C28_accept_linkage_witness :
    (∃ r, PathFinder.acceptMorphs [{ blankMol with smile := "C", parentSmile := "S" }] [true]
        filterCtx = some r ∧
      ∃ p, r.1.candidates.find "S" = some p ∧ "C" ∈ p.descendants ∧
        "C" ∈ p.historicDescendants) ∧
    (∃ r, PathFinder.acceptMorphs
        [{ blankMol with smile := "X", parentSmile := "A", scaffoldSmile := "sX" }] [true]
        scaffCtx = some r ∧ r.2 = ["A"] ∧
      ∃ p, r.1.candidates.find "A" = some p ∧ "X" ∈ p.descendants ∧
        "X" ∈ p.historicDescendants) := by
  have hkeyed : KeyedBySmile filterCtx.candidates := by
    intro k v hk
    simp only [filterCtx, ConcMap.find] at hk
    split at hk
    · rename_i e; simp only [Option.some.injEq] at hk; subst hk; exact e
    · split at hk
      · rename_i e; simp only [Option.some.injEq] at hk; subst hk; exact e
      · cases hk
  have hkeyeds : KeyedBySmile scaffCtx.candidates := by
    intro k v hk
    have := ConcMap.find_mem _ _ _ hk
    simp only [scaffCtx, List.mem_cons, Prod.mk.injEq, List.not_mem_nil, or_false] at this
    rcases this with ⟨rfl, rfl⟩ | ⟨rfl, rfl⟩ | ⟨rfl, rfl⟩ | ⟨rfl, rfl⟩ <;> rfl
  have h := C28_accept_linkage (fun s => s) filterCtx
    [{ blankMol with smile := "C", parentSmile := "S" }] [true]
    (by
      intro i m hm _
      match i, hm with
      | 0, hm => cases hm; decide!
      | (n + 1), hm => simp at hm)
    (fun hs => absurd hs (by decide)) hkeyed
  have hs := C28_accept_linkage (fun s => "s" ++ s) scaffCtx
    [{ blankMol with smile := "X", parentSmile := "A", scaffoldSmile := "sX" }] [true]
    (by
      intro i m hm _
      match i, hm with
      | 0, hm => cases hm; decide!
      | (n + 1), hm => simp at hm)
    (fun _ => ⟨scaffoldIndexedCheck_sound _ _ _ (by decide), fun m hm => by
      simp only [List.mem_singleton] at hm
      subst hm
      decide⟩) hkeyeds
  obtain ⟨r, hr⟩ := Option.isSome_iff_exists.mp h.2.2.1
  obtain ⟨rs, hrs⟩ := Option.isSome_iff_exists.mp hs.2.2.1
  have hmod : (PathFinder.acceptMorphs
      [{ blankMol with smile := "X", parentSmile := "A", scaffoldSmile := "sX" }] [true]
      scaffCtx).map (fun r => r.2) = some ["A"] := by decide!
  rw [hrs] at hmod
  exact ⟨⟨r, hr, (h.1 r hr).1 0 _ rfl (by decide!)⟩,
    rs, hrs, by simpa using hmod, (hs.1 rs hrs).1 0 _ rfl (by decide!)⟩

/-- The seeding loop entered with `counter ≤ startMolMaxCount` stores the first
`min (number of sources) (startMolMaxCount - counter + 1)` sources. -/
theorem PathFinderActivity.seedLoop_spec (M : Nat) :
    ∀ (sources : List (String × MolpherMolecule)) (counter : Nat)
      (st : ConcMap MolpherMolecule × List String),
      counter ≤ M → (sources.map Prod.fst).Nodup →
      (∀ k, k ∈ sources.map Prod.fst → st.1.contains k = false) →
      (PathFinderActivity.seedLoop M counter sources st).1.length =
          st.1.length + min sources.length (M - counter + 1) ∧
        (PathFinderActivity.seedLoop M counter sources st).2 =
          st.2 ++ (sources.take (M - counter + 1)).map Prod.fst ∧
        ConcMap.keys (PathFinderActivity.seedLoop M counter sources st).1 =
          ConcMap.keys st.1 ++ (sources.take (M - counter + 1)).map Prod.fst
  | [], _, _, _, _, _ => by simp [PathFinderActivity.seedLoop]
  | (k, v) :: rest, counter, st, hc, hnd, hnew => by
    unfold PathFinderActivity.seedLoop
    simp only [List.map_cons, List.nodup_cons] at hnd
    have hk : st.1.contains k = false := hnew k (by simp)
    have hlen : (st.1.assign k v).length = st.1.length + 1 := by
      rw [ConcMap.length_assign, hk]; rfl
    have hkeys : ConcMap.keys (st.1.assign k v) = ConcMap.keys st.1 ++ [k] := by
      rw [ConcMap.keys_assign, hk]; rfl
    simp only []
    split
    · rename_i hbr
      have : M - counter + 1 = 1 := by omega
      rw [this]
      simp only [hlen, List.length_cons, List.take_succ_cons, List.take_zero, List.map_cons,
        List.map_nil, hkeys]
      refine ⟨by omega, trivial, trivial⟩
    · rename_i hbr
      have ih := PathFinderActivity.seedLoop_spec M rest (counter + 1)
        (st.1.assign k v, st.2 ++ [k]) (by omega) hnd.2
        (by
          intro k' hk'
          simp only []
          rw [ConcMap.contains_eq_false_iff, ConcMap.find_assign_ne]
          · exact (ConcMap.contains_eq_false_iff _ _).mp (hnew k' (by simp [hk']))
          · rintro rfl
            exact hnd.1 hk')
      obtain ⟨h1, h2, h3⟩ := ih
      have e : M - counter + 1 = (M - (counter + 1) + 1) + 1 := by omega
      rw [h1, h2, h3, e]
      simp only [hlen, hkeys, List.length_cons, List.take_succ_cons, List.map_cons,
        List.append_assoc, List.singleton_append]
      refine ⟨by omega, trivial, trivial⟩

/-- C22, as stated, fails in scaffold mode: with two source items and
`startMolMaxCount = 5` the seeding stores the single node `tempSource`. -/
theorem C22_scaffold_seeding_ignores_sources :
    seedScaffoldCtx.sourceMols.length = 2 ∧ seedScaffoldCtx.params.startMolMaxCount = 5 ∧
    (PathFinderActivity.seed (fun s => "s" ++ s) seedScaffoldCtx []).map
      (fun r => (ConcMap.keys r.1.candidates, r.2)) = some (["R"], []) := by
  refine ⟨by decide, by decide, by decide⟩

/-- C22, amended: outside scaffold mode, on the first iteration of a fresh
context (empty `candidates` and scaffold index, `iterIdx = 0`) with `n` source
items of distinct fingerprints, the seeding stores `min startMolMaxCount n`
candidates when `startMolMaxCount ≥ 1` and `n` when it is `0`, namely the first
ones in the order of the source map, and appends their fingerprints to
`startMols`; in scaffold mode it stores one candidate. -/
theorem C22_seeding_count_amended (GetScaffold : String → String) (ctx : PathFinderContext)
    (startMols : List String)
    (hfresh : ctx.candidates = [] ∧ ctx.candidateScaffoldMolecules = [] ∧ ctx.iterIdx = 0)
    (hdistinct : (ConcMap.keys ctx.sourceMols).Nodup) :
    (ctx.ScaffoldMode = false →
      ∃ r, PathFinderActivity.seed GetScaffold ctx startMols = some r ∧
        r.1.candidates.length =
          (if ctx.params.startMolMaxCount = 0 then ctx.sourceMols.length
           else min ctx.params.startMolMaxCount ctx.sourceMols.length) ∧
        ConcMap.keys r.1.candidates =
          (ConcMap.keys ctx.sourceMols).take
            (if ctx.params.startMolMaxCount = 0 then ctx.sourceMols.length
             else ctx.params.startMolMaxCount) ∧
        r.2 = startMols ++ ConcMap.keys r.1.candidates) ∧
    (ctx.scaffoldSelector = ScaffoldSelector.SF_MOST_GENERAL →
      ∃ r, PathFinderActivity.seed GetScaffold ctx startMols = some r ∧
        r.1.candidates.length = 1 ∧ r.2 = startMols) := by
  obtain ⟨hc, hi, hz⟩ := hfresh
  constructor
  · intro hmode
    have hseed : PathFinderActivity.seed GetScaffold ctx startMols =
        some ({ ctx with
                params := (if ctx.params.startMolMaxCount = 0 then
                  { ctx.params with startMolMaxCount := ctx.sourceMols.length }
                  else ctx.params)
                candidates := (PathFinderActivity.seedLoop
                  (if ctx.params.startMolMaxCount = 0 then
                    { ctx.params with startMolMaxCount := ctx.sourceMols.length }
                    else ctx.params).startMolMaxCount 1 ctx.sourceMols
                  (([] : ConcMap MolpherMolecule), startMols)).1 },
              (PathFinderActivity.seedLoop
                  (if ctx.params.startMolMaxCount = 0 then
                    { ctx.params with startMolMaxCount := ctx.sourceMols.length }
                    else ctx.params).startMolMaxCount 1 ctx.sourceMols
                  (([] : ConcMap MolpherMolecule), startMols)).2) := by
      unfold PathFinderActivity.seed
      simp only [hc, hi, hz, hmode, List.isEmpty_nil, if_true, ne_eq, not_true_eq_false,
        Bool.true_eq_false, or_self, if_false, Bool.not_false]
    have hMval : (if ctx.params.startMolMaxCount = 0 then
          { ctx.params with startMolMaxCount := ctx.sourceMols.length }
          else ctx.params).startMolMaxCount =
        (if ctx.params.startMolMaxCount = 0 then ctx.sourceMols.length
         else ctx.params.startMolMaxCount) := by
      split <;> rfl
    rw [hMval] at hseed
    refine ⟨_, hseed, ?_⟩
    simp only []
    generalize hMdef : (if ctx.params.startMolMaxCount = 0 then ctx.sourceMols.length
      else ctx.params.startMolMaxCount) = M
    have hlenval : (if ctx.params.startMolMaxCount = 0 then ctx.sourceMols.length
        else min ctx.params.startMolMaxCount ctx.sourceMols.length) =
        min ctx.sourceMols.length M := by
      rw [← hMdef]
      split
      · simp
      · exact Nat.min_comm _ _
    rw [hlenval]
    by_cases hn : ctx.sourceMols = []
    · simp [hn, PathFinderActivity.seedLoop, ConcMap.keys]
    · have hpos : 0 < ctx.sourceMols.length := List.length_pos.mpr hn
      have hM : 1 ≤ M := by
        rw [← hMdef]
        split
        · exact hpos
        · omega
      obtain ⟨h1, h2, h3⟩ := PathFinderActivity.seedLoop_spec M ctx.sourceMols 1
        (([] : ConcMap MolpherMolecule), startMols) hM hdistinct (fun _ _ => rfl)
      have e : M - 1 + 1 = M := by omega
      rw [e] at h1 h2 h3
      refine ⟨?_, ?_, ?_⟩
      · rw [h1]
        simp
      · rw [h3]
        simp [ConcMap.keys, List.map_take]
      · rw [h2, h3]
        simp [ConcMap.keys]
  · intro hsel
    have hmode : ctx.ScaffoldMode = true := by
      unfold PathFinderContext.ScaffoldMode
      rw [hsel]; decide
    have hseed : ∃ c, PathFinderActivity.seed GetScaffold ctx startMols = some (c, startMols) ∧
        c.candidates = [(ctx.tempSource.smile,
          { ctx.tempSource with scaffoldSmile := GetScaffold ctx.source.smile })] := by
      unfold PathFinderActivity.seed
      simp only [hc, hi, hz, hmode, hsel, List.isEmpty_nil, if_true, ne_eq, not_true_eq_false,
        Bool.true_eq_false, or_self, if_false, Bool.not_true, Bool.false_eq_true]
      exact ⟨_, rfl, rfl⟩
    obtain ⟨c, h1, h2⟩ := hseed
    exact ⟨_, h1, by rw [h2]; rfl, rfl⟩

/-- Witness for C22 (amended): three source items, `startMolMaxCount = 2`: the
first two are seeded. -/
theorem C22_seeding_count_amended_witness :
    ∃ r, PathFinderActivity.seed id seedCtx [] = some r ∧
      r.1.candidates.length = 2 ∧ r.2 = ["S1", "S2"] := by
  obtain ⟨r, hr, hlen, hkeys, hstart⟩ :=
    (C22_seeding_count_amended id seedCtx [] ⟨rfl, rfl, rfl⟩ (by decide)).1 (by decide)
  refine ⟨r, hr, hlen, ?_⟩
  rw [hstart, hkeys]
  decide

theorem UpdateTree.improve_idem (dist : MolpherMolecule → ℚ)
    (hd : ∀ n, dist (UpdateTree.resetCounter n) = dist n) (m : ℚ) (node : MolpherMolecule) :
    UpdateTree.improve dist m (UpdateTree.improve dist m node) =
      UpdateTree.improve dist m node := by
  by_cases h : m < dist node
  · simp only [UpdateTree.improve, h, if_true, hd]
    rfl
  · simp only [UpdateTree.improve, h, if_false]

/-- The chain and the root depend on the `parentSmile` fields only. -/
theorem UpdateTree.chain_congr (a b : ConcMap MolpherMolecule)
    (h : ∀ k, (b.find k).map (fun v => v.parentSmile) = (a.find k).map (fun v => v.parentSmile)) :
    ∀ fuel key, UpdateTree.chain b fuel key = UpdateTree.chain a fuel key ∧
      UpdateTree.root b fuel key = UpdateTree.root a fuel key := by
  intro fuel
  induction fuel with
  | zero => intro key; exact ⟨rfl, rfl⟩
  | succ fuel ih =>
    intro key
    unfold UpdateTree.chain UpdateTree.root
    have hk := h key
    cases ha : a.find key with
    | none =>
      rw [ha] at hk
      cases hb : b.find key with
      | none => exact ⟨rfl, rfl⟩
      | some vb => rw [hb] at hk; cases hk
    | some va =>
      rw [ha] at hk
      cases hb : b.find key with
      | none => rw [hb] at hk; cases hk
      | some vb =>
        rw [hb] at hk
        simp only [Option.map_some', Option.some.injEq] at hk
        simp only [hk, (ih va.parentSmile).1, (ih va.parentSmile).2]
        exact ⟨trivial, trivial⟩

/-- The `while` loop of the path-mode UpdateTree outside scaffold mode: it
completes exactly when a root is reached within the fuel, and then every
candidate on the chain is improved and nothing else changes. -/
theorem PathFinder.UpdateTree.walk_spec (m : ℚ) :
    ∀ (fuel : Nat) (ctx : PathFinderContext) (key : String),
      ctx.ScaffoldMode = false →
      ((PathFinder.UpdateTree.walk m fuel ctx key).isSome =
        (UpdateTree.root ctx.candidates fuel key).isSome) ∧
      ∀ ctx', PathFinder.UpdateTree.walk m fuel ctx key = some ctx' →
        ∀ k, ctx'.candidates.find k =
          if k ∈ UpdateTree.chain ctx.candidates fuel key then
            (ctx.candidates.find k).map (UpdateTree.improve (fun c => c.distToTarget) m)
          else ctx.candidates.find k := by
  intro fuel
  induction fuel with
  | zero =>
    intro ctx key _
    refine ⟨rfl, fun ctx' h => ?_⟩
    cases h
  | succ fuel ih =>
    intro ctx key hmode
    unfold PathFinder.UpdateTree.walk UpdateTree.root UpdateTree.chain
    cases hf : ctx.candidates.find key with
    | none =>
      refine ⟨rfl, fun ctx' h => ?_⟩
      cases h
    | some node =>
      simp only [hmode, Bool.not_false, Bool.true_and, Bool.false_and, Bool.or_false,
        decide_eq_true_eq]
      have himp : (if m < node.distToTarget then UpdateTree.resetCounter node else node) =
          UpdateTree.improve (fun c => c.distToTarget) m node := rfl
      rw [himp]
      generalize hn' : UpdateTree.improve (fun c => c.distToTarget) m node = node'
      have hpar' : node'.parentSmile = node.parentSmile := by
        rw [← hn']
        unfold UpdateTree.improve
        split <;> rfl
      by_cases hp : node.parentSmile = ""
      · simp only [hp, ne_eq, not_true_eq_false, if_false, Option.isSome_some,
          List.not_mem_nil, Option.some.injEq, true_and]
        intro ctx' h k
        rw [← h]
      · simp only [hp, if_true, ne_eq, not_false_eq_true]
        have hstep : ∀ k, (ctx.candidates.assign key node').find k =
            if key = k then some node' else ctx.candidates.find k := by
          intro k
          rw [ConcMap.find_assign]
        have hcongr := UpdateTree.chain_congr ctx.candidates (ctx.candidates.assign key node')
          (by
            intro k
            rw [hstep]
            split
            · rename_i e
              subst e
              rw [hf]
              simp only [Option.map_some', hpar']
            · rfl) fuel node.parentSmile
        obtain ⟨i1, i2⟩ := ih { ctx with candidates := ctx.candidates.assign key node' }
          node.parentSmile hmode
        simp only [] at i1 i2
        rw [hcongr.2] at i1
        rw [hcongr.1] at i2
        refine ⟨i1, fun ctx' h k => ?_⟩
        rw [i2 ctx' h k, hstep]
        by_cases hk : key = k
        · subst hk
          simp only [if_true, List.mem_cons, true_or, hf, Option.map_some']
          split
          · rw [← hn', UpdateTree.improve_idem (fun c => c.distToTarget) (fun _ => rfl)]
          · rw [hn']
        · simp only [hk, if_false, List.mem_cons]
          have : ¬ k = key := fun e => hk e.symm
          simp only [this, false_or]

/-- The first loop of `UpdateTree::operator()`: it completes when every child is
a candidate, and its result is the least of `DBL_MAX` and the children's
distances. -/
theorem UpdateTree.minDistance_spec (dist : MolpherMolecule → ℚ) (ctx : PathFinderContext)
    (parent : MolpherMolecule) :
    ((∀ child, child ∈ parent.descendants → ctx.candidates.contains child = true) →
      (UpdateTree.minDistance dist ctx parent).isSome = true) ∧
    ∀ m, UpdateTree.minDistance dist ctx parent = some m →
      m ≤ DBL_MAX ∧
      (∀ child, child ∈ parent.descendants →
        ∃ c, ctx.candidates.find child = some c ∧ m ≤ dist c) ∧
      (m = DBL_MAX ∨ ∃ child, child ∈ parent.descendants ∧
        ∃ c, ctx.candidates.find child = some c ∧ dist c = m) := by
  unfold UpdateTree.minDistance
  generalize DBL_MAX = init
  generalize parent.descendants = l
  induction l generalizing init with
  | nil =>
    refine ⟨fun _ => rfl, fun m h => ?_⟩
    simp only [List.foldlM, pure, Option.some.injEq] at h
    subst h
    exact ⟨le_refl _, fun _ hc => (List.not_mem_nil _ hc).elim, Or.inl rfl⟩
  | cons a l ih =>
    constructor
    · intro hall
      obtain ⟨c, hc⟩ := (ConcMap.contains_iff _ _).mp (hall a (List.mem_cons_self _ _))
      simp only [List.foldlM, hc, bind, Option.bind]
      exact (ih _).1 (fun child hch => hall child (List.mem_cons_of_mem _ hch))
    · intro m h
      cases hc : ctx.candidates.find a with
      | none => simp [List.foldlM, hc, bind] at h
      | some c =>
        simp only [List.foldlM, hc, bind, Option.bind] at h
        obtain ⟨h1, h2, h3⟩ := (ih _).2 m h
        have hle : (if dist c < init then dist c else init) ≤ init := by
          split
          · exact le_of_lt (by assumption)
          · exact le_refl _
        have hle2 : (if dist c < init then dist c else init) ≤ dist c := by
          split
          · exact le_refl _
          · exact not_lt.mp (by assumption)
        refine ⟨le_trans h1 hle, fun child hch => ?_, ?_⟩
        · rcases List.mem_cons.mp hch with rfl | hch
          · exact ⟨c, hc, le_trans h1 hle2⟩
          · exact h2 child hch
        · rcases h3 with h3 | ⟨child, hch, c', hc', hd⟩
          · by_cases hlt : dist c < init
            · rw [if_pos hlt] at h3
              exact Or.inr ⟨a, List.mem_cons_self _ _, c, hc, h3.symm⟩
            · rw [if_neg hlt] at h3
              exact Or.inl h3
          · exact Or.inr ⟨child, List.mem_cons_of_mem _ hch, c', hc', hd⟩

/-- C29: in path mode outside scaffold mode, for a single modified parent `p`
whose children are candidates with least `distToTarget` `m` (a finite double),
on a branch that reaches a root within the fuel, UpdateTree completes; every
candidate `a` with a non-empty `parentSmile` on the chain from `p` upwards gets
`itersWithoutDistImprovement = 0` if `m < a.distToTarget` and is unchanged
otherwise; every other candidate, the keys and every other field of the context
are unchanged. -/
theorem C29_update_tree_back_propagation (fuel : Nat) (ctx : PathFinderContext) (p : String)
    (parent : MolpherMolecule) (m : ℚ)
    (hmode : ctx.ScaffoldMode = false) (hp : ctx.candidates.find p = some parent)
    (hchildren : ∀ child, child ∈ parent.descendants →
      ∃ c, ctx.candidates.find child = some c ∧ m ≤ c.distToTarget)
    (hmin : ∃ child, child ∈ parent.descendants ∧
      ∃ c, ctx.candidates.find child = some c ∧ c.distToTarget = m)
    (hbound : m ≤ DBL_MAX)
    (hroot : (UpdateTree.root ctx.candidates fuel p).isSome = true) :
    ∃ ctx', PathFinder.UpdateTree fuel [p] ctx = some ctx' ∧
      ctx' = { ctx with candidates := ctx'.candidates } ∧
      ConcMap.keys ctx'.candidates = ConcMap.keys ctx.candidates ∧
      (∀ k a, ctx.candidates.find k = some a →
        ctx'.candidates.find k =
          some (if k ∈ UpdateTree.chain ctx.candidates fuel p ∧ m < a.distToTarget then
            { a with itersWithoutDistImprovement := 0 } else a)) ∧
      (∀ k, ctx.candidates.find k = none → ctx'.candidates.find k = none) := by
  obtain ⟨htot, hspec⟩ := UpdateTree.minDistance_spec (fun c => c.distToTarget) ctx parent
  obtain ⟨m', hm'⟩ := Option.isSome_iff_exists.mp (htot (fun child hch => by
    obtain ⟨c, hc, _⟩ := hchildren child hch
    exact (ConcMap.contains_iff _ _).mpr ⟨c, hc⟩))
  have hmm : m' = m := by
    obtain ⟨_, h2, h3⟩ := hspec m' hm'
    obtain ⟨child, hch, c, hc, hd⟩ := hmin
    obtain ⟨c₂, hc₂, hle⟩ := h2 child hch
    rw [hc] at hc₂
    cases hc₂
    rw [hd] at hle
    rcases h3 with h3 | ⟨child', hch', c', hc', hd'⟩
    · rw [h3] at hle ⊢
      exact le_antisymm hle hbound
    · obtain ⟨c₃, hc₃, hle₃⟩ := hchildren child' hch'
      rw [hc'] at hc₃
      cases hc₃
      rw [hd'] at hle₃
      exact le_antisymm hle hle₃
  subst hmm
  obtain ⟨hsome, hfind⟩ := PathFinder.UpdateTree.walk_spec m' fuel ctx p hmode
  rw [hroot] at hsome
  obtain ⟨ctx', hw⟩ := Option.isSome_iff_exists.mp hsome
  have hrun : PathFinder.UpdateTree fuel [p] ctx = some ctx' := by
    unfold PathFinder.UpdateTree PathFinder.UpdateTree.body
    simp only [List.foldlM, hp, hm', bind, Option.bind, hw, pure]
  have hco := PathFinder.UpdateTree.counters _ _ _ _ hrun
  refine ⟨ctx', hrun, hco.1, hco.2.1, fun k a hk => ?_, fun k hk => ?_⟩
  · rw [hfind ctx' hw k, hk]
    by_cases hc : k ∈ UpdateTree.chain ctx.candidates fuel p
    · simp only [hc, if_true, Option.map_some', true_and, UpdateTree.improve]
      split <;> rfl
    · simp only [hc, if_false, false_and]
  · rw [hfind ctx' hw k, hk]
    split <;> rfl

/-- Witness for C29: on `branchCtx` with the modified parent `"A"`, the counter
of `"A"` goes from 3 to 0. -/
theorem C29_update_tree_back_propagation_witness :
    ∃ ctx', PathFinder.UpdateTree 5 ["A"] branchCtx = some ctx' ∧
      (ctx'.candidates.find "A").map (fun a => a.itersWithoutDistImprovement) = some 0 := by
  obtain ⟨ctx', hrun, _, _, hfind, _⟩ := C29_update_tree_back_propagation 5 branchCtx "A"
    { blankMol with smile := "A", parentSmile := "S", descendants := ["B"],
                    historicDescendants := ["B"], distToTarget := 1 / 2,
                    itersWithoutDistImprovement := 3 } (1 / 4) (by decide) rfl
    (by
      intro child hch
      simp only [List.mem_singleton] at hch
      subst hch
      exact ⟨{ blankMol with smile := "B", parentSmile := "A", distToTarget := 1 / 4 }, rfl,
        le_refl _⟩)
    ⟨"B", by simp, { blankMol with smile := "B", parentSmile := "A", distToTarget := 1 / 4 },
      rfl, rfl⟩
    (by norm_num [DBL_MAX]) (by decide)
  refine ⟨ctx', hrun, ?_⟩
  rw [hfind "A" _ rfl]
  have h1 : "A" ∈ UpdateTree.chain branchCtx.candidates 5 "A" := by decide
  have h2 : (1 / 4 : ℚ) < 1 / 2 := by norm_num
  simp only [Option.map_some', h1, h2, and_self, if_true]

/-- A context that differs in counters only has the same `parentSmile` fields,
hence the same chains and roots. -/
theorem CountersOnly.parents {c c' : PathFinderContext} (h : CountersOnly c c') (k : String) :
    (c'.candidates.find k).map (fun v => v.parentSmile) =
      (c.candidates.find k).map (fun v => v.parentSmile) := by
  cases hk : c.candidates.find k with
  | some v =>
    obtain ⟨v', hv', hr⟩ := h.find_of hk
    rw [hv']
    simp only [Option.map_some', hr.parentSmile]
  | none =>
    cases hk' : c'.candidates.find k with
    | none => rfl
    | some v' =>
      obtain ⟨v, hv, _⟩ := h.2.2 k v' hk'
      rw [hk] at hv
      cases hv

theorem CountersOnly.root_eq {c c' : PathFinderContext} (h : CountersOnly c c') (fuel : Nat)
    (key : String) :
    UpdateTree.root c'.candidates fuel key = UpdateTree.root c.candidates fuel key :=
  (UpdateTree.chain_congr c.candidates c'.candidates h.parents fuel key).2

/-- The candidates on a chain have a non-empty `parentSmile`. -/
theorem UpdateTree.chain_nonroot (cands : ConcMap MolpherMolecule) :
    ∀ (fuel : Nat) (key k : String), k ∈ UpdateTree.chain cands fuel key →
      ∃ a, cands.find k = some a ∧ a.parentSmile ≠ "" := by
  intro fuel
  induction fuel with
  | zero => intro key k h; cases h
  | succ fuel ih =>
    intro key k h
    unfold UpdateTree.chain at h
    cases hf : cands.find key with
    | none => rw [hf] at h; cases h
    | some node =>
      rw [hf] at h
      simp only [] at h
      split at h
      · rename_i hp
        rcases List.mem_cons.mp h with rfl | h
        · exact ⟨node, hf, hp⟩
        · exact ih _ _ h
      · cases h

/-- The root reached is a candidate with an empty `parentSmile`. -/
theorem UpdateTree.root_spec (cands : ConcMap MolpherMolecule) :
    ∀ (fuel : Nat) (key r : String), UpdateTree.root cands fuel key = some r →
      ∃ a, cands.find r = some a ∧ a.parentSmile = "" := by
  intro fuel
  induction fuel with
  | zero => intro key r h; cases h
  | succ fuel ih =>
    intro key r h
    unfold UpdateTree.root at h
    cases hf : cands.find key with
    | none => rw [hf] at h; cases h
    | some node =>
      rw [hf] at h
      simp only [] at h
      split at h
      · exact ih _ _ h
      · rename_i hp
        simp only [ne_eq, not_not] at hp
        simp only [Option.some.injEq] at h
        subst h
        exact ⟨node, hf, hp⟩

/-- One body of the path-mode UpdateTree outside scaffold mode leaves the roots
as they are, and completes when the modified parent is a candidate whose
children are candidates and whose branch reaches a root within the fuel. -/
theorem PathFinder.UpdateTree.body_roots (fuel : Nat) (ctx : PathFinderContext) (p : String)
    (hmode : ctx.ScaffoldMode = false) :
    (∀ ctx', PathFinder.UpdateTree.body fuel ctx p = some ctx' →
      ∀ k v, ctx.candidates.find k = some v → v.parentSmile = "" →
        ctx'.candidates.find k = some v) ∧
    (∀ parent, ctx.candidates.find p = some parent →
      (∀ child, child ∈ parent.descendants → ctx.candidates.contains child = true) →
      (UpdateTree.root ctx.candidates fuel p).isSome = true →
      (PathFinder.UpdateTree.body fuel ctx p).isSome = true) := by
  constructor
  · intro ctx' h k v hk hv
    unfold PathFinder.UpdateTree.body at h
    cases hp : ctx.candidates.find p with
    | none => rw [hp] at h; cases h
    | some parent =>
      rw [hp] at h
      simp only [Option.bind_eq_some] at h
      obtain ⟨m, _, hw⟩ := h
      rw [(PathFinder.UpdateTree.walk_spec m fuel ctx p hmode).2 ctx' hw k, if_neg, hk]
      intro hc
      obtain ⟨a, ha, hne⟩ := UpdateTree.chain_nonroot _ _ _ _ hc
      rw [hk] at ha
      cases ha
      exact hne hv
  · intro parent hp hch hroot
    unfold PathFinder.UpdateTree.body
    rw [hp]
    obtain ⟨m, hm⟩ := Option.isSome_iff_exists.mp
      ((UpdateTree.minDistance_spec (fun c => c.distToTarget) ctx parent).1 hch)
    simp only [hm, Option.some_bind]
    rw [(PathFinder.UpdateTree.walk_spec m fuel ctx p hmode).1]
    exact hroot

/-- The `while (true)` loop of the activity-mode UpdateTree: it completes
exactly when a root is reached within the fuel; the root then has its counter
at zero, and counters at zero stay there. -/
theorem PathFinderActivity.UpdateTree.walk_spec_act (m : ℚ) :
    ∀ (fuel : Nat) (ctx : PathFinderContext) (key : String),
      ((PathFinderActivity.UpdateTree.walk m fuel ctx key).isSome =
        (UpdateTree.root ctx.candidates fuel key).isSome) ∧
      ∀ ctx', PathFinderActivity.UpdateTree.walk m fuel ctx key = some ctx' →
        (∃ r v, UpdateTree.root ctx.candidates fuel key = some r ∧
          ctx'.candidates.find r = some v ∧ v.itersWithoutDistImprovement = 0) ∧
        (∀ k v, ctx.candidates.find k = some v → v.itersWithoutDistImprovement = 0 →
          ∃ v', ctx'.candidates.find k = some v' ∧ v'.itersWithoutDistImprovement = 0) := by
  intro fuel
  induction fuel with
  | zero =>
    intro ctx key
    refine ⟨rfl, fun ctx' h => ?_⟩
    cases h
  | succ fuel ih =>
    intro ctx key
    unfold PathFinderActivity.UpdateTree.walk UpdateTree.root
    cases hf : ctx.candidates.find key with
    | none =>
      refine ⟨rfl, fun ctx' h => ?_⟩
      cases h
    | some node =>
      simp only []
      have himp : (if m < node.distToEtalon then UpdateTree.resetCounter node else node) =
          UpdateTree.improve (fun c => c.distToEtalon) m node := rfl
      rw [himp]
      generalize hn₁ : UpdateTree.improve (fun c => c.distToEtalon) m node = node₁
      have hpar₁ : node₁.parentSmile = node.parentSmile := by
        rw [← hn₁]; unfold UpdateTree.improve; split <;> rfl
      have hzero₁ : node.itersWithoutDistImprovement = 0 →
          node₁.itersWithoutDistImprovement = 0 := by
        intro hz
        rw [← hn₁]; unfold UpdateTree.improve; split
        · rfl
        · exact hz
      by_cases hp : node.parentSmile = ""
      · simp only [hp, if_true, ne_eq, not_true_eq_false, if_false, Option.isSome_some,
          Option.some.injEq, true_and]
        intro ctx' h
        subst h
        simp only []
        refine ⟨⟨key, _, rfl, ConcMap.find_assign_self _ _ _, rfl⟩, fun k v hk hz => ?_⟩
        rw [ConcMap.find_assign]
        split
        · exact ⟨_, rfl, rfl⟩
        · exact ⟨v, hk, hz⟩
      · simp only [hp, if_false, ne_eq, not_false_eq_true, if_true]
        have hstep : ∀ k, (ctx.candidates.assign key node₁).find k =
            if key = k then some node₁ else ctx.candidates.find k := by
          intro k
          rw [ConcMap.find_assign]
        have hcongr := UpdateTree.chain_congr ctx.candidates (ctx.candidates.assign key node₁)
          (by
            intro k
            rw [hstep]
            split
            · rename_i e
              subst e
              rw [hf]
              simp only [Option.map_some', hpar₁]
            · rfl) fuel node.parentSmile
        obtain ⟨i1, i2⟩ := ih { ctx with candidates := ctx.candidates.assign key node₁ }
          node.parentSmile
        simp only [] at i1 i2
        rw [hcongr.2] at i1 i2
        refine ⟨i1, fun ctx' h => ⟨(i2 ctx' h).1, fun k v hk hz => ?_⟩⟩
        by_cases hkk : key = k
        · subst hkk
          rw [hf] at hk
          cases hk
          exact (i2 ctx' h).2 key node₁ (by rw [hstep, if_pos rfl]) (hzero₁ hz)
        · exact (i2 ctx' h).2 k v (by rw [hstep, if_neg hkk]; exact hk) hz

theorem PathFinder.UpdateTree.body_counters (fuel : Nat) (ctx ctx' : PathFinderContext)
    (p : String) (h : PathFinder.UpdateTree.body fuel ctx p = some ctx') :
    CountersOnly ctx ctx' := by
  apply PathFinder.UpdateTree.counters fuel [p] ctx ctx'
  unfold PathFinder.UpdateTree
  simp only [List.foldlM, h, bind, Option.bind, pure]

theorem PathFinderActivity.UpdateTree.body_counters_act (fuel : Nat)
    (ctx ctx' : PathFinderContext) (p : String)
    (h : PathFinderActivity.UpdateTree.body fuel ctx p = some ctx') :
    CountersOnly ctx ctx' := by
  apply PathFinderActivity.UpdateTree.counters_act fuel [p] ctx ctx'
  unfold PathFinderActivity.UpdateTree
  simp only [List.foldlM, h, bind, Option.bind, pure]

theorem CountersOnly.ready {c c' : PathFinderContext} (h : CountersOnly c c') (fuel : Nat)
    (modifiedParents : SmileSet) (hr : UpdateTree.ready fuel modifiedParents c) :
    UpdateTree.ready fuel modifiedParents c' := by
  intro p hp
  obtain ⟨parent, hf, hch, hroot⟩ := hr p hp
  obtain ⟨parent', hf', hs⟩ := h.find_of hf
  refine ⟨parent', hf', fun child hc => ?_, by rw [h.root_eq]; exact hroot⟩
  rw [hs.descendants] at hc
  obtain ⟨v, hv⟩ := (ConcMap.contains_iff _ _).mp (hch child hc)
  obtain ⟨v', hv', _⟩ := h.find_of hv
  exact (ConcMap.contains_iff _ _).mpr ⟨v', hv'⟩

theorem CountersOnly.mode {c c' : PathFinderContext} (h : CountersOnly c c') :
    c'.ScaffoldMode = c.ScaffoldMode :=
  PathFinderContext.frame_mode h.frame_eq

/-- The path-mode UpdateTree stage completes on ready parents outside scaffold
mode. -/
theorem PathFinder.UpdateTree.total (fuel : Nat) (modifiedParents : SmileSet)
    (ctx : PathFinderContext) (hmode : ctx.ScaffoldMode = false)
    (hr : UpdateTree.ready fuel modifiedParents ctx) :
    (PathFinder.UpdateTree fuel modifiedParents ctx).isSome = true := by
  unfold PathFinder.UpdateTree
  obtain ⟨c', hc', _⟩ := foldlM_total (fun c => CountersOnly ctx c)
    (PathFinder.UpdateTree.body fuel) modifiedParents
    (by
      intro c p hp hco
      obtain ⟨parent, hf, hch, hroot⟩ := hco.ready fuel modifiedParents hr p hp
      have hm : c.ScaffoldMode = false := by rw [hco.mode]; exact hmode
      obtain ⟨c', hc'⟩ := Option.isSome_iff_exists.mp
        ((PathFinder.UpdateTree.body_roots fuel c p hm).2 parent hf hch hroot)
      exact ⟨c', hc', hco.co_trans (PathFinder.UpdateTree.body_counters _ _ _ _ hc')⟩)
    ctx (CountersOnly.co_refl ctx)
  rw [hc']; rfl

/-- One body of the activity-mode UpdateTree. -/
theorem PathFinderActivity.UpdateTree.body_spec_act (fuel : Nat) (ctx : PathFinderContext)
    (p : String) :
    (∀ ctx', PathFinderActivity.UpdateTree.body fuel ctx p = some ctx' →
      (∃ r v, UpdateTree.root ctx.candidates fuel p = some r ∧
        ctx'.candidates.find r = some v ∧ v.itersWithoutDistImprovement = 0) ∧
      (∀ k v, ctx.candidates.find k = some v → v.itersWithoutDistImprovement = 0 →
        ∃ v', ctx'.candidates.find k = some v' ∧ v'.itersWithoutDistImprovement = 0)) ∧
    (∀ parent, ctx.candidates.find p = some parent →
      (∀ child, child ∈ parent.descendants → ctx.candidates.contains child = true) →
      (UpdateTree.root ctx.candidates fuel p).isSome = true →
      (PathFinderActivity.UpdateTree.body fuel ctx p).isSome = true) := by
  constructor
  · intro ctx' h
    unfold PathFinderActivity.UpdateTree.body at h
    cases hp : ctx.candidates.find p with
    | none => rw [hp] at h; cases h
    | some parent =>
      rw [hp] at h
      simp only [Option.bind_eq_some] at h
      obtain ⟨m, _, hw⟩ := h
      exact (PathFinderActivity.UpdateTree.walk_spec_act m fuel ctx p).2 ctx' hw
  · intro parent hp hch hroot
    unfold PathFinderActivity.UpdateTree.body
    rw [hp]
    obtain ⟨m, hm⟩ := Option.isSome_iff_exists.mp
      ((UpdateTree.minDistance_spec (fun c => c.distToEtalon) ctx parent).1 hch)
    simp only [hm, Option.some_bind]
    rw [(PathFinderActivity.UpdateTree.walk_spec_act m fuel ctx p).1]
    exact hroot

theorem PathFinderActivity.UpdateTree.total_act (fuel : Nat) (modifiedParents : SmileSet)
    (ctx : PathFinderContext) (hr : UpdateTree.ready fuel modifiedParents ctx) :
    (PathFinderActivity.UpdateTree fuel modifiedParents ctx).isSome = true := by
  unfold PathFinderActivity.UpdateTree
  obtain ⟨c', hc', _⟩ := foldlM_total (fun c => CountersOnly ctx c)
    (PathFinderActivity.UpdateTree.body fuel) modifiedParents
    (by
      intro c p hp hco
      obtain ⟨parent, hf, hch, hroot⟩ := hco.ready fuel modifiedParents hr p hp
      obtain ⟨c', hc'⟩ := Option.isSome_iff_exists.mp
        ((PathFinderActivity.UpdateTree.body_spec_act fuel c p).2 parent hf hch hroot)
      exact ⟨c', hc', hco.co_trans (PathFinderActivity.UpdateTree.body_counters_act _ _ _ _ hc')⟩)
    ctx (CountersOnly.co_refl ctx)
  rw [hc']; rfl

/-- After the activity-mode UpdateTree the root of the branch of every modified
parent has its counter at zero. -/
theorem PathFinderActivity.UpdateTree.roots_reset (fuel : Nat) :
    ∀ (modifiedParents : SmileSet) (ctx ctx' : PathFinderContext),
      PathFinderActivity.UpdateTree fuel modifiedParents ctx = some ctx' →
      (∀ p, p ∈ modifiedParents → ∃ r v, UpdateTree.root ctx.candidates fuel p = some r ∧
        ctx'.candidates.find r = some v ∧ v.itersWithoutDistImprovement = 0) ∧
      (∀ k v, ctx.candidates.find k = some v → v.itersWithoutDistImprovement = 0 →
        ∃ v', ctx'.candidates.find k = some v' ∧ v'.itersWithoutDistImprovement = 0) := by
  intro modifiedParents
  induction modifiedParents with
  | nil =>
    intro ctx ctx' h
    simp only [PathFinderActivity.UpdateTree, List.foldlM, pure, Option.some.injEq] at h
    subst h
    exact ⟨fun _ hp => (List.not_mem_nil _ hp).elim, fun k v hk hz => ⟨v, hk, hz⟩⟩
  | cons p ps ih =>
    intro ctx ctx' h
    simp only [PathFinderActivity.UpdateTree, List.foldlM, bind, Option.bind_eq_some] at h
    obtain ⟨c₁, hb, hrest⟩ := h
    obtain ⟨⟨r, v, hr, hv, hz⟩, hkeep₁⟩ :=
      (PathFinderActivity.UpdateTree.body_spec_act fuel ctx p).1 c₁ hb
    have hco := PathFinderActivity.UpdateTree.body_counters_act _ _ _ _ hb
    obtain ⟨hps, hkeep₂⟩ := ih c₁ ctx' hrest
    refine ⟨fun q hq => ?_, fun k w hk hw => ?_⟩
    · rcases List.mem_cons.mp hq with rfl | hq
      · obtain ⟨v', hv', hz'⟩ := hkeep₂ r v hv hz
        exact ⟨r, v', hr, hv', hz'⟩
      · obtain ⟨r', v', hr', hv', hz'⟩ := hps q hq
        rw [hco.root_eq] at hr'
        exact ⟨r', v', hr', hv', hz'⟩
    · obtain ⟨w₁, hw₁, hz₁⟩ := hkeep₁ k w hk hw
      exact hkeep₂ k w₁ hw₁ hz₁

/-- C30: in activity mode, after UpdateTree the root (empty `parentSmile`) of
the branch of every modified parent has `itersWithoutDistImprovement = 0`,
whatever the distances; in path mode outside scaffold mode UpdateTree leaves
every candidate with an empty `parentSmile`, the source among them, exactly as
it was. Both stages complete when every modified parent is a candidate whose
children are candidates and whose branch reaches a root within the fuel. -/
theorem C30_root_reset_asymmetry (fuel : Nat) (modifiedParents : SmileSet)
    (ctx : PathFinderContext) :
    (∀ ctx', PathFinderActivity.UpdateTree fuel modifiedParents ctx = some ctx' →
      ∀ p, p ∈ modifiedParents → ∃ r a v, UpdateTree.root ctx.candidates fuel p = some r ∧
        ctx.candidates.find r = some a ∧ a.parentSmile = "" ∧
        ctx'.candidates.find r = some v ∧ v.itersWithoutDistImprovement = 0) ∧
    (ctx.ScaffoldMode = false →
      ∀ ctx', PathFinder.UpdateTree fuel modifiedParents ctx = some ctx' →
        ∀ k v, ctx.candidates.find k = some v → v.parentSmile = "" →
          ctx'.candidates.find k = some v) ∧
    (UpdateTree.ready fuel modifiedParents ctx →
      (PathFinderActivity.UpdateTree fuel modifiedParents ctx).isSome = true ∧
      (ctx.ScaffoldMode = false →
        (PathFinder.UpdateTree fuel modifiedParents ctx).isSome = true)) := by
  refine ⟨fun ctx' h p hp => ?_, fun hmode ctx' h => ?_, fun hr =>
    ⟨PathFinderActivity.UpdateTree.total_act fuel modifiedParents ctx hr,
      fun hmode => PathFinder.UpdateTree.total fuel modifiedParents ctx hmode hr⟩⟩
  · obtain ⟨r, v, hr, hv, hz⟩ :=
      (PathFinderActivity.UpdateTree.roots_reset fuel modifiedParents ctx ctx' h).1 p hp
    obtain ⟨a, ha, hpa⟩ := UpdateTree.root_spec _ _ _ _ hr
    exact ⟨r, a, v, hr, ha, hpa, hv, hz⟩
  · unfold PathFinder.UpdateTree at h
    have := foldlM_invariant
      (fun c => CountersOnly ctx c ∧ ∀ k v, ctx.candidates.find k = some v →
        v.parentSmile = "" → c.candidates.find k = some v)
      (PathFinder.UpdateTree.body fuel) modifiedParents
      (by
        intro c p c' _ hs hb
        have hm : c.ScaffoldMode = false := by rw [hs.1.mode]; exact hmode
        refine ⟨hs.1.co_trans (PathFinder.UpdateTree.body_counters _ _ _ _ hb),
          fun k v hk hv => ?_⟩
        exact (PathFinder.UpdateTree.body_roots fuel c p hm).1 c' hb k v (hs.2 k v hk hv) hv)
      ctx ctx' ⟨CountersOnly.co_refl ctx, fun _ _ hk _ => hk⟩ h
    exact this.2

/-- Witness for C30: on `branchCtx` with the modified parent `"A"` the activity
stage resets the counter of the root `"S"` from 4 to 0, and the path stage
leaves it at 4. -/
theorem C30_root_reset_asymmetry_witness :
    (∃ ctx', PathFinderActivity.UpdateTree 5 ["A"] branchCtx = some ctx' ∧
      (ctx'.candidates.find "S").map (fun v => v.itersWithoutDistImprovement) = some 0) ∧
    (∃ ctx', PathFinder.UpdateTree 5 ["A"] branchCtx = some ctx' ∧
      (ctx'.candidates.find "S").map (fun v => v.itersWithoutDistImprovement) = some 4) := by
  have h := C30_root_reset_asymmetry 5 ["A"] branchCtx
  have hready : UpdateTree.ready 5 ["A"] branchCtx := by
    intro p hp
    simp only [List.mem_singleton] at hp
    subst hp
    refine ⟨_, rfl, fun child hc => ?_, by decide⟩
    simp only [List.mem_singleton] at hc
    subst hc
    decide
  obtain ⟨h1, h2⟩ := h.2.2 hready
  obtain ⟨c₁, hc₁⟩ := Option.isSome_iff_exists.mp h1
  obtain ⟨c₂, hc₂⟩ := Option.isSome_iff_exists.mp (h2 (by decide))
  constructor
  · obtain ⟨r, a, v, hr, _, _, hv, hz⟩ := h.1 c₁ hc₁ "A" (by simp)
    have hrS : UpdateTree.root branchCtx.candidates 5 "A" = some "S" := by decide
    rw [hrS] at hr
    cases hr
    exact ⟨c₁, hc₁, by rw [hv]; simp [hz]⟩
  · refine ⟨c₂, hc₂, ?_⟩
    rw [h.2.1 (by decide) c₂ hc₂ "S" _ rfl rfl]
    rfl

theorem Below.snoc {cands : ConcMap MolpherMolecule} {f k d : String} {v : MolpherMolecule}
    (h : Below cands f k) (hk : cands.find k = some v) (hd : d ∈ v.descendants) :
    Below cands f d := by
  induction h with
  | child f k w hf hx => exact Below.step f k d w hf hx (Below.child k d v hk hd)
  | step f x k w hf hx _ ih => exact Below.step f x d w hf hx (ih hk)

theorem Below.below_trans {cands : ConcMap MolpherMolecule} {a b c : String}
    (h₁ : Below cands a b) (h₂ : Below cands b c) : Below cands a c := by
  induction h₁ with
  | child f k w hf hx => exact Below.step f k c w hf hx h₂
  | step f x k w hf hx _ ih => exact Below.step f x c w hf hx (ih h₂)

/-- The last link of a chain. -/
theorem Below.last {cands : ConcMap MolpherMolecule} {f d : String} (h : Below cands f d) :
    ∃ k v, cands.find k = some v ∧ d ∈ v.descendants ∧ (k = f ∨ Below cands f k) := by
  induction h with
  | child f d v hf hd => exact ⟨f, v, hf, hd, Or.inl rfl⟩
  | step f x d v hf hx _ ih =>
    obtain ⟨k, w, hk, hd, hor⟩ := ih
    refine ⟨k, w, hk, hd, Or.inr ?_⟩
    rcases hor with rfl | hb
    · exact Below.child f k v hf hx
    · exact Below.step f x k v hf hx hb

/-- Chains of a map whose links all come from another map are chains of that
map. -/
theorem Below.below_mono {new old : ConcMap MolpherMolecule}
    (hsub : ∀ k v', new.find k = some v' →
      ∃ v, old.find k = some v ∧ ∀ d, d ∈ v'.descendants → d ∈ v.descendants)
    {f d : String} (h : Below new f d) : Below old f d := by
  induction h with
  | child f d v hf hd =>
    obtain ⟨w, hw, hs⟩ := hsub f v hf
    exact Below.child f d w hw (hs d hd)
  | step f x d v hf hx _ ih =>
    obtain ⟨w, hw, hs⟩ := hsub f v hf
    exact Below.step f x d w hw (hs x hx) ih

theorem Shrinks.shrinks_below {c c' : PathFinderContext} (h : Shrinks c c') {f d : String}
    (hb : Below c'.candidates f d) : Below c.candidates f d :=
  Below.below_mono (fun k v' hk => by
    obtain ⟨v, hv, hs⟩ := h.2.2.2.2.2.2.2.1 k v' hk
    exact ⟨v, hv, hs.2.1⟩) hb

theorem Shrinks.find_none {c c' : PathFinderContext} (h : Shrinks c c') {k : String}
    (hk : c.candidates.find k = none) : c'.candidates.find k = none := by
  cases hf : c'.candidates.find k with
  | none => rfl
  | some v' =>
    obtain ⟨v, hv, _⟩ := h.2.2.2.2.2.2.2.1 k v' hf
    rw [hk] at hv; cases hv

theorem LinksClosed.closed_refl (old : ConcMap MolpherMolecule) : LinksClosed old [] old :=
  fun _ v₀ _ hk hx => Or.inl ⟨v₀, hk, hx⟩

theorem LinksClosed.weaken {old new : ConcMap MolpherMolecule} {Q Q' : List String}
    (h : LinksClosed old Q new) (hsub : ∀ x, x ∈ Q → x ∈ Q') : LinksClosed old Q' new := by
  intro k v₀ x hk hx
  rcases h k v₀ x hk hx with h1 | h2 | h3
  · exact Or.inl h1
  · exact Or.inr (Or.inl (hsub x h2))
  · exact Or.inr (Or.inr h3)

/-- Below a candidate that is gone, or that has no descendants left, nothing is
left. -/
theorem LinksClosed.absent {old new : ConcMap MolpherMolecule} (h : LinksClosed old [] new)
    {f d : String} (hb : Below old f d) :
    (∀ v, new.find f = some v → v.descendants = []) → new.find d = none := by
  induction hb with
  | child f d v₀ hf hd =>
    intro hnone
    rcases h f v₀ d hf hd with ⟨v, hv, hx⟩ | hq | hn
    · rw [hnone v hv] at hx; cases hx
    · cases hq
    · exact hn
  | step f x d v₀ hf hx _ ih =>
    intro hnone
    apply ih
    intro v hv
    rcases h f v₀ x hf hx with ⟨w, hw, hxw⟩ | hq | hn
    · rw [hnone w hw] at hxw; cases hxw
    · cases hq
    · rw [hn] at hv; cases hv

/-- The erase loop closes the links: with the deque empty, only the fingerprints
still pending in `D` may be dangling. -/
theorem EraseSubTree.loop_closed (old : ConcMap MolpherMolecule) (D : List String)
    (fuel : Nat) (Q : List String) (ctx ctx' : PathFinderContext)
    (hc : LinksClosed old (Q ++ D) ctx.candidates)
    (h : EraseSubTree.loop fuel Q ctx = some ctx') : LinksClosed old D ctx'.candidates := by
  have := EraseSubTree.loop_induct (fun Q' c => LinksClosed old (Q' ++ D) c.candidates)
    (by
      intro current rest c node hR hf k v₀ x hk hx
      simp only [EraseSubTree.eraseNode, ConcMap.find_erase]
      rcases hR k v₀ x hk hx with ⟨v, hv, hxv⟩ | hq | hn
      · by_cases e : current = k
        · subst e
          rw [hf] at hv
          cases hv
          exact Or.inr (Or.inl (by simp [hxv]))
        · exact Or.inl ⟨v, by simp [e, hv], hxv⟩
      · simp only [List.cons_append, List.mem_cons, List.mem_append] at hq
        rcases hq with rfl | hq | hq
        · exact Or.inr (Or.inr (by simp))
        · exact Or.inr (Or.inl (by simp [hq]))
        · exact Or.inr (Or.inl (by simp [hq]))
      · right; right
        split
        · rfl
        · exact hn)
    fuel Q ctx ctx' hc h
  simpa using this

/-- Erasing the subtrees of all the fingerprints of `D` in turn closes the
links. -/
theorem PruneTree.eraseAll_closed (old : ConcMap MolpherMolecule) :
    ∀ (D : List String) (ctx ctx' : PathFinderContext),
      LinksClosed old D ctx.candidates →
      D.foldlM (fun c child => EraseSubTree child c) ctx = some ctx' →
      LinksClosed old [] ctx'.candidates := by
  intro D
  induction D with
  | nil =>
    intro ctx ctx' hc h
    simp only [List.foldlM_nil, pure, Option.some.injEq] at h
    exact h ▸ hc
  | cons a D ih =>
    intro ctx ctx' hc h
    rw [List.foldlM_cons] at h
    cases he : EraseSubTree a ctx with
    | none => rw [he] at h; simp at h
    | some c₁ =>
      rw [he] at h
      simp only [bind, Option.bind] at h
      exact ih c₁ ctx' (EraseSubTree.loop_closed old D _ [a] ctx c₁ (by simpa using hc) he) h

/-- The block under `if (prune)` closes the links. -/
theorem PruneTree.pruneNode_closed (old : ConcMap MolpherMolecule) (deferred : Bool)
    (smile : String) (node : MolpherMolecule) (ctx ctx' : PathFinderContext)
    (hn : ctx.candidates.find smile = some node)
    (hc : LinksClosed old [] ctx.candidates)
    (h : PruneTree.pruneNode deferred smile node ctx = some ctx') :
    LinksClosed old [] ctx'.candidates := by
  rcases PruneTree.pruneNode_cases _ _ _ _ _ h with
    ⟨_, _, parent, hp, he⟩ | ⟨_, ctx₁, hf, hcs, rfl⟩
  · refine EraseSubTree.loop_closed old [] _ [smile] _ ctx' ?_ he
    intro k v₀ x hk hx
    rcases hc k v₀ x hk hx with ⟨v, hv, hxv⟩ | hq | hnone
    · by_cases e : node.parentSmile = k
      · subst e
        rw [hp] at hv
        cases hv
        by_cases ex : x = smile
        · exact Or.inr (Or.inl (by simp [ex]))
        · refine Or.inl ⟨PruneTree.withoutChild parent smile, ?_, ?_⟩
          · simp [ConcMap.find_assign]
          · exact (StrSet.mem_erase _ _ _).mpr ⟨hxv, ex⟩
      · exact Or.inl ⟨v, by simp [ConcMap.find_assign, e, hv], hxv⟩
    · cases hq
    · right; right
      simp only [ConcMap.find_assign]
      split
      · rename_i e
        subst e
        rw [hp] at hnone; cases hnone
      · exact hnone
  · have h₁ := PruneTree.eraseAll_closed old node.descendants ctx ctx₁
      (hc.weaken (fun _ hq => (List.not_mem_nil _ hq).elim)) hf
    have herased := PruneTree.eraseAll_erased node.descendants ctx ctx₁ hf
    have hfind := PruneTree.eraseAll_find node.descendants ctx ctx₁ hf
    rw [ConcMap.contains_iff] at hcs
    obtain ⟨v₁, hv₁⟩ := hcs
    have hnode : v₁ = node := by
      have := hfind smile v₁ hv₁
      rw [hn] at this
      exact (Option.some.inj this).symm
    subst hnode
    intro k v₀ x hk hx
    simp only [ConcMap.find_assign]
    rcases h₁ k v₀ x hk hx with ⟨v, hv, hxv⟩ | hq | hnone
    · by_cases e : smile = k
      · subst e
        rw [hv₁] at hv
        cases hv
        right; right
        have hx' := herased x hxv
        split
        · rename_i e'
          subst e'
          rw [hv₁] at hx'; cases hx'
        · exact hx'
      · exact Or.inl ⟨v, by simp [e, hv], hxv⟩
    · cases hq
    · right; right
      split
      · rename_i e
        subst e
        rw [hv₁] at hnone; cases hnone
      · exact hnone

theorem PathFinder.PruneTree.call_closed (old : ConcMap MolpherMolecule)
    (mDeferred : SmileSet) (smile : String) (ctx ctx' : PathFinderContext) (fed : List String)
    (hc : LinksClosed old [] ctx.candidates)
    (h : PathFinder.PruneTree.call mDeferred smile ctx = some (ctx', fed)) :
    LinksClosed old [] ctx'.candidates := by
  obtain ⟨node, hn, hcase⟩ := PathFinder.PruneTree.call_cases _ _ _ _ _ h
  rcases hcase with ⟨rfl, _⟩ | ⟨_, _, hp⟩
  · exact hc
  · exact PruneTree.pruneNode_closed old _ _ _ _ _ hn hc hp

theorem PathFinderActivity.PruneTree.call_closed_act (old : ConcMap MolpherMolecule)
    (mDeferred : SmileSet) (smile : String) (ctx ctx' : PathFinderContext) (fed : List String)
    (hc : LinksClosed old [] ctx.candidates)
    (h : PathFinderActivity.PruneTree.call mDeferred smile ctx = some (ctx', fed)) :
    LinksClosed old [] ctx'.candidates := by
  obtain ⟨node, hn, hcase⟩ := PathFinderActivity.PruneTree.call_cases_act _ _ _ _ _ h
  rcases hcase with ⟨rfl, _⟩ | ⟨_, _, rfl, _⟩ | ⟨_, _, _, hp⟩
  · exact hc
  · intro k v₀ x hk hx
    simp only [ConcMap.find_assign]
    rcases hc k v₀ x hk hx with ⟨v, hv, hxv⟩ | hq | hnone
    · by_cases e : smile = k
      · subst e
        rw [hn] at hv
        cases hv
        exact Or.inl ⟨{ node with decayed := true }, by simp, hxv⟩
      · exact Or.inl ⟨v, by simp [e, hv], hxv⟩
    · cases hq
    · right; right
      split
      · rename_i e
        subst e
        rw [hn] at hnone; cases hnone
      · exact hnone
  · exact PruneTree.pruneNode_closed old _ _ _ _ _ hn hc hp

/-- After the path-mode worklist every link of the tree it started from is
still there or leads to an erased candidate. -/
theorem PathFinder.PruneTree.closed (mDeferred : SmileSet) (fuel : Nat) (Q : List String)
    (ctx ctx' : PathFinderContext)
    (h : PathFinder.PruneTree mDeferred fuel Q ctx = some ctx') :
    LinksClosed ctx.candidates [] ctx'.candidates :=
  PathFinder.PruneTree.worklist_rec mDeferred
    (fun _ c => LinksClosed ctx.candidates [] c.candidates)
    (fun _ _ _ _ _ hR hc => PathFinder.PruneTree.call_closed _ _ _ _ _ _ hR hc)
    fuel Q ctx ctx' (LinksClosed.closed_refl _) h

theorem PathFinderActivity.PruneTree.closed_act (mDeferred : SmileSet) (fuel : Nat)
    (Q : List String) (ctx ctx' : PathFinderContext)
    (h : PathFinderActivity.PruneTree mDeferred fuel Q ctx = some ctx') :
    LinksClosed ctx.candidates [] ctx'.candidates :=
  PathFinderActivity.PruneTree.worklist_rec_act mDeferred
    (fun _ c => LinksClosed ctx.candidates [] c.candidates)
    (fun _ _ _ _ _ hR hc => PathFinderActivity.PruneTree.call_closed_act _ _ _ _ _ _ hR hc)
    fuel Q ctx ctx' (LinksClosed.closed_refl _) h

/-- A visit of the path-mode worklist: its call completes, and the rest of the
run, which only shrinks the tree, ends in the result of the whole run. -/
theorem PathFinder.PruneTree.visit_run (mDeferred : SmileSet) :
    ∀ (fuel : Nat) (Q : List String) (ctx ctx' : PathFinderContext),
      PathFinder.PruneTree mDeferred fuel Q ctx = some ctx' →
      ∀ f queue c, (f, queue, c) ∈ PathFinder.PruneTree.visits mDeferred fuel Q ctx →
        Shrinks ctx c ∧
        ∃ c₁ fed n, PathFinder.PruneTree.call mDeferred f c = some (c₁, fed) ∧
          PathFinder.PruneTree mDeferred n (queue ++ fed) c₁ = some ctx' := by
  intro fuel
  induction fuel with
  | zero =>
    intro Q ctx ctx' _ f queue c hv
    cases Q <;> simp [PathFinder.PruneTree.visits] at hv
  | succ n ih =>
    intro Q ctx ctx' h f queue c hv
    cases Q with
    | nil => simp [PathFinder.PruneTree.visits] at hv
    | cons smile rest =>
      simp only [PathFinder.PruneTree] at h
      simp only [PathFinder.PruneTree.visits, List.mem_cons] at hv
      cases hc : PathFinder.PruneTree.call mDeferred smile ctx with
      | none => rw [hc] at h; simp at h
      | some r =>
        obtain ⟨c₁, fed⟩ := r
        rw [hc] at h hv
        simp only [] at h hv
        rcases hv with hv | hv
        · simp only [Prod.mk.injEq] at hv
          obtain ⟨rfl, rfl, rfl⟩ := hv
          exact ⟨Shrinks.shrinks_refl _, c₁, fed, n, hc, h⟩
        · obtain ⟨hs, hrest⟩ := ih _ _ _ h f queue c hv
          exact ⟨(PathFinder.PruneTree.call_shrinks _ _ _ _ _ hc).shrinks_trans hs, hrest⟩

theorem PathFinderActivity.PruneTree.visit_run_act (mDeferred : SmileSet) :
    ∀ (fuel : Nat) (Q : List String) (ctx ctx' : PathFinderContext),
      PathFinderActivity.PruneTree mDeferred fuel Q ctx = some ctx' →
      ∀ f queue c, (f, queue, c) ∈ PathFinderActivity.PruneTree.visits mDeferred fuel Q ctx →
        Shrinks ctx c ∧
        ∃ c₁ fed n, PathFinderActivity.PruneTree.call mDeferred f c = some (c₁, fed) ∧
          PathFinderActivity.PruneTree mDeferred n (queue ++ fed) c₁ = some ctx' := by
  intro fuel
  induction fuel with
  | zero =>
    intro Q ctx ctx' _ f queue c hv
    cases Q <;> simp [PathFinderActivity.PruneTree.visits] at hv
  | succ n ih =>
    intro Q ctx ctx' h f queue c hv
    cases Q with
    | nil => simp [PathFinderActivity.PruneTree.visits] at hv
    | cons smile rest =>
      simp only [PathFinderActivity.PruneTree] at h
      simp only [PathFinderActivity.PruneTree.visits, List.mem_cons] at hv
      cases hc : PathFinderActivity.PruneTree.call mDeferred smile ctx with
      | none => rw [hc] at h; simp at h
      | some r =>
        obtain ⟨c₁, fed⟩ := r
        rw [hc] at h hv
        simp only [] at h hv
        rcases hv with hv | hv
        · simp only [Prod.mk.injEq] at hv
          obtain ⟨rfl, rfl, rfl⟩ := hv
          exact ⟨Shrinks.shrinks_refl _, c₁, fed, n, hc, h⟩
        · obtain ⟨hs, hrest⟩ := ih _ _ _ h f queue c hv
          exact ⟨(PathFinderActivity.PruneTree.call_shrinks_act _ _ _ _ _ hc).shrinks_trans hs,
            hrest⟩

/-- The whole-subtree branch of the block under `if (prune)`: the node is gone
and its parent, which was a key, no longer lists it. -/
theorem PruneTree.pruneNode_whole (deferred : Bool) (smile : String) (node : MolpherMolecule)
    (ctx ctx' : PathFinderContext)
    (hb : (deferred || PruneTree.tooManyDerivations ctx smile) = true)
    (h : PruneTree.pruneNode deferred smile node ctx = some ctx') :
    ctx'.candidates.find smile = none ∧
    (∃ parent, ctx.candidates.find node.parentSmile = some parent) ∧
    (∀ p, ctx'.candidates.find node.parentSmile = some p → smile ∉ p.descendants) := by
  rcases PruneTree.pruneNode_cases _ _ _ _ _ h with
    ⟨_, _, parent, hp, he⟩ | ⟨hb', _⟩
  · refine ⟨EraseSubTree.loop_erased _ _ _ _ he smile (List.mem_singleton_self _),
      ⟨parent, hp⟩, fun p hfp hmem => ?_⟩
    have := EraseSubTree.loop_find _ _ _ _ he _ _ hfp
    simp only [ConcMap.find_assign_self, Option.some.injEq] at this
    subst this
    exact ((StrSet.mem_erase _ _ _).mp hmem).2 rfl
  · rw [hb] at hb'; cases hb'

/-- The purge branch of the block under `if (prune)`: the node stays, with no
descendants and the counter at zero. -/
theorem PruneTree.pruneNode_purge (deferred : Bool) (smile : String) (node : MolpherMolecule)
    (ctx ctx' : PathFinderContext)
    (hb : (deferred || PruneTree.tooManyDerivations ctx smile) = false)
    (h : PruneTree.pruneNode deferred smile node ctx = some ctx') :
    ctx'.candidates.find smile = some (PruneTree.purged node) := by
  rcases PruneTree.pruneNode_cases _ _ _ _ _ h with
    ⟨hb', _⟩ | ⟨_, ctx₁, _, _, rfl⟩
  · rw [hb] at hb'; cases hb'
  · simp [ConcMap.find_assign]

theorem PruneTree.tooMany_congr {c c' : PathFinderContext} (h : Shrinks c c') (smile : String) :
    PruneTree.tooManyDerivations c' smile = PruneTree.tooManyDerivations c smile := by
  unfold PruneTree.tooManyDerivations
  rw [h.1, h.2.1]

/-- A path-mode visit that takes the whole-subtree branch: at the end of the run
the node and everything that was below it are gone, and the candidate keyed by
its `parentSmile`, a key when the node was visited, no longer lists it. -/
theorem PathFinder.PruneTree.visit_whole (mDeferred : SmileSet) (fuel : Nat) (Q : List String)
    (ctx ctx' : PathFinderContext)
    (h : PathFinder.PruneTree mDeferred fuel Q ctx = some ctx')
    (f : String) (queue : List String) (c : PathFinderContext) (node : MolpherMolecule)
    (hv : (f, queue, c) ∈ PathFinder.PruneTree.visits mDeferred fuel Q ctx)
    (hn : c.candidates.find f = some node)
    (hp : f ∈ mDeferred ∨
      (node.itersWithoutDistImprovement > c.params.itThreshold ∧
        PruneTree.tooManyDerivations c f = true)) :
    ctx'.candidates.find f = none ∧
    (∀ d, Below ctx.candidates f d → ctx'.candidates.find d = none) ∧
    (∃ parent, c.candidates.find node.parentSmile = some parent) ∧
    (∀ p, ctx'.candidates.find node.parentSmile = some p → f ∉ p.descendants) := by
  obtain ⟨_, c₁, fed, n, hc, hrest⟩ := PathFinder.PruneTree.visit_run _ _ _ _ _ h f queue c hv
  have hs := PathFinder.PruneTree.shrinks _ _ _ _ _ hrest
  obtain ⟨node', hn', hcase⟩ := PathFinder.PruneTree.call_cases _ _ _ _ _ hc
  rw [hn] at hn'
  cases hn'
  rcases hcase with ⟨_, _, hnd, hns⟩ | ⟨_, _, hprune⟩
  · rcases hp with hp | hp
    · exact absurd hp hnd
    · exact absurd hp.1 hns
  · have hb : (decide (f ∈ mDeferred) || PruneTree.tooManyDerivations c f) = true := by
      rcases hp with hp | hp
      · simp [hp]
      · simp [hp.2]
    obtain ⟨hgone, hparent, hlist⟩ := PruneTree.pruneNode_whole _ _ _ _ _ hb hprune
    have hgone' := hs.find_none hgone
    refine ⟨hgone', fun d hd => ?_, hparent, fun p hfp hmem => ?_⟩
    · exact (PathFinder.PruneTree.closed _ _ _ _ _ h).absent hd
        (fun v hfv => by rw [hgone'] at hfv; cases hfv)
    · obtain ⟨v, hv₁, hl⟩ := hs.2.2.2.2.2.2.2.1 _ p hfp
      exact hlist v hv₁ (hl.2.1 f hmem)

/-- The deferred fingerprints are those of `deferredMols` other than the
source's and, in scaffold mode, the temporary source's. -/
theorem PathFinder.mem_deferredSmiles (ctx : PathFinderContext)
    (deferredMols : List MolpherMolecule) (x : String) :
    x ∈ PathFinder.deferredSmiles ctx deferredMols ↔
      (∃ m, m ∈ deferredMols ∧ m.smile = x) ∧ x ≠ ctx.source.smile ∧
        (ctx.ScaffoldMode = true → x ≠ ctx.tempSource.smile) := by
  unfold PathFinder.deferredSmiles
  have key : ∀ (l : List MolpherMolecule) (s : SmileSet),
      x ∈ l.foldl
        (fun s it =>
          if decide (it.smile = ctx.source.smile) ||
              (ctx.ScaffoldMode && decide (it.smile = ctx.tempSource.smile)) then s
          else (SmileSet.insert s it.smile).1) s ↔
      x ∈ s ∨ ((∃ m, m ∈ l ∧ m.smile = x) ∧ x ≠ ctx.source.smile ∧
        (ctx.ScaffoldMode = true → x ≠ ctx.tempSource.smile)) := by
    intro l
    induction l with
    | nil => intro s; simp
    | cons a l ih =>
      intro s
      rw [List.foldl_cons, ih]
      split
      · rename_i hskip
        simp only [Bool.or_eq_true, decide_eq_true_eq, Bool.and_eq_true] at hskip
        constructor
        · rintro (hs | ⟨⟨m, hm, rfl⟩, h1, h2⟩)
          · exact Or.inl hs
          · exact Or.inr ⟨⟨m, List.mem_cons_of_mem _ hm, rfl⟩, h1, h2⟩
        · rintro (hs | ⟨⟨m, hm, rfl⟩, h1, h2⟩)
          · exact Or.inl hs
          · rcases List.mem_cons.mp hm with rfl | hm
            · rcases hskip with e | ⟨e1, e2⟩
              · exact absurd e h1
              · exact absurd e2 (h2 e1)
            · exact Or.inr ⟨⟨m, hm, rfl⟩, h1, h2⟩
      · rename_i hskip
        simp only [Bool.or_eq_true, decide_eq_true_eq, Bool.and_eq_true, not_or, not_and] at hskip
        rw [SmileSet.mem_insert_fst]
        constructor
        · rintro ((rfl | hs) | ⟨⟨m, hm, rfl⟩, h1, h2⟩)
          · exact Or.inr ⟨⟨a, List.mem_cons_self _ _, rfl⟩, hskip.1, hskip.2⟩
          · exact Or.inl hs
          · exact Or.inr ⟨⟨m, List.mem_cons_of_mem _ hm, rfl⟩, h1, h2⟩
        · rintro (hs | ⟨⟨m, hm, rfl⟩, h1, h2⟩)
          · exact Or.inl (Or.inr hs)
          · rcases List.mem_cons.mp hm with rfl | hm
            · exact Or.inl (Or.inl rfl)
            · exact Or.inr ⟨⟨m, hm, rfl⟩, h1, h2⟩
  rw [key]
  simp

/-- The erase loop erases the fingerprints of its deque and what is below them,
and nothing else. -/
theorem EraseSubTree.loop_exact (fuel : Nat) (Q : List String) (ctx ctx' : PathFinderContext)
    (h : EraseSubTree.loop fuel Q ctx = some ctx') :
    (∀ k, (k ∈ Q ∨ ∃ r, r ∈ Q ∧ Below ctx.candidates r k) → ctx'.candidates.find k = none) ∧
    (∀ k, ¬ (k ∈ Q ∨ ∃ r, r ∈ Q ∧ Below ctx.candidates r k) →
      ctx'.candidates.find k = ctx.candidates.find k) := by
  constructor
  · intro k hk
    have herased := EraseSubTree.loop_erased _ _ _ _ h
    rcases hk with hk | ⟨r, hr, hb⟩
    · exact herased k hk
    · have hcl := EraseSubTree.loop_closed ctx.candidates [] fuel Q ctx ctx'
        ((LinksClosed.closed_refl _).weaken (fun _ hq => (List.not_mem_nil _ hq).elim)) h
      exact hcl.absent hb (fun v hv => by rw [herased r hr] at hv; cases hv)
  · have := EraseSubTree.loop_induct
      (fun Q' c =>
        (∀ q, q ∈ Q' → q ∈ Q ∨ ∃ r, r ∈ Q ∧ Below ctx.candidates r q) ∧
        (∀ k, ¬ (k ∈ Q ∨ ∃ r, r ∈ Q ∧ Below ctx.candidates r k) →
          c.candidates.find k = ctx.candidates.find k) ∧
        (∀ k v, c.candidates.find k = some v → ctx.candidates.find k = some v))
      (by
        intro current rest c node hR hf
        obtain ⟨hT, hkeep, hsub⟩ := hR
        have hcur := hT current (List.mem_cons_self _ _)
        have hcf := hsub current node hf
        refine ⟨fun q hq => ?_, fun k hk => ?_, fun k v hkv => ?_⟩
        · rcases List.mem_append.mp hq with hq | hq
          · exact hT q (List.mem_cons_of_mem _ hq)
          · rcases hcur with hc | ⟨r, hr, hb⟩
            · exact Or.inr ⟨current, hc, Below.child current q node hcf hq⟩
            · exact Or.inr ⟨r, hr, hb.snoc hcf hq⟩
        · have hne : current ≠ k := fun e => hk (e ▸ hcur)
          simp only [EraseSubTree.eraseNode, ConcMap.find_erase, hne, if_false]
          exact hkeep k hk
        · simp only [EraseSubTree.eraseNode, ConcMap.find_erase] at hkv
          split at hkv
          · cases hkv
          · exact hsub k v hkv)
      fuel Q ctx ctx' ⟨fun q hq => Or.inl hq, fun _ _ => rfl, fun _ _ hk => hk⟩ h
    exact this.2.1

/-- Erasing the subtrees of the children `D` of `s` in turn erases nothing
outside what is below `s`. -/
theorem PruneTree.eraseAll_outside (s : String) (base : ConcMap MolpherMolecule)
    (D : List String) (hD : ∀ a, a ∈ D → Below base s a) (ctx ctx' : PathFinderContext)
    (hsub : ∀ k v, ctx.candidates.find k = some v → base.find k = some v)
    (h : D.foldlM (fun c child => EraseSubTree child c) ctx = some ctx') :
    ∀ k, ¬ Below base s k → ctx'.candidates.find k = ctx.candidates.find k := by
  have := foldlM_invariant
    (fun c => (∀ k v, c.candidates.find k = some v → base.find k = some v) ∧
      ∀ k, ¬ Below base s k → c.candidates.find k = ctx.candidates.find k)
    (fun c child => EraseSubTree child c) D
    (by
      intro c a c' ha hs he
      refine ⟨fun k v hk => hs.1 k v (EraseSubTree.loop_find _ _ _ _ he k v hk), fun k hk => ?_⟩
      rw [← hs.2 k hk]
      apply (EraseSubTree.loop_exact _ _ _ _ he).2
      rintro (hmem | ⟨r, hr, hb⟩)
      · rw [List.mem_singleton] at hmem
        exact hk (hmem ▸ hD a ha)
      · rw [List.mem_singleton] at hr
        subst hr
        exact hk ((hD r ha).below_trans
          (Below.below_mono (fun k v hv => ⟨v, hs.1 k v hv, fun _ hd => hd⟩) hb)))
    ctx ctx' ⟨hsub, fun _ _ => rfl⟩ h
  exact this.2

/-- The effect of a completed block under `if (prune)`. -/
theorem PruneTree.pruneNode_effect (deferred : Bool) (smile : String) (node : MolpherMolecule)
    (ctx ctx' : PathFinderContext) (hn : ctx.candidates.find smile = some node)
    (h : PruneTree.pruneNode deferred smile node ctx = some ctx') :
    PruneEffect smile [] ctx.candidates ctx'.candidates := by
  have hclosed := PruneTree.pruneNode_closed ctx.candidates deferred smile node ctx ctx' hn
    (LinksClosed.closed_refl _) h
  refine ⟨node, hn, Or.inr ?_⟩
  rcases PruneTree.pruneNode_cases _ _ _ _ _ h with
    ⟨hb, hne, parent, hp, he⟩ | ⟨hb, ctx₁, hf, hcs, rfl⟩
  · left
    have hgone := EraseSubTree.loop_erased _ _ _ _ he smile (List.mem_singleton_self _)
    refine ⟨rfl, parent, hp, hne, fun k hk => ?_, fun k hk => ?_⟩
    · rcases hk with rfl | hk
      · exact hgone
      · exact hclosed.absent hk (fun v hv => by rw [hgone] at hv; cases hv)
    · rw [(EraseSubTree.loop_exact _ _ _ _ he).2 k]
      · simp only [ConcMap.find_assign]
      · rintro (hmem | ⟨r, hr, hb'⟩)
        · rw [List.mem_singleton] at hmem
          exact hk (Or.inl hmem)
        · rw [List.mem_singleton] at hr
          subst hr
          refine hk (Or.inr (Below.below_mono (fun k' v' hv' => ?_) hb'))
          simp only [ConcMap.find_assign] at hv'
          split at hv'
          · rename_i e
            subst e
            simp only [Option.some.injEq] at hv'
            subst hv'
            exact ⟨parent, hp, fun d hd => ((StrSet.mem_erase _ _ _).mp hd).1⟩
          · exact ⟨v', hv', fun _ hd => hd⟩
  · right
    have hpur : ({ ctx₁ with candidates :=
        ctx₁.candidates.assign smile (PruneTree.purged node) } : PathFinderContext).candidates.find
          smile = some (PruneTree.purged node) := by simp [ConcMap.find_assign]
    have habs : ∀ k, Below ctx.candidates smile k →
        ({ ctx₁ with candidates :=
          ctx₁.candidates.assign smile (PruneTree.purged node) } : PathFinderContext).candidates.find
            k = none := fun k hk =>
      hclosed.absent hk (fun v hv => by rw [hpur] at hv; cases hv; rfl)
    refine ⟨rfl, fun hcyc => ?_, habs, fun k hk => ?_⟩
    · have := habs smile hcyc
      rw [hpur] at this; cases this
    · simp only [ConcMap.find_assign]
      split
      · rfl
      · exact PruneTree.eraseAll_outside smile ctx.candidates node.descendants
          (fun a ha => Below.child smile a node hn ha) ctx ctx₁ (fun _ _ hv => hv) hf k hk

theorem PathFinder.PruneTree.call_effect (mDeferred : SmileSet) (smile : String)
    (ctx ctx' : PathFinderContext) (fed : List String)
    (h : PathFinder.PruneTree.call mDeferred smile ctx = some (ctx', fed)) :
    PruneEffect smile fed ctx.candidates ctx'.candidates := by
  obtain ⟨node, hn, hcase⟩ := PathFinder.PruneTree.call_cases _ _ _ _ _ h
  rcases hcase with ⟨rfl, rfl, _⟩ | ⟨rfl, _, hp⟩
  · exact ⟨node, hn, Or.inl ⟨rfl, fun k v hk => ⟨v, hk, rfl, rfl⟩, fun _ hk => hk⟩⟩
  · exact PruneTree.pruneNode_effect _ _ _ _ _ hn hp

theorem PathFinderActivity.PruneTree.call_effect_act (mDeferred : SmileSet) (smile : String)
    (ctx ctx' : PathFinderContext) (fed : List String)
    (h : PathFinderActivity.PruneTree.call mDeferred smile ctx = some (ctx', fed)) :
    PruneEffect smile fed ctx.candidates ctx'.candidates := by
  obtain ⟨node, hn, hcase⟩ := PathFinderActivity.PruneTree.call_cases_act _ _ _ _ _ h
  rcases hcase with ⟨rfl, rfl⟩ | ⟨_, _, rfl, rfl⟩ | ⟨rfl, _, _, hp⟩
  · exact ⟨node, hn, Or.inl ⟨rfl, fun k v hk => ⟨v, hk, rfl, rfl⟩, fun _ hk => hk⟩⟩
  · refine ⟨node, hn, Or.inl ⟨rfl, fun k v hk => ?_, fun k hk => ?_⟩⟩
    · simp only [ConcMap.find_assign]
      split
      · rename_i e
        subst e
        rw [hn] at hk
        cases hk
        exact ⟨_, rfl, rfl, rfl⟩
      · exact ⟨v, hk, rfl, rfl⟩
    · simp only [ConcMap.find_assign]
      split
      · rename_i e
        subst e
        rw [hn] at hk; cases hk
      · exact hk
  · exact PruneTree.pruneNode_effect _ _ _ _ _ hn hp

theorem TreeShaped.unique {cands : ConcMap MolpherMolecule} (h : TreeShaped cands)
    {k k' d : String} {v v' : MolpherMolecule} (hk : cands.find k = some v)
    (hk' : cands.find k' = some v') (hd : d ∈ v.descendants) (hd' : d ∈ v'.descendants) :
    k = k' := by
  obtain ⟨w, hw, hp⟩ := h.2 k v d hk hd
  obtain ⟨w', hw', hp'⟩ := h.2 k' v' d hk' hd'
  rw [hw] at hw'
  cases hw'
  exact hp.symm.trans hp'

/-- On a tree, what is above a child is its lister or above the lister. -/
theorem TreeShaped.above_child {cands : ConcMap MolpherMolecule} (h : TreeShaped cands)
    {q s d : String} {v : MolpherMolecule} (hs : cands.find s = some v)
    (hd : d ∈ v.descendants) (hb : Below cands q d) : q = s ∨ Below cands q s := by
  obtain ⟨k, w, hk, hdw, hor⟩ := hb.last
  have e := h.unique hk hs hdw hd
  subst e
  rcases hor with e | hb'
  · exact Or.inl e.symm
  · exact Or.inr hb'

/-- Every candidate left by a visit was a candidate before, with the same
parent and with `descendants` a sublist of what it was. -/
theorem PruneEffect.back {s : String} {fed : List String} {c c' : ConcMap MolpherMolecule}
    (h : PruneEffect s fed c c') :
    ∀ k v', c'.find k = some v' → ∃ v, c.find k = some v ∧
      v'.parentSmile = v.parentSmile ∧ v'.descendants.Sublist v.descendants := by
  intro k v' hk
  obtain ⟨node, hn, hcase⟩ := h
  rcases hcase with ⟨_, hfw, hnone⟩ | ⟨_, parent, hp, _, hgone, hkeep⟩ | ⟨_, _, hgone, hkeep⟩
  · cases hc : c.find k with
    | none => rw [hnone k hc] at hk; cases hk
    | some v =>
      obtain ⟨v'', hv'', h1, h2⟩ := hfw k v hc
      rw [hk] at hv''
      cases hv''
      exact ⟨v, rfl, h1, h2 ▸ List.Sublist.refl _⟩
  · by_cases hT : k = s ∨ Below c s k
    · rw [hgone k hT] at hk; cases hk
    · rw [hkeep k hT] at hk
      split at hk
      · rename_i e
        subst e
        cases hk
        exact ⟨parent, hp, rfl, List.filter_sublist _⟩
      · exact ⟨v', hk, rfl, List.Sublist.refl _⟩
  · by_cases hT : Below c s k
    · rw [hgone k hT] at hk; cases hk
    · rw [hkeep k hT] at hk
      split at hk
      · rename_i e
        subst e
        cases hk
        exact ⟨node, hn, rfl, List.nil_sublist _⟩
      · exact ⟨v', hk, rfl, List.Sublist.refl _⟩

theorem PruneEffect.effect_below {s : String} {fed : List String} {c c' : ConcMap MolpherMolecule}
    (h : PruneEffect s fed c c') {f d : String} (hb : Below c' f d) : Below c f d :=
  Below.below_mono (fun k v' hk => by
    obtain ⟨v, hv, _, hs⟩ := h.back k v' hk
    exact ⟨v, hv, fun d hd => hs.subset hd⟩) hb

/-- What a visit feeds are descendants of the visited node. -/
theorem PruneEffect.fed_sub {s : String} {fed : List String} {c c' : ConcMap MolpherMolecule}
    (h : PruneEffect s fed c c') : ∀ d, d ∈ fed → Below c s d := by
  intro d hd
  obtain ⟨node, hn, hcase⟩ := h
  rcases hcase with ⟨rfl, _⟩ | ⟨rfl, _⟩ | ⟨rfl, _⟩
  · exact Below.child s d node hn hd
  · cases hd
  · cases hd

/-- A visit erases nothing outside the visited node and what is below it. -/
theorem PruneEffect.keeps {s : String} {fed : List String} {c c' : ConcMap MolpherMolecule}
    (h : PruneEffect s fed c c') {k : String} (hk : c.contains k = true) (hne : k ≠ s)
    (hnb : ¬ Below c s k) : c'.contains k = true := by
  rw [ConcMap.contains_iff] at hk ⊢
  obtain ⟨v, hv⟩ := hk
  obtain ⟨node, hn, hcase⟩ := h
  rcases hcase with ⟨_, hfw, _⟩ | ⟨_, parent, hp, _, _, hkeep⟩ | ⟨_, _, _, hkeep⟩
  · obtain ⟨v', hv', _⟩ := hfw k v hv
    exact ⟨v', hv'⟩
  · rw [hkeep k (fun hT => hT.elim hne hnb)]
    split
    · exact ⟨_, rfl⟩
    · exact ⟨v, hv⟩
  · rw [hkeep k hnb]
    split
    · exact ⟨_, rfl⟩
    · exact ⟨v, hv⟩

/-- A candidate out of reach of the worklist stays so over a visit. -/
theorem Safe.safe_step {f s : String} {queue fed : List String} {c c' : ConcMap MolpherMolecule}
    (hS : Safe f (s :: queue) c) (h : PruneEffect s fed c c') : Safe f (queue ++ fed) c' := by
  obtain ⟨hpres, hnq, hnb⟩ := hS
  have hfs : f ≠ s := fun e => hnq (e ▸ List.mem_cons_self _ _)
  have hsf : ¬ Below c s f := hnb s (List.mem_cons_self _ _)
  refine ⟨h.keeps hpres hfs hsf, fun hmem => ?_, fun q hq hb => ?_⟩
  · rcases List.mem_append.mp hmem with hm | hm
    · exact hnq (List.mem_cons_of_mem _ hm)
    · exact hsf (h.fed_sub f hm)
  · have hb' := h.effect_below hb
    rcases List.mem_append.mp hq with hm | hm
    · exact hnb q (List.mem_cons_of_mem _ hm) hb'
    · exact hsf ((h.fed_sub q hm).below_trans hb')

/-- On a tree, a visited node that the visit leaves in the map is out of reach
of the rest of the run. -/
theorem TreeInv.safe_after {f : String} {queue fed : List String}
    {c c' : ConcMap MolpherMolecule} (hT : TreeInv (f :: queue) c)
    (h : PruneEffect f fed c c') (hpres : c'.contains f = true) :
    Safe f (queue ++ fed) c' := by
  obtain ⟨_, hnd, _, hanti⟩ := hT
  have hff : ¬ Below c f f := hanti f (List.mem_cons_self _ _) f (List.mem_cons_self _ _)
  refine ⟨hpres, fun hmem => ?_, fun q hq hb => ?_⟩
  · rcases List.mem_append.mp hmem with hm | hm
    · exact (List.nodup_cons.mp hnd).1 hm
    · exact hff (h.fed_sub f hm)
  · have hb' := h.effect_below hb
    rcases List.mem_append.mp hq with hm | hm
    · exact hanti q (List.mem_cons_of_mem _ hm) f (List.mem_cons_self _ _) hb'
    · exact hff ((h.fed_sub q hm).below_trans hb')

/-- A visit keeps the worklist state that of a traversal of a tree. -/
theorem TreeInv.tree_step {s : String} {queue fed : List String} {c c' : ConcMap MolpherMolecule}
    (hT : TreeInv (s :: queue) c) (h : PruneEffect s fed c c') : TreeInv (queue ++ fed) c' := by
  have hback := h.back
  have hbelow := @PruneEffect.effect_below _ _ _ _ h
  have hfed := h.fed_sub
  have hkeeps := @PruneEffect.keeps _ _ _ _ h
  obtain ⟨hshape, hnd, hpres, hanti⟩ := hT
  have hsq : s ∉ queue := (List.nodup_cons.mp hnd).1
  have hqnd : queue.Nodup := (List.nodup_cons.mp hnd).2
  have hss : ¬ Below c s s := hanti s (List.mem_cons_self _ _) s (List.mem_cons_self _ _)
  have hqs : ∀ q, q ∈ queue → ¬ Below c q s := fun q hq =>
    hanti q (List.mem_cons_of_mem _ hq) s (List.mem_cons_self _ _)
  have hsq' : ∀ q, q ∈ queue → ¬ Below c s q := fun q hq =>
    hanti s (List.mem_cons_self _ _) q (List.mem_cons_of_mem _ hq)
  obtain ⟨node, hn, hcase⟩ := h
  -- the four parts that do not depend on the branch, given the shape of `c'`
  have hrest : TreeShaped c' → fed.Nodup → (∀ d, d ∈ fed → d ∈ node.descendants) →
      (∀ d, d ∈ fed → c'.contains d = true) → TreeInv (queue ++ fed) c' := by
    intro hshape' hfnd hfsub hfpres
    refine ⟨hshape', ?_, ?_, ?_⟩
    · rw [List.nodup_append]
      exact ⟨hqnd, hfnd, fun d hd hd' => hsq' d hd (hfed d hd')⟩
    · intro q hq
      rcases List.mem_append.mp hq with hm | hm
      · exact hkeeps (hpres q (List.mem_cons_of_mem _ hm)) (fun e => hsq (e ▸ hm)) (hsq' q hm)
      · exact hfpres q hm
    · intro q hq q' hq' hb
      have hb' := hbelow hb
      rcases List.mem_append.mp hq with hm | hm <;> rcases List.mem_append.mp hq' with hm' | hm'
      · exact hanti q (List.mem_cons_of_mem _ hm) q' (List.mem_cons_of_mem _ hm') hb'
      · rcases hshape.above_child hn (hfsub q' hm') hb' with e | hqs'
        · exact hsq (e ▸ hm)
        · exact hqs q hm hqs'
      · exact hsq' q' hm' ((hfed q hm).below_trans hb')
      · rcases hshape.above_child hn (hfsub q' hm') hb' with e | hqs'
        · exact hss (e ▸ hfed q hm)
        · exact hss ((hfed q hm).below_trans hqs')
  rcases hcase with ⟨rfl, hfw, hnone⟩ | ⟨rfl, parent, hp, hne, hgone, hkeep⟩ |
    ⟨rfl, _, hgone, hkeep⟩
  · refine hrest ⟨fun k v' hk => ?_, fun k v' d hk hd => ?_⟩ (hshape.1 s node hn)
      (fun _ hd => hd) (fun d hd => ?_)
    · obtain ⟨v, hv, _, hs⟩ := hback k v' hk
      exact hs.nodup (hshape.1 k v hv)
    · obtain ⟨v, hv, _, hs⟩ := hback k v' hk
      obtain ⟨w, hw, hpw⟩ := hshape.2 k v d hv (hs.subset hd)
      obtain ⟨w', hw', hpw', _⟩ := hfw d w hw
      exact ⟨w', hw', hpw'.trans hpw⟩
    · obtain ⟨w, hw, _⟩ := hshape.2 s node d hn hd
      obtain ⟨w', hw', _⟩ := hfw d w hw
      exact (ConcMap.contains_iff _ _).mpr ⟨w', hw'⟩
  · refine hrest ⟨fun k v' hk => ?_, fun k v' d hk hd => ?_⟩ List.nodup_nil
      (fun _ hd => (List.not_mem_nil _ hd).elim) (fun _ hd => (List.not_mem_nil _ hd).elim)
    · obtain ⟨v, hv, _, hs⟩ := hback k v' hk
      exact hs.nodup (hshape.1 k v hv)
    · obtain ⟨v, hv, _, hs⟩ := hback k v' hk
      obtain ⟨w, hw, hpw⟩ := hshape.2 k v d hv (hs.subset hd)
      have hkT : ¬ (k = s ∨ Below c s k) := fun hT => by
        rw [hgone k hT] at hk; cases hk
      have hdT : ¬ (d = s ∨ Below c s d) := by
        rintro (rfl | hb)
        · -- `k` lists `d = s`, so `k` is the parent, whose record has lost `s`
          rw [hn] at hw
          cases hw
          rw [hkeep k hkT, if_pos hpw] at hk
          cases hk
          exact ((StrSet.mem_erase _ _ _).mp hd).2 rfl
        · rcases hshape.above_child hv (hs.subset hd) hb with e | hb'
          · exact hkT (Or.inl e.symm)
          · exact hkT (Or.inr hb')
      rw [hkeep d hdT]
      split
      · rename_i e
        rw [e] at hp
        rw [hw] at hp
        cases hp
        exact ⟨_, rfl, hpw⟩
      · exact ⟨w, hw, hpw⟩
  · refine hrest ⟨fun k v' hk => ?_, fun k v' d hk hd => ?_⟩ List.nodup_nil
      (fun _ hd => (List.not_mem_nil _ hd).elim) (fun _ hd => (List.not_mem_nil _ hd).elim)
    · obtain ⟨v, hv, _, hs⟩ := hback k v' hk
      exact hs.nodup (hshape.1 k v hv)
    · obtain ⟨v, hv, _, hs⟩ := hback k v' hk
      obtain ⟨w, hw, hpw⟩ := hshape.2 k v d hv (hs.subset hd)
      have hkT : ¬ Below c s k := fun hT => by
        rw [hgone k hT] at hk; cases hk
      have hks : s ≠ k := by
        rintro rfl
        rw [hkeep s hkT, if_pos rfl] at hk
        cases hk
        cases hd
      have hdT : ¬ Below c s d := by
        intro hb
        rcases hshape.above_child hv (hs.subset hd) hb with e | hb'
        · exact hks e
        · exact hkT hb'
      rw [hkeep d hdT]
      split
      · rename_i e
        subst e
        rw [hn] at hw
        cases hw
        exact ⟨_, rfl, hpw⟩
      · exact ⟨w, hw, hpw⟩

theorem WellFormed.treeInv {roots : List String} {cands : ConcMap MolpherMolecule}
    (h : WellFormed roots cands) : TreeInv roots cands := by
  obtain ⟨hshape, hnd, hpres, hroot⟩ := h
  refine ⟨hshape, hnd, hpres, fun q _ r hr hb => ?_⟩
  obtain ⟨k, v, hk, hrv, _⟩ := hb.last
  obtain ⟨w, hw, hpw⟩ := hshape.2 k v r hk hrv
  have := hroot r hr w hw
  rw [hpw, hk] at this
  cases this

/-- On a tree everything below a candidate is a candidate. -/
theorem TreeShaped.below_present {cands : ConcMap MolpherMolecule} (h : TreeShaped cands)
    {f d : String} (hb : Below cands f d) : cands.contains d = true := by
  obtain ⟨k, v, hk, hdv, _⟩ := hb.last
  obtain ⟨w, hw, _⟩ := h.2 k v d hk hdv
  exact (ConcMap.contains_iff _ _).mpr ⟨w, hw⟩

/-- A visit takes the visited fingerprint off the list of what can still be
visited. -/
theorem Covered.covered_step {T : List String} {s : String} {queue fed : List String}
    {c c' : ConcMap MolpherMolecule} (hT : TreeInv (s :: queue) c)
    (hC : Covered T (s :: queue) c) (h : PruneEffect s fed c c') :
    Covered (T.erase s) (queue ++ fed) c' := by
  obtain ⟨_, hnd, _, hanti⟩ := hT
  have hsq : s ∉ queue := (List.nodup_cons.mp hnd).1
  have hss : ¬ Below c s s := hanti s (List.mem_cons_self _ _) s (List.mem_cons_self _ _)
  constructor
  · intro q hq
    rcases List.mem_append.mp hq with hm | hm
    · have hne : q ≠ s := fun e => hsq (e ▸ hm)
      exact (List.mem_erase_of_ne hne).mpr (hC.1 q (List.mem_cons_of_mem _ hm))
    · have hb := h.fed_sub q hm
      have hne : q ≠ s := fun e => hss (e ▸ hb)
      exact (List.mem_erase_of_ne hne).mpr (hC.2 s (List.mem_cons_self _ _) q hb)
  · intro q hq d hb
    have hb' := h.effect_below hb
    rcases List.mem_append.mp hq with hm | hm
    · have hne : d ≠ s := fun e =>
        hanti q (List.mem_cons_of_mem _ hm) s (List.mem_cons_self _ _) (e ▸ hb')
      exact (List.mem_erase_of_ne hne).mpr (hC.2 q (List.mem_cons_of_mem _ hm) d hb')
    · have hsd := (h.fed_sub q hm).below_trans hb'
      have hne : d ≠ s := fun e => hss (e ▸ hsd)
      exact (List.mem_erase_of_ne hne).mpr (hC.2 s (List.mem_cons_self _ _) d hsd)

/-- The keys of a tree cover what a traversal from candidates can visit. -/
theorem Covered.keys {Q : List String} {cands : ConcMap MolpherMolecule}
    (hT : TreeInv Q cands) : Covered (ConcMap.keys cands).dedup Q cands := by
  constructor
  · intro q hq
    rw [List.mem_dedup, ConcMap.mem_keys_iff, ← ConcMap.contains_iff]
    exact hT.2.2.1 q hq
  · intro q _ d hb
    rw [List.mem_dedup, ConcMap.mem_keys_iff, ← ConcMap.contains_iff]
    exact hT.1.below_present hb

/-- A property of (queue, context) kept by every visit holds at every visit of
the path-mode worklist. -/
theorem PathFinder.PruneTree.visit_inv (mDeferred : SmileSet)
    (R : List String → PathFinderContext → Prop)
    (hstep : ∀ smile queue ctx ctx' fed, R (smile :: queue) ctx →
      PathFinder.PruneTree.call mDeferred smile ctx = some (ctx', fed) →
      R (queue ++ fed) ctx') :
    ∀ fuel Q ctx, R Q ctx →
      ∀ f queue c, (f, queue, c) ∈ PathFinder.PruneTree.visits mDeferred fuel Q ctx →
        R (f :: queue) c := by
  intro fuel
  induction fuel with
  | zero =>
    intro Q ctx _ f queue c hv
    cases Q <;> simp [PathFinder.PruneTree.visits] at hv
  | succ n ih =>
    intro Q ctx hR f queue c hv
    cases Q with
    | nil => simp [PathFinder.PruneTree.visits] at hv
    | cons smile rest =>
      simp only [PathFinder.PruneTree.visits, List.mem_cons] at hv
      rcases hv with hv | hv
      · simp only [Prod.mk.injEq] at hv
        obtain ⟨rfl, rfl, rfl⟩ := hv
        exact hR
      · cases hc : PathFinder.PruneTree.call mDeferred smile ctx with
        | none => rw [hc] at hv; simp at hv
        | some r =>
          obtain ⟨c₁, fed⟩ := r
          rw [hc] at hv
          exact ih _ _ (hstep _ _ _ _ _ hR hc) f queue c hv

theorem PathFinderActivity.PruneTree.visit_inv_act (mDeferred : SmileSet)
    (R : List String → PathFinderContext → Prop)
    (hstep : ∀ smile queue ctx ctx' fed, R (smile :: queue) ctx →
      PathFinderActivity.PruneTree.call mDeferred smile ctx = some (ctx', fed) →
      R (queue ++ fed) ctx') :
    ∀ fuel Q ctx, R Q ctx →
      ∀ f queue c, (f, queue, c) ∈ PathFinderActivity.PruneTree.visits mDeferred fuel Q ctx →
        R (f :: queue) c := by
  intro fuel
  induction fuel with
  | zero =>
    intro Q ctx _ f queue c hv
    cases Q <;> simp [PathFinderActivity.PruneTree.visits] at hv
  | succ n ih =>
    intro Q ctx hR f queue c hv
    cases Q with
    | nil => simp [PathFinderActivity.PruneTree.visits] at hv
    | cons smile rest =>
      simp only [PathFinderActivity.PruneTree.visits, List.mem_cons] at hv
      rcases hv with hv | hv
      · simp only [Prod.mk.injEq] at hv
        obtain ⟨rfl, rfl, rfl⟩ := hv
        exact hR
      · cases hc : PathFinderActivity.PruneTree.call mDeferred smile ctx with
        | none => rw [hc] at hv; simp at hv
        | some r =>
          obtain ⟨c₁, fed⟩ := r
          rw [hc] at hv
          exact ih _ _ (hstep _ _ _ _ _ hR hc) f queue c hv

/-- A candidate out of reach of the path-mode worklist is a candidate at the
end of the run. -/
theorem PathFinder.PruneTree.safe_run (mDeferred : SmileSet) (f : String) (fuel : Nat)
    (Q : List String) (ctx ctx' : PathFinderContext) (hS : Safe f Q ctx.candidates)
    (h : PathFinder.PruneTree mDeferred fuel Q ctx = some ctx') :
    ctx'.candidates.contains f = true :=
  (PathFinder.PruneTree.worklist_rec mDeferred (fun Q c => Safe f Q c.candidates)
    (fun _ _ _ _ _ hR hc => hR.safe_step (PathFinder.PruneTree.call_effect _ _ _ _ _ hc))
    fuel Q ctx ctx' hS h).1

theorem PathFinderActivity.PruneTree.safe_run_act (mDeferred : SmileSet) (f : String)
    (fuel : Nat) (Q : List String) (ctx ctx' : PathFinderContext)
    (hS : Safe f Q ctx.candidates)
    (h : PathFinderActivity.PruneTree mDeferred fuel Q ctx = some ctx') :
    ctx'.candidates.contains f = true :=
  (PathFinderActivity.PruneTree.worklist_rec_act mDeferred (fun Q c => Safe f Q c.candidates)
    (fun _ _ _ _ _ hR hc => hR.safe_step (PathFinderActivity.PruneTree.call_effect_act _ _ _ _ _ hc))
    fuel Q ctx ctx' hS h).1

/-- On a tree, a node the path-mode worklist visits and does not erase at that
visit is a candidate at the end of the run. -/
theorem PathFinder.PruneTree.visit_stays (mDeferred : SmileSet) (fuel : Nat) (Q : List String)
    (ctx ctx' : PathFinderContext) (hT : TreeInv Q ctx.candidates)
    (h : PathFinder.PruneTree mDeferred fuel Q ctx = some ctx')
    (f : String) (queue : List String) (c : PathFinderContext)
    (hv : (f, queue, c) ∈ PathFinder.PruneTree.visits mDeferred fuel Q ctx)
    (c₁ : PathFinderContext) (fed : List String)
    (hc : PathFinder.PruneTree.call mDeferred f c = some (c₁, fed))
    (hpres : c₁.candidates.contains f = true) : ctx'.candidates.contains f = true := by
  have hTv := PathFinder.PruneTree.visit_inv mDeferred (fun Q c => TreeInv Q c.candidates)
    (fun _ _ _ _ _ hR hc => hR.tree_step (PathFinder.PruneTree.call_effect _ _ _ _ _ hc))
    fuel Q ctx hT f queue c hv
  obtain ⟨_, c₁', fed', n, hc', hrest⟩ := PathFinder.PruneTree.visit_run _ _ _ _ _ h f queue c hv
  rw [hc] at hc'
  simp only [Option.some.injEq, Prod.mk.injEq] at hc'
  obtain ⟨rfl, rfl⟩ := hc'
  exact PathFinder.PruneTree.safe_run _ f _ _ _ _
    (hTv.safe_after (PathFinder.PruneTree.call_effect _ _ _ _ _ hc) hpres) hrest

theorem PathFinderActivity.PruneTree.visit_stays_act (mDeferred : SmileSet) (fuel : Nat)
    (Q : List String) (ctx ctx' : PathFinderContext) (hT : TreeInv Q ctx.candidates)
    (h : PathFinderActivity.PruneTree mDeferred fuel Q ctx = some ctx')
    (f : String) (queue : List String) (c : PathFinderContext)
    (hv : (f, queue, c) ∈ PathFinderActivity.PruneTree.visits mDeferred fuel Q ctx)
    (c₁ : PathFinderContext) (fed : List String)
    (hc : PathFinderActivity.PruneTree.call mDeferred f c = some (c₁, fed))
    (hpres : c₁.candidates.contains f = true) : ctx'.candidates.contains f = true := by
  have hTv := PathFinderActivity.PruneTree.visit_inv_act mDeferred
    (fun Q c => TreeInv Q c.candidates)
    (fun _ _ _ _ _ hR hc => hR.tree_step (PathFinderActivity.PruneTree.call_effect_act _ _ _ _ _ hc))
    fuel Q ctx hT f queue c hv
  obtain ⟨_, c₁', fed', n, hc', hrest⟩ :=
    PathFinderActivity.PruneTree.visit_run_act _ _ _ _ _ h f queue c hv
  rw [hc] at hc'
  simp only [Option.some.injEq, Prod.mk.injEq] at hc'
  obtain ⟨rfl, rfl⟩ := hc'
  exact PathFinderActivity.PruneTree.safe_run_act _ f _ _ _ _
    (hTv.safe_after (PathFinderActivity.PruneTree.call_effect_act _ _ _ _ _ hc) hpres) hrest

/-- After a visit the `descendants` of the visited node, if it is still a
candidate, are what the visit fed. -/
theorem PruneEffect.children_fed {s : String} {fed : List String}
    {c c' : ConcMap MolpherMolecule} (h : PruneEffect s fed c c') :
    ∀ v', c'.find s = some v' → v'.descendants = fed := by
  intro v' hv'
  obtain ⟨node, hn, hcase⟩ := h
  rcases hcase with ⟨rfl, hfw, _⟩ | ⟨rfl, _, _, _, hgone, _⟩ | ⟨rfl, hss, _, hkeep⟩
  · obtain ⟨v'', hv'', _, hd⟩ := hfw s node hn
    rw [hv'] at hv''
    cases hv''
    exact hd
  · rw [hgone s (Or.inl rfl)] at hv'; cases hv'
  · rw [hkeep s hss, if_pos rfl] at hv'
    cases hv'
    rfl

theorem PathFinder.PruneTree.quiet_call (mDeferred : SmileSet) (k : String)
    (c : PathFinderContext) (v : MolpherMolecule) (hv : c.candidates.find k = some v)
    (hq : PathFinder.PruneTree.Quiet mDeferred k c) :
    PathFinder.PruneTree.call mDeferred k c = some (c, v.descendants) := by
  obtain ⟨h1, h2⟩ := hq v hv
  unfold PathFinder.PruneTree.call
  rw [hv]
  simp [h1, h2]

theorem PathFinderActivity.PruneTree.quiet_call_act (mDeferred : SmileSet) (k : String)
    (c : PathFinderContext) (v : MolpherMolecule) (hv : c.candidates.find k = some v)
    (hq : PathFinderActivity.PruneTree.QuietAct mDeferred k c) :
    PathFinderActivity.PruneTree.call mDeferred k c = some (c, v.descendants) := by
  unfold PathFinderActivity.PruneTree.call
  rw [hv]
  rcases hq v hv with hd | ⟨hf, hor⟩
  · simp [hd]
  · cases hdec : v.decayed
    · simp only [Bool.false_eq_true, if_false, hf]
      rcases hor with ⟨h1, h2⟩ | hp
      · simp [h1, h2]
      · simp [hp]
    · simp [hdec]

theorem PathFinder.PruneTree.quiet_shrinks {mDeferred : SmileSet} {k : String}
    {c c' : PathFinderContext} (hs : Shrinks c c')
    (hq : PathFinder.PruneTree.Quiet mDeferred k c) :
    PathFinder.PruneTree.Quiet mDeferred k c' := by
  intro v' hv'
  obtain ⟨v, hv, hl⟩ := hs.2.2.2.2.2.2.2.1 k v' hv'
  obtain ⟨h1, h2⟩ := hq v hv
  refine ⟨h1, fun hst => ?_⟩
  rw [hs.1] at hst
  rcases hl.2.2.1 with e | e
  · rw [e] at hst; exact h2 hst
  · rw [e] at hst; exact absurd hst (by omega)

theorem PathFinderActivity.PruneTree.quiet_shrinks_act {mDeferred : SmileSet} {k : String}
    {c c' : PathFinderContext} (hs : Shrinks c c')
    (hq : PathFinderActivity.PruneTree.QuietAct mDeferred k c) :
    PathFinderActivity.PruneTree.QuietAct mDeferred k c' := by
  intro v' hv'
  obtain ⟨v, hv, hl⟩ := hs.2.2.2.2.2.2.2.1 k v' hv'
  have hfresh : v'.itersFresh = v.itersFresh := by rw [hl.1]
  have hpar : v'.parentSmile = v.parentSmile := by rw [hl.1]
  rcases hq v hv with hd | ⟨hf, hor⟩
  · exact Or.inl (hl.2.2.2 hd)
  · right
    rw [hs.1, hfresh, hpar]
    refine ⟨hf, ?_⟩
    rcases hor with ⟨h1, h2⟩ | hp
    · left
      refine ⟨h1, fun hst => ?_⟩
      rcases hl.2.2.1 with e | e
      · rw [e] at hst; exact h2 hst
      · rw [e] at hst; exact absurd hst (by omega)
    · exact Or.inr hp

/-- After its path-mode visit a node would be fed through. -/
theorem PathFinder.PruneTree.call_quiet (mDeferred : SmileSet) (smile : String)
    (ctx ctx' : PathFinderContext) (fed : List String)
    (h : PathFinder.PruneTree.call mDeferred smile ctx = some (ctx', fed)) :
    PathFinder.PruneTree.Quiet mDeferred smile ctx' := by
  obtain ⟨node, hn, hcase⟩ := PathFinder.PruneTree.call_cases _ _ _ _ _ h
  rcases hcase with ⟨rfl, _, hnd, hns⟩ | ⟨_, _, hp⟩
  · intro v hv
    rw [hn] at hv
    cases hv
    exact ⟨hnd, hns⟩
  · have hsh := PruneTree.pruneNode_shrinks _ _ _ _ _ hn hp
    cases hb : (decide (smile ∈ mDeferred) || PruneTree.tooManyDerivations ctx smile)
    · have := PruneTree.pruneNode_purge _ _ _ _ _ hb hp
      intro v hv
      rw [this] at hv
      cases hv
      simp only [Bool.or_eq_false_iff, decide_eq_false_iff_not] at hb
      exact ⟨hb.1, by simp [PruneTree.purged]⟩
    · have := (PruneTree.pruneNode_whole _ _ _ _ _ hb hp).1
      intro v hv
      rw [this] at hv; cases hv

/-- After its activity-mode visit a node would be fed through. -/
theorem PathFinderActivity.PruneTree.call_quiet_act (mDeferred : SmileSet) (smile : String)
    (ctx ctx' : PathFinderContext) (fed : List String)
    (h : PathFinderActivity.PruneTree.call mDeferred smile ctx = some (ctx', fed)) :
    PathFinderActivity.PruneTree.QuietAct mDeferred smile ctx' := by
  unfold PathFinderActivity.PruneTree.call at h
  cases hn : ctx.candidates.find smile with
  | none => rw [hn] at h; simp at h
  | some node =>
    rw [hn] at h
    simp only [] at h
    split at h
    · rename_i hdec
      simp only [Option.some.injEq, Prod.mk.injEq] at h
      obtain ⟨rfl, _⟩ := h
      intro v hv
      rw [hn] at hv
      cases hv
      exact Or.inl hdec
    · rename_i hdec
      split at h
      · simp only [Option.some.injEq, Prod.mk.injEq] at h
        obtain ⟨rfl, _⟩ := h
        intro v hv
        simp only [ConcMap.find_assign_self, Option.some.injEq] at hv
        subst hv
        exact Or.inl rfl
      · rename_i hfresh
        split at h
        · rename_i hp
          cases hpn : PruneTree.pruneNode (decide (smile ∈ mDeferred)) smile node ctx with
          | none => rw [hpn] at h; simp at h
          | some c₁ =>
            rw [hpn] at h
            simp only [Option.map_some', Option.some.injEq, Prod.mk.injEq] at h
            obtain ⟨rfl, _⟩ := h
            have hsh := PruneTree.pruneNode_shrinks _ _ _ _ _ hn hpn
            cases hb : (decide (smile ∈ mDeferred) || PruneTree.tooManyDerivations ctx smile)
            · have := PruneTree.pruneNode_purge _ _ _ _ _ hb hpn
              intro v hv
              rw [this] at hv
              cases hv
              simp only [Bool.or_eq_false_iff, decide_eq_false_iff_not] at hb
              right
              rw [hsh.1]
              exact ⟨hfresh, Or.inl ⟨hb.1, by simp [PruneTree.purged]⟩⟩
            · have := (PruneTree.pruneNode_whole _ _ _ _ _ hb hpn).1
              intro v hv
              rw [this] at hv; cases hv
        · rename_i hp
          simp only [Option.some.injEq, Prod.mk.injEq] at h
          obtain ⟨rfl, _⟩ := h
          intro v hv
          rw [hn] at hv
          simp only [Option.some.injEq] at hv
          subst hv
          right
          refine ⟨hfresh, ?_⟩
          simp only [Bool.and_eq_true, Bool.or_eq_true, decide_eq_true_eq, not_and,
            Decidable.not_not] at hp
          by_cases hpar : node.parentSmile = ""
          · exact Or.inr hpar
          · left
            constructor
            · exact fun hd => hpar (hp (Or.inl hd))
            · exact fun hst => hpar (hp (Or.inr hst))

/-- After a completed path-mode run there is a set of fingerprints that holds
the start queue, is closed under the `descendants` left, and all of whose
members would be fed through by another visit. -/
theorem PathFinder.PruneTree.settled (mDeferred : SmileSet) (fuel : Nat) (Q : List String)
    (ctx ctx' : PathFinderContext)
    (h : PathFinder.PruneTree mDeferred fuel Q ctx = some ctx') :
    ∃ Dn : List String, (∀ q, q ∈ Q → q ∈ Dn) ∧
      ∀ k, k ∈ Dn → PathFinder.PruneTree.Quiet mDeferred k ctx' ∧
        ∀ v, ctx'.candidates.find k = some v → ∀ d, d ∈ v.descendants → d ∈ Dn := by
  have := PathFinder.PruneTree.worklist_rec mDeferred
    (fun Q' c => ∃ Dn : List String, (∀ q, q ∈ Q → q ∈ Dn ∨ q ∈ Q') ∧
      ∀ k, k ∈ Dn → PathFinder.PruneTree.Quiet mDeferred k c ∧
        ∀ v, c.candidates.find k = some v → ∀ d, d ∈ v.descendants → d ∈ Dn ∨ d ∈ Q')
    (by
      intro s queue c c' fed hR hc
      obtain ⟨Dn, hstart, hDn⟩ := hR
      have hsh := PathFinder.PruneTree.call_shrinks _ _ _ _ _ hc
      have heff := PathFinder.PruneTree.call_effect _ _ _ _ _ hc
      have move : ∀ d, d ∈ Dn ∨ d ∈ s :: queue → d ∈ s :: Dn ∨ d ∈ queue ++ fed := by
        rintro d (hd | hd)
        · exact Or.inl (List.mem_cons_of_mem _ hd)
        · rcases List.mem_cons.mp hd with rfl | hd
          · exact Or.inl (List.mem_cons_self _ _)
          · exact Or.inr (List.mem_append_left _ hd)
      refine ⟨s :: Dn, fun q hq => move q (hstart q hq), fun k hk => ?_⟩
      rcases List.mem_cons.mp hk with rfl | hk
      · refine ⟨PathFinder.PruneTree.call_quiet _ _ _ _ _ hc, fun v hv d hd => ?_⟩
        rw [heff.children_fed v hv] at hd
        exact Or.inr (List.mem_append_right _ hd)
      · refine ⟨PathFinder.PruneTree.quiet_shrinks hsh (hDn k hk).1, fun v' hv' d hd => ?_⟩
        obtain ⟨v, hv, hl⟩ := hsh.2.2.2.2.2.2.2.1 k v' hv'
        exact move d ((hDn k hk).2 v hv d (hl.2.1 d hd)))
    fuel Q ctx ctx' ⟨[], fun q hq => Or.inr hq, fun _ hk => (List.not_mem_nil _ hk).elim⟩ h
  obtain ⟨Dn, hstart, hDn⟩ := this
  refine ⟨Dn, fun q hq => (hstart q hq).elim id (fun hn => (List.not_mem_nil _ hn).elim),
    fun k hk => ⟨(hDn k hk).1, fun v hv d hd =>
      ((hDn k hk).2 v hv d hd).elim id (fun hn => (List.not_mem_nil _ hn).elim)⟩⟩

theorem PathFinderActivity.PruneTree.settled_act (mDeferred : SmileSet) (fuel : Nat)
    (Q : List String) (ctx ctx' : PathFinderContext)
    (h : PathFinderActivity.PruneTree mDeferred fuel Q ctx = some ctx') :
    ∃ Dn : List String, (∀ q, q ∈ Q → q ∈ Dn) ∧
      ∀ k, k ∈ Dn → PathFinderActivity.PruneTree.QuietAct mDeferred k ctx' ∧
        ∀ v, ctx'.candidates.find k = some v → ∀ d, d ∈ v.descendants → d ∈ Dn := by
  have := PathFinderActivity.PruneTree.worklist_rec_act mDeferred
    (fun Q' c => ∃ Dn : List String, (∀ q, q ∈ Q → q ∈ Dn ∨ q ∈ Q') ∧
      ∀ k, k ∈ Dn → PathFinderActivity.PruneTree.QuietAct mDeferred k c ∧
        ∀ v, c.candidates.find k = some v → ∀ d, d ∈ v.descendants → d ∈ Dn ∨ d ∈ Q')
    (by
      intro s queue c c' fed hR hc
      obtain ⟨Dn, hstart, hDn⟩ := hR
      have hsh := PathFinderActivity.PruneTree.call_shrinks_act _ _ _ _ _ hc
      have heff := PathFinderActivity.PruneTree.call_effect_act _ _ _ _ _ hc
      have move : ∀ d, d ∈ Dn ∨ d ∈ s :: queue → d ∈ s :: Dn ∨ d ∈ queue ++ fed := by
        rintro d (hd | hd)
        · exact Or.inl (List.mem_cons_of_mem _ hd)
        · rcases List.mem_cons.mp hd with rfl | hd
          · exact Or.inl (List.mem_cons_self _ _)
          · exact Or.inr (List.mem_append_left _ hd)
      refine ⟨s :: Dn, fun q hq => move q (hstart q hq), fun k hk => ?_⟩
      rcases List.mem_cons.mp hk with rfl | hk
      · refine ⟨PathFinderActivity.PruneTree.call_quiet_act _ _ _ _ _ hc, fun v hv d hd => ?_⟩
        rw [heff.children_fed v hv] at hd
        exact Or.inr (List.mem_append_right _ hd)
      · refine ⟨PathFinderActivity.PruneTree.quiet_shrinks_act hsh (hDn k hk).1,
          fun v' hv' d hd => ?_⟩
        obtain ⟨v, hv, hl⟩ := hsh.2.2.2.2.2.2.2.1 k v' hv'
        exact move d ((hDn k hk).2 v hv d (hl.2.1 d hd)))
    fuel Q ctx ctx' ⟨[], fun q hq => Or.inr hq, fun _ hk => (List.not_mem_nil _ hk).elim⟩ h
  obtain ⟨Dn, hstart, hDn⟩ := this
  refine ⟨Dn, fun q hq => (hstart q hq).elim id (fun hn => (List.not_mem_nil _ hn).elim),
    fun k hk => ⟨(hDn k hk).1, fun v hv d hd =>
      ((hDn k hk).2 v hv d hd).elim id (fun hn => (List.not_mem_nil _ hn).elim)⟩⟩

/-- A path-mode run over a tree all of whose reachable nodes would be fed
through completes, within as many visits as `T` has entries, and returns the
context as it was. -/
theorem PathFinder.PruneTree.quiet_total (mDeferred : SmileSet) (c : PathFinderContext)
    (Dn : List String)
    (hDn : ∀ k, k ∈ Dn → PathFinder.PruneTree.Quiet mDeferred k c ∧
      ∀ v, c.candidates.find k = some v → ∀ d, d ∈ v.descendants → d ∈ Dn) :
    ∀ (fuel : Nat) (T Q : List String), TreeInv Q c.candidates → (∀ q, q ∈ Q → q ∈ Dn) →
      Covered T Q c.candidates → T.length ≤ fuel →
      PathFinder.PruneTree mDeferred fuel Q c = some c := by
  intro fuel
  induction fuel with
  | zero =>
    intro T Q _ _ hC hlen
    cases Q with
    | nil => rfl
    | cons s queue =>
      have := hC.1 s (List.mem_cons_self _ _)
      rw [List.length_eq_zero.mp (Nat.le_zero.mp hlen)] at this
      cases this
  | succ n ih =>
    intro T Q hT hQ hC hlen
    cases Q with
    | nil => rfl
    | cons s queue =>
      obtain ⟨v, hv⟩ := (ConcMap.contains_iff _ _).mp (hT.2.2.1 s (List.mem_cons_self _ _))
      have hsDn := hQ s (List.mem_cons_self _ _)
      have hcall := PathFinder.PruneTree.quiet_call mDeferred s c v hv (hDn s hsDn).1
      have heff := PathFinder.PruneTree.call_effect _ _ _ _ _ hcall
      simp only [PathFinder.PruneTree, hcall]
      refine ih (T.erase s) (queue ++ v.descendants) (hT.tree_step heff) (fun q hq => ?_)
        (hC.covered_step hT heff) ?_
      · rcases List.mem_append.mp hq with hm | hm
        · exact hQ q (List.mem_cons_of_mem _ hm)
        · exact (hDn s hsDn).2 v hv q hm
      · rw [List.length_erase_of_mem (hC.1 s (List.mem_cons_self _ _))]
        omega

theorem PathFinderActivity.PruneTree.quiet_total_act (mDeferred : SmileSet)
    (c : PathFinderContext) (Dn : List String)
    (hDn : ∀ k, k ∈ Dn → PathFinderActivity.PruneTree.QuietAct mDeferred k c ∧
      ∀ v, c.candidates.find k = some v → ∀ d, d ∈ v.descendants → d ∈ Dn) :
    ∀ (fuel : Nat) (T Q : List String), TreeInv Q c.candidates → (∀ q, q ∈ Q → q ∈ Dn) →
      Covered T Q c.candidates → T.length ≤ fuel →
      PathFinderActivity.PruneTree mDeferred fuel Q c = some c := by
  intro fuel
  induction fuel with
  | zero =>
    intro T Q _ _ hC hlen
    cases Q with
    | nil => rfl
    | cons s queue =>
      have := hC.1 s (List.mem_cons_self _ _)
      rw [List.length_eq_zero.mp (Nat.le_zero.mp hlen)] at this
      cases this
  | succ n ih =>
    intro T Q hT hQ hC hlen
    cases Q with
    | nil => rfl
    | cons s queue =>
      obtain ⟨v, hv⟩ := (ConcMap.contains_iff _ _).mp (hT.2.2.1 s (List.mem_cons_self _ _))
      have hsDn := hQ s (List.mem_cons_self _ _)
      have hcall := PathFinderActivity.PruneTree.quiet_call_act mDeferred s c v hv (hDn s hsDn).1
      have heff := PathFinderActivity.PruneTree.call_effect_act _ _ _ _ _ hcall
      simp only [PathFinderActivity.PruneTree, hcall]
      refine ih (T.erase s) (queue ++ v.descendants) (hT.tree_step heff) (fun q hq => ?_)
        (hC.covered_step hT heff) ?_
      · rcases List.mem_append.mp hq with hm | hm
        · exact hQ q (List.mem_cons_of_mem _ hm)
        · exact (hDn s hsDn).2 v hv q hm
      · rw [List.length_erase_of_mem (hC.1 s (List.mem_cons_self _ _))]
        omega

theorem WellFormed.rootsInv {roots : List String} {cands : ConcMap MolpherMolecule}
    (h : WellFormed roots cands) : RootsInv roots roots cands :=
  ⟨h.treeInv, fun r hr => ⟨Or.inl hr, h.2.2.2 r hr⟩⟩

theorem RootsInv.roots_step {roots : List String} {s : String} {queue fed : List String}
    {c c' : ConcMap MolpherMolecule} (hR : RootsInv roots (s :: queue) c)
    (h : PruneEffect s fed c c') : RootsInv roots (queue ++ fed) c' := by
  obtain ⟨hT, hroots⟩ := hR
  refine ⟨hT.tree_step h, fun r hr => ⟨?_, fun v' hv' => ?_⟩⟩
  · rcases (hroots r hr).1 with hq | hS
    · rcases List.mem_cons.mp hq with rfl | hq
      · right
        apply hT.safe_after h
        obtain ⟨v, hv⟩ := (ConcMap.contains_iff _ _).mp (hT.2.2.1 r (List.mem_cons_self _ _))
        have hh := h
        obtain ⟨node, hn, hcase⟩ := hh
        rw [hv] at hn
        cases hn
        rcases hcase with ⟨_, hfw, _⟩ | ⟨_, parent, hp, _⟩ | ⟨_, hss, _, hkeep⟩
        · obtain ⟨v', hv', _⟩ := hfw r v hv
          exact (ConcMap.contains_iff _ _).mpr ⟨v', hv'⟩
        · rw [(hroots r hr).2 v hv] at hp; cases hp
        · rw [ConcMap.contains_iff, hkeep r hss, if_pos rfl]
          exact ⟨_, rfl⟩
      · exact Or.inl (List.mem_append_left _ hq)
    · exact Or.inr (hS.safe_step h)
  · obtain ⟨v, hv, hpar, _⟩ := h.back r v' hv'
    rw [hpar]
    have := (hroots r hr).2 v hv
    cases hf : c'.find v.parentSmile with
    | none => rfl
    | some w' =>
      obtain ⟨w, hw, _⟩ := h.back _ w' hf
      rw [this] at hw; cases hw

/-- After the worklist a tree hanging from `roots` is again one. -/
theorem RootsInv.final {roots : List String} {c c' : ConcMap MolpherMolecule}
    (hW : WellFormed roots c) (hR : RootsInv roots [] c') : WellFormed roots c' := by
  refine ⟨hR.1.1, hW.2.1, fun r hr => ?_, fun r hr => (hR.2 r hr).2⟩
  rcases (hR.2 r hr).1 with hq | hS
  · cases hq
  · exact hS.1

theorem PathFinder.PruneTree.wellFormed (mDeferred : SmileSet) (fuel : Nat)
    (roots : List String) (ctx ctx' : PathFinderContext)
    (hW : WellFormed roots ctx.candidates)
    (h : PathFinder.PruneTree mDeferred fuel roots ctx = some ctx') :
    WellFormed roots ctx'.candidates :=
  RootsInv.final hW
    (PathFinder.PruneTree.worklist_rec mDeferred (fun Q c => RootsInv roots Q c.candidates)
      (fun _ _ _ _ _ hR hc => hR.roots_step (PathFinder.PruneTree.call_effect _ _ _ _ _ hc))
      fuel roots ctx ctx' hW.rootsInv h)

theorem PathFinderActivity.PruneTree.wellFormed_act (mDeferred : SmileSet) (fuel : Nat)
    (roots : List String) (ctx ctx' : PathFinderContext)
    (hW : WellFormed roots ctx.candidates)
    (h : PathFinderActivity.PruneTree mDeferred fuel roots ctx = some ctx') :
    WellFormed roots ctx'.candidates :=
  RootsInv.final hW
    (PathFinderActivity.PruneTree.worklist_rec_act mDeferred
      (fun Q c => RootsInv roots Q c.candidates)
      (fun _ _ _ _ _ hR hc => hR.roots_step (PathFinderActivity.PruneTree.call_effect_act _ _ _ _ _ hc))
      fuel roots ctx ctx' hW.rootsInv h)

/-- The keys of the tree a run started from cover what a traversal of its
result can visit. -/
theorem Covered.keys_before {roots : List String} {c c' : PathFinderContext}
    (hs : Shrinks c c') (hT : TreeInv roots c'.candidates) :
    Covered (ConcMap.keys c.candidates).dedup roots c'.candidates ∧
    (ConcMap.keys c.candidates).dedup.length ≤ c.candidates.length := by
  refine ⟨⟨fun q hq => ?_, fun q _ d hb => ?_⟩, ?_⟩
  · rw [List.mem_dedup, ConcMap.mem_keys_iff, ← ConcMap.contains_iff]
    exact hs.contains_of (hT.2.2.1 q hq)
  · rw [List.mem_dedup, ConcMap.mem_keys_iff, ← ConcMap.contains_iff]
    exact hs.contains_of (hT.1.below_present hb)
  · have := (List.dedup_sublist (ConcMap.keys c.candidates)).length_le
    simpa [ConcMap.keys] using this

/-- Idempotence of the path-mode worklist on a tree. -/
theorem PathFinder.PruneTree.idem (mDeferred : SmileSet) (fuel : Nat) (roots : List String)
    (ctx ctx' : PathFinderContext) (hW : WellFormed roots ctx.candidates)
    (hfuel : ctx.candidates.length ≤ fuel)
    (h : PathFinder.PruneTree mDeferred fuel roots ctx = some ctx') :
    PathFinder.PruneTree mDeferred fuel roots ctx' = some ctx' := by
  have hW' := PathFinder.PruneTree.wellFormed _ _ _ _ _ hW h
  obtain ⟨Dn, hstart, hDn⟩ := PathFinder.PruneTree.settled _ _ _ _ _ h
  obtain ⟨hC, hlen⟩ := Covered.keys_before (PathFinder.PruneTree.shrinks _ _ _ _ _ h) hW'.treeInv
  exact PathFinder.PruneTree.quiet_total mDeferred ctx' Dn hDn fuel _ roots hW'.treeInv hstart hC
    (hlen.trans hfuel)

/-- Idempotence of the activity-mode worklist on a tree. -/
theorem PathFinderActivity.PruneTree.idem_act (mDeferred : SmileSet) (fuel : Nat)
    (roots : List String) (ctx ctx' : PathFinderContext)
    (hW : WellFormed roots ctx.candidates) (hfuel : ctx.candidates.length ≤ fuel)
    (h : PathFinderActivity.PruneTree mDeferred fuel roots ctx = some ctx') :
    PathFinderActivity.PruneTree mDeferred fuel roots ctx' = some ctx' := by
  have hW' := PathFinderActivity.PruneTree.wellFormed_act _ _ _ _ _ hW h
  obtain ⟨Dn, hstart, hDn⟩ := PathFinderActivity.PruneTree.settled_act _ _ _ _ _ h
  obtain ⟨hC, hlen⟩ :=
    Covered.keys_before (PathFinderActivity.PruneTree.shrinks_act _ _ _ _ _ h) hW'.treeInv
  exact PathFinderActivity.PruneTree.quiet_total_act mDeferred ctx' Dn hDn fuel _ roots
    hW'.treeInv hstart hC (hlen.trans hfuel)

theorem wellFormedCheck_sound (roots : List String) (cands : ConcMap MolpherMolecule)
    (h : wellFormedCheck roots cands = true) : WellFormed roots cands := by
  unfold wellFormedCheck at h
  simp only [Bool.and_eq_true, List.all_eq_true, decide_eq_true_eq] at h
  obtain ⟨⟨hall, hnd⟩, hroots⟩ := h
  refine ⟨⟨fun k v hk => (hall (k, v) (ConcMap.find_mem _ _ _ hk)).1, fun k v d hk hd => ?_⟩,
    hnd, fun r hr => ?_, fun r hr v hv => ?_⟩
  · have := (hall (k, v) (ConcMap.find_mem _ _ _ hk)).2 d hd
    cases hf : cands.find d with
    | none => rw [hf] at this; cases this
    | some w =>
      rw [hf] at this
      exact ⟨w, rfl, by simpa using this⟩
  · have := hroots r hr
    cases hf : cands.find r with
    | none => rw [hf] at this; cases this
    | some v => exact (ConcMap.contains_iff _ _).mpr ⟨v, hf⟩
  · have := hroots r hr
    rw [hv] at this
    simp only [Bool.not_eq_true'] at this
    exact (ConcMap.contains_eq_false_iff _ _).mp this

theorem PathFinder.deferredSmiles_congr {c c' : PathFinderContext} (hs : Shrinks c c')
    (deferredMols : List MolpherMolecule) :
    PathFinder.deferredSmiles c' deferredMols = PathFinder.deferredSmiles c deferredMols ∧
    PathFinder.pruningRoot c' = PathFinder.pruningRoot c := by
  unfold PathFinder.deferredSmiles PathFinder.pruningRoot PathFinderContext.ScaffoldMode
  rw [hs.2.2.1, hs.2.2.2.2.1, hs.2.2.2.2.2.1]
  exact ⟨rfl, rfl⟩

/-- The size assertion that closes the path-mode Prune stage held of its
result. -/
theorem PathFinder.pruneStage_sizes (fuel : Nat) (deferredMols : List MolpherMolecule)
    (ctx ctx' : PathFinderContext) (h : PathFinder.pruneStage fuel deferredMols ctx = some ctx') :
    (ctx'.ScaffoldMode &&
      decide (ctx'.candidates.length ≠ ctx'.candidateScaffoldMolecules.length)) = false := by
  unfold PathFinder.pruneStage at h
  cases hw : PathFinder.PruneTree (PathFinder.deferredSmiles ctx deferredMols) fuel
      [PathFinder.pruningRoot ctx] ctx with
  | none => rw [hw] at h; simp at h
  | some c =>
    rw [hw] at h
    simp only [Option.bind] at h
    split at h
    · simp at h
    · rename_i hne
      simp only [Option.some.injEq] at h
      subst h
      simpa using hne

theorem PathFinderActivity.pruneStage_sizes_act (fuel : Nat) (startMols : List String)
    (ctx ctx' : PathFinderContext)
    (h : PathFinderActivity.pruneStage fuel startMols ctx = some ctx') :
    (ctx'.ScaffoldMode &&
      decide (ctx'.candidates.length ≠ ctx'.candidateScaffoldMolecules.length)) = false := by
  unfold PathFinderActivity.pruneStage at h
  cases hw : PathFinderActivity.PruneTree [] fuel startMols ctx with
  | none => rw [hw] at h; simp at h
  | some c =>
    rw [hw] at h
    simp only [Option.bind] at h
    split at h
    · simp at h
    · rename_i hne
      simp only [Option.some.injEq] at h
      subst h
      simpa using hne

/-- A visit that takes the purge branch: at the end of the run everything that
was below the node is gone, and the node, if it is still a candidate, has no
descendants and the counter at zero. -/
theorem PruneTree.purge_after {ctx c c₁ ctx' : PathFinderContext} {f : String}
    {node : MolpherMolecule} (deferred : Bool)
    (hb : (deferred || PruneTree.tooManyDerivations c f) = false)
    (hp : PruneTree.pruneNode deferred f node c = some c₁) (hs : Shrinks c₁ ctx')
    (hcl : LinksClosed ctx.candidates [] ctx'.candidates) :
    c₁.candidates.contains f = true ∧
    (∀ v, ctx'.candidates.find f = some v →
      v.descendants = [] ∧ v.itersWithoutDistImprovement = 0) ∧
    (∀ d, Below ctx.candidates f d → ctx'.candidates.find d = none) := by
  have hpur := PruneTree.pruneNode_purge _ _ _ _ _ hb hp
  have hrec : ∀ v, ctx'.candidates.find f = some v →
      v.descendants = [] ∧ v.itersWithoutDistImprovement = 0 := by
    intro v hv
    obtain ⟨w, hw, hl⟩ := hs.2.2.2.2.2.2.2.1 f v hv
    rw [hpur] at hw
    cases hw
    refine ⟨List.eq_nil_iff_forall_not_mem.mpr (fun d hd => ?_), ?_⟩
    · exact absurd (hl.2.1 d hd) (List.not_mem_nil _)
    · rcases hl.2.2.1 with e | e
      · rw [e]; rfl
      · exact e
  exact ⟨(ConcMap.contains_iff _ _).mpr ⟨_, hpur⟩, hrec,
    fun d hd => hcl.absent hd (fun v hv => (hrec v hv).1)⟩

/-- The activity-mode visit of a candidate that is not decayed, is fresh enough,
is stale or deferred, and has a parent, runs the block under `if (prune)`. -/
theorem PathFinderActivity.PruneTree.call_prune_act (mDeferred : SmileSet) (f : String)
    (c : PathFinderContext) (node : MolpherMolecule) (hn : c.candidates.find f = some node)
    (hdec : node.decayed = false) (hfresh : ¬ node.itersFresh > c.params.decayThreshold)
    (hp : f ∈ mDeferred ∨ node.itersWithoutDistImprovement > c.params.itThreshold)
    (hpar : node.parentSmile ≠ "") :
    PathFinderActivity.PruneTree.call mDeferred f c =
      (PruneTree.pruneNode (decide (f ∈ mDeferred)) f node c).map (fun c => (c, [])) := by
  unfold PathFinderActivity.PruneTree.call
  rw [hn]
  have hprune : (decide (f ∈ mDeferred) ||
      decide (node.itersWithoutDistImprovement > c.params.itThreshold)) = true := by
    rcases hp with hp | hp <;> simp [hp]
  simp only [hdec, Bool.false_eq_true, if_false, hfresh, hprune, Bool.true_and,
    decide_eq_true_eq, hpar, ne_eq, not_false_eq_true, if_true]

/-- C25, as stated, fails: a deferred candidate whose derivation count is within
`cntMaxMorphs` is erased itself. In `filterCtx` with `"A"` deferred (`"A"` has no
`morphDerivations` entry), `"A"` is visited and is not a key after Prune. -/
theorem C25_deferred_node_erased :
    "A" ∈ PathFinder.deferredSmiles filterCtx deferredA ∧
    PruneTree.tooManyDerivations filterCtx "A" = false ∧
    ("A", [], filterCtx) ∈ PathFinder.PruneTree.visits
      (PathFinder.deferredSmiles filterCtx deferredA) 5 [PathFinder.pruningRoot filterCtx]
      filterCtx ∧
    (PathFinder.pruneStage 5 deferredA filterCtx).map
      (fun c => (c.candidates.contains "A", ConcMap.keys c.candidates)) = some (false, ["S"]) := by
  refine ⟨by decide, by decide, ?_, by decide⟩
  have hroot : PathFinder.pruningRoot filterCtx = "S" := by decide
  have hdef : PathFinder.deferredSmiles filterCtx deferredA = ["A"] := by decide
  have hS : PathFinder.PruneTree.call ["A"] "S" filterCtx = some (filterCtx, ["A"]) := rfl
  rw [hroot, hdef]
  unfold PathFinder.PruneTree.visits
  rw [hS]
  simp only [List.nil_append]
  unfold PathFinder.PruneTree.visits
  exact List.mem_cons_of_mem _ (List.mem_cons_self _ _)

/-- C24, as stated, fails in activity mode: a decayed candidate is fed through
before the staleness test. In `decayedStaleCtx` the candidate `"A"` (parent
`"S"`, stale, not deferred, no derivations charged) is visited, and after Prune
it still has its descendant `"B"` and its counter 2, and `"B"` is still a key. -/
theorem C24_decayed_node_not_purged :
    ("A", [], decayedStaleCtx) ∈
      PathFinderActivity.PruneTree.visits [] 10 ["S"] decayedStaleCtx ∧
    (decayedStaleCtx.candidates.find "A").map
        (fun v => (v.parentSmile, decide (v.itersWithoutDistImprovement >
          decayedStaleCtx.params.itThreshold))) = some ("S", true) ∧
    PruneTree.tooManyDerivations decayedStaleCtx "A" = false ∧
    (PathFinderActivity.pruneStage 10 ["S"] decayedStaleCtx).map
      (fun c => (ConcMap.keys c.candidates,
        (c.candidates.find "A").map
          (fun v => (v.descendants, v.itersWithoutDistImprovement))))
      = some (["S", "A", "B"], some (["B"], 2)) := by
  refine ⟨?_, by decide, by decide, by decide⟩
  have hS : PathFinderActivity.PruneTree.call [] "S" decayedStaleCtx =
      some (decayedStaleCtx, ["A"]) := rfl
  unfold PathFinderActivity.PruneTree.visits
  rw [hS]
  simp only [List.nil_append]
  unfold PathFinderActivity.PruneTree.visits
  exact List.mem_cons_of_mem _ (List.mem_cons_self _ _)

theorem PathFinder.iteration_eq (fuel : Nat) (Cancelled : Nat → Bool) (jobParams : MolpherParam)
    (GenerateMorphs : MolpherMolecule → Nat → List MolpherMolecule)
    (parallel_sort : List MolpherMolecule → List MolpherMolecule) (rand : Nat → Nat)
    (deferredMols : List MolpherMolecule) (elapsed : Nat)
    (canContinueCurrentJob pathFound : Bool) (ctx : PathFinderContext) :
    PathFinder.iteration fuel Cancelled jobParams GenerateMorphs parallel_sort rand deferredMols
        elapsed canContinueCurrentJob pathFound ctx =
      PathFinder.iterationTail fuel
        (fun k => Cancelled ((PathFinder.generation Cancelled jobParams GenerateMorphs ctx).2 + k))
        parallel_sort rand deferredMols elapsed canContinueCurrentJob pathFound
        (PathFinder.generation Cancelled jobParams GenerateMorphs ctx).1.1
        (PathFinder.generation Cancelled jobParams GenerateMorphs ctx).1.2.mMorphs := rfl

/-- What a non-cancelled head leaves of the context: the parameters refreshed,
`prunedDuringThisIter` cleared, the counters bumped by FindLeaves and
`morphDerivations` charged. -/
theorem PathFinder.generation_spec (Cancelled : Nat → Bool) (jobParams : MolpherParam)
    (GenerateMorphs : MolpherMolecule → Nat → List MolpherMolecule) (ctx : PathFinderContext)
    (hnc : ∀ k, Cancelled k = false) :
    (PathFinder.generation Cancelled jobParams GenerateMorphs ctx).1.1 =
      { ctx with
        params := jobParams
        prunedDuringThisIter := []
        candidates := ctx.candidates.map (fun kv => (kv.1, PathFinder.FindLeaves.bump kv.2))
        morphDerivations :=
          (PathFinder.generation Cancelled jobParams GenerateMorphs ctx).1.1.morphDerivations } := by
  unfold PathFinder.generation
  simp only [hnc, Bool.not_false, if_true]
  rw [PathFinder.generateMorphs_frame]
  rfl

theorem PathFinder.FindLeaves.find_bump (cands : ConcMap MolpherMolecule) (k : String) :
    ConcMap.find (cands.map (fun kv => (kv.1, PathFinder.FindLeaves.bump kv.2))) k =
      (cands.find k).map PathFinder.FindLeaves.bump :=
  ConcMap.find_map_snd PathFinder.FindLeaves.bump cands k

theorem PathFinder.FindLeaves.bump_links (c : MolpherMolecule) :
    (PathFinder.FindLeaves.bump c).smile = c.smile ∧
    (PathFinder.FindLeaves.bump c).parentSmile = c.parentSmile ∧
    (PathFinder.FindLeaves.bump c).descendants = c.descendants := by
  unfold PathFinder.FindLeaves.bump
  split <;> exact ⟨rfl, rfl, rfl⟩

/-- A completed path-mode AcceptScan keeps every key. -/
theorem PathFinder.acceptMorphs_keeps (morphs : List MolpherMolecule) (survivors : List Bool)
    (ctx : PathFinderContext) (acc : PathFinderContext × SmileSet)
    (h : PathFinder.acceptMorphs morphs survivors ctx = some acc) (k : String)
    (hk : ctx.candidates.contains k = true) : acc.1.candidates.contains k = true := by
  unfold PathFinder.acceptMorphs PathFinder.AcceptMorphs at h
  rw [Option.map_eq_some'] at h
  obtain ⟨st, hst, rfl⟩ := h
  exact forRange_invariant
    (fun st : Molpher.AcceptMorphs => st.mCtx.candidates.contains k = true) _ 0 morphs.length
    (fun s i s' _ _ hs hb => AcceptMorphs.finalBody_keys _ _ _ _ _ _ hb k hs)
    _ st hk hst

/-- Along `parentSmile`, a map that keeps the parent of every candidate of
another reaches the same root. -/
theorem UpdateTree.root_keep (old new : ConcMap MolpherMolecule)
    (hkeep : ∀ k v, old.find k = some v → ∃ v', new.find k = some v' ∧
      v'.parentSmile = v.parentSmile) :
    ∀ (fuel : Nat) (key r : String), UpdateTree.root old fuel key = some r →
      UpdateTree.root new fuel key = some r := by
  intro fuel
  induction fuel with
  | zero => intro key r h; cases h
  | succ fuel ih =>
    intro key r h
    unfold UpdateTree.root at h ⊢
    cases hf : old.find key with
    | none => rw [hf] at h; cases h
    | some node =>
      rw [hf] at h
      obtain ⟨node', hn', hp⟩ := hkeep key node hf
      rw [hn']
      simp only [hp] at h ⊢
      split at h
      · rename_i hne
        rw [if_pos hne]
        exact ih _ _ h
      · rename_i hne
        rw [if_neg hne]
        exact h

/-- The path-mode Filter stage completes outside scaffold mode when every
morph's parent is a key. -/
theorem PathFinder.filterStage_total (ctx : PathFinderContext) (morphs : List MolpherMolecule)
    (rand : Nat → Nat) (hs : ctx.ScaffoldMode = false)
    (hpar : ∀ m, m ∈ morphs → ctx.candidates.contains m.parentSmile = true) :
    ∃ surv, PathFinder.filterStage ctx morphs rand = some surv := by
  apply Option.isSome_iff_exists.mp
  have hsurv : ∀ m ∈ morphs, (FilterMorphs.survives ctx m).isSome = true := by
    intro m hm
    obtain ⟨p, hp⟩ := (ConcMap.contains_iff _ _).mp (hpar m hm)
    obtain ⟨b, hb, _⟩ := FilterMorphs.survives_spec ctx p m hs hp
    rw [hb]; rfl
  unfold PathFinder.filterStage PathFinder.FilterMorphs forRange
  apply foldlM_set_total _ _ (PathFinder.FilterMorphs.body_eq ctx _ morphs rand)
  intro i hi
  rw [List.mem_range'_1] at hi
  have hlt : i < morphs.length := by omega
  unfold PathFinder.FilterMorphs.outcome
  rw [List.getElem?_eq_getElem hlt]
  simp only []
  split
  · have := hsurv _ (List.getElem_mem hlt)
    obtain ⟨b, hb⟩ := Option.isSome_iff_exists.mp this
    rw [hb]; rfl
  · rfl

/-- Outside scaffold mode a survivor of the path-mode Filter is new to
`candidates`. -/
theorem PathFinder.filterStage_fresh (ctx : PathFinderContext) (morphs : List MolpherMolecule)
    (rand : Nat → Nat) (surv : List Bool) (hs : ctx.ScaffoldMode = false)
    (h : PathFinder.filterStage ctx morphs rand = some surv) (i : Nat) (m : MolpherMolecule)
    (hm : morphs[i]? = some m) (ht : surv.getD i false = true)
    (hpar : ctx.candidates.contains m.parentSmile = true) :
    ctx.candidates.find m.smile = none := by
  have htrue := PathFinder.filterStage_true ctx morphs rand surv h i m hm ht
  obtain ⟨p, hp⟩ := (ConcMap.contains_iff _ _).mp hpar
  obtain ⟨b, hb, hiff⟩ := FilterMorphs.survives_spec ctx p m hs hp
  rw [htrue] at hb
  cases hb
  exact (hiff.mp rfl).2.2.2.1

theorem AcceptMorphs.readyInv_step (gated : Bool) (old : ConcMap MolpherMolecule)
    (hkey : KeyedBySmile old) (mMorphs : List MolpherMolecule) (mSurvivors : List Bool)
    (hsv : ∀ (i : Nat) m, mMorphs[i]? = some m → mSurvivors.getD i false = true →
      old.contains m.parentSmile = true ∧ old.find m.smile = none)
    (st st' : AcceptMorphs) (idx : Nat) (hinv : AcceptMorphs.readyInv old st)
    (h : AcceptMorphs.finalBody gated mMorphs mSurvivors st idx = some st') :
    AcceptMorphs.readyInv old st' := by
  obtain ⟨hmode, hrec, hkeys, hmod⟩ := hinv
  rcases AcceptMorphs.finalBody_step _ _ _ _ _ _ h with ⟨_, hctx, hmp, _⟩ |
    ⟨_, morph, ctx₁, parent, hs, hm, hins, hp, hctx, hmp, _⟩
  · rw [AcceptMorphs.readyInv, hctx, hmp]
    exact ⟨hmode, hrec, hkeys, hmod⟩
  · obtain ⟨hpar, hfresh⟩ := hsv idx morph hm hs
    obtain ⟨hc, _, _, _, hsel, _⟩ := AcceptMorphs.insertMorph_spec _ _ _ hins
    have hne : morph.smile ≠ morph.parentSmile := by
      intro e
      rw [e, ← ConcMap.contains_eq_false_iff, hpar] at hfresh
      cases hfresh
    have hparent : st.mCtx.candidates.find morph.parentSmile = some parent := by
      rw [hc, ConcMap.find_assign_ne _ _ hne] at hp
      exact hp
    obtain ⟨v₀, hv₀⟩ := (ConcMap.contains_iff _ _).mp hpar
    obtain ⟨parent', hp', hsm, hps, hds⟩ := hrec _ v₀ hv₀
    rw [hparent] at hp'
    cases hp'
    have hfind : ∀ k, st'.mCtx.candidates.find k =
        if morph.parentSmile = k then some (AcceptMorphs.withChild parent morph.smile)
        else if morph.smile = k then some morph else st.mCtx.candidates.find k := by
      intro k
      rw [hctx]
      simp only [ConcMap.find_assign, hc]
    have hmono : ∀ k, st.mCtx.candidates.contains k = true →
        st'.mCtx.candidates.contains k = true :=
      fun k hk => AcceptMorphs.finalBody_keys _ _ _ _ _ _ h k hk
    refine ⟨?_, fun k v hk => ?_, fun k hk => hmono k (hkeys k hk), fun p hpm => ?_⟩
    · rw [hctx]
      unfold PathFinderContext.ScaffoldMode at hmode ⊢
      simp only []
      rw [hsel]
      exact hmode
    · obtain ⟨v', hv', h1, h2, h3⟩ := hrec k v hk
      rw [hfind k]
      by_cases e : morph.parentSmile = k
      · subst e
        rw [hparent] at hv'
        cases hv'
        refine ⟨AcceptMorphs.withChild parent morph.smile, by simp, h1, h2, fun d hd => ?_⟩
        have hd' : d = morph.smile ∨ d ∈ parent.descendants :=
          (StrSet.mem_insert _ _ _).mp hd
        rcases hd' with rfl | hd
        · right
          rw [ConcMap.contains_iff, hfind]
          split
          · exact ⟨_, rfl⟩
          · rw [if_pos rfl]
            exact ⟨_, rfl⟩
        · rcases h3 d hd with h | h
          · exact Or.inl h
          · exact Or.inr (hmono d h)
      · have e' : morph.smile ≠ k := by
          rintro rfl
          rw [hfresh] at hk; cases hk
        refine ⟨v', by simp [e, e', hv'], h1, h2, fun d hd => ?_⟩
        rcases h3 d hd with h | h
        · exact Or.inl h
        · exact Or.inr (hmono d h)
    · rw [hmp, SmileSet.mem_insert_fst] at hpm
      rcases hpm with rfl | hpm
      · rw [hsm, hkey _ v₀ hv₀]
        exact hpar
      · exact hmod p hpm

/-- On a tree whose candidates are keyed by their fingerprint, list keys as
descendants and reach a root within the fuel, a path-mode AcceptScan of fresh
survivors with parents in the tree completes and leaves a tree that UpdateTree
can walk from every modified parent. -/
theorem PathFinder.acceptMorphs_ready (fuel : Nat) (morphs : List MolpherMolecule)
    (survivors : List Bool) (ctx : PathFinderContext) (hmode : ctx.ScaffoldMode = false)
    (hkey : KeyedBySmile ctx.candidates)
    (hch : ∀ k v, ctx.candidates.find k = some v → ∀ d, d ∈ v.descendants →
      ctx.candidates.contains d = true)
    (hroot : ∀ k, ctx.candidates.contains k = true →
      (UpdateTree.root ctx.candidates fuel k).isSome = true)
    (hsv : ∀ (i : Nat) m, morphs[i]? = some m → survivors.getD i false = true →
      ctx.candidates.contains m.parentSmile = true ∧ ctx.candidates.find m.smile = none) :
    ∃ acc, PathFinder.acceptMorphs morphs survivors ctx = some acc ∧
      acc.1.ScaffoldMode = false ∧ UpdateTree.ready fuel acc.2 acc.1 := by
  obtain ⟨st, hst, hinv⟩ := forRange_total
    (fun st : Molpher.AcceptMorphs => AcceptMorphs.readyInv ctx.candidates st)
    (AcceptMorphs.finalBody true morphs survivors) 0 morphs.length
    (by
      intro s i _ hi hs
      obtain ⟨s', hs'⟩ := AcceptMorphs.finalBody_total true morphs survivors s i hi
        (fun m hm hsvv => hs.2.2.1 _ (hsv i m hm hsvv).1)
      exact ⟨s', hs', AcceptMorphs.readyInv_step true _ hkey morphs survivors hsv s s' i hs hs'⟩)
    { mCtx := ctx, mModifiedParents := [], mSurvivorCount := 0 }
    ⟨hmode, fun k v hk => ⟨v, hk, rfl, rfl, fun d hd => Or.inl hd⟩, fun k hk => hk,
      fun p hp => (List.not_mem_nil _ hp).elim⟩
  refine ⟨(st.mCtx, st.mModifiedParents), ?_, hinv.1, fun p hp => ?_⟩
  · unfold PathFinder.acceptMorphs PathFinder.AcceptMorphs
    rw [hst]
    rfl
  · obtain ⟨hm, hrec, hkeys, hmod⟩ := hinv
    have hpold := hmod p hp
    obtain ⟨v, hv⟩ := (ConcMap.contains_iff _ _).mp hpold
    obtain ⟨v', hv', _, _, hd⟩ := hrec p v hv
    refine ⟨v', hv', fun child hc => ?_, ?_⟩
    · rcases hd child hc with h | h
      · exact hkeys child (hch p v hv child h)
      · exact h
    · obtain ⟨r, hr⟩ := Option.isSome_iff_exists.mp (hroot p hpold)
      rw [UpdateTree.root_keep ctx.candidates st.mCtx.candidates
        (fun k w hk => by
          obtain ⟨w', hw', _, hps, _⟩ := hrec k w hk
          exact ⟨w', hw', hps⟩) fuel p r hr]
      rfl

/-- A completed path-mode AcceptScan leaves the parameters, the job's molecules
and `prunedDuringThisIter` as they were. -/
theorem PathFinder.acceptMorphs_env (morphs : List MolpherMolecule) (survivors : List Bool)
    (ctx : PathFinderContext) (acc : PathFinderContext × SmileSet)
    (h : PathFinder.acceptMorphs morphs survivors ctx = some acc) :
    SameEnv ctx acc.1 ∧ acc.1.prunedDuringThisIter = ctx.prunedDuringThisIter := by
  unfold PathFinder.acceptMorphs PathFinder.AcceptMorphs at h
  rw [Option.map_eq_some'] at h
  obtain ⟨st, hst, rfl⟩ := h
  exact forRange_invariant
    (fun st : Molpher.AcceptMorphs => SameEnv ctx st.mCtx ∧
      st.mCtx.prunedDuringThisIter = ctx.prunedDuringThisIter) _ 0 morphs.length
    (fun s i s' _ _ hs hb => by
      obtain ⟨henv, hpr, _⟩ := AcceptMorphs.finalBody_find _ _ _ _ _ _ hb
      exact ⟨hs.1.env_trans henv, hpr.trans hs.2⟩)
    _ st ⟨SameEnv.env_refl _, rfl⟩ hst

/-- The tail of a non-cancelled path-mode iteration whose stages up to
UpdateTree complete and whose termination check finds the path: Prune is not
run. -/
theorem PathFinder.iterationTail_found (fuel : Nat) (Cancelled : Nat → Bool)
    (parallel_sort : List MolpherMolecule → List MolpherMolecule) (rand : Nat → Nat)
    (deferredMols : List MolpherMolecule) (elapsed : Nat)
    (canContinueCurrentJob pathFound : Bool) (ctx : PathFinderContext)
    (collected : List MolpherMolecule) (hnc : ∀ k, Cancelled k = false)
    (survivors : List Bool) (acc : PathFinderContext × SmileSet) (ctx₂ : PathFinderContext)
    (hf : PathFinder.filterStage ctx (parallel_sort collected) rand = some survivors)
    (ha : PathFinder.acceptMorphs (parallel_sort collected) survivors ctx = some acc)
    (hu : PathFinder.UpdateTree fuel acc.2 acc.1 = some ctx₂)
    (hp : PathFinder.pathFound ctx₂ = true) :
    PathFinder.iterationTail fuel Cancelled parallel_sort rand deferredMols elapsed
        canContinueCurrentJob pathFound ctx collected =
      some ((evaluateTermination elapsed canContinueCurrentJob ctx₂).1,
        (evaluateTermination elapsed canContinueCurrentJob ctx₂).2, true) := by
  unfold PathFinder.iterationTail
  simp only [hnc, Bool.not_false, if_true, Bool.and_true, hf, Option.bind, ha, hu, hp,
    Bool.not_true, Bool.false_eq_true, if_false]

/-- C16: trivial direct hit. In non-scaffold path mode, a non-cancelled
iteration that starts with the target's fingerprint among the keys of
`candidates` hands `pathFound = true` to `CommitIteration`, whatever morphs were
generated, sorted and drawn, and does not run Prune: the context committed is
the one UpdateTree returned, advanced by the termination evaluation, with
`prunedDuringThisIter` empty. The iteration completes when the candidates are
keyed by their fingerprint, list keys as descendants and reach a root within the
fuel, and every morph handed to Filter has its parent among the keys. A fresh
job whose source fingerprint is the target's starts in this way. -/
theorem C16_trivial_direct_hit (fuel : Nat) (Cancelled : Nat → Bool) (jobParams : MolpherParam)
    (GenerateMorphs : MolpherMolecule → Nat → List MolpherMolecule)
    (parallel_sort : List MolpherMolecule → List MolpherMolecule) (rand : Nat → Nat)
    (deferredMols : List MolpherMolecule) (elapsed : Nat)
    (canContinueCurrentJob pathFound : Bool) (ctx : PathFinderContext)
    (hnc : ∀ k, Cancelled k = false) :
    (ctx.ScaffoldMode = false → ctx.candidates.contains ctx.target.smile = true →
      ∀ r, PathFinder.iteration fuel Cancelled jobParams GenerateMorphs parallel_sort rand
          deferredMols elapsed canContinueCurrentJob pathFound ctx = some r →
        r.2.2 = true ∧ r.1.prunedDuringThisIter = [] ∧
        ∃ survivors acc ctx₂,
          PathFinder.acceptMorphs
              (parallel_sort
                (PathFinder.generation Cancelled jobParams GenerateMorphs ctx).1.2.mMorphs)
              survivors (PathFinder.generation Cancelled jobParams GenerateMorphs ctx).1.1
            = some acc ∧
          PathFinder.UpdateTree fuel acc.2 acc.1 = some ctx₂ ∧
          PathFinder.pathFound ctx₂ = true ∧
          r.1 = (evaluateTermination elapsed canContinueCurrentJob ctx₂).1) ∧
    (ctx.ScaffoldMode = false → ctx.candidates.contains ctx.target.smile = true →
      KeyedBySmile ctx.candidates →
      (∀ k v, ctx.candidates.find k = some v → ∀ d, d ∈ v.descendants →
        ctx.candidates.contains d = true) →
      (∀ k, ctx.candidates.contains k = true →
        (UpdateTree.root ctx.candidates fuel k).isSome = true) →
      (∀ m, m ∈ parallel_sort
          (PathFinder.generation Cancelled jobParams GenerateMorphs ctx).1.2.mMorphs →
        ctx.candidates.contains m.parentSmile = true) →
      (PathFinder.iteration fuel Cancelled jobParams GenerateMorphs parallel_sort rand
        deferredMols elapsed canContinueCurrentJob pathFound ctx).isSome = true) ∧
    (∀ GetScaffold ctx₀, ctx₀.ScaffoldMode = false → ctx₀.candidates = [] →
      ctx₀.source.smile = ctx₀.target.smile → PathFinder.seed GetScaffold ctx₀ = some ctx →
      ctx.ScaffoldMode = false ∧ ctx.candidates.contains ctx.target.smile = true) := by
  have hgen := PathFinder.generation_spec Cancelled jobParams GenerateMorphs ctx hnc
  have hcands : (PathFinder.generation Cancelled jobParams GenerateMorphs ctx).1.1.candidates =
      ctx.candidates.map (fun kv => (kv.1, PathFinder.FindLeaves.bump kv.2)) := by
    rw [hgen]
  have htarget : (PathFinder.generation Cancelled jobParams GenerateMorphs ctx).1.1.target =
      ctx.target := by rw [hgen]
  have hsel : (PathFinder.generation Cancelled jobParams GenerateMorphs ctx).1.1.scaffoldSelector =
      ctx.scaffoldSelector := by rw [hgen]
  have hpruned :
      (PathFinder.generation Cancelled jobParams GenerateMorphs ctx).1.1.prunedDuringThisIter =
        [] := by rw [hgen]
  have hcont : ∀ k, ctx.candidates.contains k = true →
      (PathFinder.generation Cancelled jobParams GenerateMorphs ctx).1.1.candidates.contains k =
        true := by
    intro k hk
    obtain ⟨v, hv⟩ := (ConcMap.contains_iff _ _).mp hk
    rw [ConcMap.contains_iff, hcands, PathFinder.FindLeaves.find_bump, hv]
    exact ⟨_, rfl⟩
  have hgmode : ctx.ScaffoldMode = false →
      (PathFinder.generation Cancelled jobParams GenerateMorphs ctx).1.1.ScaffoldMode = false := by
    intro hm
    unfold PathFinderContext.ScaffoldMode at hm ⊢
    rw [hsel]
    exact hm
  -- the termination check after the three stages
  have hfound : ctx.ScaffoldMode = false → ctx.candidates.contains ctx.target.smile = true →
      ∀ survivors acc ctx₂,
        PathFinder.acceptMorphs
            (parallel_sort
              (PathFinder.generation Cancelled jobParams GenerateMorphs ctx).1.2.mMorphs)
            survivors (PathFinder.generation Cancelled jobParams GenerateMorphs ctx).1.1
          = some acc →
        PathFinder.UpdateTree fuel acc.2 acc.1 = some ctx₂ →
        PathFinder.pathFound ctx₂ = true ∧ ctx₂.prunedDuringThisIter = [] := by
    intro hmode hhit survivors acc ctx₂ ha hu
    have hco := PathFinder.UpdateTree.counters _ _ _ _ hu
    obtain ⟨henv, hpr⟩ := PathFinder.acceptMorphs_env _ _ _ _ ha
    have hk₁ := PathFinder.acceptMorphs_keeps _ _ _ _ ha _ (hcont _ hhit)
    have hm₂ : ctx₂.ScaffoldMode = false := by
      rw [hco.mode, henv.scaffoldMode]
      exact hgmode hmode
    have ht₂ : ctx₂.target = ctx.target := by
      rw [(PathFinderContext.frame_fields hco.frame_eq).2.2.2.2.2.1, henv.2.2.2.1, htarget]
    constructor
    · unfold PathFinder.pathFound
      simp only [hm₂, Bool.not_false, if_true, ht₂]
      obtain ⟨v, hv⟩ := (ConcMap.contains_iff _ _).mp hk₁
      obtain ⟨v', hv', _⟩ := hco.find_of hv
      exact (ConcMap.contains_iff _ _).mpr ⟨v', hv'⟩
    · rw [hco.pruned_eq.1, hpr, hpruned]
  refine ⟨fun hmode hhit r h => ?_, fun hmode hhit hkey hch hroot hpar => ?_,
    fun GetScaffold ctx₀ hm₀ he hst hseed => ?_⟩
  · rw [PathFinder.iteration_eq] at h
    obtain ⟨survivors, acc, ctx₂, ctx₃, _, ha, hu, hcase, hr⟩ :=
      PathFinder.iterationTail_run _ _ _ _ _ _ _ _ _ _ r (fun k => hnc _) h
    obtain ⟨hp, hpr⟩ := hfound hmode hhit survivors acc ctx₂ ha hu
    rcases hcase with ⟨_, rfl⟩ | ⟨hnot, _⟩
    · rw [hr]
      refine ⟨hp, ?_, survivors, acc, ctx₃, ha, hu, hp, rfl⟩
      unfold evaluateTermination
      simp only []
      split <;> exact hpr
    · rw [hp] at hnot; cases hnot
  · have hgkey : KeyedBySmile
        (PathFinder.generation Cancelled jobParams GenerateMorphs ctx).1.1.candidates := by
      intro k c hk
      rw [hcands, PathFinder.FindLeaves.find_bump, Option.map_eq_some'] at hk
      obtain ⟨v, hv, rfl⟩ := hk
      rw [(PathFinder.FindLeaves.bump_links v).1]
      exact hkey k v hv
    have hgch : ∀ k v,
        (PathFinder.generation Cancelled jobParams GenerateMorphs ctx).1.1.candidates.find k =
          some v → ∀ d, d ∈ v.descendants →
        (PathFinder.generation Cancelled jobParams GenerateMorphs ctx).1.1.candidates.contains d =
          true := by
      intro k c hk d hd
      rw [hcands, PathFinder.FindLeaves.find_bump, Option.map_eq_some'] at hk
      obtain ⟨v, hv, rfl⟩ := hk
      rw [(PathFinder.FindLeaves.bump_links v).2.2] at hd
      exact hcont d (hch k v hv d hd)
    have hgfind : ∀ k v, ctx.candidates.find k = some v → ∃ v',
        (PathFinder.generation Cancelled jobParams GenerateMorphs ctx).1.1.candidates.find k =
          some v' ∧ v'.parentSmile = v.parentSmile := by
      intro k v hv
      refine ⟨PathFinder.FindLeaves.bump v, ?_, (PathFinder.FindLeaves.bump_links v).2.1⟩
      rw [hcands, PathFinder.FindLeaves.find_bump, hv]
      rfl
    have hgback : ∀ k,
        (PathFinder.generation Cancelled jobParams GenerateMorphs ctx).1.1.candidates.contains k =
          true → ctx.candidates.contains k = true := by
      intro k hk
      rw [ConcMap.contains_iff, hcands, PathFinder.FindLeaves.find_bump] at hk
      obtain ⟨v', hv'⟩ := hk
      rw [Option.map_eq_some'] at hv'
      obtain ⟨v, hv, _⟩ := hv'
      exact (ConcMap.contains_iff _ _).mpr ⟨v, hv⟩
    have hgroot : ∀ k,
        (PathFinder.generation Cancelled jobParams GenerateMorphs ctx).1.1.candidates.contains k =
          true →
        (UpdateTree.root
          (PathFinder.generation Cancelled jobParams GenerateMorphs ctx).1.1.candidates fuel
          k).isSome = true := by
      intro k hk
      obtain ⟨r, hr⟩ := Option.isSome_iff_exists.mp (hroot k (hgback k hk))
      rw [UpdateTree.root_keep _ _ hgfind fuel k r hr]
      rfl
    obtain ⟨survivors, hf⟩ := PathFinder.filterStage_total
      (PathFinder.generation Cancelled jobParams GenerateMorphs ctx).1.1
      (parallel_sort (PathFinder.generation Cancelled jobParams GenerateMorphs ctx).1.2.mMorphs)
      rand (hgmode hmode) (fun m hm => hcont _ (hpar m hm))
    obtain ⟨acc, ha, hamode, hready⟩ := PathFinder.acceptMorphs_ready fuel _ survivors _
      (hgmode hmode) hgkey hgch hgroot
      (fun i m hm hsv => by
        have hmem : m ∈ parallel_sort
            (PathFinder.generation Cancelled jobParams GenerateMorphs ctx).1.2.mMorphs := by
          obtain ⟨hlt, he⟩ := List.getElem?_eq_some.mp hm
          exact he ▸ List.getElem_mem hlt
        have hp := hcont _ (hpar m hmem)
        exact ⟨hp, PathFinder.filterStage_fresh _ _ _ _ (hgmode hmode) hf i m hm hsv hp⟩)
    obtain ⟨ctx₂, hu⟩ := Option.isSome_iff_exists.mp
      (PathFinder.UpdateTree.total fuel acc.2 acc.1 hamode hready)
    obtain ⟨hp, _⟩ := hfound hmode hhit survivors acc ctx₂ ha hu
    rw [PathFinder.iteration_eq,
      PathFinder.iterationTail_found _ _ _ _ _ _ _ _ _ _ (fun k => hnc _) survivors acc ctx₂
        hf ha hu hp]
    rfl
  · unfold PathFinder.seed at hseed
    rw [he] at hseed
    simp only [List.isEmpty_nil, if_true, hm₀, Bool.not_false] at hseed
    split at hseed
    · cases hseed
    · simp only [Option.some.injEq] at hseed
      subst hseed
      refine ⟨hm₀, ?_⟩
      rw [ConcMap.contains_iff]
      simp only [ConcMap.assign, ConcMap.find, hst, if_true]
      exact ⟨_, rfl⟩

/-- Witness for C16: the fresh job `freshHitCtx` (source and target `"T"`) is
seeded with the source, and the first iteration, which generates the morph
`"X"` from it, completes with `pathFound = true` and nothing pruned. -/
theorem C16_trivial_direct_hit_witness :
    ∃ ctx r, PathFinder.seed (fun s => s) freshHitCtx = some ctx ∧
      PathFinder.iteration 5 (fun _ => false) exParams
        (fun c _ => [{ blankMol with smile := "X", parentSmile := c.smile }]) (fun l => l)
        (fun _ => 0) [] 1 true false ctx = some r ∧
      r.2.2 = true ∧ r.1.prunedDuringThisIter = [] := by
  have hseed : PathFinder.seed (fun s => s) freshHitCtx =
      some { freshHitCtx with candidates := [("T", { blankMol with smile := "T" })] } := rfl
  have hs : (PathFinder.iteration 5 (fun _ => false) exParams
      (fun c _ => [{ blankMol with smile := "X", parentSmile := c.smile }]) (fun l => l)
      (fun _ => 0) [] 1 true false
      { freshHitCtx with candidates := [("T", { blankMol with smile := "T" })] }).isSome
        = true := by decide!
  obtain ⟨r, hr⟩ := Option.isSome_iff_exists.mp hs
  have h := (C16_trivial_direct_hit 5 (fun _ => false) exParams
    (fun c _ => [{ blankMol with smile := "X", parentSmile := c.smile }]) (fun l => l)
    (fun _ => 0) [] 1 true false
    { freshHitCtx with candidates := [("T", { blankMol with smile := "T" })] }
    (fun _ => rfl)).1 (by decide) (by decide) r hr
  exact ⟨_, r, hseed, hr, h.1, h.2.1⟩

theorem EraseInv.erase_step {e current : String} {rest : List String}
    {c : ConcMap MolpherMolecule} {node : MolpherMolecule}
    (h : EraseInv e (current :: rest) c) (hf : c.find current = some node) :
    EraseInv e (rest ++ node.descendants) (c.erase current) := by
  obtain ⟨hdn, hch, hpar, hnd, hpres, hl3, hsafe⟩ := h
  have hcur := List.mem_cons_self current rest
  have hce : current ≠ e := (hsafe current hcur).1
  have hsub : ∀ k v, (c.erase current).find k = some v → c.find k = some v ∧ current ≠ k := by
    intro k v hk
    rw [ConcMap.find_erase] at hk
    split at hk
    · cases hk
    · rename_i hne
      exact ⟨hk, hne⟩
  have hkeep : ∀ k, current ≠ k → c.contains k = true → (c.erase current).contains k = true := by
    intro k hne hk
    rw [ConcMap.contains_iff] at hk ⊢
    rw [ConcMap.find_erase_ne _ hne]
    exact hk
  have hmono : ∀ f d, Below (c.erase current) f d → Below c f d := fun f d hb =>
    Below.below_mono (fun k v hk => ⟨v, (hsub k v hk).1, fun _ hd => hd⟩) hb
  have hself : current ∉ node.descendants := fun hmem =>
    hce (hl3 current hcur current node hf hmem)
  have hchild : ∀ d, d ∈ node.descendants → c.contains d = true := fun d hd =>
    (hch current node d hf hd).elim (fun e' => absurd e' hce) id
  refine ⟨fun k v hk => hdn k v (hsub k v hk).1, fun k v d hk hd => ?_,
    fun k v d w hk hd hw => hpar k v d w (hsub k v hk).1 hd (hsub d w hw).1, ?_, fun q hq => ?_,
    fun q hq k v hk hqv => ?_, fun q hq => ?_⟩
  · obtain ⟨hk', hne⟩ := hsub k v hk
    by_cases hke : k = e
    · exact Or.inl hke
    · right
      have hpd := (hch k v d hk' hd).elim (fun e' => absurd e' hke) id
      refine hkeep d (fun e' => ?_) hpd
      subst e'
      exact hke (hl3 current hcur k v hk' hd)
  · rw [List.nodup_append]
    refine ⟨(List.nodup_cons.mp hnd).2, hdn current node hf, fun d hd hd' => ?_⟩
    exact hce (hl3 d (List.mem_cons_of_mem _ hd) current node hf hd')
  · rcases List.mem_append.mp hq with hm | hm
    · exact hkeep q (fun e' => (List.nodup_cons.mp hnd).1 (e' ▸ hm))
        (hpres q (List.mem_cons_of_mem _ hm))
    · exact hkeep q (fun e' => hself (e' ▸ hm)) (hchild q hm)
  · obtain ⟨hk', hne⟩ := hsub k v hk
    rcases List.mem_append.mp hq with hm | hm
    · exact hl3 q (List.mem_cons_of_mem _ hm) k v hk' hqv
    · obtain ⟨w, hw⟩ := (ConcMap.contains_iff _ _).mp (hchild q hm)
      have h1 := hpar current node q w hf hm hw
      have h2 := hpar k v q w hk' hqv hw
      exact absurd (h1.symm.trans h2) hne
  · rcases List.mem_append.mp hq with hm | hm
    · exact ⟨(hsafe q (List.mem_cons_of_mem _ hm)).1,
        fun hb => (hsafe q (List.mem_cons_of_mem _ hm)).2 (hmono _ _ hb)⟩
    · refine ⟨fun e' => (hsafe current hcur).2 (e' ▸ Below.child current q node hf hm),
        fun hb => (hsafe current hcur).2 ?_⟩
      exact Below.step current q e node hf hm (hmono _ _ hb)

/-- Outside scaffold mode the erase loop completes on a tree, with fuel for one
turn per candidate. -/
theorem EraseSubTree.loop_total (e : String) :
    ∀ (fuel : Nat) (Q : List String) (ctx : PathFinderContext), ctx.ScaffoldMode = false →
      EraseInv e Q ctx.candidates → ctx.candidates.length ≤ fuel →
      ∃ ctx', EraseSubTree.loop fuel Q ctx = some ctx' ∧ EraseInv e [] ctx'.candidates := by
  intro fuel
  induction fuel with
  | zero =>
    intro Q ctx _ hinv hlen
    cases Q with
    | nil => exact ⟨ctx, rfl, hinv⟩
    | cons current rest =>
      have hp := hinv.2.2.2.2.1 current (List.mem_cons_self _ _)
      rw [List.length_eq_zero.mp (Nat.le_zero.mp hlen)] at hp
      cases hp
  | succ n ih =>
    intro Q ctx hmode hinv hlen
    cases Q with
    | nil => exact ⟨ctx, rfl, hinv⟩
    | cons current rest =>
      have hp := hinv.2.2.2.2.1 current (List.mem_cons_self _ _)
      obtain ⟨node, hf⟩ := (ConcMap.contains_iff _ _).mp hp
      simp only [EraseSubTree.loop, hf, hmode, Bool.false_and, Bool.false_eq_true, if_false]
      refine ih _ (EraseSubTree.eraseNode ctx current node) hmode (hinv.erase_step hf) ?_
      have := ConcMap.length_erase_lt ctx.candidates current hp
      simp only [EraseSubTree.eraseNode]
      omega

theorem TreeShaped.eraseInv {cands : ConcMap MolpherMolecule} (h : TreeShaped cands)
    (e : String) : EraseInv e [] cands := by
  refine ⟨h.1, fun k v d hk hd => ?_, fun k v d w hk hd hw => ?_, List.nodup_nil,
    fun _ hq => (List.not_mem_nil _ hq).elim, fun _ hq => (List.not_mem_nil _ hq).elim,
    fun _ hq => (List.not_mem_nil _ hq).elim⟩
  · obtain ⟨w, hw, _⟩ := h.2 k v d hk hd
    exact Or.inr ((ConcMap.contains_iff _ _).mpr ⟨w, hw⟩)
  · obtain ⟨w', hw', hp⟩ := h.2 k v d hk hd
    rw [hw] at hw'
    cases hw'
    exact hp

/-- The purge loop over the children `D` of `s` completes and keeps `s`. -/
theorem PruneTree.eraseAll_total (s : String) (node : MolpherMolecule) :
    ∀ (D : List String) (ctx : PathFinderContext), ctx.ScaffoldMode = false →
      EraseInv s [] ctx.candidates → D.Nodup → ctx.candidates.find s = some node →
      (∀ a, a ∈ D → a ∈ node.descendants ∧ ctx.candidates.contains a = true) →
      ¬ Below ctx.candidates s s →
      ∃ ctx', D.foldlM (fun c child => EraseSubTree child c) ctx = some ctx' ∧
        ctx'.candidates.contains s = true := by
  intro D
  induction D with
  | nil =>
    intro ctx _ _ _ hs _ _
    exact ⟨ctx, rfl, (ConcMap.contains_iff _ _).mpr ⟨node, hs⟩⟩
  | cons a D ih =>
    intro ctx hmode hinv hnd hs hD hcyc
    obtain ⟨hdn, hch, hpar, _, _, _, _⟩ := hinv
    obtain ⟨ha, hpa⟩ := hD a (List.mem_cons_self _ _)
    obtain ⟨wa, hwa⟩ := (ConcMap.contains_iff _ _).mp hpa
    have has : a ≠ s := fun e => hcyc (e ▸ Below.child s a node hs ha)
    have hbas : ¬ Below ctx.candidates a s := fun hb =>
      hcyc (Below.step s a s node hs ha hb)
    have hstart : EraseInv s [a] ctx.candidates := by
      refine ⟨hdn, hch, hpar, List.nodup_singleton a, fun q hq => ?_, fun q hq k v hk hqv => ?_,
        fun q hq => ?_⟩
      · rw [List.mem_singleton] at hq
        subst hq
        exact hpa
      · rw [List.mem_singleton] at hq
        subst hq
        exact (hpar k v q wa hk hqv hwa).symm.trans (hpar s node q wa hs ha hwa)
      · rw [List.mem_singleton] at hq
        subst hq
        exact ⟨has, hbas⟩
    obtain ⟨c₁, hc₁, hinv₁⟩ := EraseSubTree.loop_total s ctx.candidates.length [a] ctx hmode
      hstart (Nat.le_refl _)
    have hexact := (EraseSubTree.loop_exact _ _ _ _ hc₁).2
    have hfind₁ := EraseSubTree.loop_find _ _ _ _ hc₁
    have hm₁ : c₁.ScaffoldMode = false := by
      have := EraseSubTree.loop_frame _ _ _ _ hc₁
      rw [PathFinderContext.frame_mode this]
      exact hmode
    have hs₁ : c₁.candidates.find s = some node := by
      rw [hexact s, hs]
      rintro (hmem | ⟨r, hr, hb⟩)
      · rw [List.mem_singleton] at hmem
        exact has hmem.symm
      · rw [List.mem_singleton] at hr
        subst hr
        exact hbas hb
    have hcyc₁ : ¬ Below c₁.candidates s s := fun hb =>
      hcyc (Below.below_mono (fun k v hk => ⟨v, hfind₁ k v hk, fun _ hd => hd⟩) hb)
    have hD₁ : ∀ a', a' ∈ D → a' ∈ node.descendants ∧ c₁.candidates.contains a' = true := by
      intro a' ha'
      obtain ⟨hmem, hpres⟩ := hD a' (List.mem_cons_of_mem _ ha')
      obtain ⟨w', hw'⟩ := (ConcMap.contains_iff _ _).mp hpres
      refine ⟨hmem, ?_⟩
      rw [ConcMap.contains_iff, hexact a']
      · exact ⟨w', hw'⟩
      · rintro (hm | ⟨r, hr, hb⟩)
        · rw [List.mem_singleton] at hm
          exact (List.nodup_cons.mp hnd).1 (hm ▸ ha')
        · rw [List.mem_singleton] at hr
          subst hr
          obtain ⟨k, v, hk, hav, hor⟩ := hb.last
          have hks : k = s := (hpar k v a' w' hk hav hw').symm.trans (hpar s node a' w' hs hmem hw')
          subst hks
          rcases hor with e | hb'
          · exact has e.symm
          · exact hbas hb'
    obtain ⟨c₂, hc₂, hpres₂⟩ := ih c₁ hm₁ hinv₁ (List.nodup_cons.mp hnd).2 hs₁ hD₁ hcyc₁
    refine ⟨c₂, ?_, hpres₂⟩
    rw [List.foldlM_cons]
    have : EraseSubTree a ctx = some c₁ := hc₁
    rw [this]
    exact hc₂

/-- Outside scaffold mode the block under `if (prune)` completes on a tree, for a
queued node that has a lister whenever it is to be erased itself. -/
theorem PruneTree.pruneNode_total (deferred : Bool) (s : String) (queue : List String)
    (node : MolpherMolecule) (ctx : PathFinderContext) (hmode : ctx.ScaffoldMode = false)
    (hT : TreeInv (s :: queue) ctx.candidates) (hn : ctx.candidates.find s = some node)
    (hlisted : (deferred || PruneTree.tooManyDerivations ctx s) = true →
      Listed s ctx.candidates) :
    ∃ ctx', PruneTree.pruneNode deferred s node ctx = some ctx' := by
  obtain ⟨hshape, _, _, hanti⟩ := hT
  have hss : ¬ Below ctx.candidates s s :=
    hanti s (List.mem_cons_self _ _) s (List.mem_cons_self _ _)
  unfold PruneTree.pruneNode
  cases hb : (deferred || PruneTree.tooManyDerivations ctx s)
  · simp only [Bool.false_eq_true, if_false]
    obtain ⟨c₁, hc₁, hpres⟩ := PruneTree.eraseAll_total s node node.descendants ctx hmode
      (hshape.eraseInv s) (hshape.1 s node hn) hn
      (fun a ha => ⟨ha, by
        obtain ⟨w, hw, _⟩ := hshape.2 s node a hn ha
        exact (ConcMap.contains_iff _ _).mpr ⟨w, hw⟩⟩) hss
    rw [hc₁]
    simp only [Option.bind, hpres, if_true]
    exact ⟨_, rfl⟩
  · simp only [if_true]
    obtain ⟨k, v, hk, hsv⟩ := hlisted hb
    obtain ⟨w, hw, hpw⟩ := hshape.2 k v s hk hsv
    rw [hn] at hw
    cases hw
    have hks : k ≠ s := fun e => hss (e ▸ Below.child k s v hk hsv)
    rw [if_neg (by rw [hpw]; exact hks), hpw, hk]
    simp only []
    have hfind : ∀ k', (ctx.candidates.assign k (PruneTree.withoutChild v s)).find k' =
        if k = k' then some (PruneTree.withoutChild v s) else ctx.candidates.find k' :=
      fun k' => ConcMap.find_assign _ _ _ _
    have hback : ∀ k' v', (ctx.candidates.assign k (PruneTree.withoutChild v s)).find k' = some v' →
        ∃ v₀, ctx.candidates.find k' = some v₀ ∧ v'.parentSmile = v₀.parentSmile ∧
          v'.descendants.Sublist v₀.descendants ∧ (k' ≠ k → v' = v₀) := by
      intro k' v' hk'
      rw [hfind] at hk'
      split at hk'
      · rename_i e
        subst e
        cases hk'
        exact ⟨v, hk, rfl, List.filter_sublist _, fun hne => absurd rfl hne⟩
      · exact ⟨v', hk', rfl, List.Sublist.refl _, fun _ => rfl⟩
    have hpres : ∀ d, ctx.candidates.contains d = true →
        (ctx.candidates.assign k (PruneTree.withoutChild v s)).contains d = true := by
      intro d hd
      rw [ConcMap.contains_iff] at hd ⊢
      rw [hfind]
      split
      · exact ⟨_, rfl⟩
      · exact hd
    have hstart : EraseInv k [s] (ctx.candidates.assign k (PruneTree.withoutChild v s)) := by
      refine ⟨fun k' v' hk' => ?_, fun k' v' d hk' hd => ?_, fun k' v' d w hk' hd hw => ?_,
        List.nodup_singleton s, fun q hq => ?_, fun q hq k' v' hk' hqv => ?_, fun q hq => ?_⟩
      · obtain ⟨v₀, hv₀, _, hsl, _⟩ := hback k' v' hk'
        exact hsl.nodup (hshape.1 k' v₀ hv₀)
      · obtain ⟨v₀, hv₀, _, hsl, _⟩ := hback k' v' hk'
        obtain ⟨w, hw, _⟩ := hshape.2 k' v₀ d hv₀ (hsl.subset hd)
        exact Or.inr (hpres d ((ConcMap.contains_iff _ _).mpr ⟨w, hw⟩))
      · obtain ⟨v₀, hv₀, _, hsl, _⟩ := hback k' v' hk'
        obtain ⟨w₀, hw₀, hpw₀, _⟩ := hback d w hw
        obtain ⟨w₁, hw₁, hp₁⟩ := hshape.2 k' v₀ d hv₀ (hsl.subset hd)
        rw [hw₀] at hw₁
        cases hw₁
        exact hpw₀.trans hp₁
      · rw [List.mem_singleton] at hq
        subst hq
        exact hpres q ((ConcMap.contains_iff _ _).mpr ⟨node, hn⟩)
      · rw [List.mem_singleton] at hq
        subst hq
        obtain ⟨v₀, hv₀, _, hsl, _⟩ := hback k' v' hk'
        exact hshape.unique hv₀ hk (hsl.subset hqv) hsv
      · rw [List.mem_singleton] at hq
        subst hq
        refine ⟨hks.symm, fun hb' => hss ?_⟩
        have hb₀ : Below ctx.candidates q k :=
          Below.below_mono (fun k' v' hk' => by
            obtain ⟨v₀, hv₀, _, hsl, _⟩ := hback k' v' hk'
            exact ⟨v₀, hv₀, fun d hd => hsl.subset hd⟩) hb'
        exact hb₀.snoc hk hsv
    obtain ⟨c₁, hc₁, _⟩ := EraseSubTree.loop_total k
      (ctx.candidates.assign k (PruneTree.withoutChild v s)).length [s]
      { ctx with candidates := ctx.candidates.assign k (PruneTree.withoutChild v s) }
      hmode hstart (Nat.le_refl _)
    exact ⟨c₁, hc₁⟩

/-- A queued fingerprint with a lister has one after the visit of another. -/
theorem Listed.listed_step {s q : String} {queue fed : List String}
    {c c' : ConcMap MolpherMolecule} (hT : TreeInv (s :: queue) c)
    (h : PruneEffect s fed c c') (hq : q ∈ queue) (hl : Listed q c) : Listed q c' := by
  obtain ⟨_, hnd, _, hanti⟩ := hT
  obtain ⟨k, v, hk, hqv⟩ := hl
  have hqs : q ≠ s := fun e => (List.nodup_cons.mp hnd).1 (e ▸ hq)
  have hsq : ¬ Below c s q :=
    hanti s (List.mem_cons_self _ _) q (List.mem_cons_of_mem _ hq)
  have hks : k ≠ s := fun e => hsq (e ▸ Below.child k q v hk hqv)
  have hsk : ¬ Below c s k := fun hb => hsq (hb.snoc hk hqv)
  obtain ⟨node, hn, hcase⟩ := h
  rcases hcase with ⟨_, hfw, _⟩ | ⟨_, parent, hp, _, _, hkeep⟩ | ⟨_, _, _, hkeep⟩
  · obtain ⟨v', hv', _, hd⟩ := hfw k v hk
    exact ⟨k, v', hv', hd ▸ hqv⟩
  · have := hkeep k (fun hT => hT.elim hks hsk)
    by_cases e : node.parentSmile = k
    · rw [if_pos e] at this
      rw [e, hk] at hp
      cases hp
      exact ⟨k, _, this, (StrSet.mem_erase _ _ _).mpr ⟨hqv, hqs⟩⟩
    · rw [if_neg e] at this
      exact ⟨k, v, this.trans hk, hqv⟩
  · have := hkeep k hsk
    rw [if_neg (Ne.symm hks)] at this
    exact ⟨k, v, this.trans hk, hqv⟩

/-- What a visit feeds has the visited node as lister afterwards. -/
theorem Listed.listed_fed {s q : String} {fed : List String} {c c' : ConcMap MolpherMolecule}
    (h : PruneEffect s fed c c') (hq : q ∈ fed) : Listed q c' := by
  obtain ⟨node, hn, hcase⟩ := h
  rcases hcase with ⟨rfl, hfw, _⟩ | ⟨rfl, _⟩ | ⟨rfl, _⟩
  · obtain ⟨v', hv', _, hd⟩ := hfw s node hn
    exact ⟨s, v', hv', hd ▸ hq⟩
  · cases hq
  · cases hq

/-- A path-mode visit completes in a ready state and leaves a ready state. -/
theorem PathFinder.PruneTree.ready_step (mDeferred : SmileSet) (s : String)
    (queue : List String) (c : PathFinderContext)
    (hR : PathFinder.PruneTree.Ready mDeferred (s :: queue) c) :
    ∃ c' fed, PathFinder.PruneTree.call mDeferred s c = some (c', fed) ∧
      PathFinder.PruneTree.Ready mDeferred (queue ++ fed) c' := by
  obtain ⟨hmode, hT, hroot⟩ := hR
  obtain ⟨node, hn⟩ := (ConcMap.contains_iff _ _).mp (hT.2.2.1 s (List.mem_cons_self _ _))
  have hcall : ∃ r, PathFinder.PruneTree.call mDeferred s c = some r := by
    unfold PathFinder.PruneTree.call
    rw [hn]
    simp only []
    split
    · rename_i hprune
      obtain ⟨c', hc'⟩ := PruneTree.pruneNode_total (decide (s ∈ mDeferred)) s queue node c hmode
        hT hn (fun hb => by
          rcases hroot s (List.mem_cons_self _ _) with hl | ⟨hnd, hns⟩
          · exact hl
          · exfalso
            simp only [hnd, decide_False, Bool.false_or] at hb hprune
            exact hns node hn ⟨by simpa using hprune, hb⟩)
      rw [hc']
      exact ⟨_, rfl⟩
    · exact ⟨_, rfl⟩
  obtain ⟨⟨c', fed⟩, hc⟩ := hcall
  have heff := PathFinder.PruneTree.call_effect _ _ _ _ _ hc
  have hsh := PathFinder.PruneTree.call_shrinks _ _ _ _ _ hc
  refine ⟨c', fed, hc, ?_, hT.tree_step heff, fun q hq => ?_⟩
  · rw [hsh.shrinks_sameEnv.scaffoldMode]
    exact hmode
  · rcases List.mem_append.mp hq with hm | hm
    · rcases hroot q (List.mem_cons_of_mem _ hm) with hl | ⟨hnd, hns⟩
      · exact Or.inl (hl.listed_step hT heff hm)
      · right
        refine ⟨hnd, fun v' hv' hbad => ?_⟩
        obtain ⟨v, hv, hl⟩ := hsh.2.2.2.2.2.2.2.1 q v' hv'
        refine hns v hv ⟨?_, ?_⟩
        · have hst := hbad.1
          rw [hsh.1] at hst
          rcases hl.2.2.1 with e | e
          · rw [e] at hst; exact hst
          · rw [e] at hst; exact absurd hst (by omega)
        · rw [← PruneTree.tooMany_congr hsh]
          exact hbad.2
    · exact Or.inl (Listed.listed_fed heff hm)

/-- An activity-mode visit completes in a ready state and leaves a ready
state. -/
theorem PathFinderActivity.PruneTree.ready_step_act (mDeferred : SmileSet) (s : String)
    (queue : List String) (c : PathFinderContext)
    (hR : PathFinderActivity.PruneTree.ReadyAct (s :: queue) c) :
    ∃ c' fed, PathFinderActivity.PruneTree.call mDeferred s c = some (c', fed) ∧
      PathFinderActivity.PruneTree.ReadyAct (queue ++ fed) c' := by
  obtain ⟨hmode, hT, hroot⟩ := hR
  obtain ⟨node, hn⟩ := (ConcMap.contains_iff _ _).mp (hT.2.2.1 s (List.mem_cons_self _ _))
  have hcall : ∃ r, PathFinderActivity.PruneTree.call mDeferred s c = some r := by
    unfold PathFinderActivity.PruneTree.call
    rw [hn]
    simp only []
    split
    · exact ⟨_, rfl⟩
    · split
      · exact ⟨_, rfl⟩
      · split
        · rename_i hprune
          simp only [Bool.and_eq_true, decide_eq_true_eq] at hprune
          obtain ⟨c', hc'⟩ := PruneTree.pruneNode_total (decide (s ∈ mDeferred)) s queue node c
            hmode hT hn (fun _ => by
              rcases hroot s (List.mem_cons_self _ _) with hl | hempty
              · exact hl
              · exact absurd (hempty node hn) hprune.2)
          rw [hc']
          exact ⟨_, rfl⟩
        · exact ⟨_, rfl⟩
  obtain ⟨⟨c', fed⟩, hc⟩ := hcall
  have heff := PathFinderActivity.PruneTree.call_effect_act _ _ _ _ _ hc
  have hsh := PathFinderActivity.PruneTree.call_shrinks_act _ _ _ _ _ hc
  refine ⟨c', fed, hc, ?_, hT.tree_step heff, fun q hq => ?_⟩
  · rw [hsh.shrinks_sameEnv.scaffoldMode]
    exact hmode
  · rcases List.mem_append.mp hq with hm | hm
    · rcases hroot q (List.mem_cons_of_mem _ hm) with hl | hempty
      · exact Or.inl (hl.listed_step hT heff hm)
      · right
        intro v' hv'
        obtain ⟨v, hv, hpar, _⟩ := heff.back q v' hv'
        rw [hpar]
        exact hempty v hv
    · exact Or.inl (Listed.listed_fed heff hm)

/-- The path-mode worklist completes from a ready state, within as many visits
as `T` has entries. -/
theorem PathFinder.PruneTree.prune_total (mDeferred : SmileSet) :
    ∀ (fuel : Nat) (T Q : List String) (c : PathFinderContext),
      PathFinder.PruneTree.Ready mDeferred Q c → Covered T Q c.candidates → T.length ≤ fuel →
      ∃ c', PathFinder.PruneTree mDeferred fuel Q c = some c' := by
  intro fuel
  induction fuel with
  | zero =>
    intro T Q c _ hC hlen
    cases Q with
    | nil => exact ⟨c, rfl⟩
    | cons s queue =>
      have := hC.1 s (List.mem_cons_self _ _)
      rw [List.length_eq_zero.mp (Nat.le_zero.mp hlen)] at this
      cases this
  | succ n ih =>
    intro T Q c hR hC hlen
    cases Q with
    | nil => exact ⟨c, rfl⟩
    | cons s queue =>
      obtain ⟨c', fed, hc, hR'⟩ := PathFinder.PruneTree.ready_step mDeferred s queue c hR
      simp only [PathFinder.PruneTree, hc]
      refine ih (T.erase s) (queue ++ fed) c' hR'
        (hC.covered_step hR.2.1 (PathFinder.PruneTree.call_effect _ _ _ _ _ hc)) ?_
      rw [List.length_erase_of_mem (hC.1 s (List.mem_cons_self _ _))]
      omega

theorem PathFinderActivity.PruneTree.total_prune_act (mDeferred : SmileSet) :
    ∀ (fuel : Nat) (T Q : List String) (c : PathFinderContext),
      PathFinderActivity.PruneTree.ReadyAct Q c → Covered T Q c.candidates → T.length ≤ fuel →
      ∃ c', PathFinderActivity.PruneTree mDeferred fuel Q c = some c' := by
  intro fuel
  induction fuel with
  | zero =>
    intro T Q c _ hC hlen
    cases Q with
    | nil => exact ⟨c, rfl⟩
    | cons s queue =>
      have := hC.1 s (List.mem_cons_self _ _)
      rw [List.length_eq_zero.mp (Nat.le_zero.mp hlen)] at this
      cases this
  | succ n ih =>
    intro T Q c hR hC hlen
    cases Q with
    | nil => exact ⟨c, rfl⟩
    | cons s queue =>
      obtain ⟨c', fed, hc, hR'⟩ := PathFinderActivity.PruneTree.ready_step_act mDeferred s queue c hR
      simp only [PathFinderActivity.PruneTree, hc]
      refine ih (T.erase s) (queue ++ fed) c' hR'
        (hC.covered_step hR.2.1 (PathFinderActivity.PruneTree.call_effect_act _ _ _ _ _ hc)) ?_
      rw [List.length_erase_of_mem (hC.1 s (List.mem_cons_self _ _))]
      omega

/-- Outside scaffold mode the path-mode Prune stage completes on a well-formed
tree whose root is not both stale and over budget, with fuel for one visit per
candidate. -/
theorem PathFinder.pruneStage_total (fuel : Nat) (deferredMols : List MolpherMolecule)
    (ctx : PathFinderContext) (hmode : ctx.ScaffoldMode = false)
    (hW : WellFormed [PathFinder.pruningRoot ctx] ctx.candidates)
    (hfuel : ctx.candidates.length ≤ fuel)
    (hroot : ∀ v, ctx.candidates.find ctx.source.smile = some v →
      ¬ (v.itersWithoutDistImprovement > ctx.params.itThreshold ∧
        PruneTree.tooManyDerivations ctx ctx.source.smile = true)) :
    (PathFinder.pruneStage fuel deferredMols ctx).isSome = true := by
  have hr : PathFinder.pruningRoot ctx = ctx.source.smile := by
    unfold PathFinder.pruningRoot
    simp [hmode]
  have hT := hW.treeInv
  have hC := Covered.keys hT
  have hlen : (ConcMap.keys ctx.candidates).dedup.length ≤ fuel := by
    have := (List.dedup_sublist (ConcMap.keys ctx.candidates)).length_le
    simp only [ConcMap.keys, List.length_map] at this ⊢
    omega
  obtain ⟨c', hc'⟩ := PathFinder.PruneTree.prune_total (PathFinder.deferredSmiles ctx deferredMols)
    fuel _ [PathFinder.pruningRoot ctx] ctx
    ⟨hmode, hT, fun q hq => by
      rw [List.mem_singleton] at hq
      subst hq
      right
      rw [hr]
      exact ⟨fun hd => ((PathFinder.mem_deferredSmiles _ _ _).mp hd).2.1 rfl, hroot⟩⟩
    hC hlen
  have hm' : c'.ScaffoldMode = false := by
    rw [(PathFinder.PruneTree.shrinks _ _ _ _ _ hc').shrinks_sameEnv.scaffoldMode]
    exact hmode
  unfold PathFinder.pruneStage
  rw [hc']
  simp [hm']

/-- Outside scaffold mode the activity-mode Prune stage completes on a
well-formed tree whose start molecules have an empty `parentSmile`, with fuel
for one visit per candidate. -/
theorem PathFinderActivity.pruneStage_total_act (fuel : Nat) (startMols : List String)
    (ctx : PathFinderContext) (hmode : ctx.ScaffoldMode = false)
    (hW : WellFormed startMols ctx.candidates) (hfuel : ctx.candidates.length ≤ fuel)
    (hroot : ∀ r, r ∈ startMols → ∀ v, ctx.candidates.find r = some v → v.parentSmile = "") :
    (PathFinderActivity.pruneStage fuel startMols ctx).isSome = true := by
  have hT := hW.treeInv
  have hC := Covered.keys hT
  have hlen : (ConcMap.keys ctx.candidates).dedup.length ≤ fuel := by
    have := (List.dedup_sublist (ConcMap.keys ctx.candidates)).length_le
    simp only [ConcMap.keys, List.length_map] at this ⊢
    omega
  obtain ⟨c', hc'⟩ := PathFinderActivity.PruneTree.total_prune_act [] fuel _ startMols ctx
    ⟨hmode, hT, fun q hq => Or.inr (hroot q hq)⟩ hC hlen
  have hm' : c'.ScaffoldMode = false := by
    rw [(PathFinderActivity.PruneTree.shrinks_act _ _ _ _ _ hc').shrinks_sameEnv.scaffoldMode]
    exact hmode
  unfold PathFinderActivity.pruneStage
  rw [hc']
  simp [hm']

/-- C13: Prune is idempotent on a well-formed tree. For a tree hanging from the
pruning root (path mode) or from the start molecules (activity mode), with
duplicate-free `descendants` that list candidates naming the lister as parent
and roots that have no candidate as parent, and fuel for one visit per
candidate: when the Prune stage returns `ctx'`, the Prune stage run on `ctx'`
with the same deferred list returns `ctx'` itself, so `candidates` is unchanged
and nothing is appended to `prunedDuringThisIter`. Outside scaffold mode the
first run does return: in path mode when the source is not both stale and over
budget, in activity mode when the start molecules have an empty `parentSmile`. -/
theorem C13_prune_idempotent (fuel : Nat) (ctx : PathFinderContext)
    (hfuel : ctx.candidates.length ≤ fuel) :
    (∀ deferredMols, WellFormed [PathFinder.pruningRoot ctx] ctx.candidates →
      (∀ ctx', PathFinder.pruneStage fuel deferredMols ctx = some ctx' →
        PathFinder.pruneStage fuel deferredMols ctx' = some ctx') ∧
      (ctx.ScaffoldMode = false →
        (∀ v, ctx.candidates.find ctx.source.smile = some v →
          ¬ (v.itersWithoutDistImprovement > ctx.params.itThreshold ∧
            PruneTree.tooManyDerivations ctx ctx.source.smile = true)) →
        (PathFinder.pruneStage fuel deferredMols ctx).isSome = true)) ∧
    (∀ startMols, WellFormed startMols ctx.candidates →
      (∀ ctx', PathFinderActivity.pruneStage fuel startMols ctx = some ctx' →
        PathFinderActivity.pruneStage fuel startMols ctx' = some ctx') ∧
      (ctx.ScaffoldMode = false →
        (∀ r, r ∈ startMols → ∀ v, ctx.candidates.find r = some v → v.parentSmile = "") →
        (PathFinderActivity.pruneStage fuel startMols ctx).isSome = true)) := by
  constructor
  · intro deferredMols hW
    refine ⟨fun ctx' h => ?_, fun hmode hroot =>
      PathFinder.pruneStage_total fuel deferredMols ctx hmode hW hfuel hroot⟩
    have hsz := PathFinder.pruneStage_sizes _ _ _ _ h
    have hrun := PathFinder.pruneStage_eq _ _ _ _ h
    have hs := PathFinder.PruneTree.shrinks _ _ _ _ _ hrun
    have hid := PathFinder.PruneTree.idem _ _ _ _ _ hW hfuel hrun
    obtain ⟨hd, hr⟩ := PathFinder.deferredSmiles_congr hs deferredMols
    unfold PathFinder.pruneStage
    rw [hd, hr, hid]
    simp only [Option.bind, hsz, Bool.false_eq_true, if_false]
  · intro startMols hW
    refine ⟨fun ctx' h => ?_, fun hmode hroot =>
      PathFinderActivity.pruneStage_total_act fuel startMols ctx hmode hW hfuel hroot⟩
    have hsz := PathFinderActivity.pruneStage_sizes_act _ _ _ _ h
    have hrun := PathFinderActivity.pruneStage_eq_act _ _ _ _ h
    have hid := PathFinderActivity.PruneTree.idem_act _ _ _ _ _ hW hfuel hrun
    unfold PathFinderActivity.pruneStage
    rw [hid]
    simp only [Option.bind, hsz, Bool.false_eq_true, if_false]

/-- Witness for C13: on `pruneCtx` the first path-mode Prune erases `"A"`, `"B"`
and `"D"` (keys `"S"`, `"C"` are left) and the second returns the same
context. -/
theorem C13_prune_idempotent_witness :
    ∃ ctx', PathFinder.pruneStage 10 [] pruneCtx = some ctx' ∧
      ConcMap.keys ctx'.candidates = ["S", "C"] ∧
      ctx'.prunedDuringThisIter = ["A", "B", "D"] ∧
      PathFinder.pruneStage 10 [] ctx' = some ctx' := by
  have h := (C13_prune_idempotent 10 pruneCtx (by decide)).1 []
    (wellFormedCheck_sound _ _ (by decide))
  obtain ⟨ctx', hc⟩ := Option.isSome_iff_exists.mp (h.2 (by decide) (fun v hv => by
    have hS : pruneCtx.candidates.find pruneCtx.source.smile =
        some { blankMol with smile := "S", descendants := ["A", "C"],
                             historicDescendants := ["A", "C"] } := rfl
    rw [hS] at hv
    cases hv
    decide))
  have hk : (PathFinder.pruneStage 10 [] pruneCtx).map
      (fun c => (ConcMap.keys c.candidates, c.prunedDuringThisIter))
        = some (["S", "C"], ["A", "B", "D"]) := by
    decide
  rw [hc] at hk
  simp only [Option.map_some', Option.some.injEq, Prod.mk.injEq] at hk
  exact ⟨ctx', hc, hk.1, hk.2, h.1 ctx' hc⟩

/-- C23: whole-subtree erase in path mode. For every candidate `f` the Prune
worklist visits (with record `node` at that moment) that is deferred, or that is
stale with `morphDerivations[f] > cntMaxMorphs`: the candidate keyed by
`node.parentSmile` was a key at the visit, and after Prune `f` and every
transitive descendant `f` had in the tree before Prune are absent from
`candidates`, and the candidate keyed by `node.parentSmile` does not list `f`.
Outside scaffold mode Prune does return on a well-formed tree whose source is
not both stale and over budget, with fuel for one visit per candidate. -/
theorem C23_whole_subtree_erase (fuel : Nat) (deferredMols : List MolpherMolecule)
    (ctx : PathFinderContext) :
    (∀ ctx' f queue c node, PathFinder.pruneStage fuel deferredMols ctx = some ctx' →
      (f, queue, c) ∈ PathFinder.PruneTree.visits
        (PathFinder.deferredSmiles ctx deferredMols) fuel [PathFinder.pruningRoot ctx] ctx →
      c.candidates.find f = some node →
      (f ∈ PathFinder.deferredSmiles ctx deferredMols ∨
        (node.itersWithoutDistImprovement > ctx.params.itThreshold ∧
          ∃ n, ctx.morphDerivations.find f = some n ∧ n > ctx.params.cntMaxMorphs)) →
      ctx'.candidates.find f = none ∧
      (∀ d, Below ctx.candidates f d → ctx'.candidates.find d = none) ∧
      (∃ parent, c.candidates.find node.parentSmile = some parent) ∧
      (∀ p, ctx'.candidates.find node.parentSmile = some p → f ∉ p.descendants)) ∧
    (ctx.ScaffoldMode = false → WellFormed [PathFinder.pruningRoot ctx] ctx.candidates →
      ctx.candidates.length ≤ fuel →
      (∀ v, ctx.candidates.find ctx.source.smile = some v →
        ¬ (v.itersWithoutDistImprovement > ctx.params.itThreshold ∧
          PruneTree.tooManyDerivations ctx ctx.source.smile = true)) →
      (PathFinder.pruneStage fuel deferredMols ctx).isSome = true) := by
  refine ⟨fun ctx' f queue c node h hv hn hp => ?_, fun hmode hW hfuel hroot =>
    PathFinder.pruneStage_total fuel deferredMols ctx hmode hW hfuel hroot⟩
  have hrun := PathFinder.pruneStage_eq _ _ _ _ h
  obtain ⟨hs, _⟩ := PathFinder.PruneTree.visit_run _ _ _ _ _ hrun f queue c hv
  refine PathFinder.PruneTree.visit_whole _ _ _ _ _ hrun f queue c node hv hn ?_
  rcases hp with hp | ⟨hst, n, hfn, hgt⟩
  · exact Or.inl hp
  · refine Or.inr ⟨by rw [hs.1]; exact hst, ?_⟩
    rw [PruneTree.tooMany_congr hs]
    unfold PruneTree.tooManyDerivations
    rw [hfn]
    exact decide_eq_true hgt

/-- Witness for C23: in `pruneCtx` the visit of `"A"` (stale, 11 derivations)
erases `"A"` and its child `"B"` and strikes `"A"` from the descendants of
`"S"`. -/
theorem C23_whole_subtree_erase_witness :
    ∃ ctx', PathFinder.pruneStage 10 [] pruneCtx = some ctx' ∧
      ctx'.candidates.find "A" = none ∧ ctx'.candidates.find "B" = none ∧
      ∀ p, ctx'.candidates.find "S" = some p → "A" ∉ p.descendants := by
  have h := C23_whole_subtree_erase 10 [] pruneCtx
  obtain ⟨ctx', hc⟩ := Option.isSome_iff_exists.mp
    (h.2 (by decide) (wellFormedCheck_sound _ _ (by decide)) (by decide) (fun v hv => by
      have hS : pruneCtx.candidates.find pruneCtx.source.smile =
          some { blankMol with smile := "S", descendants := ["A", "C"],
                               historicDescendants := ["A", "C"] } := rfl
      rw [hS] at hv
      cases hv
      decide))
  have hvisit : ("A", ["C"], pruneCtx) ∈ PathFinder.PruneTree.visits
      (PathFinder.deferredSmiles pruneCtx []) 10 [PathFinder.pruningRoot pruneCtx] pruneCtx := by
    have hroot : PathFinder.pruningRoot pruneCtx = "S" := by decide
    have hdef : PathFinder.deferredSmiles pruneCtx [] = [] := rfl
    have hS : PathFinder.PruneTree.call [] "S" pruneCtx = some (pruneCtx, ["A", "C"]) := rfl
    rw [hroot, hdef]
    unfold PathFinder.PruneTree.visits
    rw [hS]
    simp only [List.nil_append]
    unfold PathFinder.PruneTree.visits
    exact List.mem_cons_of_mem _ (List.mem_cons_self _ _)
  obtain ⟨h1, h2, _, h4⟩ := h.1 ctx' "A" ["C"] pruneCtx _ hc hvisit rfl
    (Or.inr ⟨by decide, 11, rfl, by decide⟩)
  exact ⟨ctx', hc, h1, h2 "B" (Below.child "A" "B" _ rfl (by decide)), h4⟩

/-- C25 amended: a deferred candidate is erased together with its descendants,
whatever its derivation count. For every candidate `f` the path-mode Prune
worklist visits that is in the deferred set: `f` is not the source, and after
Prune `f` and every transitive descendant `f` had before Prune are absent from
`candidates`, and the candidate keyed by its `parentSmile` does not list it.
Outside scaffold mode Prune does return on a well-formed tree whose source is
not both stale and over budget, with fuel for one visit per candidate. -/
theorem C25_deferred_policy_amended (fuel : Nat) (deferredMols : List MolpherMolecule)
    (ctx : PathFinderContext) :
    (∀ ctx' f queue c node, PathFinder.pruneStage fuel deferredMols ctx = some ctx' →
      (f, queue, c) ∈ PathFinder.PruneTree.visits
        (PathFinder.deferredSmiles ctx deferredMols) fuel [PathFinder.pruningRoot ctx] ctx →
      c.candidates.find f = some node →
      f ∈ PathFinder.deferredSmiles ctx deferredMols →
      f ≠ ctx.source.smile ∧ ctx'.candidates.contains f = false ∧
      (∀ d, Below ctx.candidates f d → ctx'.candidates.contains d = false) ∧
      (∀ p, ctx'.candidates.find node.parentSmile = some p → f ∉ p.descendants)) ∧
    (ctx.ScaffoldMode = false → WellFormed [PathFinder.pruningRoot ctx] ctx.candidates →
      ctx.candidates.length ≤ fuel →
      (∀ v, ctx.candidates.find ctx.source.smile = some v →
        ¬ (v.itersWithoutDistImprovement > ctx.params.itThreshold ∧
          PruneTree.tooManyDerivations ctx ctx.source.smile = true)) →
      (PathFinder.pruneStage fuel deferredMols ctx).isSome = true) := by
  refine ⟨fun ctx' f queue c node h hv hn hd => ?_, fun hmode hW hfuel hroot =>
    PathFinder.pruneStage_total fuel deferredMols ctx hmode hW hfuel hroot⟩
  obtain ⟨h1, h2, _, h4⟩ := PathFinder.PruneTree.visit_whole _ _ _ _ _
    (PathFinder.pruneStage_eq _ _ _ _ h) f queue c node hv hn (Or.inl hd)
  exact ⟨((PathFinder.mem_deferredSmiles _ _ _).mp hd).2.1,
    (ConcMap.contains_eq_false_iff _ _).mpr h1,
    fun d hb => (ConcMap.contains_eq_false_iff _ _).mpr (h2 d hb), h4⟩

/-- Witness for C25 amended: `filterCtx` with `"A"` deferred. -/
theorem C25_deferred_policy_amended_witness :
    ∃ ctx', PathFinder.pruneStage 5 deferredA filterCtx = some ctx' ∧
      ctx'.candidates.contains "A" = false := by
  have h := C25_deferred_policy_amended 5 deferredA filterCtx
  obtain ⟨ctx', hc⟩ := Option.isSome_iff_exists.mp
    (h.2 (by decide) (wellFormedCheck_sound _ _ (by decide)) (by decide) (fun v hv => by
      have hS : filterCtx.candidates.find filterCtx.source.smile =
          some { blankMol with smile := "S", descendants := ["A"],
                               historicDescendants := ["A", "B"] } := rfl
      rw [hS] at hv
      cases hv
      decide))
  have hvisit : ("A", [], filterCtx) ∈ PathFinder.PruneTree.visits
      (PathFinder.deferredSmiles filterCtx deferredA) 5 [PathFinder.pruningRoot filterCtx]
      filterCtx := by
    have hroot : PathFinder.pruningRoot filterCtx = "S" := by decide
    have hdef : PathFinder.deferredSmiles filterCtx deferredA = ["A"] := by decide
    have hS : PathFinder.PruneTree.call ["A"] "S" filterCtx = some (filterCtx, ["A"]) := rfl
    rw [hroot, hdef]
    unfold PathFinder.PruneTree.visits
    rw [hS]
    simp only [List.nil_append]
    unfold PathFinder.PruneTree.visits
    exact List.mem_cons_of_mem _ (List.mem_cons_self _ _)
  exact ⟨ctx', hc, (h.1 ctx' "A" [] filterCtx _ hc hvisit rfl (by decide)).2.1⟩

/-- C24 amended: keep-node purge. For every candidate `f` the Prune worklist
visits (with record `node` at that moment) that is stale, not deferred, and has
no `morphDerivations` count above `cntMaxMorphs` and, in activity mode, is not
decayed, has `itersFresh` within `decayThreshold` and a non-empty `parentSmile`:
after Prune every transitive descendant `f` had before Prune is absent from
`candidates`; `f`, as long as it is a key, has empty `descendants` and
`itersWithoutDistImprovement = 0`; and on a well-formed tree `f` is a key.
Outside scaffold mode Prune does return on a well-formed tree, with fuel for one
visit per candidate: in path mode when the source is not both stale and over
budget, in activity mode when the start molecules have an empty `parentSmile`. -/
theorem C24_keep_node_purge_amended (fuel : Nat) (ctx : PathFinderContext) :
    (∀ ctx' f queue c node deferredMols,
      PathFinder.pruneStage fuel deferredMols ctx = some ctx' →
      (f, queue, c) ∈ PathFinder.PruneTree.visits
        (PathFinder.deferredSmiles ctx deferredMols) fuel [PathFinder.pruningRoot ctx] ctx →
      c.candidates.find f = some node →
      node.itersWithoutDistImprovement > ctx.params.itThreshold →
      (∀ n, ctx.morphDerivations.find f = some n → n ≤ ctx.params.cntMaxMorphs) →
      f ∉ PathFinder.deferredSmiles ctx deferredMols →
      (∀ d, Below ctx.candidates f d → ctx'.candidates.find d = none) ∧
      (∀ v, ctx'.candidates.find f = some v →
        v.descendants = [] ∧ v.itersWithoutDistImprovement = 0) ∧
      (WellFormed [PathFinder.pruningRoot ctx] ctx.candidates →
        ctx'.candidates.contains f = true)) ∧
    (∀ ctx' f queue c node startMols,
      PathFinderActivity.pruneStage fuel startMols ctx = some ctx' →
      (f, queue, c) ∈ PathFinderActivity.PruneTree.visits [] fuel startMols ctx →
      c.candidates.find f = some node →
      node.itersWithoutDistImprovement > ctx.params.itThreshold →
      (∀ n, ctx.morphDerivations.find f = some n → n ≤ ctx.params.cntMaxMorphs) →
      node.decayed = false → ¬ node.itersFresh > ctx.params.decayThreshold →
      node.parentSmile ≠ "" →
      (∀ d, Below ctx.candidates f d → ctx'.candidates.find d = none) ∧
      (∀ v, ctx'.candidates.find f = some v →
        v.descendants = [] ∧ v.itersWithoutDistImprovement = 0) ∧
      (WellFormed startMols ctx.candidates → ctx'.candidates.contains f = true)) ∧
    (ctx.ScaffoldMode = false → ctx.candidates.length ≤ fuel →
      (∀ deferredMols, WellFormed [PathFinder.pruningRoot ctx] ctx.candidates →
        (∀ v, ctx.candidates.find ctx.source.smile = some v →
          ¬ (v.itersWithoutDistImprovement > ctx.params.itThreshold ∧
            PruneTree.tooManyDerivations ctx ctx.source.smile = true)) →
        (PathFinder.pruneStage fuel deferredMols ctx).isSome = true) ∧
      (∀ startMols, WellFormed startMols ctx.candidates →
        (∀ r, r ∈ startMols → ∀ v, ctx.candidates.find r = some v → v.parentSmile = "") →
        (PathFinderActivity.pruneStage fuel startMols ctx).isSome = true)) := by
  have htm : ∀ f, (∀ n, ctx.morphDerivations.find f = some n → n ≤ ctx.params.cntMaxMorphs) →
      ∀ c₀ : PathFinderContext, Shrinks ctx c₀ → PruneTree.tooManyDerivations c₀ f = false := by
    intro f hcount c₀ hs
    rw [PruneTree.tooMany_congr hs]
    unfold PruneTree.tooManyDerivations
    cases hf : ctx.morphDerivations.find f with
    | none => rfl
    | some n => exact decide_eq_false (by have := hcount n hf; omega)
  refine ⟨?_, ?_, fun hmode hfuel =>
    ⟨fun deferredMols hW hroot =>
        PathFinder.pruneStage_total fuel deferredMols ctx hmode hW hfuel hroot,
      fun startMols hW hroot =>
        PathFinderActivity.pruneStage_total_act fuel startMols ctx hmode hW hfuel hroot⟩⟩
  · intro ctx' f queue c node deferredMols h hv hn hst hcount hnd
    have hrun := PathFinder.pruneStage_eq _ _ _ _ h
    obtain ⟨hs, c₁, fed, n, hc, hrest⟩ :=
      PathFinder.PruneTree.visit_run _ _ _ _ _ hrun f queue c hv
    have hs₁ := PathFinder.PruneTree.shrinks _ _ _ _ _ hrest
    obtain ⟨node', hn', hcase⟩ := PathFinder.PruneTree.call_cases _ _ _ _ _ hc
    rw [hn] at hn'
    cases hn'
    rcases hcase with ⟨_, _, _, hns⟩ | ⟨_, _, hprune⟩
    · rw [hs.1] at hns; exact absurd hst hns
    · have hb : (decide (f ∈ PathFinder.deferredSmiles ctx deferredMols) ||
          PruneTree.tooManyDerivations c f) = false := by
        simp [hnd, htm f hcount c hs]
      obtain ⟨hpres, hrec, habs⟩ := PruneTree.purge_after _ hb hprune hs₁
        (PathFinder.PruneTree.closed _ _ _ _ _ hrun)
      exact ⟨habs, hrec, fun hW =>
        PathFinder.PruneTree.visit_stays _ _ _ _ _ hW.treeInv hrun f queue c hv c₁ fed hc hpres⟩
  · intro ctx' f queue c node startMols h hv hn hst hcount hdec hfresh hpar
    have hrun := PathFinderActivity.pruneStage_eq_act _ _ _ _ h
    obtain ⟨hs, c₁, fed, n, hc, hrest⟩ :=
      PathFinderActivity.PruneTree.visit_run_act _ _ _ _ _ hrun f queue c hv
    have hs₁ := PathFinderActivity.PruneTree.shrinks_act _ _ _ _ _ hrest
    rw [PathFinderActivity.PruneTree.call_prune_act [] f c node hn hdec
      (by rw [hs.1]; exact hfresh) (Or.inr (by rw [hs.1]; exact hst)) hpar] at hc
    cases hprune : PruneTree.pruneNode (decide (f ∈ ([] : SmileSet))) f node c with
    | none => rw [hprune] at hc; simp at hc
    | some c₁' =>
      have hc' := hc
      rw [hprune] at hc'
      simp only [Option.map_some', Option.some.injEq, Prod.mk.injEq] at hc'
      obtain ⟨rfl, rfl⟩ := hc'
      have hb : (decide (f ∈ ([] : SmileSet)) || PruneTree.tooManyDerivations c f) = false := by
        simp [htm f hcount c hs]
      obtain ⟨hpres, hrec, habs⟩ := PruneTree.purge_after _ hb hprune hs₁
        (PathFinderActivity.PruneTree.closed_act _ _ _ _ _ hrun)
      refine ⟨habs, hrec, fun hW => ?_⟩
      refine PathFinderActivity.PruneTree.visit_stays_act _ _ _ _ _ hW.treeInv hrun f queue c hv
        c₁' [] ?_ hpres
      rw [PathFinderActivity.PruneTree.call_prune_act [] f c node hn hdec
        (by rw [hs.1]; exact hfresh) (Or.inr (by rw [hs.1]; exact hst)) hpar, hprune]
      rfl

/-- Witness for C24 amended: in `purgeCtx` the path-mode visit of `"A"` (stale,
3 derivations) erases its child `"B"` and leaves `"A"` with no descendants and
the counter at zero. -/
theorem C24_keep_node_purge_amended_witness :
    ∃ ctx', PathFinder.pruneStage 10 [] purgeCtx = some ctx' ∧
      ctx'.candidates.find "B" = none ∧ ctx'.candidates.contains "A" = true ∧
      ∀ v, ctx'.candidates.find "A" = some v →
        v.descendants = [] ∧ v.itersWithoutDistImprovement = 0 := by
  have h := C24_keep_node_purge_amended 10 purgeCtx
  have hW : WellFormed [PathFinder.pruningRoot purgeCtx] purgeCtx.candidates :=
    wellFormedCheck_sound _ _ (by decide)
  obtain ⟨ctx', hc⟩ := Option.isSome_iff_exists.mp
    ((h.2.2 (by decide) (by decide)).1 [] hW (fun v hv => by
      have hS : purgeCtx.candidates.find purgeCtx.source.smile =
          some { blankMol with smile := "S", descendants := ["A"],
                               historicDescendants := ["A"] } := rfl
      rw [hS] at hv
      cases hv
      decide))
  have hvisit : ("A", [], purgeCtx) ∈ PathFinder.PruneTree.visits
      (PathFinder.deferredSmiles purgeCtx []) 10 [PathFinder.pruningRoot purgeCtx] purgeCtx := by
    have hroot : PathFinder.pruningRoot purgeCtx = "S" := by decide
    have hdef : PathFinder.deferredSmiles purgeCtx [] = [] := rfl
    have hS : PathFinder.PruneTree.call [] "S" purgeCtx = some (purgeCtx, ["A"]) := rfl
    rw [hroot, hdef]
    unfold PathFinder.PruneTree.visits
    rw [hS]
    simp only [List.nil_append]
    unfold PathFinder.PruneTree.visits
    exact List.mem_cons_of_mem _ (List.mem_cons_self _ _)
  have hcount : ∀ n, purgeCtx.morphDerivations.find "A" = some n →
      n ≤ purgeCtx.params.cntMaxMorphs := by
    intro n hn
    have h3 : purgeCtx.morphDerivations.find "A" = some 3 := rfl
    rw [h3] at hn
    cases hn
    decide
  obtain ⟨h1, h2, h3⟩ := h.1 ctx' "A" [] purgeCtx _ [] hc hvisit rfl (by decide) hcount
    (by decide)
  exact ⟨ctx', hc, h1 "B" (Below.child "A" "B" _ rfl (by decide)), h3 hW, h2⟩

/-- A loop whose body fails at an index of the range, whatever the state, fails. -/
theorem forRange_none {σ : Type} (body : σ → Nat → Option σ) (b i e : Nat) (hbi : b ≤ i)
    (hie : i < e) (hnone : ∀ s, body s i = none) (s : σ) : forRange b e body s = none := by
  rw [forRange_split body b i e hbi (by omega)]
  cases forRange b i body s with
  | none => rfl
  | some t =>
    rw [Option.some_bind, forRange_split body i (i + 1) e (by omega) (by omega),
      forRange_succ body i i (le_refl _), forRange_empty body i i (le_refl _)]
    rw [Option.some_bind, hnone]
    rfl

/-- C32, as stated, fails: in scaffold mode the morph of `"C"` with the target
scaffold `"sT"` is marked `alreadyExists` (and rejected) once that scaffold is
in `candidateScaffoldMolecules`; the exemption of the target scaffold covers
`pathScaffoldMolecules` only. -/
theorem C32_target_scaffold_marked :
    scaffTargetCtx.ScaffoldMode = true ∧
    scaffMorph.scaffoldSmile = scaffTargetCtx.target.scaffoldSmile ∧
    scaffTargetCtx.candidateScaffoldMolecules.contains scaffMorph.scaffoldSmile = true ∧
    FilterMorphs.alreadyExists scaffTargetCtx scaffMorph = true ∧
    FilterMorphs.survives scaffTargetCtx scaffMorph = some false := by
  refine ⟨by decide, by decide, by decide, by decide, by decide!⟩

/-- C32, amended: in scaffold mode a morph is marked `alreadyExists` iff its
scaffold fingerprint is in `candidateScaffoldMolecules`, or is in
`pathScaffoldMolecules` and differs from the scaffold of the target. So a morph
with the scaffold of the target is marked iff that scaffold is in
`candidateScaffoldMolecules` (its presence in `pathScaffoldMolecules` does not
count), and every other morph iff its scaffold is in one of the two indexes. -/
theorem C32_scaffold_already_exists_amended (ctx : PathFinderContext)
    (morph : MolpherMolecule) (hs : ctx.ScaffoldMode = true) :
    (FilterMorphs.alreadyExists ctx morph = true ↔
      ctx.candidateScaffoldMolecules.contains morph.scaffoldSmile = true ∨
      (ctx.pathScaffoldMolecules.contains morph.scaffoldSmile = true ∧
        morph.scaffoldSmile ≠ ctx.target.scaffoldSmile)) ∧
    (morph.scaffoldSmile = ctx.target.scaffoldSmile →
      (FilterMorphs.alreadyExists ctx morph = true ↔
        ctx.candidateScaffoldMolecules.contains morph.scaffoldSmile = true)) ∧
    (morph.scaffoldSmile ≠ ctx.target.scaffoldSmile →
      (FilterMorphs.alreadyExists ctx morph = true ↔
        ctx.candidateScaffoldMolecules.contains morph.scaffoldSmile = true ∨
        ctx.pathScaffoldMolecules.contains morph.scaffoldSmile = true)) := by
  have h : FilterMorphs.alreadyExists ctx morph = true ↔
      ctx.candidateScaffoldMolecules.contains morph.scaffoldSmile = true ∨
      (ctx.pathScaffoldMolecules.contains morph.scaffoldSmile = true ∧
        morph.scaffoldSmile ≠ ctx.target.scaffoldSmile) := by
    unfold FilterMorphs.alreadyExists
    simp [hs]
  refine ⟨h, fun he => ?_, fun hne => ?_⟩
  · rw [h]
    constructor
    · rintro (h1 | ⟨_, h2⟩)
      · exact h1
      · exact absurd he h2
    · exact Or.inl
  · rw [h]
    constructor
    · rintro (h1 | ⟨h2, _⟩)
      · exact Or.inl h1
      · exact Or.inr h2
    · rintro (h1 | h2)
      · exact Or.inl h1
      · exact Or.inr ⟨h2, hne⟩

/-- Witness for C32 (amended): in `scaffCtx` the morph with the target scaffold
`"sT"`, which is on the path but not among the candidates. -/
theorem C32_scaffold_already_exists_amended_witness :
    (FilterMorphs.alreadyExists scaffCtx scaffMorph = true ↔
      scaffCtx.candidateScaffoldMolecules.contains scaffMorph.scaffoldSmile = true ∨
      (scaffCtx.pathScaffoldMolecules.contains scaffMorph.scaffoldSmile = true ∧
        scaffMorph.scaffoldSmile ≠ scaffCtx.target.scaffoldSmile)) ∧
    (scaffMorph.scaffoldSmile = scaffCtx.target.scaffoldSmile →
      (FilterMorphs.alreadyExists scaffCtx scaffMorph = true ↔
        scaffCtx.candidateScaffoldMolecules.contains scaffMorph.scaffoldSmile = true)) ∧
    (scaffMorph.scaffoldSmile ≠ scaffCtx.target.scaffoldSmile →
      (FilterMorphs.alreadyExists scaffCtx scaffMorph = true ↔
        scaffCtx.candidateScaffoldMolecules.contains scaffMorph.scaffoldSmile = true ∨
        scaffCtx.pathScaffoldMolecules.contains scaffMorph.scaffoldSmile = true)) :=
  C32_scaffold_already_exists_amended scaffCtx scaffMorph (by decide)

/-- C33, as stated, fails: the morph `"O"` of the absent parent `"Z"` with a
weight above the bound gets the verdict `false` in both modes, and no assertion
fires; in path mode the same happens to an acceptable morph of `"Z"` that loses
the roll. -/
theorem C33_missing_parent_tolerated :
    filterCtx.candidates.find orphanHeavy.parentSmile = none ∧
    FilterMorphs.survives filterCtx orphanHeavy = some false ∧
    PathFinderActivity.filterStage filterCtx [orphanHeavy] = some [false] ∧
    PathFinder.filterStage filterCtx [orphanHeavy] (fun _ => 0) = some [false] ∧
    filterCtx.candidates.find orphanLight.parentSmile = none ∧
    PathFinder.filterStage filterCtx
        [{ blankMol with smile := "C", parentSmile := "S" }, orphanLight] (fun _ => 99) =
      some [true, false] := by
  refine ⟨rfl, by decide!, by decide!, by decide!, rfl, by decide!⟩

/-- C33, amended: for a morph whose `parentSmile` is not a key of `candidates`,
the predicate chain fails the assertion iff none of `badWeight`, `badSascore`
and `alreadyExists` rejects the morph, and gives the verdict `false` otherwise;
the Filter body at the index of the morph fails iff the chain does and, in path
mode, the morph passed the roll; and a body that fails makes the stage fail. -/
theorem C33_missing_parent_amended (ctx : PathFinderContext) (morph : MolpherMolecule)
    (hp : ctx.candidates.find morph.parentSmile = none) :
    (FilterMorphs.survives ctx morph = none ↔
      (ctx.params.minAcceptableMolecularWeight ≤ morph.molecularWeight ∧
        morph.molecularWeight ≤ ctx.params.maxAcceptableMolecularWeight ∧
        (ctx.params.useSyntetizedFeasibility = false ∨ morph.sascore ≤ 6) ∧
        FilterMorphs.alreadyExists ctx morph = false)) ∧
    (FilterMorphs.survives ctx morph = none ∨ FilterMorphs.survives ctx morph = some false) ∧
    (∀ (mMorphs : List MolpherMolecule) (mSurvivors : List Bool) (idx : Nat),
      mMorphs[idx]? = some morph →
      (PathFinderActivity.FilterMorphs.body ctx mMorphs mSurvivors idx = none ↔
        FilterMorphs.survives ctx morph = none) ∧
      (∀ (mGlobalMorphCount : Nat) (rand : Nat → Nat),
        PathFinder.FilterMorphs.body ctx mGlobalMorphCount mMorphs rand mSurvivors idx = none ↔
          (PathFinder.FilterMorphs.mightSurvive ctx mGlobalMorphCount morph idx (rand idx) = true ∧
            FilterMorphs.survives ctx morph = none))) ∧
    (∀ (morphs : List MolpherMolecule) (idx : Nat), morphs[idx]? = some morph →
      FilterMorphs.survives ctx morph = none →
      PathFinderActivity.filterStage ctx morphs = none ∧
      ∀ rand, PathFinder.FilterMorphs.mightSurvive ctx morphs.length morph idx (rand idx) = true →
        PathFinder.filterStage ctx morphs rand = none) := by
  have h1 : FilterMorphs.survives ctx morph = none ↔
      (ctx.params.minAcceptableMolecularWeight ≤ morph.molecularWeight ∧
        morph.molecularWeight ≤ ctx.params.maxAcceptableMolecularWeight ∧
        (ctx.params.useSyntetizedFeasibility = false ∨ morph.sascore ≤ 6) ∧
        FilterMorphs.alreadyExists ctx morph = false) := by
    unfold FilterMorphs.survives
    simp only [hp]
    split
    · rename_i hd
      simp only [reduceCtorEq, false_iff]
      rintro ⟨hw1, hw2, hsa, hae⟩
      have e1 : decide (morph.molecularWeight < ctx.params.minAcceptableMolecularWeight) =
          false := by simpa using hw1
      have e2 : decide (morph.molecularWeight > ctx.params.maxAcceptableMolecularWeight) =
          false := by simpa using hw2
      have e3 : (ctx.params.useSyntetizedFeasibility && decide (morph.sascore > 6)) = false := by
        rcases hsa with h | h
        · simp [h]
        · have : decide (morph.sascore > 6) = false := by simpa using h
          simp [this]
      simp [e1, e2, e3, hae] at hd
    · rename_i hd
      simp only [true_iff]
      simp only [Bool.not_eq_true, Bool.or_eq_false_iff, Bool.and_eq_false_iff,
        Bool.not_eq_false', decide_eq_false_iff_not, not_lt, gt_iff_lt,
        Bool.and_eq_false_imp] at hd
      obtain ⟨⟨⟨hw1, hw2⟩, hsa⟩, hae⟩ := hd
      have hnd : (decide (morph.molecularWeight < ctx.params.minAcceptableMolecularWeight) ||
          decide (morph.molecularWeight > ctx.params.maxAcceptableMolecularWeight)) = false := by
        simp [hw1, hw2]
      simp only [hnd, Bool.not_false, Bool.true_and, Bool.false_or] at hsa hae
      refine ⟨hw1, hw2, ?_, ?_⟩
      · cases hu : ctx.params.useSyntetizedFeasibility with
        | false => exact Or.inl rfl
        | true =>
          right
          simpa [hu] using hsa
      · have hsa' : (ctx.params.useSyntetizedFeasibility && decide (morph.sascore > 6)) =
            false := by
          cases hu : ctx.params.useSyntetizedFeasibility with
          | false => rfl
          | true => simpa [hu] using hsa
        simpa [hsa'] using hae
  have h2 : FilterMorphs.survives ctx morph = none ∨
      FilterMorphs.survives ctx morph = some false := by
    unfold FilterMorphs.survives
    simp only [hp]
    split
    · exact Or.inr rfl
    · exact Or.inl rfl
  have h3 : ∀ (mMorphs : List MolpherMolecule) (mSurvivors : List Bool) (idx : Nat),
      mMorphs[idx]? = some morph →
      (PathFinderActivity.FilterMorphs.body ctx mMorphs mSurvivors idx = none ↔
        FilterMorphs.survives ctx morph = none) ∧
      (∀ (mGlobalMorphCount : Nat) (rand : Nat → Nat),
        PathFinder.FilterMorphs.body ctx mGlobalMorphCount mMorphs rand mSurvivors idx = none ↔
          (PathFinder.FilterMorphs.mightSurvive ctx mGlobalMorphCount morph idx (rand idx) = true ∧
            FilterMorphs.survives ctx morph = none)) := by
    intro mMorphs mSurvivors idx hm
    refine ⟨?_, fun N rand => ?_⟩
    · unfold PathFinderActivity.FilterMorphs.body
      simp only [hm]
      cases FilterMorphs.survives ctx morph <;> simp
    · unfold PathFinder.FilterMorphs.body
      simp only [hm]
      cases PathFinder.FilterMorphs.mightSurvive ctx N morph idx (rand idx) <;>
        cases FilterMorphs.survives ctx morph <;> simp
  refine ⟨h1, h2, h3, ?_⟩
  intro morphs idx hm hn
  have hlt : idx < morphs.length := (List.getElem?_eq_some.mp hm).1
  refine ⟨?_, fun rand hr => ?_⟩
  · exact forRange_none _ 0 idx morphs.length (Nat.zero_le _) hlt
      (fun s => ((h3 morphs s idx hm).1).mpr hn) _
  · exact forRange_none _ 0 idx morphs.length (Nat.zero_le _) hlt
      (fun s => ((h3 morphs s idx hm).2 morphs.length rand).mpr ⟨hr, hn⟩) _

/-- Witness for C33 (amended): in `filterCtx` the acceptable morph `"O"` of the
absent parent `"Z"`. -/
theorem C33_missing_parent_amended_witness :
    filterCtx.candidates.find orphanLight.parentSmile = none ∧
    FilterMorphs.survives filterCtx orphanLight = none ∧
    PathFinderActivity.filterStage filterCtx [orphanLight] = none := by
  have h := C33_missing_parent_amended filterCtx orphanLight rfl
  have hn : FilterMorphs.survives filterCtx orphanLight = none := by decide!
  exact ⟨rfl, hn, (h.2.2.2 [orphanLight] 0 rfl hn).1⟩

/-- The Pareto body at `idx` writes the index `idx` only, and only when
`mNext[idx]` is set; it then stores opposite values in the two vectors. -/
theorem PathFinderActivity.MOOPFilter.body_at (morphs : List MolpherMolecule)
    (st : List Bool × List Bool) (idx : Nat) (hlen : st.1.length = st.2.length)
    (hidx : idx < morphs.length) :
    (PathFinderActivity.MOOPFilter.body morphs st idx).1.length = st.1.length ∧
    (PathFinderActivity.MOOPFilter.body morphs st idx).2.length = st.2.length ∧
    (∀ i, i ≠ idx →
      (PathFinderActivity.MOOPFilter.body morphs st idx).1[i]? = st.1[i]? ∧
      (PathFinderActivity.MOOPFilter.body morphs st idx).2[i]? = st.2[i]?) ∧
    (st.2.getD idx false = false → PathFinderActivity.MOOPFilter.body morphs st idx = st) ∧
    (st.2.getD idx false = true → ∃ b,
      (PathFinderActivity.MOOPFilter.body morphs st idx).2[idx]? = some b ∧
      (PathFinderActivity.MOOPFilter.body morphs st idx).1[idx]? = some (!b)) := by
  unfold PathFinderActivity.MOOPFilter.body
  cases hn : st.2.getD idx false with
  | false => simp
  | true =>
    have hi2 : idx < st.2.length := by
      by_contra hc
      rw [List.getD_eq_getElem?_getD, List.getElem?_eq_none (by omega)] at hn
      simp at hn
    have hm : morphs[idx]? = some morphs[idx] := List.getElem?_eq_getElem hidx
    simp only [if_true, hm, List.length_set, true_and]
    refine ⟨fun i hi => ⟨?_, ?_⟩, by simp, fun _ => ?_⟩
    · rw [List.getElem?_set_ne (Ne.symm hi)]
    · rw [List.getElem?_set_ne (Ne.symm hi)]
    · exact ⟨PathFinderActivity.MOOPFilter.isNotOptimal morphs st.2 morphs[idx],
        List.getElem?_set_self hi2, List.getElem?_set_self (by omega)⟩

/-- A sequence of Pareto bodies over distinct indices: the indices outside the
sequence or outside `mNext` keep their entries, and at the indices of the
sequence that are set in `mNext` the two vectors end with opposite values. -/
theorem PathFinderActivity.MOOPFilter.fold_at (morphs : List MolpherMolecule) :
    ∀ (l : List Nat) (st : List Bool × List Bool), l.Nodup →
      (∀ i ∈ l, i < morphs.length) → st.1.length = st.2.length →
      (l.foldl (PathFinderActivity.MOOPFilter.body morphs) st).1.length = st.1.length ∧
      (l.foldl (PathFinderActivity.MOOPFilter.body morphs) st).2.length = st.2.length ∧
      (∀ i, i ∉ l ∨ st.2.getD i false = false →
        (l.foldl (PathFinderActivity.MOOPFilter.body morphs) st).1[i]? = st.1[i]? ∧
        (l.foldl (PathFinderActivity.MOOPFilter.body morphs) st).2[i]? = st.2[i]?) ∧
      (∀ i, i ∈ l → st.2.getD i false = true → ∃ b,
        (l.foldl (PathFinderActivity.MOOPFilter.body morphs) st).2[i]? = some b ∧
        (l.foldl (PathFinderActivity.MOOPFilter.body morphs) st).1[i]? = some (!b)) := by
  intro l
  induction l with
  | nil =>
    intro st _ _ _
    refine ⟨rfl, rfl, fun i _ => ⟨rfl, rfl⟩, fun i hi => absurd hi (List.not_mem_nil _)⟩
  | cons a l ih =>
    intro st hnd hlt hlen
    rw [List.nodup_cons] at hnd
    obtain ⟨hl1, hl2, hne, hoff, hon⟩ :=
      PathFinderActivity.MOOPFilter.body_at morphs st a hlen (hlt a (List.mem_cons_self _ _))
    have hlen' : (PathFinderActivity.MOOPFilter.body morphs st a).1.length =
        (PathFinderActivity.MOOPFilter.body morphs st a).2.length := by
      rw [hl1, hl2, hlen]
    obtain ⟨r1, r2, rkeep, rset⟩ :=
      ih (PathFinderActivity.MOOPFilter.body morphs st a) hnd.2
        (fun i hi => hlt i (List.mem_cons_of_mem _ hi)) hlen'
    have hget : ∀ i, i ≠ a →
        (PathFinderActivity.MOOPFilter.body morphs st a).2.getD i false =
          st.2.getD i false := by
      intro i hi
      rw [List.getD_eq_getElem?_getD, List.getD_eq_getElem?_getD, (hne i hi).2]
    rw [List.foldl_cons]
    refine ⟨r1.trans hl1, r2.trans hl2, ?_, ?_⟩
    · intro i hi
      by_cases hia : i = a
      · subst hia
        have h1 := rkeep i (Or.inl hnd.1)
        cases hn : st.2.getD i false with
        | false => rw [hoff hn] at h1 ⊢; exact h1
        | true =>
          rcases hi with hi | hi
          · exact absurd (List.mem_cons_self _ _) hi
          · rw [hn] at hi; cases hi
      · have h1 := rkeep i (by
          rcases hi with hi | hi
          · exact Or.inl (fun h => hi (List.mem_cons_of_mem _ h))
          · exact Or.inr ((hget i hia).trans hi))
        rw [h1.1, h1.2]
        exact hne i hia
    · intro i hi hn
      by_cases hia : i = a
      · subst hia
        obtain ⟨b, hb2, hb1⟩ := hon hn
        have h1 := rkeep i (Or.inl hnd.1)
        exact ⟨b, h1.2.trans hb2, h1.1.trans hb1⟩
      · have him : i ∈ l := by
          rcases List.mem_cons.mp hi with h | h
          · exact absurd h hia
          · exact h
        exact rset i him ((hget i hia).trans hn)

/-- One Pareto pass keeps the two vectors of equal length and keeps, at every
index, the disjunction of their entries. -/
theorem PathFinderActivity.MOOPFilter.pass_union (morphs : List MolpherMolecule)
    (mSurvivors mNext : List Bool) (hlen : mSurvivors.length = mNext.length) :
    (PathFinderActivity.MOOPFilter morphs mSurvivors mNext 0 morphs.length).1.length =
      (PathFinderActivity.MOOPFilter morphs mSurvivors mNext 0 morphs.length).2.length ∧
    ∀ i, ((PathFinderActivity.MOOPFilter morphs mSurvivors mNext 0 morphs.length).1.getD i false ||
        (PathFinderActivity.MOOPFilter morphs mSurvivors mNext 0 morphs.length).2.getD i false) =
      (mSurvivors.getD i false || mNext.getD i false) := by
  unfold PathFinderActivity.MOOPFilter
  obtain ⟨r1, r2, rkeep, rset⟩ :=
    PathFinderActivity.MOOPFilter.fold_at morphs (List.range' 0 (morphs.length - 0))
      (mSurvivors, mNext) (List.nodup_range' _ _)
      (fun i hi => by rw [List.mem_range'_1] at hi; omega) hlen
  refine ⟨by rw [r1, r2]; exact hlen, fun i => ?_⟩
  by_cases hi : i ∈ List.range' 0 (morphs.length - 0) ∧ mNext.getD i false = true
  · obtain ⟨b, hb2, hb1⟩ := rset i hi.1 hi.2
    rw [List.getD_eq_getElem?_getD, List.getD_eq_getElem?_getD, hb1, hb2, hi.2]
    cases b <;> simp
  · have hk := rkeep i (by
      by_cases h1 : i ∈ List.range' 0 (morphs.length - 0)
      · right
        cases hn : mNext.getD i false with
        | false => rfl
        | true => exact absurd ⟨h1, hn⟩ hi
      · exact Or.inl h1)
    rw [List.getD_eq_getElem?_getD, List.getD_eq_getElem?_getD, hk.1, hk.2,
      ← List.getD_eq_getElem?_getD, ← List.getD_eq_getElem?_getD]

/-- The Pareto runs keep the two vectors of equal length and keep, at every
index, the disjunction of their entries. -/
theorem PathFinderActivity.moopRuns_union (morphs : List MolpherMolecule) :
    ∀ (runs : Nat) (st : List Bool × List Bool), st.1.length = st.2.length →
      ∀ i, ((PathFinderActivity.moopRuns morphs runs st).1.getD i false ||
          (PathFinderActivity.moopRuns morphs runs st).2.getD i false) =
        (st.1.getD i false || st.2.getD i false)
  | 0, _, _ => fun _ => rfl
  | runs + 1, st, hlen => by
    intro i
    unfold PathFinderActivity.moopRuns
    split
    · rfl
    · obtain ⟨h1, h2⟩ := PathFinderActivity.MOOPFilter.pass_union morphs st.1 st.2 hlen
      rw [PathFinderActivity.moopRuns_union morphs runs _ h1 i, h2 i]

/-- C35: one Pareto pass over morphs with vectors `survivors` and `next` of the
length of the morph list: at every index set in the input `next`, the pass
leaves `survivors[i] == !next[i]`; at every other index both entries are
unchanged. -/
theorem C35_pareto_pass_bookkeeping (morphs : List MolpherMolecule)
    (mSurvivors mNext : List Bool) (hs : morphs.length = mSurvivors.length)
    (hn : morphs.length = mNext.length) :
    (∀ i, mNext.getD i false = true → ∃ b,
      (PathFinderActivity.MOOPFilter morphs mSurvivors mNext 0 morphs.length).2[i]? = some b ∧
      (PathFinderActivity.MOOPFilter morphs mSurvivors mNext 0 morphs.length).1[i]? =
        some (!b)) ∧
    (∀ i, mNext.getD i false = false →
      (PathFinderActivity.MOOPFilter morphs mSurvivors mNext 0 morphs.length).1[i]? =
        mSurvivors[i]? ∧
      (PathFinderActivity.MOOPFilter morphs mSurvivors mNext 0 morphs.length).2[i]? =
        mNext[i]?) := by
  unfold PathFinderActivity.MOOPFilter
  obtain ⟨_, _, rkeep, rset⟩ :=
    PathFinderActivity.MOOPFilter.fold_at morphs (List.range' 0 (morphs.length - 0))
      (mSurvivors, mNext) (List.nodup_range' _ _)
      (fun i hi => by rw [List.mem_range'_1] at hi; omega) (hs.symm.trans hn)
  refine ⟨fun i hi => rset i ?_ hi, fun i hi => rkeep i (Or.inr hi)⟩
  have hlt : i < mNext.length := by
    by_contra hc
    rw [List.getD_eq_getElem?_getD, List.getElem?_eq_none (by omega)] at hi
    simp at hi
  rw [List.mem_range'_1]
  omega

/-- Witness for C35: the three morphs `[2,3]`, `[1,2]`, `[0,0]` with the first
two scheduled and the third already a survivor. -/
theorem C35_pareto_pass_bookkeeping_witness :
    (∀ i, [true, true, false].getD i false = true → ∃ b,
      (PathFinderActivity.MOOPFilter moopLayers [false, false, true] [true, true, false]
        0 moopLayers.length).2[i]? = some b ∧
      (PathFinderActivity.MOOPFilter moopLayers [false, false, true] [true, true, false]
        0 moopLayers.length).1[i]? = some (!b)) ∧
    (∀ i, [true, true, false].getD i false = false →
      (PathFinderActivity.MOOPFilter moopLayers [false, false, true] [true, true, false]
        0 moopLayers.length).1[i]? = [false, false, true][i]? ∧
      (PathFinderActivity.MOOPFilter moopLayers [false, false, true] [true, true, false]
        0 moopLayers.length).2[i]? = [true, true, false][i]?) :=
  C35_pareto_pass_bookkeeping moopLayers [false, false, true] [true, true, false] rfl rfl

/-- C38: the Pareto loop started from the survivors of the Filter, for every
morph list, every `maxMOOPruns` and so after every number of passes: a morph
that is a survivor after the loop was a survivor of the Filter, and the indices
set in `survivors` or in `next` are exactly those of the survivors of the
Filter. -/
theorem C38_moop_only_removes (morphs : List MolpherMolecule) (runs : Nat)
    (filtered : List Bool) :
    (∀ i, (PathFinderActivity.moopRuns morphs runs (filtered, filtered)).1.getD i false = true →
      filtered.getD i false = true) ∧
    (∀ i, ((PathFinderActivity.moopRuns morphs runs (filtered, filtered)).1.getD i false ||
        (PathFinderActivity.moopRuns morphs runs (filtered, filtered)).2.getD i false) =
      filtered.getD i false) := by
  have h : ∀ i, ((PathFinderActivity.moopRuns morphs runs (filtered, filtered)).1.getD i false ||
        (PathFinderActivity.moopRuns morphs runs (filtered, filtered)).2.getD i false) =
      filtered.getD i false := by
    intro i
    rw [PathFinderActivity.moopRuns_union morphs runs (filtered, filtered) rfl i, Bool.or_self]
  refine ⟨fun i hi => ?_, h⟩
  rw [← h i, hi, Bool.true_or]

/-- C36: the path-mode `FindLeaves` stage: every candidate with a non-empty
`parentSmile` has `itersWithoutDistImprovement` increased by exactly 1 and
nothing else changed, every source is unchanged, no key appears or disappears,
and the emitted sequence is, entry by entry of the map, the stored record of
exactly the candidates whose `descendants` set is empty (a childless source
included), each once. -/
theorem C36_find_leaves (candidates : ConcMap MolpherMolecule)
    (mLeaves : List MolpherMolecule) :
    (∀ k v, candidates.find k = some v → v.parentSmile ≠ "" →
      (PathFinder.FindLeaves candidates mLeaves).1.find k =
        some { v with itersWithoutDistImprovement := v.itersWithoutDistImprovement + 1 }) ∧
    (∀ k v, candidates.find k = some v → v.parentSmile = "" →
      (PathFinder.FindLeaves candidates mLeaves).1.find k = some v) ∧
    (∀ k, candidates.find k = none →
      (PathFinder.FindLeaves candidates mLeaves).1.find k = none) ∧
    (PathFinder.FindLeaves candidates mLeaves).1.keys = candidates.keys ∧
    (PathFinder.FindLeaves candidates mLeaves).2 =
      mLeaves ++ (((PathFinder.FindLeaves candidates mLeaves).1.filter
        (fun kv => kv.2.descendants.isEmpty)).map Prod.snd) ∧
    ((PathFinder.FindLeaves candidates mLeaves).1.filter
        (fun kv => kv.2.descendants.isEmpty)).map Prod.fst =
      (candidates.filter (fun kv => kv.2.descendants.isEmpty)).map Prod.fst := by
  unfold PathFinder.FindLeaves
  simp only
  refine ⟨?_, ?_, ?_, ?_, ?_, ?_⟩
  · intro k v hk hp
    rw [PathFinder.FindLeaves.find_bump, hk, Option.map_some']
    unfold PathFinder.FindLeaves.bump
    rw [if_pos hp]
  · intro k v hk hp
    rw [PathFinder.FindLeaves.find_bump, hk, Option.map_some']
    unfold PathFinder.FindLeaves.bump
    rw [if_neg (not_not.mpr hp)]
  · intro k hk
    rw [PathFinder.FindLeaves.find_bump, hk, Option.map_none']
  · unfold ConcMap.keys
    rw [List.map_map]
    rfl
  · congr 1
    rw [List.filter_map]
    rfl
  · rw [List.filter_map, List.map_map]
    have : ((fun kv : String × MolpherMolecule => kv.2.descendants.isEmpty) ∘
        fun kv : String × MolpherMolecule => (kv.1, PathFinder.FindLeaves.bump kv.2)) =
        fun kv : String × MolpherMolecule => kv.2.descendants.isEmpty := by
      funext kv
      simp only [Function.comp, (PathFinder.FindLeaves.bump_links kv.2).2.2]
    rw [this]
    rfl

/-! ## The Pareto loop, pass by pass -/

/-- C37: the activity-mode `FindNextBag` stage: every candidate that is not
decayed (a source included) has `itersWithoutDistImprovement` and `itersFresh`
increased by exactly 1 and nothing else changed, every decayed candidate is
unchanged, no key appears or disappears, and the emitted sequence is, entry by
entry of the map, the stored record of exactly the candidates that are not
decayed, each once; so no decayed candidate is in the bag handed to morph
generation. -/
theorem C37_find_next_bag (candidates : ConcMap MolpherMolecule)
    (mNext : List MolpherMolecule) :
    (∀ k v, candidates.find k = some v → v.decayed = false →
      (PathFinderActivity.FindNextBag candidates mNext).1.find k =
        some { v with itersWithoutDistImprovement := v.itersWithoutDistImprovement + 1,
                      itersFresh := v.itersFresh + 1 }) ∧
    (∀ k v, candidates.find k = some v → v.decayed = true →
      (PathFinderActivity.FindNextBag candidates mNext).1.find k = some v) ∧
    (∀ k, candidates.find k = none →
      (PathFinderActivity.FindNextBag candidates mNext).1.find k = none) ∧
    (PathFinderActivity.FindNextBag candidates mNext).1.keys = candidates.keys ∧
    (PathFinderActivity.FindNextBag candidates mNext).2 =
      mNext ++ (((PathFinderActivity.FindNextBag candidates mNext).1.filter
        (fun kv => !kv.2.decayed)).map Prod.snd) ∧
    ((PathFinderActivity.FindNextBag candidates mNext).1.filter
        (fun kv => !kv.2.decayed)).map Prod.fst =
      (candidates.filter (fun kv => !kv.2.decayed)).map Prod.fst ∧
    (∀ c, c ∈ (PathFinderActivity.FindNextBag candidates []).2 → c.decayed = false) := by
  have hdec : ∀ c : MolpherMolecule,
      (PathFinderActivity.FindNextBag.bump c).decayed = c.decayed := by
    intro c
    unfold PathFinderActivity.FindNextBag.bump
    split <;> rfl
  unfold PathFinderActivity.FindNextBag
  simp only
  refine ⟨?_, ?_, ?_, ?_, ?_, ?_, ?_⟩
  · intro k v hk hp
    rw [ConcMap.find_map_snd PathFinderActivity.FindNextBag.bump, hk, Option.map_some']
    unfold PathFinderActivity.FindNextBag.bump
    simp [hp]
  · intro k v hk hp
    rw [ConcMap.find_map_snd PathFinderActivity.FindNextBag.bump, hk, Option.map_some']
    unfold PathFinderActivity.FindNextBag.bump
    simp [hp]
  · intro k hk
    rw [ConcMap.find_map_snd PathFinderActivity.FindNextBag.bump, hk, Option.map_none']
  · unfold ConcMap.keys
    rw [List.map_map]
    rfl
  · congr 1
    rw [List.filter_map]
    rfl
  · rw [List.filter_map, List.map_map]
    have : ((fun kv : String × MolpherMolecule => !kv.2.decayed) ∘
        fun kv : String × MolpherMolecule => (kv.1, PathFinderActivity.FindNextBag.bump kv.2)) =
        fun kv : String × MolpherMolecule => !kv.2.decayed := by
      funext kv
      simp only [Function.comp, hdec]
    rw [this]
    rfl
  · intro c hc
    rw [List.nil_append, List.mem_filter] at hc
    simpa using hc.2

/-- Replacing a record by one that is a source or not as before and has the
same `parentSmile` does not change what is reached. -/
theorem UpdateTree.reaches_assign (isSource : String → MolpherMolecule → Bool)
    (cands : ConcMap MolpherMolecule) (key : String) (node node' : MolpherMolecule)
    (hf : cands.find key = some node) (hp : node'.parentSmile = node.parentSmile)
    (hs : isSource key node' = isSource key node) :
    ∀ (d : Nat) (k : String),
      UpdateTree.reaches isSource (cands.assign key node') d k =
        UpdateTree.reaches isSource cands d k := by
  intro d
  induction d with
  | zero =>
    intro k
    unfold UpdateTree.reaches
    rw [ConcMap.find_assign]
    by_cases hk : key = k
    · subst hk
      simp only [if_true, hf, hs]
    · simp only [hk, if_false]
  | succ d ih =>
    intro k
    unfold UpdateTree.reaches
    rw [ConcMap.find_assign]
    by_cases hk : key = k
    · subst hk
      simp only [if_true, hf, hs, hp, ih]
    · simp only [hk, if_false]
      cases cands.find k with
      | none => rfl
      | some v => simp only [ih]

/-- The walk of the path finder from a candidate that reaches a source after
`d` steps: it completes with every fuel above `d`, with the same result, and
`d` units of fuel are not enough. -/
theorem PathFinder.UpdateTree.walk_depth (m : ℚ) (scaffold : Bool) (stop : String) :
    ∀ (d : Nat) (ctx : PathFinderContext) (p : String),
      ctx.ScaffoldMode = scaffold → ctx.tempSource.smile = stop →
      UpdateTree.reaches
        (if scaffold then UpdateTree.isRoot stop else UpdateTree.emptyParent)
        ctx.candidates d p = true →
      ∃ ctx', (∀ fuel, d + 1 ≤ fuel → PathFinder.UpdateTree.walk m fuel ctx p = some ctx') ∧
        PathFinder.UpdateTree.walk m d ctx p = none := by
  intro d
  induction d with
  | zero =>
    intro ctx p hmode hstop h
    unfold UpdateTree.reaches at h
    cases hf : ctx.candidates.find p with
    | none => rw [hf] at h; cases h
    | some node =>
      rw [hf] at h
      simp only at h
      refine ⟨ctx, fun fuel hfuel => ?_, rfl⟩
      obtain ⟨f, rfl⟩ : ∃ f, fuel = f + 1 := ⟨fuel - 1, by omega⟩
      unfold PathFinder.UpdateTree.walk
      simp only [hf]
      rw [if_neg]
      cases scaffold with
      | false =>
        simp only [Bool.false_eq_true, if_false, UpdateTree.emptyParent,
          decide_eq_true_eq] at h
        simp [hmode, h]
      | true =>
        simp only [if_true, UpdateTree.isRoot, decide_eq_true_eq] at h
        simp [hmode, h, hstop]
  | succ d ih =>
    intro ctx p hmode hstop h
    unfold UpdateTree.reaches at h
    cases hf : ctx.candidates.find p with
    | none => rw [hf] at h; cases h
    | some node =>
      rw [hf] at h
      simp only [Bool.and_eq_true, Bool.not_eq_true'] at h
      obtain ⟨hns, hr⟩ := h
      have hcond : ((!ctx.ScaffoldMode && decide (node.parentSmile ≠ "")) ||
          (ctx.ScaffoldMode && decide (p ≠ ctx.tempSource.smile))) = true := by
        cases scaffold with
        | false =>
          simp only [Bool.false_eq_true, if_false, UpdateTree.emptyParent,
            decide_eq_false_iff_not] at hns
          simp [hmode, hns]
        | true =>
          simp only [if_true, UpdateTree.isRoot, decide_eq_false_iff_not] at hns
          simp [hmode, hns, hstop]
      generalize hn' :
        (if m < node.distToTarget then UpdateTree.resetCounter node else node) = node' at *
      have hpar : node'.parentSmile = node.parentSmile := by
        rw [← hn']
        split <;> rfl
      have hsrc : (if scaffold then UpdateTree.isRoot stop else UpdateTree.emptyParent) p node' =
          (if scaffold then UpdateTree.isRoot stop else UpdateTree.emptyParent) p node := by
        cases scaffold with
        | false => simp only [Bool.false_eq_true, if_false, UpdateTree.emptyParent, hpar]
        | true => rfl
      obtain ⟨ctx', h1, h2⟩ :=
        ih { ctx with candidates := ctx.candidates.assign p node' } node.parentSmile hmode hstop
          (by
            simp only
            rw [UpdateTree.reaches_assign _ ctx.candidates p node node' hf hpar hsrc]
            exact hr)
      refine ⟨ctx', fun fuel hfuel => ?_, ?_⟩
      · obtain ⟨f, rfl⟩ : ∃ f, fuel = f + 1 := ⟨fuel - 1, by omega⟩
        unfold PathFinder.UpdateTree.walk
        simp only [hf]
        rw [if_pos hcond, hn']
        exact h1 f (by omega)
      · unfold PathFinder.UpdateTree.walk
        simp only [hf]
        rw [if_pos hcond, hn']
        exact h2

/-- The walk of the activity finder from a candidate that reaches a source
after `d` steps: it completes with every fuel above `d`, with the same result,
and `d` units of fuel are not enough. -/
theorem PathFinderActivity.UpdateTree.walk_depth_act (m : ℚ) :
    ∀ (d : Nat) (ctx : PathFinderContext) (p : String),
      UpdateTree.reaches UpdateTree.emptyParent ctx.candidates d p = true →
      ∃ ctx', (∀ fuel, d + 1 ≤ fuel →
          PathFinderActivity.UpdateTree.walk m fuel ctx p = some ctx') ∧
        PathFinderActivity.UpdateTree.walk m d ctx p = none := by
  intro d
  induction d with
  | zero =>
    intro ctx p h
    unfold UpdateTree.reaches at h
    cases hf : ctx.candidates.find p with
    | none => rw [hf] at h; cases h
    | some node =>
      rw [hf] at h
      simp only [UpdateTree.emptyParent, decide_eq_true_eq] at h
      generalize hn₁ :
        (if m < node.distToEtalon then UpdateTree.resetCounter node else node) = node₁
      refine ⟨{ ctx with candidates := ctx.candidates.assign p (UpdateTree.resetCounter node₁) },
        fun fuel hfuel => ?_, rfl⟩
      obtain ⟨f, rfl⟩ : ∃ f, fuel = f + 1 := ⟨fuel - 1, by omega⟩
      unfold PathFinderActivity.UpdateTree.walk
      simp only [hf, h, ne_eq, not_true_eq_false, if_false, if_true, hn₁]
  | succ d ih =>
    intro ctx p h
    unfold UpdateTree.reaches at h
    cases hf : ctx.candidates.find p with
    | none => rw [hf] at h; cases h
    | some node =>
      rw [hf] at h
      simp only [Bool.and_eq_true, Bool.not_eq_true', UpdateTree.emptyParent,
        decide_eq_false_iff_not] at h
      obtain ⟨hns, hr⟩ := h
      generalize hn' :
        (if m < node.distToEtalon then UpdateTree.resetCounter node else node) = node' at *
      have hpar : node'.parentSmile = node.parentSmile := by
        rw [← hn']
        split <;> rfl
      obtain ⟨ctx', h1, h2⟩ :=
        ih { ctx with candidates := ctx.candidates.assign p node' } node.parentSmile
          (by
            simp only
            rw [UpdateTree.reaches_assign _ ctx.candidates p node node' hf hpar
              (by simp only [UpdateTree.emptyParent, hpar])]
            exact hr)
      refine ⟨ctx', fun fuel hfuel => ?_, ?_⟩
      · obtain ⟨f, rfl⟩ : ∃ f, fuel = f + 1 := ⟨fuel - 1, by omega⟩
        unfold PathFinderActivity.UpdateTree.walk
        simp only [hf, hns, ne_eq, not_false_eq_true, if_false, if_true, hn']
        exact h1 f (by omega)
      · unfold PathFinderActivity.UpdateTree.walk
        simp only [hf, hns, ne_eq, not_false_eq_true, if_false, if_true, hn']
        exact h2

/-- C31: the parent walk of UpdateTree ends within the depth of the tree. If
following `parentSmile` from the modified parent `p` reaches a source after `d`
steps, every link resolving to a key of `candidates`, then the walk from `p`
completes, without the missing-parent assertion, after looking up `d + 1`
candidates: it returns with every fuel of at least `d + 1` lookups, always with
the same result, and not with `d`. A source is a candidate with an empty
`parentSmile`; in scaffold mode of the path finder it is the root stored under
the fingerprint of `tempSource`, where that walk stops. -/
theorem C31_walk_within_depth (ctx : PathFinderContext) (p : String) (d : Nat) (m : ℚ) :
    (UpdateTree.reaches
        (if ctx.ScaffoldMode then UpdateTree.isRoot ctx.tempSource.smile
         else UpdateTree.emptyParent) ctx.candidates d p = true →
      ∃ ctx', (∀ fuel, d + 1 ≤ fuel → PathFinder.UpdateTree.walk m fuel ctx p = some ctx') ∧
        PathFinder.UpdateTree.walk m d ctx p = none) ∧
    (UpdateTree.reaches UpdateTree.emptyParent ctx.candidates d p = true →
      ∃ ctx', (∀ fuel, d + 1 ≤ fuel →
          PathFinderActivity.UpdateTree.walk m fuel ctx p = some ctx') ∧
        PathFinderActivity.UpdateTree.walk m d ctx p = none) :=
  ⟨PathFinder.UpdateTree.walk_depth m ctx.ScaffoldMode ctx.tempSource.smile d ctx p rfl rfl,
    PathFinderActivity.UpdateTree.walk_depth_act m d ctx p⟩

/-- Witness for C31: in `branchCtx` the walk from `"B"`, two links below the
source `"S"`, in both modes; and in the scaffold-mode context `scaffCtx` the
walk from `"B"`, two links below the root `"R"`. -/
theorem C31_walk_within_depth_witness :
    UpdateTree.reaches UpdateTree.emptyParent branchCtx.candidates 2 "B" = true ∧
    (∃ ctx', (∀ fuel, 2 + 1 ≤ fuel →
        PathFinder.UpdateTree.walk (1 / 4) fuel branchCtx "B" = some ctx') ∧
      PathFinder.UpdateTree.walk (1 / 4) 2 branchCtx "B" = none) ∧
    (∃ ctx', (∀ fuel, 2 + 1 ≤ fuel →
        PathFinderActivity.UpdateTree.walk (1 / 4) fuel branchCtx "B" = some ctx') ∧
      PathFinderActivity.UpdateTree.walk (1 / 4) 2 branchCtx "B" = none) ∧
    (∃ ctx', (∀ fuel, 2 + 1 ≤ fuel →
        PathFinder.UpdateTree.walk (1 / 4) fuel scaffCtx "B" = some ctx') ∧
      PathFinder.UpdateTree.walk (1 / 4) 2 scaffCtx "B" = none) :=
  ⟨by decide, (C31_walk_within_depth branchCtx "B" 2 (1 / 4)).1 (by decide),
    (C31_walk_within_depth branchCtx "B" 2 (1 / 4)).2 (by decide),
    (C31_walk_within_depth scaffCtx "B" 2 (1 / 4)).1 (by decide)⟩

/-- C39, as stated, fails for the Filter runs after `f` has been erased and
accepted again. Four iterations of the path finder from `rederiveCtx`, with the
same generator: the first purges the stale `"A"` (its child `"B"` is erased,
its `historicDescendants` stays `["B"]`), and the morph `"B"` of `"A"` is then
rejected; in the second the deferred `"A"` is erased; in the third `"A"` is
accepted again, as a morph of `"Q"`, with an empty history; in the fourth the
morph `"B"` of `"A"` survives the Filter and is accepted. -/
theorem C39_child_rederived_after_erase :
    PathFinder.iteration 10 (fun _ => false) rederiveParams rederiveGen (fun l => l)
      (fun _ => 0) [] 1 true false rederiveCtx = some (rederiveCtx₁, true, false) ∧
    FilterMorphs.survives rederiveCtx₁ { blankMol with smile := "B", parentSmile := "A" } =
      some false ∧
    PathFinder.iteration 10 (fun _ => false) rederiveParams rederiveGen (fun l => l)
      (fun _ => 0) [{ blankMol with smile := "A", parentSmile := "S" }] 1 true false
      rederiveCtx₁ = some (rederiveCtx₂, true, false) ∧
    PathFinder.iteration 10 (fun _ => false) rederiveParams rederiveGen (fun l => l)
      (fun _ => 0) [] 1 true false rederiveCtx₂ = some (rederiveCtx₃, true, false) ∧
    FilterMorphs.survives rederiveCtx₃ { blankMol with smile := "B", parentSmile := "A" } =
      some true ∧
    PathFinder.iteration 10 (fun _ => false) rederiveParams rederiveGen (fun l => l)
      (fun _ => 0) [] 1 true false rederiveCtx₃ = some (rederiveCtx₄, true, false) := by
  refine ⟨by decide!, by decide!, by decide!, by decide!, by decide!, by decide!⟩

/-- The survivors vector of a completed path-mode Filter stage has one entry
per morph. -/
theorem PathFinder.filterStage_length (ctx : PathFinderContext) (morphs : List MolpherMolecule)
    (rand : Nat → Nat) (surv : List Bool)
    (h : PathFinder.filterStage ctx morphs rand = some surv) : surv.length = morphs.length := by
  unfold PathFinder.filterStage PathFinder.FilterMorphs forRange at h
  obtain ⟨hlen, _, _⟩ := foldlM_set_spec _ _
    (PathFinder.FilterMorphs.body_eq ctx _ morphs rand) _ _ _ (List.nodup_range' _ _) h
  rw [hlen, List.length_replicate]

/-- The survivors vector of a completed activity-mode Filter stage has one
entry per morph. -/
theorem PathFinderActivity.filterStage_length_act (ctx : PathFinderContext)
    (morphs : List MolpherMolecule) (surv : List Bool)
    (h : PathFinderActivity.filterStage ctx morphs = some surv) :
    surv.length = morphs.length := by
  unfold PathFinderActivity.filterStage PathFinderActivity.FilterMorphs forRange at h
  obtain ⟨hlen, _, _⟩ := foldlM_set_spec _ _
    (PathFinderActivity.FilterMorphs.body_eq_act ctx morphs) _ _ _ (List.nodup_range' _ _) h
  rw [hlen, List.length_replicate]

/-- A morph whose fingerprint is in the `historicDescendants` of its parent is
rejected by the predicate chain, in every mode. -/
theorem FilterMorphs.survives_tried (ctx : PathFinderContext) (parent morph : MolpherMolecule)
    (hp : ctx.candidates.find morph.parentSmile = some parent)
    (ht : morph.smile ∈ parent.historicDescendants) :
    FilterMorphs.survives ctx morph = some false := by
  unfold FilterMorphs.survives
  simp only [hp]
  split
  · rfl
  · simp [ht]

/-- An entry of a vector of the length of the morph list that is not `true` is
`false`. -/
theorem List.getElem?_false_of (surv : List Bool) (n i : Nat) (hlen : surv.length = n)
    (hi : i < n) (h : ¬ surv.getD i false = true) : surv[i]? = some false := by
  have hlt : i < surv.length := by omega
  rw [List.getD_eq_getElem?_getD, List.getElem?_eq_getElem hlt] at h
  rw [List.getElem?_eq_getElem hlt]
  cases hb : surv[i] with
  | false => rfl
  | true => rw [hb] at h; exact absurd rfl h

/-- C39, amended: a purged child cannot be derived again by the same parent as
long as that parent keeps its record. When Prune visits a candidate `f` that is
stale, not deferred and within its derivation budget, and the visit completes,
`f` is left with the record `purged node`, whose `historicDescendants` is that
of `f` before; so, `historicDescendants` containing `descendants` (invariant I3)
before the purge, in the context Prune leaves and in every later context in
which `f` is a candidate that still holds that history, every morph of the
parent `f` whose fingerprint was a child of `f` before the purge is rejected by
the predicate chain, and has `survivors == false` after a Filter stage of
either mode. -/
theorem C39_purged_child_amended (mDeferred : SmileSet) (f : String)
    (node : MolpherMolecule) (ctx ctx' : PathFinderContext) (fed : List String)
    (hf : ctx.candidates.find f = some node)
    (hstale : node.itersWithoutDistImprovement > ctx.params.itThreshold)
    (hnd : f ∉ mDeferred) (htm : PruneTree.tooManyDerivations ctx f = false)
    (hI3 : ∀ c, c ∈ node.descendants → c ∈ node.historicDescendants)
    (hcall : PathFinder.PruneTree.call mDeferred f ctx = some (ctx', fed)) :
    ctx'.candidates.find f = some (PruneTree.purged node) ∧
    (PruneTree.purged node).historicDescendants = node.historicDescendants ∧
    ∀ (later : PathFinderContext) (v : MolpherMolecule), later.candidates.find f = some v →
      (∀ c, c ∈ node.historicDescendants → c ∈ v.historicDescendants) →
      ∀ morph : MolpherMolecule, morph.parentSmile = f → morph.smile ∈ node.descendants →
        FilterMorphs.survives later morph = some false ∧
        (∀ (morphs : List MolpherMolecule) (rand : Nat → Nat) (surv : List Bool) (i : Nat),
          morphs[i]? = some morph → PathFinder.filterStage later morphs rand = some surv →
          surv[i]? = some false) ∧
        (∀ (morphs : List MolpherMolecule) (surv : List Bool) (i : Nat),
          morphs[i]? = some morph → PathFinderActivity.filterStage later morphs = some surv →
          surv[i]? = some false) := by
  have hpurge : ctx'.candidates.find f = some (PruneTree.purged node) := by
    unfold PathFinder.PruneTree.call at hcall
    rw [hf] at hcall
    have hd : decide (f ∈ mDeferred) = false := by simpa using hnd
    have hst : decide (node.itersWithoutDistImprovement > ctx.params.itThreshold) = true := by
      simpa using hstale
    simp only [hd, hst, Bool.false_or, if_true, Option.map_eq_some', Prod.mk.injEq] at hcall
    obtain ⟨c, hc, rfl, _⟩ := hcall
    exact PruneTree.pruneNode_purge false f node ctx c (by simp [htm]) hc
  refine ⟨hpurge, rfl, ?_⟩
  intro later v hv hsub morph hpar hchild
  have hsurv : FilterMorphs.survives later morph = some false :=
    FilterMorphs.survives_tried later v morph (by rw [hpar]; exact hv)
      (hsub _ (hI3 _ hchild))
  refine ⟨hsurv, ?_, ?_⟩
  · intro morphs rand surv i hm hst
    have hlt : i < morphs.length := (List.getElem?_eq_some.mp hm).1
    refine List.getElem?_false_of surv morphs.length i
      (PathFinder.filterStage_length later morphs rand surv hst) hlt (fun ht => ?_)
    have := PathFinder.filterStage_true later morphs rand surv hst i morph hm ht
    rw [hsurv] at this
    cases this
  · intro morphs surv i hm hst
    have hlt : i < morphs.length := (List.getElem?_eq_some.mp hm).1
    refine List.getElem?_false_of surv morphs.length i
      (PathFinderActivity.filterStage_length_act later morphs surv hst) hlt (fun ht => ?_)
    have := PathFinderActivity.filterStage_true_act later morphs surv hst i morph hm ht
    rw [hsurv] at this
    cases this

/-- Witness for C39 (amended): in `purgeCtx` Prune purges the stale `"A"`, whose child
`"B"` is erased; the morph `"B"` of `"A"` is then rejected by the Filter run
on the result. -/
theorem C39_purged_child_amended_witness :
    PathFinder.PruneTree.call [] "A" purgeCtx = some (purgedCtx, []) ∧
    FilterMorphs.survives purgedCtx { blankMol with smile := "B", parentSmile := "A" } =
      some false ∧
    PathFinder.filterStage purgedCtx [{ blankMol with smile := "B", parentSmile := "A" }]
      (fun _ => 0) = some [false] := by
  have hc : PathFinder.PruneTree.call [] "A" purgeCtx = some (purgedCtx, []) := rfl
  have h := C39_purged_child_amended [] "A"
    { blankMol with smile := "A", parentSmile := "S", descendants := ["B"],
                    historicDescendants := ["B"], itersWithoutDistImprovement := 2 }
    purgeCtx purgedCtx [] rfl (by decide) (by decide) (by decide)
    (by intro c hc; exact hc) hc
  exact ⟨hc, (h.2.2 purgedCtx _ h.1 (fun c hc => hc)
    { blankMol with smile := "B", parentSmile := "A" } rfl (by decide)).1, by decide!⟩

/-- The `std::set::insert` call keeps a set free of duplicates. -/
theorem StrSet.nodup_insert (s : StrSet) (x : String) (h : s.Nodup) :
    (StrSet.insert s x).Nodup := by
  unfold StrSet.insert
  split
  · exact h
  · rename_i hx
    rw [(List.perm_orderedInsert _ x s).nodup_iff, List.nodup_cons]
    exact ⟨hx, h⟩

/-- A context that differs in counters only hangs from the same roots as the
same tree. -/
theorem CountersOnly.co_wellFormed {c c' : PathFinderContext} (h : CountersOnly c c')
    (roots : List String) (hW : WellFormed roots c.candidates) :
    WellFormed roots c'.candidates := by
  obtain ⟨⟨hnd, hch⟩, hr, hpres, hroot⟩ := hW
  refine ⟨⟨fun k v' hk => ?_, fun k v' d hk hd => ?_⟩, hr, fun r hrr => ?_,
    fun r hrr v' hv' => ?_⟩
  · obtain ⟨v, hv, hs⟩ := h.2.2 k v' hk
    rw [hs.descendants]
    exact hnd k v hv
  · obtain ⟨v, hv, hs⟩ := h.2.2 k v' hk
    rw [hs.descendants] at hd
    obtain ⟨w, hw, hp⟩ := hch k v d hv hd
    obtain ⟨w', hw', hs'⟩ := h.find_of hw
    exact ⟨w', hw', hs'.parentSmile.trans hp⟩
  · obtain ⟨v, hv⟩ := (ConcMap.contains_iff _ _).mp (hpres r hrr)
    obtain ⟨v', hv', _⟩ := h.find_of hv
    exact (ConcMap.contains_iff _ _).mpr ⟨v', hv'⟩
  · obtain ⟨v, hv, hs⟩ := h.2.2 r v' hv'
    rw [hs.parentSmile]
    have hn := hroot r hrr v hv
    cases hk : c'.candidates.find v.parentSmile with
    | none => rfl
    | some w' =>
      obtain ⟨w, hw, _⟩ := h.2.2 _ w' hk
      rw [hn] at hw
      cases hw

/-- Storing a new childless morph and listing it with its parent keeps a tree
hanging from `root` a tree hanging from `root`. -/
theorem AcceptMorphs.insert_wellFormed (root : String) (cands : ConcMap MolpherMolecule)
    (morph parent : MolpherMolecule) (hW : WellFormed [root] cands)
    (hp : cands.find morph.parentSmile = some parent)
    (hfresh : cands.find morph.smile = none) (hd : morph.descendants = [])
    (hroot : ∀ v, cands.find root = some v → morph.smile ≠ v.parentSmile) :
    WellFormed [root]
      ((cands.assign morph.smile morph).assign morph.parentSmile
        (AcceptMorphs.withChild parent morph.smile)) := by
  have hne : morph.parentSmile ≠ morph.smile := by
    intro e
    rw [e, hfresh] at hp
    cases hp
  have hfind : ∀ k, ((cands.assign morph.smile morph).assign morph.parentSmile
        (AcceptMorphs.withChild parent morph.smile)).find k =
      if morph.parentSmile = k then some (AcceptMorphs.withChild parent morph.smile)
      else if morph.smile = k then some morph else cands.find k := by
    intro k
    rw [ConcMap.find_assign, ConcMap.find_assign]
  obtain ⟨⟨hnd, hch⟩, hr, hpres, hrp⟩ := hW
  have hold : ∀ d w, cands.find d = some w →
      ∃ w', ((cands.assign morph.smile morph).assign morph.parentSmile
          (AcceptMorphs.withChild parent morph.smile)).find d = some w' ∧
        w'.parentSmile = w.parentSmile := by
    intro d w hw
    rw [hfind]
    by_cases h1 : morph.parentSmile = d
    · rw [if_pos h1]
      rw [← h1, hp] at hw
      cases hw
      exact ⟨_, rfl, rfl⟩
    · rw [if_neg h1]
      have h2 : morph.smile ≠ d := by
        intro e
        rw [← e, hfresh] at hw
        cases hw
      rw [if_neg h2]
      exact ⟨w, hw, rfl⟩
  refine ⟨⟨fun k v hk => ?_, fun k v d hk hdv => ?_⟩, hr, fun r hrr => ?_,
    fun r hrr v hv => ?_⟩
  · rw [hfind] at hk
    split at hk
    · cases hk
      exact StrSet.nodup_insert _ _ (hnd _ parent hp)
    · split at hk
      · cases hk
        rw [hd]
        exact List.nodup_nil
      · exact hnd k v hk
  · rw [hfind] at hk
    split at hk
    · rename_i h1
      cases hk
      rcases (StrSet.mem_insert _ _ _).mp hdv with e | hmem
      · subst e
        refine ⟨morph, ?_, h1⟩
        rw [hfind, if_neg hne, if_pos rfl]
      · obtain ⟨w, hw, hpw⟩ := hch _ parent d hp hmem
        obtain ⟨w', hw', hpw'⟩ := hold d w hw
        exact ⟨w', hw', hpw'.trans (hpw.trans h1)⟩
    · split at hk
      · cases hk
        rw [hd] at hdv
        cases hdv
      · obtain ⟨w, hw, hpw⟩ := hch k v d hk hdv
        obtain ⟨w', hw', hpw'⟩ := hold d w hw
        exact ⟨w', hw', hpw'.trans hpw⟩
  · obtain ⟨v, hv⟩ := (ConcMap.contains_iff _ _).mp (hpres r hrr)
    obtain ⟨v', hv', _⟩ := hold r v hv
    exact (ConcMap.contains_iff _ _).mpr ⟨v', hv'⟩
  · have hr1 : r = root := by simpa using hrr
    subst hr1
    obtain ⟨v₀, hv₀⟩ := (ConcMap.contains_iff _ _).mp (hpres r hrr)
    obtain ⟨v', hv', hpv'⟩ := hold r v₀ hv₀
    rw [hv] at hv'
    cases hv'
    rw [hpv']
    have hn := hrp r hrr v₀ hv₀
    rw [hfind]
    have h1 : morph.parentSmile ≠ v₀.parentSmile := by
      intro e
      rw [← e, hp] at hn
      cases hn
    rw [if_neg h1, if_neg (hroot v₀ hv₀)]
    exact hn

/-- One step of the final scan completes on a tree and keeps it a tree. -/
theorem AcceptMorphs.treeScan_step (gated : Bool) (root : String)
    (old : ConcMap MolpherMolecule) (mMorphs : List MolpherMolecule) (mSurvivors : List Bool)
    (hroot : old.contains root = true)
    (hF : AcceptMorphs.FreshLeaves root old mMorphs mSurvivors) (n : Nat)
    (hn : n < mMorphs.length) (st : AcceptMorphs)
    (hinv : AcceptMorphs.treeScan root old mMorphs mSurvivors n st) :
    ∃ st', AcceptMorphs.finalBody gated mMorphs mSurvivors st n = some st' ∧
      AcceptMorphs.treeScan root old mMorphs mSurvivors (n + 1) st' := by
  obtain ⟨hmode, hW, hkeep, hkeys⟩ := hinv
  have hweak : ∀ k, st.mCtx.candidates.contains k = true → old.contains k = true ∨
      ∃ (j : Nat) (m : MolpherMolecule), j < n + 1 ∧ mMorphs[j]? = some m ∧ mSurvivors.getD j false = true ∧
        m.smile = k := by
    intro k hk
    rcases hkeys k hk with h | ⟨j, m, hj, hm, hs, e⟩
    · exact Or.inl h
    · exact Or.inr ⟨j, m, by omega, hm, hs, e⟩
  unfold AcceptMorphs.finalBody
  cases hsv : mSurvivors.getD n false with
  | false => exact ⟨st, by simp, hmode, hW, hkeep, hweak⟩
  | true =>
    simp only [if_true]
    split
    · have hm : mMorphs[n]? = some mMorphs[n] := List.getElem?_eq_getElem hn
      generalize mMorphs[n] = morph at hm
      obtain ⟨hpar, hfresh₀, hd, hrp⟩ := hF.1 n morph hm hsv
      obtain ⟨p₀, hp₀⟩ := (ConcMap.contains_iff _ _).mp hpar
      obtain ⟨parent, hparent, _⟩ := hkeep _ p₀ hp₀
      have hfresh : st.mCtx.candidates.find morph.smile = none := by
        cases hf : st.mCtx.candidates.find morph.smile with
        | none => rfl
        | some w =>
          rcases hkeys _ ((ConcMap.contains_iff _ _).mpr ⟨w, hf⟩) with h | ⟨j, m, hj, hmj, hs, e⟩
          · rw [(ConcMap.contains_iff _ _)] at h
            obtain ⟨x, hx⟩ := h
            rw [hfresh₀] at hx
            cases hx
          · exact absurd e (hF.2 j n m morph hj hmj hm hs hsv)
      have hne : morph.parentSmile ≠ morph.smile := by
        intro e
        rw [e, hfresh] at hparent
        cases hparent
      have hins : AcceptMorphs.insertMorph st.mCtx morph =
          some { st.mCtx with candidates := st.mCtx.candidates.assign morph.smile morph } := by
        unfold AcceptMorphs.insertMorph
        simp [hmode]
      have hlink : ({ st.mCtx with
          candidates := st.mCtx.candidates.assign morph.smile morph } :
            PathFinderContext).candidates.find morph.parentSmile = some parent := by
        simp only
        rw [ConcMap.find_assign_ne _ _ (Ne.symm hne)]
        exact hparent
      simp only [hm, hins]
      unfold AcceptMorphs.linkParent
      simp only [hlink]
      refine ⟨_, rfl, ?_, ?_, ?_, ?_⟩
      · exact hmode
      · simp only
        refine AcceptMorphs.insert_wellFormed root st.mCtx.candidates morph parent hW hparent
          hfresh hd (fun v hv => ?_)
        obtain ⟨v₀, hv₀⟩ := (ConcMap.contains_iff _ _).mp hroot
        obtain ⟨v', hv', hpv'⟩ := hkeep root v₀ hv₀
        rw [hv] at hv'
        cases hv'
        rw [hpv']
        exact hrp v₀ hv₀
      · intro k v hv
        obtain ⟨v', hv', hpv'⟩ := hkeep k v hv
        simp only
        rw [ConcMap.find_assign, ConcMap.find_assign]
        by_cases h1 : morph.parentSmile = k
        · rw [if_pos h1]
          rw [← h1, hparent] at hv'
          cases hv'
          exact ⟨_, rfl, hpv'⟩
        · rw [if_neg h1]
          have h2 : morph.smile ≠ k := by
            intro e
            rw [← e, hfresh] at hv'
            cases hv'
          rw [if_neg h2]
          exact ⟨v', hv', hpv'⟩
      · intro k hk
        simp only at hk
        rw [ConcMap.contains_iff] at hk
        obtain ⟨w, hw⟩ := hk
        rw [ConcMap.find_assign, ConcMap.find_assign] at hw
        by_cases h1 : morph.parentSmile = k
        · exact hweak k ((ConcMap.contains_iff _ _).mpr ⟨parent, h1 ▸ hparent⟩)
        · rw [if_neg h1] at hw
          by_cases h2 : morph.smile = k
          · exact Or.inr ⟨n, morph, by omega, hm, hsv, h2⟩
          · rw [if_neg h2] at hw
            exact hweak k ((ConcMap.contains_iff _ _).mpr ⟨w, hw⟩)
    · exact ⟨_, rfl, hmode, hW, hkeep, hweak⟩

/-- The path-mode AcceptScan completes on a tree hanging from `root`, for fresh
childless survivors with parents in the tree, and leaves a tree hanging from
`root`, outside scaffold mode. -/
theorem PathFinder.acceptMorphs_tree (root : String) (morphs : List MolpherMolecule)
    (survivors : List Bool) (ctx : PathFinderContext) (hmode : ctx.ScaffoldMode = false)
    (hW : WellFormed [root] ctx.candidates)
    (hF : AcceptMorphs.FreshLeaves root ctx.candidates morphs survivors) :
    ∃ acc, PathFinder.acceptMorphs morphs survivors ctx = some acc ∧
      acc.1.ScaffoldMode = false ∧ WellFormed [root] acc.1.candidates := by
  have hroot : ctx.candidates.contains root = true := hW.2.2.1 root (List.mem_singleton.mpr rfl)
  have hscan : ∀ n, n ≤ morphs.length →
      ∃ st, forRange 0 n (AcceptMorphs.finalBody true morphs survivors)
          { mCtx := ctx, mModifiedParents := [], mSurvivorCount := 0 } = some st ∧
        AcceptMorphs.treeScan root ctx.candidates morphs survivors n st := by
    intro n
    induction n with
    | zero =>
      intro _
      refine ⟨_, forRange_empty _ 0 0 (le_refl _) _, hmode, hW, fun k v hv => ⟨v, hv, rfl⟩,
        fun k hk => Or.inl hk⟩
    | succ n ih =>
      intro hn
      obtain ⟨st, hst, hinv⟩ := ih (by omega)
      obtain ⟨st', hst', hinv'⟩ :=
        AcceptMorphs.treeScan_step true root ctx.candidates morphs survivors hroot hF n
          (by omega) st hinv
      refine ⟨st', ?_, hinv'⟩
      rw [forRange_succ _ 0 n (Nat.zero_le _), hst]
      exact hst'
  obtain ⟨st, hst, hinv⟩ := hscan morphs.length (le_refl _)
  refine ⟨(st.mCtx, st.mModifiedParents), ?_, hinv.1, hinv.2.1⟩
  unfold PathFinder.acceptMorphs PathFinder.AcceptMorphs
  rw [hst]
  rfl

theorem childrenPresentCheck_sound (cands : ConcMap MolpherMolecule)
    (h : childrenPresentCheck cands = true) : ChildrenPresent cands := by
  unfold childrenPresentCheck at h
  simp only [List.all_eq_true] at h
  intro k v hk d hd
  exact h (k, v) (ConcMap.find_mem _ _ _ hk) d hd

/-- On a tree every listed fingerprint is a key. -/
theorem WellFormed.childrenPresent {roots : List String} {cands : ConcMap MolpherMolecule}
    (h : WellFormed roots cands) : ChildrenPresent cands := by
  intro k v hk d hd
  obtain ⟨w, hw, _⟩ := h.1.2 k v d hk hd
  exact (ConcMap.contains_iff _ _).mpr ⟨w, hw⟩

/-- The root of the pruning queue is read from fields no stage writes. -/
theorem SameEnv.pruningRoot_eq {c c' : PathFinderContext} (h : SameEnv c c') :
    PathFinder.pruningRoot c' = PathFinder.pruningRoot c := by
  unfold PathFinder.pruningRoot
  rw [h.scaffoldMode, h.2.2.1, h.2.2.2.2.1]

/-- Outside scaffold mode the path-mode Prune stage completes on a tree whose
root is not both stale and over budget, and leaves a tree. -/
theorem PathFinder.pruneStage_tree (fuel : Nat) (deferredMols : List MolpherMolecule)
    (ctx : PathFinderContext) (hmode : ctx.ScaffoldMode = false)
    (hW : WellFormed [PathFinder.pruningRoot ctx] ctx.candidates)
    (hfuel : ctx.candidates.length ≤ fuel)
    (hroot : ∀ v, ctx.candidates.find ctx.source.smile = some v →
      ¬ (v.itersWithoutDistImprovement > ctx.params.itThreshold ∧
        PruneTree.tooManyDerivations ctx ctx.source.smile = true)) :
    ∃ ctx', PathFinder.pruneStage fuel deferredMols ctx = some ctx' ∧
      WellFormed [PathFinder.pruningRoot ctx] ctx'.candidates := by
  obtain ⟨ctx', h⟩ := Option.isSome_iff_exists.mp
    (PathFinder.pruneStage_total fuel deferredMols ctx hmode hW hfuel hroot)
  refine ⟨ctx', h, ?_⟩
  unfold PathFinder.pruneStage at h
  rw [Option.bind_eq_some] at h
  obtain ⟨c₁, hc₁, hif⟩ := h
  split at hif
  · cases hif
  · cases hif
    exact PathFinder.PruneTree.wellFormed _ fuel _ ctx _ hW hc₁

theorem PathFinderContext.Indexed.eraseNode_step {G : String → String} {c : PathFinderContext}
    (h : c.Indexed G) (current : String) (node : MolpherMolecule)
    (hf : c.candidates.find current = some node) :
    (EraseSubTree.eraseNode c current node).Indexed G := by
  refine ⟨h.1, ?_⟩
  have := h.2.erase_indexed current node hf
  simp only [EraseSubTree.eraseNode, h.1, if_true]
  exact this

theorem PathFinderContext.Indexed.assign_step {G : String → String} {c : PathFinderContext}
    (h : c.Indexed G) (k : String) (v v' : MolpherMolecule)
    (hf : c.candidates.find k = some v) (hs : v'.scaffoldSmile = v.scaffoldSmile) :
    PathFinderContext.Indexed G { c with candidates := c.candidates.assign k v' } :=
  ⟨h.1, h.2.assign_record k v v' hf hs⟩

theorem EraseSubTree.loop_indexed (G : String → String) (fuel : Nat) (Q : List String)
    (ctx ctx' : PathFinderContext) (hI : ctx.Indexed G)
    (h : EraseSubTree.loop fuel Q ctx = some ctx') : ctx'.Indexed G :=
  EraseSubTree.loop_induct (fun _ c => c.Indexed G)
    (fun current _ _ node hR hf => hR.eraseNode_step current node hf)
    fuel Q ctx ctx' hI h

theorem PruneTree.pruneNode_indexed (G : String → String) (deferred : Bool) (smile : String)
    (node : MolpherMolecule) (ctx ctx' : PathFinderContext) (hI : ctx.Indexed G)
    (hn : ctx.candidates.find smile = some node)
    (h : PruneTree.pruneNode deferred smile node ctx = some ctx') : ctx'.Indexed G := by
  rcases PruneTree.pruneNode_cases _ _ _ _ _ h with ⟨_, _, parent, hp, he⟩ | ⟨_, c₁, hc₁, hcon, e⟩
  · exact EraseSubTree.loop_indexed G _ _ _ _
      (hI.assign_step node.parentSmile parent (PruneTree.withoutChild parent smile) hp rfl) he
  · have h₁ : c₁.Indexed G :=
      foldlM_invariant (fun c => c.Indexed G) _ node.descendants
        (fun _ _ _ _ hs hb => EraseSubTree.loop_indexed G _ _ _ _ hs hb) ctx c₁ hI hc₁
    obtain ⟨v, hv⟩ := (ConcMap.contains_iff _ _).mp hcon
    rw [e]
    refine h₁.assign_step smile v (PruneTree.purged node) hv ?_
    rw [h₁.2.1 smile v hv]
    exact hI.2.1 smile node hn

theorem PathFinder.PruneTree.call_indexed (G : String → String) (mDeferred : SmileSet)
    (smile : String) (ctx ctx' : PathFinderContext) (fed : List String) (hI : ctx.Indexed G)
    (h : PathFinder.PruneTree.call mDeferred smile ctx = some (ctx', fed)) : ctx'.Indexed G := by
  unfold PathFinder.PruneTree.call at h
  cases hn : ctx.candidates.find smile with
  | none => rw [hn] at h; cases h
  | some node =>
    rw [hn] at h
    simp only [] at h
    split at h
    · rw [Option.map_eq_some'] at h
      obtain ⟨c, hc, e⟩ := h
      cases e
      exact PruneTree.pruneNode_indexed G _ _ _ _ _ hI hn hc
    · cases h
      exact hI

/-- The path-mode Prune worklist keeps the scaffold index in step with
`candidates`: every erase of a candidate erases the index entry of its
scaffold. -/
theorem PathFinder.PruneTree.indexed (G : String → String) (mDeferred : SmileSet) (fuel : Nat)
    (Q : List String) (ctx ctx' : PathFinderContext) (hI : ctx.Indexed G)
    (h : PathFinder.PruneTree mDeferred fuel Q ctx = some ctx') : ctx'.Indexed G :=
  PathFinder.PruneTree.worklist_rec mDeferred (fun _ c => c.Indexed G)
    (fun smile _ c c' fed hR hc => PathFinder.PruneTree.call_indexed G _ smile c c' fed hR hc)
    fuel Q ctx ctx' hI h

/-- With the index in step the size assertion after the worklist passes. -/
theorem PathFinder.pruneStage_indexed (G : String → String) (fuel : Nat)
    (deferredMols : List MolpherMolecule) (ctx ctx' : PathFinderContext) (hI : ctx.Indexed G)
    (h : PathFinder.PruneTree (PathFinder.deferredSmiles ctx deferredMols) fuel
      [PathFinder.pruningRoot ctx] ctx = some ctx') :
    PathFinder.pruneStage fuel deferredMols ctx = some ctx' ∧ ctx'.Indexed G ∧
      ctx'.candidates.length = ctx'.candidateScaffoldMolecules.length := by
  have hI' := PathFinder.PruneTree.indexed G _ _ _ _ _ hI h
  refine ⟨?_, hI', hI'.2.sizes⟩
  unfold PathFinder.pruneStage
  rw [h]
  simp [hI'.2.sizes]

theorem CountersOnly.co_indexed {G : String → String} {c c' : PathFinderContext}
    (h : CountersOnly c c') (hI : c.Indexed G) : c'.Indexed G := by
  obtain ⟨hmode, hrec, hcov, himg, hinj, hnc, hni⟩ := hI
  have hidx : c'.candidateScaffoldMolecules = c.candidateScaffoldMolecules := by
    rw [h.1]
  have hcon : ∀ k, c'.candidates.contains k = true ↔ c.candidates.contains k = true := by
    intro k
    rw [ConcMap.contains_iff, ConcMap.contains_iff, ← ConcMap.mem_keys_iff,
      ← ConcMap.mem_keys_iff, h.2.1]
  refine ⟨h.mode.trans hmode, fun k v' hk => ?_, fun k hk => ?_, fun s hs => ?_,
    fun a b ha hb e => hinj a b ((hcon a).mp ha) ((hcon b).mp hb) e, ?_, ?_⟩
  · obtain ⟨v, hv, hs⟩ := h.2.2 k v' hk
    have : v'.scaffoldSmile = v.scaffoldSmile := by rw [hs]
    rw [this]
    exact hrec k v hv
  · rw [hidx]
    exact hcov k ((hcon k).mp hk)
  · rw [hidx] at hs
    obtain ⟨k, hk, e⟩ := himg s hs
    exact ⟨k, (hcon k).mpr hk, e⟩
  · rw [h.2.1]; exact hnc
  · rw [hidx]; exact hni

theorem AcceptMorphs.finalBody_indexed (G : String → String) (gated : Bool)
    (mMorphs : List MolpherMolecule) (mSurvivors : List Bool) (st st' : AcceptMorphs)
    (idx : Nat) (hI : st.mCtx.Indexed G)
    (hsc : ∀ m, mMorphs[idx]? = some m → m.scaffoldSmile = G m.smile)
    (h : AcceptMorphs.finalBody gated mMorphs mSurvivors st idx = some st') :
    st'.mCtx.Indexed G := by
  rcases AcceptMorphs.finalBody_cases _ _ _ _ _ _ h with ⟨e, _⟩ |
    ⟨morph, ctx₁, parent, _, hm, _, hi, hp, e, _⟩
  · rw [e]; exact hI
  · obtain ⟨hc₁, _, _, _, hsel, _, _, _, _, hidx⟩ := AcceptMorphs.insertMorph_spec _ _ _ hi
    rcases hidx with ⟨hf, _⟩ | ⟨_, hnew, hindex⟩
    · rw [hI.1] at hf; cases hf
    · have h₁ : ctx₁.Indexed G := by
        refine ⟨?_, ?_⟩
        · unfold PathFinderContext.ScaffoldMode
          rw [hsel]
          exact hI.1
        · rw [hc₁, hindex]
          exact hI.2.insert_step morph (hsc morph hm) hnew
      rw [e]
      exact h₁.assign_step morph.parentSmile parent _ hp rfl

/-- The final scan of AcceptScan keeps the scaffold index in step with
`candidates`, for morphs that carry the scaffold of their fingerprint. -/
theorem AcceptMorphs.scan_indexed (G : String → String) (gated : Bool)
    (morphs : List MolpherMolecule) (survivors : List Bool)
    (hsc : ∀ m, m ∈ morphs → m.scaffoldSmile = G m.smile)
    (b e : Nat) (st st' : AcceptMorphs) (hst : st.mCtx.Indexed G)
    (h : forRange b e (AcceptMorphs.finalBody gated morphs survivors) st = some st') :
    st'.mCtx.Indexed G :=
  forRange_invariant (fun s : AcceptMorphs => s.mCtx.Indexed G) _ b e
    (fun s i s' _ _ hs hb => AcceptMorphs.finalBody_indexed G gated morphs survivors s s' i hs
      (fun m hm => hsc m (by
        obtain ⟨hlt, he⟩ := List.getElem?_eq_some.mp hm
        exact he ▸ List.getElem_mem hlt)) hb)
    st st' hst h

theorem PathFinder.acceptMorphs_indexed (G : String → String) (morphs : List MolpherMolecule)
    (survivors : List Bool) (ctx : PathFinderContext) (r : PathFinderContext × SmileSet)
    (hI : ctx.Indexed G) (hsc : ∀ m, m ∈ morphs → m.scaffoldSmile = G m.smile)
    (h : PathFinder.acceptMorphs morphs survivors ctx = some r) : r.1.Indexed G := by
  unfold PathFinder.acceptMorphs PathFinder.AcceptMorphs at h
  rw [Option.map_eq_some'] at h
  obtain ⟨st, hst, rfl⟩ := h
  exact AcceptMorphs.scan_indexed G true morphs survivors hsc 0 morphs.length _ st hI hst

/-- In scaffold mode the erase loop completes on a tree whose index is in step,
with fuel for one turn per candidate: the index holds the scaffold of every
node the loop reaches. -/
theorem EraseSubTree.loop_total_ix (G : String → String) (e : String) :
    ∀ (fuel : Nat) (Q : List String) (ctx : PathFinderContext), ctx.Indexed G →
      EraseInv e Q ctx.candidates → ctx.candidates.length ≤ fuel →
      ∃ ctx', EraseSubTree.loop fuel Q ctx = some ctx' ∧ EraseInv e [] ctx'.candidates ∧
        ctx'.Indexed G := by
  intro fuel
  induction fuel with
  | zero =>
    intro Q ctx hI hinv hlen
    cases Q with
    | nil => exact ⟨ctx, rfl, hinv, hI⟩
    | cons current rest =>
      have hp := hinv.2.2.2.2.1 current (List.mem_cons_self _ _)
      rw [List.length_eq_zero.mp (Nat.le_zero.mp hlen)] at hp
      cases hp
  | succ n ih =>
    intro Q ctx hI hinv hlen
    cases Q with
    | nil => exact ⟨ctx, rfl, hinv, hI⟩
    | cons current rest =>
      have hp := hinv.2.2.2.2.1 current (List.mem_cons_self _ _)
      obtain ⟨node, hf⟩ := (ConcMap.contains_iff _ _).mp hp
      have hcov : ctx.candidateScaffoldMolecules.contains node.scaffoldSmile = true := by
        rw [hI.2.1 current node hf]
        exact hI.2.2.1 current hp
      simp only [EraseSubTree.loop, hf, hcov, Bool.not_true, Bool.and_false, Bool.false_eq_true,
        if_false]
      refine ih _ (EraseSubTree.eraseNode ctx current node) (hI.eraseNode_step current node hf)
        (hinv.erase_step hf) ?_
      have := ConcMap.length_erase_lt ctx.candidates current hp
      simp only [EraseSubTree.eraseNode]
      omega

/-- In scaffold mode the purge loop over the children `D` of `s` completes and
keeps `s`. -/
theorem PruneTree.eraseAll_total_ix (G : String → String) (s : String) (node : MolpherMolecule) :
    ∀ (D : List String) (ctx : PathFinderContext), ctx.Indexed G →
      EraseInv s [] ctx.candidates → D.Nodup → ctx.candidates.find s = some node →
      (∀ a, a ∈ D → a ∈ node.descendants ∧ ctx.candidates.contains a = true) →
      ¬ Below ctx.candidates s s →
      ∃ ctx', D.foldlM (fun c child => EraseSubTree child c) ctx = some ctx' ∧
        ctx'.candidates.contains s = true := by
  intro D
  induction D with
  | nil =>
    intro ctx _ _ _ hs _ _
    exact ⟨ctx, rfl, (ConcMap.contains_iff _ _).mpr ⟨node, hs⟩⟩
  | cons a D ih =>
    intro ctx hI hinv hnd hs hD hcyc
    obtain ⟨hdn, hch, hpar, _, _, _, _⟩ := hinv
    obtain ⟨ha, hpa⟩ := hD a (List.mem_cons_self _ _)
    obtain ⟨wa, hwa⟩ := (ConcMap.contains_iff _ _).mp hpa
    have has : a ≠ s := fun e => hcyc (e ▸ Below.child s a node hs ha)
    have hbas : ¬ Below ctx.candidates a s := fun hb =>
      hcyc (Below.step s a s node hs ha hb)
    have hstart : EraseInv s [a] ctx.candidates := by
      refine ⟨hdn, hch, hpar, List.nodup_singleton a, fun q hq => ?_, fun q hq k v hk hqv => ?_,
        fun q hq => ?_⟩
      · rw [List.mem_singleton] at hq
        subst hq
        exact hpa
      · rw [List.mem_singleton] at hq
        subst hq
        exact (hpar k v q wa hk hqv hwa).symm.trans (hpar s node q wa hs ha hwa)
      · rw [List.mem_singleton] at hq
        subst hq
        exact ⟨has, hbas⟩
    obtain ⟨c₁, hc₁, hinv₁, hI₁⟩ := EraseSubTree.loop_total_ix G s ctx.candidates.length [a] ctx hI
      hstart (Nat.le_refl _)
    have hexact := (EraseSubTree.loop_exact _ _ _ _ hc₁).2
    have hfind₁ := EraseSubTree.loop_find _ _ _ _ hc₁
    have hs₁ : c₁.candidates.find s = some node := by
      rw [hexact s, hs]
      rintro (hmem | ⟨r, hr, hb⟩)
      · rw [List.mem_singleton] at hmem
        exact has hmem.symm
      · rw [List.mem_singleton] at hr
        subst hr
        exact hbas hb
    have hcyc₁ : ¬ Below c₁.candidates s s := fun hb =>
      hcyc (Below.below_mono (fun k v hk => ⟨v, hfind₁ k v hk, fun _ hd => hd⟩) hb)
    have hD₁ : ∀ a', a' ∈ D → a' ∈ node.descendants ∧ c₁.candidates.contains a' = true := by
      intro a' ha'
      obtain ⟨hmem, hpres⟩ := hD a' (List.mem_cons_of_mem _ ha')
      obtain ⟨w', hw'⟩ := (ConcMap.contains_iff _ _).mp hpres
      refine ⟨hmem, ?_⟩
      rw [ConcMap.contains_iff, hexact a']
      · exact ⟨w', hw'⟩
      · rintro (hm | ⟨r, hr, hb⟩)
        · rw [List.mem_singleton] at hm
          exact (List.nodup_cons.mp hnd).1 (hm ▸ ha')
        · rw [List.mem_singleton] at hr
          subst hr
          obtain ⟨k, v, hk, hav, hor⟩ := hb.last
          have hks : k = s := (hpar k v a' w' hk hav hw').symm.trans (hpar s node a' w' hs hmem hw')
          subst hks
          rcases hor with e | hb'
          · exact has e.symm
          · exact hbas hb'
    obtain ⟨c₂, hc₂, hpres₂⟩ := ih c₁ hI₁ hinv₁ (List.nodup_cons.mp hnd).2 hs₁ hD₁ hcyc₁
    refine ⟨c₂, ?_, hpres₂⟩
    rw [List.foldlM_cons]
    have : EraseSubTree a ctx = some c₁ := hc₁
    rw [this]
    exact hc₂

/-- In scaffold mode the block under `if (prune)` completes on a tree whose
index is in step, for a queued node that has a lister whenever it is to be
erased itself. -/
theorem PruneTree.pruneNode_total_ix (G : String → String) (deferred : Bool) (s : String)
    (queue : List String) (node : MolpherMolecule) (ctx : PathFinderContext)
    (hI : ctx.Indexed G)
    (hT : TreeInv (s :: queue) ctx.candidates) (hn : ctx.candidates.find s = some node)
    (hlisted : (deferred || PruneTree.tooManyDerivations ctx s) = true →
      Listed s ctx.candidates) :
    ∃ ctx', PruneTree.pruneNode deferred s node ctx = some ctx' := by
  obtain ⟨hshape, _, _, hanti⟩ := hT
  have hss : ¬ Below ctx.candidates s s :=
    hanti s (List.mem_cons_self _ _) s (List.mem_cons_self _ _)
  unfold PruneTree.pruneNode
  cases hb : (deferred || PruneTree.tooManyDerivations ctx s)
  · simp only [Bool.false_eq_true, if_false]
    obtain ⟨c₁, hc₁, hpres⟩ := PruneTree.eraseAll_total_ix G s node node.descendants ctx hI
      (hshape.eraseInv s) (hshape.1 s node hn) hn
      (fun a ha => ⟨ha, by
        obtain ⟨w, hw, _⟩ := hshape.2 s node a hn ha
        exact (ConcMap.contains_iff _ _).mpr ⟨w, hw⟩⟩) hss
    rw [hc₁]
    simp only [Option.bind, hpres, if_true]
    exact ⟨_, rfl⟩
  · simp only [if_true]
    obtain ⟨k, v, hk, hsv⟩ := hlisted hb
    obtain ⟨w, hw, hpw⟩ := hshape.2 k v s hk hsv
    rw [hn] at hw
    cases hw
    have hks : k ≠ s := fun e => hss (e ▸ Below.child k s v hk hsv)
    rw [if_neg (by rw [hpw]; exact hks), hpw, hk]
    simp only []
    have hfind : ∀ k', (ctx.candidates.assign k (PruneTree.withoutChild v s)).find k' =
        if k = k' then some (PruneTree.withoutChild v s) else ctx.candidates.find k' :=
      fun k' => ConcMap.find_assign _ _ _ _
    have hback : ∀ k' v', (ctx.candidates.assign k (PruneTree.withoutChild v s)).find k' = some v' →
        ∃ v₀, ctx.candidates.find k' = some v₀ ∧ v'.parentSmile = v₀.parentSmile ∧
          v'.descendants.Sublist v₀.descendants ∧ (k' ≠ k → v' = v₀) := by
      intro k' v' hk'
      rw [hfind] at hk'
      split at hk'
      · rename_i e
        subst e
        cases hk'
        exact ⟨v, hk, rfl, List.filter_sublist _, fun hne => absurd rfl hne⟩
      · exact ⟨v', hk', rfl, List.Sublist.refl _, fun _ => rfl⟩
    have hpres : ∀ d, ctx.candidates.contains d = true →
        (ctx.candidates.assign k (PruneTree.withoutChild v s)).contains d = true := by
      intro d hd
      rw [ConcMap.contains_iff] at hd ⊢
      rw [hfind]
      split
      · exact ⟨_, rfl⟩
      · exact hd
    have hstart : EraseInv k [s] (ctx.candidates.assign k (PruneTree.withoutChild v s)) := by
      refine ⟨fun k' v' hk' => ?_, fun k' v' d hk' hd => ?_, fun k' v' d w hk' hd hw => ?_,
        List.nodup_singleton s, fun q hq => ?_, fun q hq k' v' hk' hqv => ?_, fun q hq => ?_⟩
      · obtain ⟨v₀, hv₀, _, hsl, _⟩ := hback k' v' hk'
        exact hsl.nodup (hshape.1 k' v₀ hv₀)
      · obtain ⟨v₀, hv₀, _, hsl, _⟩ := hback k' v' hk'
        obtain ⟨w, hw, _⟩ := hshape.2 k' v₀ d hv₀ (hsl.subset hd)
        exact Or.inr (hpres d ((ConcMap.contains_iff _ _).mpr ⟨w, hw⟩))
      · obtain ⟨v₀, hv₀, _, hsl, _⟩ := hback k' v' hk'
        obtain ⟨w₀, hw₀, hpw₀, _⟩ := hback d w hw
        obtain ⟨w₁, hw₁, hp₁⟩ := hshape.2 k' v₀ d hv₀ (hsl.subset hd)
        rw [hw₀] at hw₁
        cases hw₁
        exact hpw₀.trans hp₁
      · rw [List.mem_singleton] at hq
        subst hq
        exact hpres q ((ConcMap.contains_iff _ _).mpr ⟨node, hn⟩)
      · rw [List.mem_singleton] at hq
        subst hq
        obtain ⟨v₀, hv₀, _, hsl, _⟩ := hback k' v' hk'
        exact hshape.unique hv₀ hk (hsl.subset hqv) hsv
      · rw [List.mem_singleton] at hq
        subst hq
        refine ⟨hks.symm, fun hb' => hss ?_⟩
        have hb₀ : Below ctx.candidates q k :=
          Below.below_mono (fun k' v' hk' => by
            obtain ⟨v₀, hv₀, _, hsl, _⟩ := hback k' v' hk'
            exact ⟨v₀, hv₀, fun d hd => hsl.subset hd⟩) hb'
        exact hb₀.snoc hk hsv
    obtain ⟨c₁, hc₁, _⟩ := EraseSubTree.loop_total_ix G k
      (ctx.candidates.assign k (PruneTree.withoutChild v s)).length [s]
      { ctx with candidates := ctx.candidates.assign k (PruneTree.withoutChild v s) }
      (hI.assign_step k v (PruneTree.withoutChild v s) hk rfl) hstart (Nat.le_refl _)
    exact ⟨c₁, hc₁⟩

/-- A scaffold-mode visit of the path-mode Prune completes in a ready state and
leaves a ready state. -/
theorem PathFinder.PruneTree.ready_step_ix (G : String → String) (mDeferred : SmileSet)
    (s : String) (queue : List String) (c : PathFinderContext)
    (hR : PathFinder.PruneTree.ReadyIx G mDeferred (s :: queue) c) :
    ∃ c' fed, PathFinder.PruneTree.call mDeferred s c = some (c', fed) ∧
      PathFinder.PruneTree.ReadyIx G mDeferred (queue ++ fed) c' := by
  obtain ⟨hI, hT, hroot⟩ := hR
  obtain ⟨node, hn⟩ := (ConcMap.contains_iff _ _).mp (hT.2.2.1 s (List.mem_cons_self _ _))
  have hcall : ∃ r, PathFinder.PruneTree.call mDeferred s c = some r := by
    unfold PathFinder.PruneTree.call
    rw [hn]
    simp only []
    split
    · rename_i hprune
      obtain ⟨c', hc'⟩ := PruneTree.pruneNode_total_ix G (decide (s ∈ mDeferred)) s queue node c hI
        hT hn (fun hb => by
          rcases hroot s (List.mem_cons_self _ _) with hl | ⟨hnd, hns⟩
          · exact hl
          · exfalso
            simp only [hnd, decide_False, Bool.false_or] at hb hprune
            exact hns node hn ⟨by simpa using hprune, hb⟩)
      rw [hc']
      exact ⟨_, rfl⟩
    · exact ⟨_, rfl⟩
  obtain ⟨⟨c', fed⟩, hc⟩ := hcall
  have heff := PathFinder.PruneTree.call_effect _ _ _ _ _ hc
  have hsh := PathFinder.PruneTree.call_shrinks _ _ _ _ _ hc
  refine ⟨c', fed, hc, PathFinder.PruneTree.call_indexed G _ _ _ _ _ hI hc, hT.tree_step heff,
    fun q hq => ?_⟩
  rcases List.mem_append.mp hq with hm | hm
  · rcases hroot q (List.mem_cons_of_mem _ hm) with hl | ⟨hnd, hns⟩
    · exact Or.inl (hl.listed_step hT heff hm)
    · right
      refine ⟨hnd, fun v' hv' hbad => ?_⟩
      obtain ⟨v, hv, hl⟩ := hsh.2.2.2.2.2.2.2.1 q v' hv'
      refine hns v hv ⟨?_, ?_⟩
      · have hst := hbad.1
        rw [hsh.1] at hst
        rcases hl.2.2.1 with e | e
        · rw [e] at hst; exact hst
        · rw [e] at hst; exact absurd hst (by omega)
      · rw [← PruneTree.tooMany_congr hsh]
        exact hbad.2
  · exact Or.inl (Listed.listed_fed heff hm)

/-- In scaffold mode the path-mode worklist completes from a ready state, within
as many visits as `T` has entries. -/
theorem PathFinder.PruneTree.prune_total_ix (G : String → String) (mDeferred : SmileSet) :
    ∀ (fuel : Nat) (T Q : List String) (c : PathFinderContext),
      PathFinder.PruneTree.ReadyIx G mDeferred Q c → Covered T Q c.candidates →
      T.length ≤ fuel →
      ∃ c', PathFinder.PruneTree mDeferred fuel Q c = some c' := by
  intro fuel
  induction fuel with
  | zero =>
    intro T Q c _ hC hlen
    cases Q with
    | nil => exact ⟨c, rfl⟩
    | cons s queue =>
      have := hC.1 s (List.mem_cons_self _ _)
      rw [List.length_eq_zero.mp (Nat.le_zero.mp hlen)] at this
      cases this
  | succ n ih =>
    intro T Q c hR hC hlen
    cases Q with
    | nil => exact ⟨c, rfl⟩
    | cons s queue =>
      obtain ⟨c', fed, hc, hR'⟩ := PathFinder.PruneTree.ready_step_ix G mDeferred s queue c hR
      simp only [PathFinder.PruneTree, hc]
      refine ih (T.erase s) (queue ++ fed) c' hR'
        (hC.covered_step hR.2.1 (PathFinder.PruneTree.call_effect _ _ _ _ _ hc)) ?_
      rw [List.length_erase_of_mem (hC.1 s (List.mem_cons_self _ _))]
      omega

/-- In scaffold mode the path-mode Prune stage completes on a well-formed tree
whose index is in step and whose root is not both stale and over budget, with
fuel for one visit per candidate; the index is in step afterwards and the two
sizes are equal, so the size assertion holds. -/
theorem PathFinder.pruneStage_total_ix (G : String → String) (fuel : Nat)
    (deferredMols : List MolpherMolecule)
    (ctx : PathFinderContext) (hI : ctx.Indexed G)
    (hW : WellFormed [PathFinder.pruningRoot ctx] ctx.candidates)
    (hfuel : ctx.candidates.length ≤ fuel)
    (hroot : ∀ v, ctx.candidates.find ctx.tempSource.smile = some v →
      ¬ (v.itersWithoutDistImprovement > ctx.params.itThreshold ∧
        PruneTree.tooManyDerivations ctx ctx.tempSource.smile = true)) :
    ∃ ctx', PathFinder.pruneStage fuel deferredMols ctx = some ctx' ∧ ctx'.Indexed G ∧
      ctx'.candidates.length = ctx'.candidateScaffoldMolecules.length ∧
      WellFormed [PathFinder.pruningRoot ctx] ctx'.candidates := by
  have hr : PathFinder.pruningRoot ctx = ctx.tempSource.smile := by
    unfold PathFinder.pruningRoot
    simp [hI.1]
  have hT := hW.treeInv
  have hC := Covered.keys hT
  have hlen : (ConcMap.keys ctx.candidates).dedup.length ≤ fuel := by
    have := (List.dedup_sublist (ConcMap.keys ctx.candidates)).length_le
    simp only [ConcMap.keys, List.length_map] at this ⊢
    omega
  obtain ⟨c', hc'⟩ := PathFinder.PruneTree.prune_total_ix G
    (PathFinder.deferredSmiles ctx deferredMols)
    fuel _ [PathFinder.pruningRoot ctx] ctx
    ⟨hI, hT, fun q hq => by
      rw [List.mem_singleton] at hq
      subst hq
      right
      rw [hr]
      exact ⟨fun hd => ((PathFinder.mem_deferredSmiles _ _ _).mp hd).2.2 hI.1 rfl, hroot⟩⟩
    hC hlen
  obtain ⟨h1, h2, h3⟩ := PathFinder.pruneStage_indexed G fuel deferredMols ctx c' hI hc'
  exact ⟨c', h1, h2, h3, PathFinder.PruneTree.wellFormed _ fuel _ ctx _ hW hc'⟩

/-- One step of the final scan completes on a tree in scaffold mode and keeps
it a tree with the index in step: a morph whose scaffold is in the index is
skipped, any other is new to `candidates`. -/
theorem AcceptMorphs.treeScanIx_step (G : String → String) (gated : Bool) (root : String)
    (old : ConcMap MolpherMolecule) (mMorphs : List MolpherMolecule) (mSurvivors : List Bool)
    (hroot : old.contains root = true)
    (hF : ∀ (i : Nat) m, mMorphs[i]? = some m → mSurvivors.getD i false = true →
      old.contains m.parentSmile = true ∧ m.descendants = [] ∧
      m.scaffoldSmile = G m.smile ∧ ∀ v, old.find root = some v → m.smile ≠ v.parentSmile)
    (n : Nat) (hn : n < mMorphs.length) (st : AcceptMorphs)
    (hinv : AcceptMorphs.treeScanIx G root old st) :
    ∃ st', AcceptMorphs.finalBody gated mMorphs mSurvivors st n = some st' ∧
      AcceptMorphs.treeScanIx G root old st' := by
  obtain ⟨hI, hW, hkeep⟩ := hinv
  unfold AcceptMorphs.finalBody
  cases hsv : mSurvivors.getD n false with
  | false => exact ⟨st, by simp, hI, hW, hkeep⟩
  | true =>
    simp only [if_true]
    split
    · have hm : mMorphs[n]? = some mMorphs[n] := List.getElem?_eq_getElem hn
      generalize mMorphs[n] = morph at hm
      obtain ⟨hpar, hd, hsc, hrp⟩ := hF n morph hm hsv
      obtain ⟨p₀, hp₀⟩ := (ConcMap.contains_iff _ _).mp hpar
      obtain ⟨parent, hparent, _⟩ := hkeep _ p₀ hp₀
      simp only [hm]
      cases hc : st.mCtx.candidateScaffoldMolecules.contains morph.scaffoldSmile with
      | true =>
        have hins : AcceptMorphs.insertMorph st.mCtx morph = none := by
          unfold AcceptMorphs.insertMorph
          simp [hI.1, hc]
        rw [hins]
        exact ⟨st, rfl, hI, hW, hkeep⟩
      | false =>
        have hfresh : st.mCtx.candidates.find morph.smile = none :=
          (ConcMap.contains_eq_false_iff _ _).mp (hI.2.fresh_key morph hsc hc)
        have hne : morph.parentSmile ≠ morph.smile := by
          intro e
          rw [e, hfresh] at hparent
          cases hparent
        have hins : AcceptMorphs.insertMorph st.mCtx morph =
            some { st.mCtx with
              candidateScaffoldMolecules :=
                st.mCtx.candidateScaffoldMolecules.assign morph.scaffoldSmile morph.smile
              candidates := st.mCtx.candidates.assign morph.smile morph } := by
          unfold AcceptMorphs.insertMorph
          simp [hI.1, hc]
        have hlink : ({ st.mCtx with
            candidateScaffoldMolecules :=
              st.mCtx.candidateScaffoldMolecules.assign morph.scaffoldSmile morph.smile
            candidates := st.mCtx.candidates.assign morph.smile morph } :
              PathFinderContext).candidates.find morph.parentSmile = some parent := by
          simp only
          rw [ConcMap.find_assign_ne _ _ (Ne.symm hne)]
          exact hparent
        simp only [hins]
        unfold AcceptMorphs.linkParent
        simp only [hlink]
        refine ⟨_, rfl, ?_, ?_, ?_⟩
        · have h₁ : PathFinderContext.Indexed G { st.mCtx with
              candidateScaffoldMolecules :=
                st.mCtx.candidateScaffoldMolecules.assign morph.scaffoldSmile morph.smile
              candidates := st.mCtx.candidates.assign morph.smile morph } :=
            ⟨hI.1, hI.2.insert_step morph hsc hc⟩
          exact h₁.assign_step morph.parentSmile parent _ hlink rfl
        · simp only
          refine AcceptMorphs.insert_wellFormed root st.mCtx.candidates morph parent hW hparent
            hfresh hd (fun v hv => ?_)
          obtain ⟨v₀, hv₀⟩ := (ConcMap.contains_iff _ _).mp hroot
          obtain ⟨v', hv', hpv'⟩ := hkeep root v₀ hv₀
          rw [hv] at hv'
          cases hv'
          rw [hpv']
          exact hrp v₀ hv₀
        · intro k v hv
          obtain ⟨v', hv', hpv'⟩ := hkeep k v hv
          simp only
          rw [ConcMap.find_assign, ConcMap.find_assign]
          by_cases h1 : morph.parentSmile = k
          · rw [if_pos h1]
            rw [← h1, hparent] at hv'
            cases hv'
            exact ⟨_, rfl, hpv'⟩
          · rw [if_neg h1]
            have h2 : morph.smile ≠ k := by
              intro e
              rw [← e, hfresh] at hv'
              cases hv'
            rw [if_neg h2]
            exact ⟨v', hv', hpv'⟩
    · exact ⟨_, rfl, hI, hW, hkeep⟩

/-- In scaffold mode the path-mode AcceptScan completes on a tree hanging from
`root` whose index is in step, for childless survivors with parents in the tree
that carry the scaffold of their fingerprint, and leaves such a tree. -/
theorem PathFinder.acceptMorphs_tree_ix (G : String → String) (root : String)
    (morphs : List MolpherMolecule)
    (survivors : List Bool) (ctx : PathFinderContext) (hI : ctx.Indexed G)
    (hW : WellFormed [root] ctx.candidates)
    (hF : ∀ (i : Nat) m, morphs[i]? = some m → survivors.getD i false = true →
      ctx.candidates.contains m.parentSmile = true ∧ m.descendants = [] ∧
      m.scaffoldSmile = G m.smile ∧
      ∀ v, ctx.candidates.find root = some v → m.smile ≠ v.parentSmile) :
    ∃ acc, PathFinder.acceptMorphs morphs survivors ctx = some acc ∧
      acc.1.Indexed G ∧ WellFormed [root] acc.1.candidates := by
  have hroot : ctx.candidates.contains root = true := hW.2.2.1 root (List.mem_singleton.mpr rfl)
  have hscan : ∀ n, n ≤ morphs.length →
      ∃ st, forRange 0 n (AcceptMorphs.finalBody true morphs survivors)
          { mCtx := ctx, mModifiedParents := [], mSurvivorCount := 0 } = some st ∧
        AcceptMorphs.treeScanIx G root ctx.candidates st := by
    intro n
    induction n with
    | zero =>
      intro _
      exact ⟨_, forRange_empty _ 0 0 (le_refl _) _, hI, hW, fun k v hv => ⟨v, hv, rfl⟩⟩
    | succ n ih =>
      intro hn
      obtain ⟨st, hst, hinv⟩ := ih (by omega)
      obtain ⟨st', hst', hinv'⟩ :=
        AcceptMorphs.treeScanIx_step G true root ctx.candidates morphs survivors hroot hF n
          (by omega) st hinv
      refine ⟨st', ?_, hinv'⟩
      rw [forRange_succ _ 0 n (Nat.zero_le _), hst]
      exact hst'
  obtain ⟨st, hst, hinv⟩ := hscan morphs.length (le_refl _)
  refine ⟨(st.mCtx, st.mModifiedParents), ?_, hinv.1, hinv.2.1⟩
  unfold PathFinder.acceptMorphs PathFinder.AcceptMorphs
  rw [hst]
  rfl

theorem List.mem_of_getElem?_eq {α : Type} (l : List α) (i : Nat) (a : α)
    (h : l[i]? = some a) : a ∈ l := by
  obtain ⟨hlt, he⟩ := List.getElem?_eq_some.mp h
  exact he ▸ List.getElem_mem hlt

/-- The survivors of the non-scaffold Filter among fresh morphs are fresh
leaves. -/
theorem FreshMorphs.freshLeaves {root : String} {ctx : PathFinderContext}
    {morphs : List MolpherMolecule} (hM : FreshMorphs root ctx.candidates morphs)
    (hmode : ctx.ScaffoldMode = false) (survivors : List Bool)
    (hpass : ∀ (i : Nat) m, morphs[i]? = some m → survivors.getD i false = true →
      FilterMorphs.survives ctx m = some true) :
    AcceptMorphs.FreshLeaves root ctx.candidates morphs survivors := by
  obtain ⟨hd, hnd, hr⟩ := hM
  refine ⟨fun i m hm hs => ?_, fun i j m m' hij hm hm' _ _ e => ?_⟩
  · obtain ⟨hp, hn⟩ := FilterMorphs.survives_true ctx m (hpass i m hm hs)
    have hmem := List.mem_of_getElem?_eq _ _ _ hm
    exact ⟨hp, (ConcMap.contains_eq_false_iff _ _).mp (hn hmode), hd m hmem, hr m hmem⟩
  · obtain ⟨hi, ei⟩ := List.getElem?_eq_some.mp hm
    obtain ⟨hj, ej⟩ := List.getElem?_eq_some.mp hm'
    have h1 : (morphs.map (fun m => m.smile))[i]? = some m.smile := by
      rw [List.getElem?_map, hm]; rfl
    have h2 : (morphs.map (fun m => m.smile))[j]? = some m'.smile := by
      rw [List.getElem?_map, hm']; rfl
    rw [e, ← h2] at h1
    have := (List.nodup_iff_getElem?_ne_getElem?.mp hnd) i j hij (by simpa using hj)
    exact this h1

/-- C40: no dangling child links. Let the candidates be a tree hanging from the
root of the pruning queue (duplicate-free `descendants`, every listed
fingerprint a candidate naming its lister as parent, the root with no candidate
as parent), let the morphs be as generation and the collector deliver them
(`FreshMorphs`; in scaffold mode with the scaffolds of the scaffold function `G`
of the run, `ScaffoldsFrom`), and let the survivors be those of the Filter
stage. Then every listed fingerprint is a key of `candidates` before AcceptScan;
AcceptScan completes and leaves such a tree; UpdateTree keeps it, and its child
lookups succeed in every context that differs from the result of AcceptScan in
counters only; Prune, given fuel for one visit per candidate and a root that is
not both stale and over budget, completes and leaves such a tree; and after each
stage every listed fingerprint is a key. -/
theorem C40_tree_links (G : String → String) (morphs : List MolpherMolecule)
    (rand : Nat → Nat) (survivors : List Bool) (ctx : PathFinderContext)
    (hW : WellFormed [PathFinder.pruningRoot ctx] ctx.candidates)
    (hM : FreshMorphs (PathFinder.pruningRoot ctx) ctx.candidates morphs)
    (hG : ScaffoldsFrom G ctx morphs)
    (hfilter : PathFinder.filterStage ctx morphs rand = some survivors) :
    ChildrenPresent ctx.candidates ∧
    ∃ acc, PathFinder.acceptMorphs morphs survivors ctx = some acc ∧
      WellFormed [PathFinder.pruningRoot ctx] acc.1.candidates ∧
      ChildrenPresent acc.1.candidates ∧
      (∀ c, CountersOnly acc.1 c → ∀ p parent dist, c.candidates.find p = some parent →
        (UpdateTree.minDistance dist c parent).isSome = true) ∧
      ∀ fuel c₂, PathFinder.UpdateTree fuel acc.2 acc.1 = some c₂ →
        WellFormed [PathFinder.pruningRoot ctx] c₂.candidates ∧
        ChildrenPresent c₂.candidates ∧
        ∀ deferredMols, c₂.candidates.length ≤ fuel →
          (∀ v, c₂.candidates.find (PathFinder.pruningRoot c₂) = some v →
            ¬ (v.itersWithoutDistImprovement > c₂.params.itThreshold ∧
              PruneTree.tooManyDerivations c₂ (PathFinder.pruningRoot c₂) = true)) →
          ∃ c₃, PathFinder.pruneStage fuel deferredMols c₂ = some c₃ ∧
            WellFormed [PathFinder.pruningRoot ctx] c₃.candidates ∧
            ChildrenPresent c₃.candidates := by
  have hpass := PathFinder.filterStage_true ctx morphs rand survivors hfilter
  refine ⟨hW.childrenPresent, ?_⟩
  have hacc : ∃ acc, PathFinder.acceptMorphs morphs survivors ctx = some acc ∧
      WellFormed [PathFinder.pruningRoot ctx] acc.1.candidates ∧
      (ctx.ScaffoldMode = false → acc.1.ScaffoldMode = false) ∧
      (ctx.ScaffoldMode = true → acc.1.Indexed G) := by
    cases hmode : ctx.ScaffoldMode with
    | false =>
      obtain ⟨acc, h1, h2, h3⟩ := PathFinder.acceptMorphs_tree _ morphs survivors ctx hmode hW
        (hM.freshLeaves hmode survivors hpass)
      exact ⟨acc, h1, h3, fun _ => h2, fun h => absurd h (by decide)⟩
    | true =>
      obtain ⟨hI, hsc⟩ := hG hmode
      obtain ⟨acc, h1, h2, h3⟩ := PathFinder.acceptMorphs_tree_ix G _ morphs survivors ctx
        ⟨hmode, hI⟩ hW (fun i m hm hs => by
          have hmem := List.mem_of_getElem?_eq _ _ _ hm
          exact ⟨(FilterMorphs.survives_true ctx m (hpass i m hm hs)).1, hM.1 m hmem,
            hsc m hmem, hM.2.2 m hmem⟩)
      exact ⟨acc, h1, h3, fun h => absurd h (by decide), fun _ => h2⟩
  obtain ⟨acc, hacc, hW₁, hm₁, hI₁⟩ := hacc
  have henv := (PathFinder.acceptMorphs_env morphs survivors ctx acc hacc).1
  refine ⟨acc, hacc, hW₁, hW₁.childrenPresent, fun c hc p parent dist hp => ?_, ?_⟩
  · exact (UpdateTree.minDistance_spec dist c parent).1
      (fun child hch => (hc.co_wellFormed _ hW₁).childrenPresent p parent hp child hch)
  · intro fuel c₂ hc₂
    have hco := PathFinder.UpdateTree.counters fuel acc.2 acc.1 c₂ hc₂
    have hW₂ := hco.co_wellFormed _ hW₁
    refine ⟨hW₂, hW₂.childrenPresent, fun deferredMols hfuel hroot => ?_⟩
    have hroot₂ : PathFinder.pruningRoot c₂ = PathFinder.pruningRoot ctx :=
      (henv.env_trans hco.co_sameEnv).pruningRoot_eq
    cases hmode : ctx.ScaffoldMode with
    | false =>
      have hm₂ : c₂.ScaffoldMode = false := hco.mode.trans (hm₁ hmode)
      have hr : PathFinder.pruningRoot c₂ = c₂.source.smile := by
        unfold PathFinder.pruningRoot
        simp [hm₂]
      obtain ⟨c₃, hc₃, hW₃⟩ :=
        PathFinder.pruneStage_tree fuel deferredMols c₂ hm₂ (hroot₂ ▸ hW₂) hfuel (hr ▸ hroot)
      exact ⟨c₃, hc₃, hroot₂ ▸ hW₃, (hroot₂ ▸ hW₃ : WellFormed _ _).childrenPresent⟩
    | true =>
      have hI₂ : c₂.Indexed G := hco.co_indexed (hI₁ hmode)
      have hr : PathFinder.pruningRoot c₂ = c₂.tempSource.smile := by
        unfold PathFinder.pruningRoot
        simp [hI₂.1]
      obtain ⟨c₃, hc₃, _, _, hW₃⟩ :=
        PathFinder.pruneStage_total_ix G fuel deferredMols c₂ hI₂ (hroot₂ ▸ hW₂) hfuel
          (hr ▸ hroot)
      exact ⟨c₃, hc₃, hroot₂ ▸ hW₃, (hroot₂ ▸ hW₃ : WellFormed _ _).childrenPresent⟩

/-- Witness for C40, outside scaffold mode and in it: in `filterCtx`, a tree
hanging from `"S"`, the new childless morph `"C"` of `"S"` passes the Filter and
is accepted; in the scaffold-mode `scaffCtx`, a tree hanging from `"R"` whose
index holds the scaffold `"s" ++ k` of every key `k`, the morph `"X"` of `"A"`
with the scaffold `"sX"` passes the Filter and is accepted. Each result is a
tree in which every listed fingerprint is a key. -/
theorem C40_tree_links_witness :
    (∃ acc, PathFinder.acceptMorphs [{ blankMol with smile := "C", parentSmile := "S" }] [true]
        filterCtx = some acc ∧
      WellFormed [PathFinder.pruningRoot filterCtx] acc.1.candidates ∧
      ChildrenPresent acc.1.candidates) ∧
    (∃ acc, PathFinder.acceptMorphs
        [{ blankMol with smile := "X", parentSmile := "A", scaffoldSmile := "sX" }] [true]
        scaffCtx = some acc ∧
      WellFormed [PathFinder.pruningRoot scaffCtx] acc.1.candidates ∧
      ChildrenPresent acc.1.candidates) := by
  obtain ⟨_, acc, h₁, h₂, h₃, _⟩ :=
    C40_tree_links (fun s => s) [{ blankMol with smile := "C", parentSmile := "S" }]
      (fun _ => 0) [true] filterCtx (wellFormedCheck_sound _ _ (by decide))
      ⟨fun m hm => by
          simp only [List.mem_singleton] at hm
          subst hm
          rfl,
        by decide,
        fun m hm v hv => by
          simp only [List.mem_singleton] at hm
          subst hm
          have : v.parentSmile = "" := by
            cases hv
            rfl
          rw [this]
          decide⟩
      (fun h => absurd h (by decide)) (by decide!)
  obtain ⟨_, accs, g₁, g₂, g₃, _⟩ :=
    C40_tree_links (fun s => "s" ++ s)
      [{ blankMol with smile := "X", parentSmile := "A", scaffoldSmile := "sX" }]
      (fun _ => 0) [true] scaffCtx (wellFormedCheck_sound _ _ (by decide))
      ⟨fun m hm => by
          simp only [List.mem_singleton] at hm
          subst hm
          rfl,
        by decide,
        fun m hm v hv => by
          simp only [List.mem_singleton] at hm
          subst hm
          have : v.parentSmile = "" := by
            cases hv
            rfl
          rw [this]
          decide⟩
      (fun _ => ⟨scaffoldIndexedCheck_sound _ _ _ (by decide), fun m hm => by
        simp only [List.mem_singleton] at hm
        subst hm
        decide⟩) (by decide!)
  exact ⟨⟨acc, h₁, h₂, h₃⟩, accs, g₁, g₂, g₃⟩

/-- C18: in scaffold mode the sizes of `candidates` and of the scaffold index
stay equal over AcceptScan, UpdateTree and Prune. The index tracks the
candidates by the scaffold function `G` of the run and the morphs carry the
scaffold of their fingerprint (`ScaffoldsFrom`, which gives the size equality
before the stages); the survivors are those of the Filter stage. Then AcceptScan
completes with equal sizes; whenever UpdateTree returns the sizes are equal;
whenever the Prune worklist returns the sizes are equal, so the size assertion
that follows it holds and the Prune stage returns; on a well-formed tree with
fuel for one visit per candidate and a root that is not both stale and over
budget the Prune stage does return; and the sizes are equal in every result of
the three stages run in turn. -/
theorem C18_scaffold_sizes (G : String → String) (fuel : Nat) (ctx : PathFinderContext)
    (morphs : List MolpherMolecule) (rand : Nat → Nat) (survivors : List Bool)
    (deferredMols : List MolpherMolecule)
    (hmode : ctx.ScaffoldMode = true)
    (hG : ScaffoldsFrom G ctx morphs)
    (hfilter : PathFinder.filterStage ctx morphs rand = some survivors) :
    ctx.candidates.length = ctx.candidateScaffoldMolecules.length ∧
    (∃ r, PathFinder.acceptMorphs morphs survivors ctx = some r ∧
      r.1.candidates.length = r.1.candidateScaffoldMolecules.length ∧
      ∀ ctx₂, PathFinder.UpdateTree fuel r.2 r.1 = some ctx₂ →
        ctx₂.candidates.length = ctx₂.candidateScaffoldMolecules.length ∧
        (∀ ctx₃, PathFinder.PruneTree (PathFinder.deferredSmiles ctx₂ deferredMols) fuel
            [PathFinder.pruningRoot ctx₂] ctx₂ = some ctx₃ →
          ctx₃.candidates.length = ctx₃.candidateScaffoldMolecules.length ∧
          PathFinder.pruneStage fuel deferredMols ctx₂ = some ctx₃) ∧
        (WellFormed [PathFinder.pruningRoot ctx₂] ctx₂.candidates →
          ctx₂.candidates.length ≤ fuel →
          (∀ v, ctx₂.candidates.find ctx₂.tempSource.smile = some v →
            ¬ (v.itersWithoutDistImprovement > ctx₂.params.itThreshold ∧
              PruneTree.tooManyDerivations ctx₂ ctx₂.tempSource.smile = true)) →
          ∃ ctx₃, PathFinder.pruneStage fuel deferredMols ctx₂ = some ctx₃ ∧
            ctx₃.candidates.length = ctx₃.candidateScaffoldMolecules.length)) ∧
    (∀ ctx', PathFinder.acceptUpdatePrune fuel morphs survivors deferredMols ctx = some ctx' →
      ctx'.candidates.length = ctx'.candidateScaffoldMolecules.length) := by
  obtain ⟨hI₀, hsc⟩ := hG hmode
  have hI : ctx.Indexed G := ⟨hmode, hI₀⟩
  have hpar : ∀ (i : Nat) m, morphs[i]? = some m → survivors.getD i false = true →
      ctx.candidates.contains m.parentSmile = true := fun i m hm hs =>
    (FilterMorphs.survives_true ctx m
      (PathFinder.filterStage_true ctx morphs rand survivors hfilter i m hm hs)).1
  obtain ⟨st, hst, _⟩ := AcceptMorphs.scan_total true morphs survivors ctx hpar
  have hr : PathFinder.acceptMorphs morphs survivors ctx = some (st.mCtx, st.mModifiedParents) := by
    unfold PathFinder.acceptMorphs PathFinder.AcceptMorphs
    rw [hst]
    rfl
  have hI₁ := PathFinder.acceptMorphs_indexed G morphs survivors ctx _ hI hsc hr
  have hupd : ∀ ctx₂, PathFinder.UpdateTree fuel st.mModifiedParents st.mCtx = some ctx₂ →
      ctx₂.Indexed G := fun ctx₂ hu =>
    (PathFinder.UpdateTree.counters _ _ _ _ hu).co_indexed hI₁
  refine ⟨hI₀.sizes, ⟨_, hr, hI₁.2.sizes, ?_⟩, ?_⟩
  · intro ctx₂ hu
    refine ⟨(hupd ctx₂ hu).2.sizes, ?_, ?_⟩
    · intro ctx₃ hp
      obtain ⟨h1, _, h3⟩ := PathFinder.pruneStage_indexed G fuel deferredMols ctx₂ ctx₃
        (hupd ctx₂ hu) hp
      exact ⟨h3, h1⟩
    · intro hW hfuel hroot
      obtain ⟨ctx₃, h1, _, h3, _⟩ := PathFinder.pruneStage_total_ix G fuel deferredMols ctx₂
        (hupd ctx₂ hu) hW hfuel hroot
      exact ⟨ctx₃, h1, h3⟩
  · intro ctx' hrun
    unfold PathFinder.acceptUpdatePrune at hrun
    rw [hr] at hrun
    simp only [Option.bind] at hrun
    cases hu : PathFinder.UpdateTree fuel st.mModifiedParents st.mCtx with
    | none => rw [hu] at hrun; cases hrun
    | some ctx₂ =>
      rw [hu] at hrun
      simp only [] at hrun
      split at hrun
      · simp only [Option.some.injEq] at hrun
        rw [← hrun]
        exact (hupd ctx₂ hu).2.sizes
      · exact (PathFinder.pruneStage_indexed G fuel deferredMols ctx₂ ctx'
          (hupd ctx₂ hu) (PathFinder.pruneStage_eq _ _ _ _ hrun)).2.2

/-- Witness for C18: in `scaffCtx`, whose index holds the scaffold `"s" ++ k` of
every key `k`, the morph `"X"` of `"A"` with the new scaffold `"sX"` passes the
Filter and is accepted, Prune runs, and both sizes are 5. -/
theorem C18_scaffold_sizes_witness :
    PathFinder.filterStage scaffCtx
      [{ blankMol with smile := "X", parentSmile := "A", scaffoldSmile := "sX" }]
      (fun _ => 0) = some [true] ∧
    ∃ ctx', PathFinder.acceptUpdatePrune 10
        [{ blankMol with smile := "X", parentSmile := "A", scaffoldSmile := "sX" }] [true] []
        scaffCtx = some ctx' ∧
      ctx'.prunedDuringThisIter = [] ∧
      ctx'.candidateScaffoldMolecules.length = 5 ∧
      ctx'.candidates.length = ctx'.candidateScaffoldMolecules.length := by
  have hf : PathFinder.filterStage scaffCtx
      [{ blankMol with smile := "X", parentSmile := "A", scaffoldSmile := "sX" }]
      (fun _ => 0) = some [true] := by decide!
  have hs : (PathFinder.acceptUpdatePrune 10
      [{ blankMol with smile := "X", parentSmile := "A", scaffoldSmile := "sX" }] [true] []
      scaffCtx).map (fun c => (c.prunedDuringThisIter, c.candidateScaffoldMolecules.length))
        = some ([], 5) := by decide!
  rw [Option.map_eq_some'] at hs
  obtain ⟨ctx', hc, hlen⟩ := hs
  simp only [Prod.mk.injEq] at hlen
  refine ⟨hf, ctx', hc, hlen.1, hlen.2, ?_⟩
  exact (C18_scaffold_sizes (fun s => "s" ++ s) 10 scaffCtx
    [{ blankMol with smile := "X", parentSmile := "A", scaffoldSmile := "sX" }] (fun _ => 0)
    [true] [] (by decide)
    (fun _ => ⟨scaffoldIndexedCheck_sound _ _ _ (by decide), fun m hm => by
      simp only [List.mem_singleton] at hm
      subst hm
      decide⟩) hf).2.2 ctx' hc

/-- The scaffold-mode seeding of a fresh job leaves the index in step with
`candidates`, for the scaffold function the seeding applies, when the seeded
root `tempSource` has the scaffold of the source. -/
theorem PathFinder.seed_indexed (G : String → String) (ctx c : PathFinderContext)
    (hempty : ctx.candidates = []) (hmode : ctx.ScaffoldMode = true)
    (hts : G ctx.tempSource.smile = G ctx.source.smile)
    (h : PathFinder.seed G ctx = some c) : c.Indexed G := by
  unfold PathFinder.seed at h
  rw [hempty] at h
  simp only [List.isEmpty_nil, if_true, hmode, Bool.not_true, Bool.false_eq_true,
    if_false] at h
  split at h
  · cases h
  · rename_i hok
    have hidx : ctx.candidateScaffoldMolecules = [] := by
      have := (not_or.mp hok).2
      cases hi : ctx.candidateScaffoldMolecules with
      | nil => rfl
      | cons a l => rw [hi] at this; simp at this
    split at h
    · cases h
    · simp only [Option.some.injEq] at h
      subst h
      refine ⟨hmode, ?_⟩
      simp only [hidx, ConcMap.assign]
      refine scaffoldIndexedCheck_sound _ _ _ ?_
      simp [scaffoldIndexedCheck, ConcMap.contains, ConcMap.find, ConcMap.keys, hts]

end Molpher
